import Mathlib

/-!
# Maze-Path-Finder: a shallow embedding of `Main.cpp`

The grid, the cell handles, the edit operations, the five searches and the
path reconstruction of `Main.cpp` are transcribed as Lean functions on an
explicit game state.

Conventions of the embedding.

* `Node** board` is a map from coordinates to cells.  Only the cells with
  `0 ≤ row, col < size` exist in the program; no function below reads or
  writes any other cell.
* A `NodeHandle` wraps a `Node*`.  Every handle the program dereferences
  points at a board cell and is represented by the coordinates of that cell;
  handle equality (`operator==`, pointer equality) is equality of
  coordinates.  The null handle occurs only as the argument of `setParent`
  and as the value of `Node::parent`, hence `Option Position`.
* The `float` costs are modelled twice.  In this first part they are
  idealised as exact reals: every cost the program computes is a sum of steps
  `1` and `sqrt 2`, and is stored as the pair (number of straight units, number
  of `sqrt 2` units); comparisons are decided exactly on these pairs, and the
  `int` counters are unbounded.  This part carries the edit operations, the
  formula of the chessboard distance and the runs evaluated on example boards.
  The part `Binary32` repeats the cells, the statistics and the searches with
  the arithmetic the program performs, IEEE 754 binary32 with rounding to
  nearest and 32-bit `int` counters; what is proved of every run of a search is
  proved there.
* `std::queue` is a list, `std::unordered_set` is a duplicate-free list
  (the hash only selects a bucket; membership is decided by `operator==`), and
  `std::priority_queue` is the binary heap over a vector built by
  `std::push_heap` / `std::pop_heap`, with the comparator reading the costs
  stored in the board at the time of each comparison.
* Loops that the program runs without a bound (`while`, recursion) take a
  fuel argument and return `none` when the fuel is used up.
* Screen output, delays and keyboard input are left out.
-/

namespace MazePathFinder

/-! ## Data model -/


/-- The struct `Position` (two `int` fields). -/
structure Position where
  row : Int
  col : Int
deriving DecidableEq, Repr

/-- The value `Position::operator-` computes: `second_pos - this`, fieldwise. -/
def Position.sub (p second_pos : Position) : Position :=
  { row := second_pos.row - p.row, col := second_pos.col - p.col }

/-- A cost `straight + diag * sqrt 2`, the exact value of a `float` the program
computes from steps of length `1` and `sqrt 2`. -/
structure Cost where
  straight : Nat
  diag : Nat
deriving DecidableEq, Repr

namespace Cost


/-- Sum of two costs. -/
def add (a b : Cost) : Cost :=
  { straight := a.straight + b.straight, diag := a.diag + b.diag }

/-- The test `a < b` on the real values, decided on the integer parts. -/
def lt (a b : Cost) : Bool :=
  if a.straight ≤ b.straight then
    if a.diag ≤ b.diag then
      decide (a.straight < b.straight ∨ a.diag < b.diag)
    else
      decide (2 * (a.diag - b.diag) ^ 2 < (b.straight - a.straight) ^ 2)
  else
    if b.diag ≤ a.diag then false
    else decide ((a.straight - b.straight) ^ 2 < 2 * (b.diag - a.diag) ^ 2)

/-- The test `a > b`. -/
def gt (a b : Cost) : Bool := lt b a

/-- The test `a == b` on the real values. -/
def eq (a b : Cost) : Bool := !(lt a b) && !(lt b a)

/-- The real number a cost stands for. -/
noncomputable def toReal (c : Cost) : ℝ := (c.straight : ℝ) + (c.diag : ℝ) * Real.sqrt 2

/-- The cost `0`. -/
def zero : Cost := { straight := 0, diag := 0 }

/-- The constant `100000` that `Node::Node` and `clearBuffer` store as the
g-cost of a cell not reached yet. -/
def sentinel : Cost := { straight := 100000, diag := 0 }

end Cost


/-- The class `Node`. -/
structure Node where
  is_walkable : Bool
  visited : Bool
  explored : Bool
  parent : Option Position
  pos : Position
  gCost : Cost
  hCost : Cost

/-- The method `Node::isWalkable`. -/
def Node.isWalkable (n : Node) : Bool := n.is_walkable

/-- The enum `Game::CurserMode`. -/
inductive CurserMode where
  | SELECT
  | INSERT_WALL
  | REMOVE_WALL
deriving DecidableEq, Repr

/-- The class `Result`. -/
structure Result where
  algorithm : String
  search_cost : Int
  path_cost : Int
  status : String
deriving DecidableEq, Repr

/-- The class `Game`: the board, its side, the three handles, the cursor mode
and the statistics of the current run.  The static pointers
`NodeHandle::start` and `NodeHandle::end` point at the fields `start` and
`end` of the game, so they are read from the game state. -/
structure Game where
  board : Position → Node
  size : Int
  curser : Position
  start : Position
  end_ : Position
  curserMode : CurserMode
  result : Result

/-! ## Constants -/


def BUFFER_BIT_EXPLORED : Nat := 1 <<< 0

def BUFFER_BIT_VISITED : Nat := 1 <<< 1

def BUFFER_BIT_COST : Nat := 1 <<< 2

def BUFFER_BIT_PARENT : Nat := 1 <<< 3

def BUFFER_ALL_BIT : Nat :=
  BUFFER_BIT_EXPLORED ||| BUFFER_BIT_VISITED ||| BUFFER_BIT_COST ||| BUFFER_BIT_PARENT

/-- The string `Result::setSuccess` stores. -/
def statusSuccess : String := "Path Found Successfully"

/-- The string `Result::setFailure` stores. -/
def statusFailure : String := "Path Not Found!"

/-! ## `Node` and `NodeHandle` -/


/-- The constructor `Node::Node` followed by the `setPosition` of `Game::Game`. -/
def Node.new (pos : Position) : Node :=
  { is_walkable := true, visited := false, explored := false, parent := none,
    pos := pos, gCost := Cost.sentinel, hCost := Cost.sentinel }

/-- Store a cell at the given coordinates of the board. -/
def Game.setNode (g : Game) (h : Position) (n : Node) : Game :=
  { g with board := fun q => if q = h then n else g.board q }

namespace NodeHandle


def getGCost (g : Game) (h : Position) : Cost := (g.board h).gCost

def getParent (g : Game) (h : Position) : Option Position := (g.board h).parent

def getPosition (g : Game) (h : Position) : Position := (g.board h).pos

def isExplored (g : Game) (h : Position) : Bool := (g.board h).explored

def isWalkable (g : Game) (h : Position) : Bool := (g.board h).is_walkable

def markAsExplored (g : Game) (h : Position) (val : Bool) : Game :=
  g.setNode h { g.board h with explored := val }

def markAsVisited (g : Game) (h : Position) (val : Bool) : Game :=
  g.setNode h { g.board h with visited := val }

def setGCost (g : Game) (h : Position) (cost : Cost) : Game :=
  g.setNode h { g.board h with gCost := cost }

def setHCost (g : Game) (h : Position) (cost : Cost) : Game :=
  g.setNode h { g.board h with hCost := cost }

def setParent (g : Game) (h : Position) (new_parent : Option Position) : Game :=
  g.setNode h { g.board h with parent := new_parent }

/-- `NodeHandle::insertWall`: guarded by the static `start` and `end` handles. -/
def insertWall (g : Game) (h : Position) : Game :=
  if g.start ≠ h ∧ g.end_ ≠ h then
    g.setNode h { g.board h with is_walkable := false }
  else g

def removeWall (g : Game) (h : Position) : Game :=
  g.setNode h { g.board h with is_walkable := true }

def toggle (g : Game) (h : Position) : Game :=
  g.setNode h { g.board h with is_walkable := !(g.board h).is_walkable }

end NodeHandle

/-! ## `Result` -/

namespace Result


def new : Result :=
  { algorithm := "None", search_cost := 0, path_cost := 0, status := "None" }

def reset (_r : Result) : Result :=
  { algorithm := "None", search_cost := 0, path_cost := 0, status := "None" }

def incSearchCost (r : Result) : Result := { r with search_cost := r.search_cost + 1 }

def incPathCost (r : Result) : Result := { r with path_cost := r.path_cost + 1 }

def setSuccess (r : Result) : Result :=
  { r with search_cost := r.search_cost - 1, path_cost := r.path_cost + 1,
           status := statusSuccess }

def setFailure (r : Result) : Result := { r with status := statusFailure }

def setAlgorithm (r : Result) (algo : String) : Result := { r with algorithm := algo }

end Result

/-! ## Containers -/


instance : Inhabited Position := ⟨{ row := -1, col := -1 }⟩

/-- The call `unordered_set::insert`. -/
def setInsert (s : List Position) (x : Position) : List Position :=
  if x ∈ s then s else x :: s

/-- The call `unordered_set::erase`. -/
def setErase (s : List Position) (x : Position) : List Position :=
  s.filter (fun y => decide (y ≠ x))

/-- The loop of `std::__push_heap`: while the hole is below `topIndex` and the
parent of the hole compares less than `value`, the parent moves into the hole.
The hole index at least halves in each round. -/
def pushHeapLoop (comp : Position → Position → Bool) (value : Position) (topIndex : Nat) :
    Nat → List Position → Nat → List Position
  | 0, a, holeIndex => a.set holeIndex value
  | fuel + 1, a, holeIndex =>
    let parent := (holeIndex - 1) / 2
    if holeIndex > topIndex ∧ comp (a.getD parent value) value = true then
      pushHeapLoop comp value topIndex fuel (a.set holeIndex (a.getD parent value)) parent
    else a.set holeIndex value

/-- The function `std::__push_heap`. -/
def pushHeap (comp : Position → Position → Bool) (a : List Position)
    (holeIndex topIndex : Nat) (value : Position) : List Position :=
  pushHeapLoop comp value topIndex (holeIndex + 1) a holeIndex

/-- The call `priority_queue::push`: `push_back`, then `std::push_heap` on the
whole vector. -/
def heapPush (comp : Position → Position → Bool) (a : List Position) (x : Position) :
    List Position :=
  let c := a ++ [x]
  pushHeap comp c (c.length - 1) 0 (c.getD (c.length - 1) x)

/-- The first loop of `std::__adjust_heap`: the hole moves down to the child
that does not compare less than its sibling.  Returns the vector, the hole and
`secondChild`. -/
def adjustHeapLoop (comp : Position → Position → Bool) (len : Nat) :
    Nat → List Position → Nat → Nat → List Position × Nat × Nat
  | 0, a, holeIndex, secondChild => (a, holeIndex, secondChild)
  | fuel + 1, a, holeIndex, secondChild =>
    if secondChild < (len - 1) / 2 then
      let secondChild := 2 * (secondChild + 1)
      let secondChild :=
        if comp (a.getD secondChild default) (a.getD (secondChild - 1) default) = true
        then secondChild - 1 else secondChild
      adjustHeapLoop comp len fuel (a.set holeIndex (a.getD secondChild default))
        secondChild secondChild
    else (a, holeIndex, secondChild)

/-- The function `std::__adjust_heap`. -/
def adjustHeap (comp : Position → Position → Bool) (a : List Position)
    (holeIndex len : Nat) (value : Position) : List Position :=
  let topIndex := holeIndex
  match adjustHeapLoop comp len len a holeIndex holeIndex with
  | (a, holeIndex, secondChild) =>
    if len % 2 = 0 ∧ secondChild = (len - 2) / 2 then
      let secondChild := 2 * (secondChild + 1)
      pushHeap comp (a.set holeIndex (a.getD (secondChild - 1) default))
        (secondChild - 1) topIndex value
    else pushHeap comp a holeIndex topIndex value

/-- The call `priority_queue::pop`: `std::pop_heap` on the whole vector, then
`pop_back`. -/
def heapPop (comp : Position → Position → Bool) (a : List Position) : List Position :=
  if a.length > 1 then
    let last := a.length - 1
    let value := a.getD last default
    let a := a.set last (a.getD 0 default)
    (adjustHeap comp a 0 last value).dropLast
  else a.dropLast

/-! ## `Game` -/

namespace Game


/-- The constructor `Game::Game`.  The cursor mode is not initialised by the
constructor; `enterEditMode` sets it to `SELECT` before any edit. -/
def new (size : Int) : Game :=
  let g : Game :=
    { board := fun p => Node.new p
      size := size
      curser := { row := size / 2, col := size / 2 }
      start := { row := size / 5, col := size / 5 }
      end_ := { row := size / 3, col := size / 2 }
      curserMode := CurserMode.SELECT
      result := Result.new }
  NodeHandle.setGCost g g.start Cost.zero

def isOutOfBounds (g : Game) (curr : Position) : Bool :=
  if curr.row < 0 ∨ curr.col < 0 ∨ curr.row ≥ g.size ∨ curr.col ≥ g.size then true
  else false

def applyCurser (g : Game) : Game :=
  if g.curserMode = CurserMode.INSERT_WALL then NodeHandle.insertWall g g.curser
  else if g.curserMode = CurserMode.REMOVE_WALL then NodeHandle.removeWall g g.curser
  else g

def changeCurserMode (g : Game) (mode : CurserMode) : Game :=
  applyCurser { g with curserMode := mode }

/-- The body of the two loops of `clearBuffer` for one cell. -/
def clearCell (buffer_clear_bit : Nat) (g : Game) (curr : Position) : Game :=
  let g := if buffer_clear_bit &&& BUFFER_BIT_EXPLORED ≠ 0
    then NodeHandle.markAsExplored g curr false else g
  let g := if buffer_clear_bit &&& BUFFER_BIT_VISITED ≠ 0
    then NodeHandle.markAsVisited g curr false else g
  let g := if buffer_clear_bit &&& BUFFER_BIT_COST ≠ 0
    then NodeHandle.setGCost g curr Cost.sentinel else g
  if buffer_clear_bit &&& BUFFER_BIT_PARENT ≠ 0
    then NodeHandle.setParent g curr none else g

def clearBuffer (g : Game) (buffer_clear_bit : Nat) : Game :=
  let g := (List.range g.size.toNat).foldl
    (fun g i => (List.range g.size.toNat).foldl
      (fun g j => clearCell buffer_clear_bit g { row := Int.ofNat i, col := Int.ofNat j }) g) g
  NodeHandle.setGCost g g.start Cost.zero

/-- The function `getChessBoardDistance`:
`sqrt(2.0f)*min(dx, dy) + abs(dx-dy)`. -/
def getChessBoardDistance (g : Game) (src dst : Position) : Cost :=
  let distance := (NodeHandle.getPosition g src).sub (NodeHandle.getPosition g dst)
  let dx := distance.row.natAbs
  let dy := distance.col.natAbs
  { straight := ((dx : Int) - (dy : Int)).natAbs, diag := min dx dy }

/-- `NodeHandle::getHCost`: the distance to the static `end` handle. -/
def getHCost (g : Game) (h : Position) : Cost := getChessBoardDistance g h g.end_

/-- `NodeHandle::getFCost`. -/
def getFCost (g : Game) (h : Position) : Cost :=
  (NodeHandle.getGCost g h).add (getHCost g h)

def NodeHandleComparatorFCost (g : Game) (lhs rhs : Position) : Bool :=
  if (getFCost g lhs).gt (getFCost g rhs) then true
  else if (getFCost g lhs).eq (getFCost g rhs) && (getHCost g lhs).gt (getHCost g rhs) then true
  else false

def NodeHandleComparatorGCost (g : Game) (lhs rhs : Position) : Bool :=
  (NodeHandle.getGCost g lhs).gt (NodeHandle.getGCost g rhs)

def NodeHandleComparatorHCost (g : Game) (lhs rhs : Position) : Bool :=
  (getHCost g lhs).gt (getHCost g rhs)

def getNeighbours (g : Game) (curr : Position) : List Position :=
  ([-1, 0, 1] : List Int).flatMap fun dx =>
    ([-1, 0, 1] : List Int).filterMap fun dy =>
      if dx = 0 ∧ dy = 0 then none
      else
        let x := (NodeHandle.getPosition g curr).row + dx
        let y := (NodeHandle.getPosition g curr).col + dy
        if isOutOfBounds g { row := x, col := y } then none
        else if (g.board { row := x, col := y }).isWalkable then some { row := x, col := y }
        else none

def moveUp (g : Game) : Game :=
  let x := (NodeHandle.getPosition g g.curser).row - 1
  let y := (NodeHandle.getPosition g g.curser).col
  if isOutOfBounds g { row := x, col := y } then g
  else applyCurser { g with curser := { row := x, col := y } }

def moveDown (g : Game) : Game :=
  let x := (NodeHandle.getPosition g g.curser).row + 1
  let y := (NodeHandle.getPosition g g.curser).col
  if isOutOfBounds g { row := x, col := y } then g
  else applyCurser { g with curser := { row := x, col := y } }

def moveLeft (g : Game) : Game :=
  let x := (NodeHandle.getPosition g g.curser).row
  let y := (NodeHandle.getPosition g g.curser).col - 1
  if isOutOfBounds g { row := x, col := y } then g
  else applyCurser { g with curser := { row := x, col := y } }

def moveRight (g : Game) : Game :=
  let x := (NodeHandle.getPosition g g.curser).row
  let y := (NodeHandle.getPosition g g.curser).col + 1
  if isOutOfBounds g { row := x, col := y } then g
  else applyCurser { g with curser := { row := x, col := y } }

def putEnd (g : Game) : Game :=
  if NodeHandle.isWalkable g g.curser ∧ g.curser ≠ g.start then { g with end_ := g.curser }
  else g

def putStart (g : Game) : Game :=
  if NodeHandle.isWalkable g g.curser ∧ g.curser ≠ g.end_ then { g with start := g.curser }
  else g

def incSearchCost (g : Game) : Game := { g with result := g.result.incSearchCost }

def incPathCost (g : Game) : Game := { g with result := g.result.incPathCost }

def setSuccess (g : Game) : Game := { g with result := g.result.setSuccess }

def setFailure (g : Game) : Game := { g with result := g.result.setFailure }

/-- The `while` loop of `retracePath`: it runs while the current cell has a
parent and is not the start cell. -/
def retraceLoop : Nat → Game → Position → Option Game
  | 0, _, _ => none
  | fuel + 1, g, curr =>
    match NodeHandle.getParent g curr with
    | none => some g
    | some p =>
      if curr ≠ g.start then
        retraceLoop fuel (incPathCost (NodeHandle.markAsVisited g curr true)) p
      else some g

def retracePath (fuel : Nat) (g : Game) : Option Game :=
  match NodeHandle.getParent g g.end_ with
  | none => some g
  | some curr => retraceLoop fuel g curr

/-- The body of the loop of `updateNeighbourCost` for one neighbour. -/
def updateNeighbour (curr : Position) (g : Game) (n : Position) : Game :=
  if !NodeHandle.isWalkable g n then g
  else
    let new_neighbour_cost :=
      (NodeHandle.getGCost g curr).add (getChessBoardDistance g curr n)
    if new_neighbour_cost.lt (NodeHandle.getGCost g n) then
      let g := NodeHandle.setGCost g n new_neighbour_cost
      let g := NodeHandle.setHCost g n (getChessBoardDistance g curr n)
      NodeHandle.setParent g n (some curr)
    else g

def updateNeighbourCost (g : Game) (curr : Position) : Game :=
  (getNeighbours g curr).foldl (updateNeighbour curr) g

/-! ### Depth-first search -/


/-- The `for` loop of `depthFirstSearch` over the neighbours, with the
recursive call passed as `call`; after the loop the run is marked failed. -/
def dfsNeighbours (call : Game → Position → Option (Bool × Game)) :
    List Position → Game → Option (Bool × Game)
  | [], g => some (false, setFailure g)
  | n :: rest, g =>
    if !NodeHandle.isWalkable g n || NodeHandle.isExplored g n then
      dfsNeighbours call rest g
    else
      match call g n with
      | none => none
      | some (true, g) => some (true, g)
      | some (false, g) => dfsNeighbours call rest g

/-- The function `depthFirstSearch`; `fuel` bounds the recursion depth and
`pathFuel` the rounds of `retracePath`. -/
def depthFirstSearch (pathFuel : Nat) : Nat → Game → Position → Option (Bool × Game)
  | 0, _, _ => none
  | fuel + 1, g, curr =>
    let g := NodeHandle.markAsExplored g curr true
    let g := incSearchCost g
    if curr = g.end_ then
      match retracePath pathFuel g with
      | none => none
      | some g => some (true, setSuccess g)
    else
      let g := updateNeighbourCost g curr
      let neighbours := getNeighbours g curr
      dfsNeighbours (depthFirstSearch pathFuel fuel) neighbours g

/-! ### Breadth-first search -/


/-- The body of the push loop of `breadthFirstSearch` for one neighbour. -/
def bfsPush (g : Game) (s : List Position × List Position) (n : Position) :
    List Position × List Position :=
  if !NodeHandle.isWalkable g n || decide (n ∈ s.2) || NodeHandle.isExplored g n then s
  else (s.1 ++ [n], setInsert s.2 n)

/-- The `while` loop of `breadthFirstSearch` on the queue `que` and the set
`open`. -/
def bfsLoop (pathFuel : Nat) : Nat → Game → List Position → List Position →
    Option (Bool × Game)
  | 0, _, _, _ => none
  | fuel + 1, g, que, open_ =>
    match que with
    | [] => some (false, setFailure g)
    | curr :: _ =>
      let g := incSearchCost g
      if curr = g.end_ then
        match retracePath pathFuel g with
        | none => none
        | some g => some (true, setSuccess g)
      else
        let g := updateNeighbourCost g curr
        let neighbours := getNeighbours g curr
        let s := neighbours.foldl (bfsPush g) (que, open_)
        let que := s.1.tail
        let open_ := setErase s.2 curr
        let g := NodeHandle.markAsExplored g curr true
        bfsLoop pathFuel fuel g que open_

def breadthFirstSearch (fuel : Nat) (g : Game) : Option (Bool × Game) :=
  let que : List Position := [g.start]
  let open_ := setInsert [] g.start
  let g := NodeHandle.markAsExplored g g.start true
  bfsLoop fuel fuel g que open_

/-! ### Best-first search -/


/-- The body of the push loop of `bestFirstSearch` for one neighbour. -/
def bestPush (g : Game) (s : List Position × List Position) (n : Position) :
    List Position × List Position :=
  if !NodeHandle.isWalkable g n || decide (n ∈ s.2) || NodeHandle.isExplored g n then s
  else (heapPush (NodeHandleComparatorGCost g) s.1 n, setInsert s.2 n)

/-- The `while` loop of `bestFirstSearch`. -/
def bestLoop (pathFuel : Nat) : Nat → Game → List Position → List Position →
    Option (Bool × Game)
  | 0, _, _, _ => none
  | fuel + 1, g, que, open_ =>
    match que with
    | [] => some (false, setFailure g)
    | curr :: _ =>
      let que := heapPop (NodeHandleComparatorGCost g) que
      let open_ := setErase open_ curr
      let g := NodeHandle.markAsExplored g curr true
      let g := incSearchCost g
      if curr = g.end_ then
        match retracePath pathFuel g with
        | none => none
        | some g => some (true, setSuccess g)
      else
        let g := updateNeighbourCost g curr
        let neighbours := getNeighbours g curr
        let s := neighbours.foldl (bestPush g) (que, open_)
        bestLoop pathFuel fuel g s.1 s.2

def bestFirstSearch (fuel : Nat) (g : Game) : Option (Bool × Game) :=
  let que := heapPush (NodeHandleComparatorGCost g) [] g.start
  let open_ := setInsert [] g.start
  let g := NodeHandle.markAsExplored g g.start true
  bestLoop fuel fuel g que open_

/-! ### Greedy best-first search -/


/-- The body of the push loop of `greedyBestFirstSearch` for one neighbour. -/
def greedyPush (g : Game) (s : List Position × List Position) (n : Position) :
    List Position × List Position :=
  if !NodeHandle.isWalkable g n || NodeHandle.isExplored g n || decide (n ∈ s.2) then s
  else (heapPush (NodeHandleComparatorHCost g) s.1 n, setInsert s.2 n)

/-- The `while` loop of `greedyBestFirstSearch`. -/
def greedyLoop (pathFuel : Nat) : Nat → Game → List Position → List Position →
    Option (Bool × Game)
  | 0, _, _, _ => none
  | fuel + 1, g, openList, open_ =>
    match openList with
    | [] => some (false, setFailure g)
    | curr :: _ =>
      let openList := heapPop (NodeHandleComparatorHCost g) openList
      let open_ := setErase open_ curr
      let g := NodeHandle.markAsExplored g curr true
      let g := incSearchCost g
      if curr = g.end_ then
        match retracePath pathFuel g with
        | none => none
        | some g => some (true, setSuccess g)
      else
        let g := updateNeighbourCost g curr
        let neighbours := getNeighbours g curr
        let s := neighbours.foldl (greedyPush g) (openList, open_)
        greedyLoop pathFuel fuel g s.1 s.2

def greedyBestFirstSearch (fuel : Nat) (g : Game) : Option (Bool × Game) :=
  let openList := heapPush (NodeHandleComparatorHCost g) [] g.start
  let open_ := setInsert [] g.start
  greedyLoop fuel fuel g openList open_

/-! ### A* -/


/-- The body of the neighbour loop of `aStarSearch` for one neighbour, on the
game, the heap `openList` and the set `open`. -/
def aStarRelax (curr : Position) (s : Game × List Position × List Position)
    (neighbour : Position) : Game × List Position × List Position :=
  let g := s.1
  let openList := s.2.1
  let open_ := s.2.2
  if !NodeHandle.isWalkable g neighbour || NodeHandle.isExplored g neighbour then s
  else
    let new_cost_to_neighbour :=
      (NodeHandle.getGCost g curr).add (getChessBoardDistance g curr neighbour)
    if new_cost_to_neighbour.lt (NodeHandle.getGCost g neighbour)
        || decide (neighbour ∉ open_) then
      let g := NodeHandle.setGCost g neighbour new_cost_to_neighbour
      let g := NodeHandle.setParent g neighbour (some curr)
      if neighbour ∉ open_ then
        (g, heapPush (NodeHandleComparatorFCost g) openList neighbour, setInsert open_ neighbour)
      else (g, openList, open_)
    else s

/-- The `while` loop of `aStarSearch`. -/
def aStarLoop (pathFuel : Nat) : Nat → Game → List Position → List Position → Option Game
  | 0, _, _, _ => none
  | fuel + 1, g, openList, open_ =>
    match openList with
    | [] => some (setFailure g)
    | curr :: _ =>
      let openList := heapPop (NodeHandleComparatorFCost g) openList
      let open_ := setErase open_ curr
      let g := NodeHandle.markAsExplored g curr true
      let g := incSearchCost g
      if curr = g.end_ then
        match retracePath pathFuel g with
        | none => none
        | some g => some (setSuccess g)
      else
        let neighbourList := getNeighbours g curr
        let s := neighbourList.foldl (aStarRelax curr) (g, openList, open_)
        aStarLoop pathFuel fuel s.1 s.2.1 s.2.2

def aStarSearch (fuel : Nat) (g : Game) : Option Game :=
  let openList := heapPush (NodeHandleComparatorFCost g) [] g.start
  aStarLoop fuel fuel g openList []

/-! ### The menu of `findPath` -/


/-- One round of the loop of `findPath` for the key `choice`: the buffers and
the statistics are cleared, then the chosen search runs. -/
def findPath (fuel : Nat) (g : Game) (choice : Char) : Option Game :=
  let g := clearBuffer g BUFFER_ALL_BIT
  let g := { g with result := g.result.reset }
  if choice = '1' then
    let g := { g with result := g.result.setAlgorithm "Depth First Search" }
    (depthFirstSearch fuel fuel g g.start).map Prod.snd
  else if choice = '2' then
    let g := { g with result := g.result.setAlgorithm "Breadth First Search" }
    (breadthFirstSearch fuel g).map Prod.snd
  else if choice = '3' then
    let g := { g with result := g.result.setAlgorithm "Best First Search" }
    (bestFirstSearch fuel g).map Prod.snd
  else if choice = '4' then
    let g := { g with result := g.result.setAlgorithm "Greedy Best First Search" }
    (greedyBestFirstSearch fuel g).map Prod.snd
  else if choice = '5' then
    let g := { g with result := g.result.setAlgorithm "A star" }
    aStarSearch fuel g
  else some g

end Game

/-! ## Specification vocabulary -/


/-- The cell `p` lies on the board of `g`. -/
def InBounds (g : Game) (p : Position) : Prop :=
  0 ≤ p.row ∧ p.row < g.size ∧ 0 ≤ p.col ∧ p.col < g.size

instance (g : Game) (p : Position) : Decidable (InBounds g p) :=
  inferInstanceAs (Decidable (0 ≤ p.row ∧ p.row < g.size ∧ 0 ≤ p.col ∧ p.col < g.size))

/-- The cells of a board of side `n`, in the order of the two loops of
`clearBuffer`. -/
def boardCells (n : Nat) : List Position :=
  (List.range n).flatMap fun i => (List.range n).map fun j =>
    ({ row := Int.ofNat i, col := Int.ofNat j } : Position)

/-- Every cell of the board stores its own coordinates, as `Game::Game`
arranges. -/
def PosOK (g : Game) : Prop := ∀ p ∈ boardCells g.size.toNat, (g.board p).pos = p

instance (g : Game) : Decidable (PosOK g) :=
  inferInstanceAs (Decidable (∀ p ∈ boardCells g.size.toNat, (g.board p).pos = p))

/-- The cell a `Node` becomes when `clearBuffer` clears all four buffers. -/
def Node.cleared (n : Node) : Node :=
  { n with explored := false, visited := false, gCost := Cost.sentinel, parent := none }

/-- Two distinct cells whose rows and columns differ by at most one. -/
def Adjacent (p q : Position) : Prop :=
  p ≠ q ∧ (q.row - p.row).natAbs ≤ 1 ∧ (q.col - p.col).natAbs ≤ 1

instance (p q : Position) : Decidable (Adjacent p q) :=
  inferInstanceAs (Decidable (p ≠ q ∧ (q.row - p.row).natAbs ≤ 1 ∧ (q.col - p.col).natAbs ≤ 1))

/-- The cell `p` is on the board and is not a wall. -/
def Walkable (g : Game) (p : Position) : Prop :=
  InBounds g p ∧ (g.board p).is_walkable = true

instance (g : Game) (p : Position) : Decidable (Walkable g p) :=
  inferInstanceAs (Decidable (InBounds g p ∧ (g.board p).is_walkable = true))

/-- A sequence of walkable cells in which consecutive cells are 8-adjacent. -/
def IsPath (g : Game) (l : List Position) : Prop :=
  (∀ p ∈ l, Walkable g p) ∧ l.Chain' Adjacent

/-- The game states a search is run on: every cell stores its coordinates, the
start handle points at a cell of the board, and that cell is not a wall. -/
structure WellFormed (g : Game) : Prop where
  posOK : PosOK g
  start_in : InBounds g g.start
  start_walk : (g.board g.start).is_walkable = true

instance (g : Game) : Decidable (WellFormed g) :=
  decidable_of_iff (PosOK g ∧ InBounds g g.start ∧ (g.board g.start).is_walkable = true)
    ⟨fun h => ⟨h.1, h.2.1, h.2.2⟩, fun h => ⟨h.posOK, h.start_in, h.start_walk⟩⟩

/-- The cells met when following the parent links from `c` until the start
cell, `c` first; `none` when the links end elsewhere or `fuel` links do not
suffice. -/
def parentChain : Nat → Game → Position → Option (List Position)
  | 0, _, _ => none
  | fuel + 1, g, c =>
    if c = g.start then some [c]
    else
      match (g.board c).parent with
      | none => none
      | some p => (parentChain fuel g p).map (fun l => c :: l)

/-- The run recorded in `g` reported success. -/
def Succeeded (g : Game) : Prop := g.result.status = statusSuccess

instance (g : Game) : Decidable (Succeeded g) :=
  inferInstanceAs (Decidable (g.result.status = statusSuccess))

/-- The static part of two game states is the same: side, start and end
handles, and the walkability and stored position of every cell. -/
structure SameGrid (g g' : Game) : Prop where
  size : g'.size = g.size
  start : g'.start = g.start
  end_ : g'.end_ = g.end_
  walk : ∀ p, (g'.board p).is_walkable = (g.board p).is_walkable
  pos : ∀ p, (g'.board p).pos = (g.board p).pos

/-! ## Invariants of a run -/


/-- The number of steps a cost is made of. -/
def Cost.steps (c : Cost) : Nat := c.straight + c.diag

/-- One move of a path: to an 8-adjacent cell that is walkable. -/
def Step (g : Game) (p q : Position) : Prop := Adjacent p q ∧ Walkable g q

/-- The cell `b` is reached from `a` by finitely many moves. -/
def Reach (g : Game) (a b : Position) : Prop := Relation.ReflTransGen (Step g) a b

/-- The cell `c` is the start cell or has a parent. -/
def Rooted (g : Game) (c : Position) : Prop :=
  c = g.start ∨ ∃ p, (g.board c).parent = some p

/-- The invariant of the parent links during a run: the start cell has cost
`0` and no parent; a cell of the board is either untouched or rooted with a
cost of at most `K` steps; and a parent is a walkable, rooted 8-neighbour whose
cost plus the step is at most the cost of the child. -/
structure ParentInv (g : Game) (K : Nat) : Prop where
  start_cost : (g.board g.start).gCost = Cost.zero
  start_parent : (g.board g.start).parent = none
  fresh_or_rooted : ∀ c, InBounds g c →
    ((g.board c).gCost = Cost.sentinel ∧ (g.board c).parent = none) ∨
    (Rooted g c ∧ (g.board c).gCost.steps ≤ K)
  parent_ok : ∀ c p, InBounds g c → (g.board c).parent = some p →
    Walkable g p ∧ Walkable g c ∧ Adjacent p c ∧ Rooted g p ∧
    (g.board p).gCost.toReal + (Game.getChessBoardDistance g p c).toReal
      ≤ (g.board c).gCost.toReal

/-- The part of the parent invariant that holds on boards of every size:
the start cell has cost `0` and no parent, and a parent is a cell of the board
whose cost is at least one step below the cost of the child, and it is a
walkable 8-neighbour whose cost plus the step is at most the cost of the
child. -/
structure WeakParentInv (g : Game) : Prop where
  start_cost : (g.board g.start).gCost = Cost.zero
  start_parent : (g.board g.start).parent = none
  parent_lt : ∀ c p, InBounds g c → (g.board c).parent = some p →
    InBounds g p ∧ (g.board p).gCost.toReal + 1 ≤ (g.board c).gCost.toReal
  parent_step : ∀ c p, InBounds g c → (g.board c).parent = some p →
    Walkable g p ∧ Adjacent p c ∧
    (g.board p).gCost.toReal + (Game.getChessBoardDistance g p c).toReal
      ≤ (g.board c).gCost.toReal

/-- The cells of two game states carry the same g-costs and parents. -/
def SameCosts (g g' : Game) : Prop :=
  ∀ p, (g'.board p).gCost = (g.board p).gCost ∧ (g'.board p).parent = (g.board p).parent

/-- The cells of two game states carry the same explored flags. -/
def SameExplored (g g' : Game) : Prop :=
  ∀ p, (g'.board p).explored = (g.board p).explored

/-- The list `l` starts at `c`, follows the parent links of `g` and ends at
the start cell. -/
inductive IsChain (g : Game) : Position → List Position → Prop where
  | start : IsChain g g.start [g.start]
  | link (c p : Position) (l : List Position) :
      c ≠ g.start → (g.board c).parent = some p → IsChain g p l → IsChain g c (c :: l)

/-- Two game states differ at most in g-costs, h-costs and parents. -/
structure CostOnly (g g' : Game) : Prop where
  same : SameGrid g g'
  explored : SameExplored g g'
  visited : ∀ p, (g'.board p).visited = (g.board p).visited
  result : g'.result = g.result

/-- The effect of a push loop on the frontier `s.1` and the set `s.2`: a
neighbour is skipped when it may not be pushed or is in the set, and is
otherwise added to both. -/
inductive PushSteps (ok : Position → Prop) :
    List Position → List Position × List Position → List Position × List Position → Prop where
  | nil (s : List Position × List Position) : PushSteps ok [] s s
  | skip (n : Position) (N : List Position) (s s' : List Position × List Position) :
      (¬ ok n ∨ n ∈ s.2) → PushSteps ok N s s' → PushSteps ok (n :: N) s s'
  | push (n : Position) (N : List Position) (s : List Position × List Position)
      (Q1 : List Position) (s' : List Position × List Position) :
      ok n → n ∉ s.2 → Q1.Perm (n :: s.1) → PushSteps ok N (Q1, setInsert s.2 n) s' →
      PushSteps ok (n :: N) s s'

/-- Every parent of a cell of the board is flagged explored. -/
def ParentsExplored (g : Game) : Prop :=
  ∀ c p, InBounds g c → (g.board c).parent = some p → (g.board p).explored = true

/-- The state in which `findPath` starts a search: a well-formed game whose
explored and visited flags, parents and costs are cleared, with the cost of the
start cell `0` and zeroed statistics. -/
structure ResetState (g0 : Game) : Prop where
  wf : WellFormed g0
  explored : ∀ p, InBounds g0 p → (g0.board p).explored = false
  visited : ∀ p, InBounds g0 p → (g0.board p).visited = false
  parent : ∀ p, InBounds g0 p → (g0.board p).parent = none
  cost : ∀ p, InBounds g0 p →
    (g0.board p).gCost = if p = g0.start then Cost.zero else Cost.sentinel
  search_cost : g0.result.search_cost = 0
  path_cost : g0.result.path_cost = 0

/-- The invariant of `depthFirstSearch` between calls, for the list `cl` of
the cells entered so far. -/
structure DfsInv (g0 g : Game) (cl : List Position) : Prop where
  same : SameGrid g0 g
  cl_nodup : cl.Nodup
  cl_ok : ∀ p ∈ cl, Walkable g0 p ∧ Reach g0 g0.start p
  explored_iff : ∀ p, InBounds g0 p → ((g.board p).explored = true ↔ p ∈ cl)
  end_open : g0.end_ ∉ cl
  count : g.result.search_cost = (cl.length : Int)
  weak : WeakParentInv g
  strong : g0.size ≤ 200 → ParentInv g cl.length
  path0 : g.result.path_cost = 0
  unvisited : ∀ p, InBounds g0 p → (g.board p).visited = false

/-- The effect of `markAsExplored` and `incSearchCost`, in either order. -/
structure Marked (g g1 : Game) (curr : Position) : Prop where
  same : SameGrid g g1
  costs : SameCosts g g1
  explored : ∀ p, (g1.board p).explored = true ↔ ((g.board p).explored = true ∨ p = curr)
  visited : ∀ p, (g1.board p).visited = (g.board p).visited
  count : g1.result.search_cost = g.result.search_cost + 1
  path : g1.result.path_cost = g.result.path_cost

/-- The state in which `findPath` runs the chosen search. -/
def resetFor (g : Game) (algo : String) : Game :=
  { ({ Game.clearBuffer g BUFFER_ALL_BIT with
        result := (Game.clearBuffer g BUFFER_ALL_BIT).result.reset } : Game) with
    result := ((Game.clearBuffer g BUFFER_ALL_BIT).result.reset).setAlgorithm algo }

/-! ## Paths, their cost, and example grids -/


/-- The total step cost of a sequence of cells: the sum of the chessboard
distances of consecutive cells, `1` for a straight step and `sqrt 2` for a
diagonal one. -/
def pathCost (g : Game) : List Position → Cost
  | [] => Cost.zero
  | [_] => Cost.zero
  | a :: b :: l => (Game.getChessBoardDistance g a b).add (pathCost g (b :: l))

/-- A game on a board of side `size` whose walls are the cells `walls`, with
the given start and end cells and otherwise as `Game::Game` builds it. -/
def Game.onGrid (size : Int) (walls : List Position) (start end_ : Position) : Game :=
  { board := fun p => { Node.new p with is_walkable := !(walls.contains p) }
    size := size
    curser := { row := size / 2, col := size / 2 }
    start := start
    end_ := end_
    curserMode := CurserMode.SELECT
    result := Result.new }

/-- A board of side 5 with walls at (1,1) and (1,2), start (4,0) and end
(0,2). -/
def exampleDetour : Game :=
  Game.onGrid 5 [{ row := 1, col := 1 }, { row := 1, col := 2 }]
    { row := 4, col := 0 } { row := 0, col := 2 }

/-- A board of side 4 with one wall at (1,1), start (0,0) and end (3,3). -/
def exampleOpen : Game :=
  Game.onGrid 4 [{ row := 1, col := 1 }] { row := 0, col := 0 } { row := 3, col := 3 }

/-- The parent chain from the end cell after one round of `findPath`. -/
def chainAfter (fuel : Nat) (g : Game) (choice : Char) : Option (List Position) :=
  (Game.findPath fuel g choice).bind (fun g' => parentChain fuel g' g'.end_)

/-- The status reported by one round of `findPath`. -/
def statusAfter (fuel : Nat) (g : Game) (choice : Char) : Option String :=
  (Game.findPath fuel g choice).map (fun g' => g'.result.status)

/-! ## Edit sequences and straight-line paths -/


/-- One operation of the edit mode: a cursor move, a change of the cursor
mode, or moving one of the two anchors to the cursor. -/
inductive EditOp where
  | moveUp
  | moveDown
  | moveLeft
  | moveRight
  | changeCurserMode (mode : CurserMode)
  | putStart
  | putEnd
deriving DecidableEq, Repr

/-- The effect of one edit operation on the game. -/
def Game.applyEdit (g : Game) : EditOp → Game
  | EditOp.moveUp => Game.moveUp g
  | EditOp.moveDown => Game.moveDown g
  | EditOp.moveLeft => Game.moveLeft g
  | EditOp.moveRight => Game.moveRight g
  | EditOp.changeCurserMode mode => Game.changeCurserMode g mode
  | EditOp.putStart => Game.putStart g
  | EditOp.putEnd => Game.putEnd g

/-- The game after a sequence of edit operations. -/
def Game.applyEdits (g : Game) (ops : List EditOp) : Game :=
  ops.foldl Game.applyEdit g

/-- The invariant of the edit mode: every cell stores its coordinates, the
cursor and the two anchors are on the board, and the anchors are two different
walkable cells. -/
structure EditInv (g : Game) : Prop where
  pos : ∀ p, (g.board p).pos = p
  curser_in : InBounds g g.curser
  start_in : InBounds g g.start
  end_in : InBounds g g.end_
  distinct : g.start ≠ g.end_
  start_walk : (g.board g.start).is_walkable = true
  end_walk : (g.board g.end_).is_walkable = true

/-- The coordinate next to `x` in the direction of `y`. -/
def stepToward (x y : Int) : Int :=
  if x < y then x + 1 else if y < x then x - 1 else x

/-- The cell next to `a` in the direction of `b`, moving in each coordinate
that differs. -/
def Position.toward (a b : Position) : Position :=
  { row := stepToward a.row b.row, col := stepToward a.col b.col }

/-- The route of `n` moves from `a` toward `b`: diagonal moves while both
coordinates differ, straight moves afterwards. -/
def kingPath : Nat → Position → Position → List Position
  | 0, a, _ => [a]
  | n + 1, a, b => a :: kingPath n (a.toward b) b

/-- The number of moves of the route from `a` to `b`. -/
def kingMoves (a b : Position) : Nat :=
  max (b.row - a.row).natAbs (b.col - a.col).natAbs

/-- The cells `(r, c), (r, c + 1), ..., (r, c + n)` of one row. -/
def rowPath (r : Int) : Int → Nat → List Position
  | c, 0 => [{ row := r, col := c }]
  | c, n + 1 => { row := r, col := c } :: rowPath r (c + 1) n

/-- The statistics reported by one round of `findPath`. -/
def resultAfter (fuel : Nat) (g : Game) (choice : Char) : Option Result :=
  (Game.findPath fuel g choice).map (fun g' => g'.result)

/-! ## Counting cells, recorded calls and single rounds -/


/-- The number of cells of the board flagged explored. -/
def exploredCount (g : Game) : Nat :=
  ((boardCells g.size.toNat).filter fun p => (g.board p).explored).length

/-- A board of side 5 with walls at (0,0), (2,3) and (3,3), start (2,4) and
end (4,0). -/
def exampleWeights : Game :=
  Game.onGrid 5 [{ row := 0, col := 0 }, { row := 2, col := 3 }, { row := 3, col := 3 }]
    { row := 2, col := 4 } { row := 4, col := 0 }

/-- A board of side 4 whose third row is walled off, with walls at (1,1) and
(1,3) too, start (0,1) and end (3,3). -/
def exampleWalled : Game :=
  Game.onGrid 4 [{ row := 1, col := 1 }, { row := 1, col := 3 }, { row := 2, col := 0 },
      { row := 2, col := 1 }, { row := 2, col := 2 }, { row := 2, col := 3 }]
    { row := 0, col := 1 } { row := 3, col := 3 }

/-- One round of the `while` loop of `greedyBestFirstSearch` that does not end
the run: `none` when the frontier is empty or the end cell is popped. -/
def greedyRound (g : Game) (openList open_ : List Position) :
    Option (Game × List Position × List Position) :=
  match openList with
  | [] => none
  | curr :: _ =>
    let openList := heapPop (Game.NodeHandleComparatorHCost g) openList
    let open_ := setErase open_ curr
    let g := NodeHandle.markAsExplored g curr true
    let g := Game.incSearchCost g
    if curr = g.end_ then none
    else
      let g := Game.updateNeighbourCost g curr
      let neighbours := Game.getNeighbours g curr
      let s := neighbours.foldl (Game.greedyPush g) (openList, open_)
      some (g, s.1, s.2)

/-- The state of the loop of `greedyBestFirstSearch` after `k` rounds. -/
def greedyRounds : Nat → Game → List Position → List Position →
    Option (Game × List Position × List Position)
  | 0, g, openList, open_ => some (g, openList, open_)
  | k + 1, g, openList, open_ =>
    match greedyRound g openList open_ with
    | none => none
    | some s => greedyRounds k s.1 s.2.1 s.2.2

/-- The explored flag, g-cost and parent of the cell `p` at the head of the
loop of `greedyBestFirstSearch` after `k` rounds of the run `findPath` starts
for the key `4`. -/
def greedyCellAfter (k : Nat) (g : Game) (p : Position) :
    Option (Bool × Cost × Option Position) :=
  (greedyRounds k (resetFor g "Greedy Best First Search")
    (heapPush (Game.NodeHandleComparatorHCost (resetFor g "Greedy Best First Search")) []
      (resetFor g "Greedy Best First Search").start)
    (setInsert [] (resetFor g "Greedy Best First Search").start)).map fun s =>
      ((s.1.board p).explored, (s.1.board p).gCost, (s.1.board p).parent)

/-- The number of explored cells and the search cost after one round of
`findPath`. -/
def exploredAfter (fuel : Nat) (g : Game) (choice : Char) : Option (Nat × Int) :=
  (Game.findPath fuel g choice).map fun g' => (exploredCount g', g'.result.search_cost)

/-! # The binary32 model

The sections above idealise the `float` costs of `Main.cpp` as exact reals.
This part transcribes the searches once more with the arithmetic the program
performs: every `float` is an IEEE 754 binary32 number, every sum and product
is rounded to the nearest binary32 number (ties to the even significand), and
the costs are compared as rounded.  The `int` counters of `Result` are reduced
to the range of a 32-bit `int` after every change.  Coordinates, handles,
containers and fuel are as above.

Every `float` the program computes is `0` or at least `1` and is a whole
number of units of `2^-23`: `sqrt(2.0f)` is `11863283` units, an `int` below
`2^24` converts to `2^23` units per one, and sums and products of such numbers
round to such numbers below `2^128`.  A cost is stored as its number of units.
-/

namespace Binary32

/-! ## Binary32 arithmetic -/


/-- A `float` value of the program, as a number of units of `2^-23`. -/
structure Cost where
  units : Nat
deriving DecidableEq, Repr

/-- The number of low bits that rounding a number of units drops: the least
`k` with `n / 2^k < 2^24`, searched in at most `fuel` halvings. -/
def shiftOf : Nat → Nat → Nat
  | 0, _ => 0
  | fuel + 1, n => if n < 2 ^ 24 then 0 else shiftOf fuel (n / 2) + 1

/-- Rounding to binary32: a number of units below `2^24` is a binary32 number;
otherwise the 24 leading bits are kept and the rest is rounded to nearest,
ties to the even significand.  The 128 halvings cover every number of units
below `2^152`, which is more than the largest binary32 number. -/
def round24 (n : Nat) : Nat :=
  if n < 2 ^ 24 then n
  else
    let k := shiftOf 128 n
    let q := n / 2 ^ k
    let r := n % 2 ^ k
    if 2 ^ k < 2 * r ∨ (2 * r = 2 ^ k ∧ q % 2 = 1) then (q + 1) * 2 ^ k else q * 2 ^ k

/-- The values of an `int` after an arithmetic operation whose exact result is
`x`: the result is reduced to the range of a 32-bit `int`. -/
def wrapInt (x : Int) : Int := (x + 2 ^ 31) % 2 ^ 32 - 2 ^ 31

namespace Cost


/-- The conversion of a non-negative `int` to `float`. -/
def ofNat (n : Nat) : Cost := { units := round24 (n * 2 ^ 23) }

/-- The value `sqrt(2.0f)`, the binary32 number `0x3FB504F3`. -/
def sqrt2 : Cost := { units := 11863283 }

/-- The sum `a + b` of two `float`s. -/
def add (a b : Cost) : Cost := { units := round24 (a.units + b.units) }

/-- The product `a * n` of a `float` and a non-negative `int`: `n` is converted
to `float`, which is a whole number, so the exact product is a whole number of
units; it is then rounded. -/
def mulInt (a : Cost) (n : Nat) : Cost :=
  { units := round24 (a.units * ((ofNat n).units / 2 ^ 23)) }

/-- The test `a < b`. -/
def lt (a b : Cost) : Bool := decide (a.units < b.units)

/-- The test `a > b`. -/
def gt (a b : Cost) : Bool := lt b a

/-- The test `a == b`. -/
def eq (a b : Cost) : Bool := decide (a.units = b.units)

/-- The real number a cost stands for. -/
noncomputable def toReal (c : Cost) : ℝ := (c.units : ℝ) / 2 ^ 23

/-- The cost `0`. -/
def zero : Cost := { units := 0 }

/-- The constant `100000` that `Node::Node` and `clearBuffer` store as the
g-cost of a cell not reached yet. -/
def sentinel : Cost := ofNat 100000

end Cost


/-- The class `Node`. -/
structure Node where
  is_walkable : Bool
  visited : Bool
  explored : Bool
  parent : Option Position
  pos : Position
  gCost : Cost
  hCost : Cost

/-- The method `Node::isWalkable`. -/
def Node.isWalkable (n : Node) : Bool := n.is_walkable

/-- The class `Result`. -/
structure Result where
  algorithm : String
  search_cost : Int
  path_cost : Int
  status : String
deriving DecidableEq, Repr

/-- The class `Game`: the board, its side, the three handles, the cursor mode
and the statistics of the current run.  The static pointers
`NodeHandle::start` and `NodeHandle::end` point at the fields `start` and
`end` of the game, so they are read from the game state. -/
structure Game where
  board : Position → Node
  size : Int
  curser : Position
  start : Position
  end_ : Position
  curserMode : CurserMode
  result : Result

/-! ## `Node` and `NodeHandle` -/


/-- The constructor `Node::Node` followed by the `setPosition` of `Game::Game`. -/
def Node.new (pos : Position) : Node :=
  { is_walkable := true, visited := false, explored := false, parent := none,
    pos := pos, gCost := Cost.sentinel, hCost := Cost.sentinel }

/-- Store a cell at the given coordinates of the board. -/
def Game.setNode (g : Game) (h : Position) (n : Node) : Game :=
  { g with board := fun q => if q = h then n else g.board q }

namespace NodeHandle


def getGCost (g : Game) (h : Position) : Cost := (g.board h).gCost

def getParent (g : Game) (h : Position) : Option Position := (g.board h).parent

def getPosition (g : Game) (h : Position) : Position := (g.board h).pos

def isExplored (g : Game) (h : Position) : Bool := (g.board h).explored

def isWalkable (g : Game) (h : Position) : Bool := (g.board h).is_walkable

def markAsExplored (g : Game) (h : Position) (val : Bool) : Game :=
  g.setNode h { g.board h with explored := val }

def markAsVisited (g : Game) (h : Position) (val : Bool) : Game :=
  g.setNode h { g.board h with visited := val }

def setGCost (g : Game) (h : Position) (cost : Cost) : Game :=
  g.setNode h { g.board h with gCost := cost }

def setHCost (g : Game) (h : Position) (cost : Cost) : Game :=
  g.setNode h { g.board h with hCost := cost }

def setParent (g : Game) (h : Position) (new_parent : Option Position) : Game :=
  g.setNode h { g.board h with parent := new_parent }

end NodeHandle

/-! ## `Result` -/

namespace Result


def new : Result :=
  { algorithm := "None", search_cost := 0, path_cost := 0, status := "None" }

def reset (_r : Result) : Result :=
  { algorithm := "None", search_cost := 0, path_cost := 0, status := "None" }

def incSearchCost (r : Result) : Result :=
  { r with search_cost := wrapInt (r.search_cost + 1) }

def incPathCost (r : Result) : Result := { r with path_cost := wrapInt (r.path_cost + 1) }

def setSuccess (r : Result) : Result :=
  { r with search_cost := wrapInt (r.search_cost - 1), path_cost := wrapInt (r.path_cost + 1),
           status := statusSuccess }

def setFailure (r : Result) : Result := { r with status := statusFailure }

def setAlgorithm (r : Result) (algo : String) : Result := { r with algorithm := algo }

end Result

/-! ## `Game` -/

namespace Game


/-- The constructor `Game::Game`.  The cursor mode is not initialised by the
constructor; `enterEditMode` sets it to `SELECT` before any edit. -/
def new (size : Int) : Game :=
  let g : Game :=
    { board := fun p => Node.new p
      size := size
      curser := { row := size / 2, col := size / 2 }
      start := { row := size / 5, col := size / 5 }
      end_ := { row := size / 3, col := size / 2 }
      curserMode := CurserMode.SELECT
      result := Result.new }
  NodeHandle.setGCost g g.start Cost.zero

def isOutOfBounds (g : Game) (curr : Position) : Bool :=
  if curr.row < 0 ∨ curr.col < 0 ∨ curr.row ≥ g.size ∨ curr.col ≥ g.size then true
  else false

/-- The body of the two loops of `clearBuffer` for one cell. -/
def clearCell (buffer_clear_bit : Nat) (g : Game) (curr : Position) : Game :=
  let g := if buffer_clear_bit &&& BUFFER_BIT_EXPLORED ≠ 0
    then NodeHandle.markAsExplored g curr false else g
  let g := if buffer_clear_bit &&& BUFFER_BIT_VISITED ≠ 0
    then NodeHandle.markAsVisited g curr false else g
  let g := if buffer_clear_bit &&& BUFFER_BIT_COST ≠ 0
    then NodeHandle.setGCost g curr Cost.sentinel else g
  if buffer_clear_bit &&& BUFFER_BIT_PARENT ≠ 0
    then NodeHandle.setParent g curr none else g

def clearBuffer (g : Game) (buffer_clear_bit : Nat) : Game :=
  let g := (List.range g.size.toNat).foldl
    (fun g i => (List.range g.size.toNat).foldl
      (fun g j => clearCell buffer_clear_bit g { row := Int.ofNat i, col := Int.ofNat j }) g) g
  NodeHandle.setGCost g g.start Cost.zero

/-- The function `getChessBoardDistance`:
`sqrt(2.0f)*min(dx, dy) + abs(dx-dy)`. -/
def getChessBoardDistance (g : Game) (src dst : Position) : Cost :=
  let distance := (NodeHandle.getPosition g src).sub (NodeHandle.getPosition g dst)
  let dx := distance.row.natAbs
  let dy := distance.col.natAbs
  (Cost.sqrt2.mulInt (min dx dy)).add (Cost.ofNat ((dx : Int) - (dy : Int)).natAbs)

/-- `NodeHandle::getHCost`: the distance to the static `end` handle. -/
def getHCost (g : Game) (h : Position) : Cost := getChessBoardDistance g h g.end_

/-- `NodeHandle::getFCost`. -/
def getFCost (g : Game) (h : Position) : Cost :=
  (NodeHandle.getGCost g h).add (getHCost g h)

def NodeHandleComparatorFCost (g : Game) (lhs rhs : Position) : Bool :=
  if (getFCost g lhs).gt (getFCost g rhs) then true
  else if (getFCost g lhs).eq (getFCost g rhs) && (getHCost g lhs).gt (getHCost g rhs) then true
  else false

def NodeHandleComparatorGCost (g : Game) (lhs rhs : Position) : Bool :=
  (NodeHandle.getGCost g lhs).gt (NodeHandle.getGCost g rhs)

def NodeHandleComparatorHCost (g : Game) (lhs rhs : Position) : Bool :=
  (getHCost g lhs).gt (getHCost g rhs)

def getNeighbours (g : Game) (curr : Position) : List Position :=
  ([-1, 0, 1] : List Int).flatMap fun dx =>
    ([-1, 0, 1] : List Int).filterMap fun dy =>
      if dx = 0 ∧ dy = 0 then none
      else
        let x := (NodeHandle.getPosition g curr).row + dx
        let y := (NodeHandle.getPosition g curr).col + dy
        if isOutOfBounds g { row := x, col := y } then none
        else if (g.board { row := x, col := y }).isWalkable then some { row := x, col := y }
        else none

def incSearchCost (g : Game) : Game := { g with result := g.result.incSearchCost }

def incPathCost (g : Game) : Game := { g with result := g.result.incPathCost }

def setSuccess (g : Game) : Game := { g with result := g.result.setSuccess }

def setFailure (g : Game) : Game := { g with result := g.result.setFailure }

/-- The `while` loop of `retracePath`: it runs while the current cell has a
parent and is not the start cell. -/
def retraceLoop : Nat → Game → Position → Option Game
  | 0, _, _ => none
  | fuel + 1, g, curr =>
    match NodeHandle.getParent g curr with
    | none => some g
    | some p =>
      if curr ≠ g.start then
        retraceLoop fuel (incPathCost (NodeHandle.markAsVisited g curr true)) p
      else some g

def retracePath (fuel : Nat) (g : Game) : Option Game :=
  match NodeHandle.getParent g g.end_ with
  | none => some g
  | some curr => retraceLoop fuel g curr

/-- The body of the loop of `updateNeighbourCost` for one neighbour. -/
def updateNeighbour (curr : Position) (g : Game) (n : Position) : Game :=
  if !NodeHandle.isWalkable g n then g
  else
    let new_neighbour_cost :=
      (NodeHandle.getGCost g curr).add (getChessBoardDistance g curr n)
    if new_neighbour_cost.lt (NodeHandle.getGCost g n) then
      let g := NodeHandle.setGCost g n new_neighbour_cost
      let g := NodeHandle.setHCost g n (getChessBoardDistance g curr n)
      NodeHandle.setParent g n (some curr)
    else g

def updateNeighbourCost (g : Game) (curr : Position) : Game :=
  (getNeighbours g curr).foldl (updateNeighbour curr) g

/-! ### Depth-first search -/


/-- The `for` loop of `depthFirstSearch` over the neighbours, with the
recursive call passed as `call`; after the loop the run is marked failed. -/
def dfsNeighbours (call : Game → Position → Option (Bool × Game)) :
    List Position → Game → Option (Bool × Game)
  | [], g => some (false, setFailure g)
  | n :: rest, g =>
    if !NodeHandle.isWalkable g n || NodeHandle.isExplored g n then
      dfsNeighbours call rest g
    else
      match call g n with
      | none => none
      | some (true, g) => some (true, g)
      | some (false, g) => dfsNeighbours call rest g

/-- The function `depthFirstSearch`; `fuel` bounds the recursion depth and
`pathFuel` the rounds of `retracePath`. -/
def depthFirstSearch (pathFuel : Nat) : Nat → Game → Position → Option (Bool × Game)
  | 0, _, _ => none
  | fuel + 1, g, curr =>
    let g := NodeHandle.markAsExplored g curr true
    let g := incSearchCost g
    if curr = g.end_ then
      match retracePath pathFuel g with
      | none => none
      | some g => some (true, setSuccess g)
    else
      let g := updateNeighbourCost g curr
      let neighbours := getNeighbours g curr
      dfsNeighbours (depthFirstSearch pathFuel fuel) neighbours g

/-! ### Breadth-first search -/


/-- The body of the push loop of `breadthFirstSearch` for one neighbour. -/
def bfsPush (g : Game) (s : List Position × List Position) (n : Position) :
    List Position × List Position :=
  if !NodeHandle.isWalkable g n || decide (n ∈ s.2) || NodeHandle.isExplored g n then s
  else (s.1 ++ [n], setInsert s.2 n)

/-- The `while` loop of `breadthFirstSearch` on the queue `que` and the set
`open`. -/
def bfsLoop (pathFuel : Nat) : Nat → Game → List Position → List Position →
    Option (Bool × Game)
  | 0, _, _, _ => none
  | fuel + 1, g, que, open_ =>
    match que with
    | [] => some (false, setFailure g)
    | curr :: _ =>
      let g := incSearchCost g
      if curr = g.end_ then
        match retracePath pathFuel g with
        | none => none
        | some g => some (true, setSuccess g)
      else
        let g := updateNeighbourCost g curr
        let neighbours := getNeighbours g curr
        let s := neighbours.foldl (bfsPush g) (que, open_)
        let que := s.1.tail
        let open_ := setErase s.2 curr
        let g := NodeHandle.markAsExplored g curr true
        bfsLoop pathFuel fuel g que open_

def breadthFirstSearch (fuel : Nat) (g : Game) : Option (Bool × Game) :=
  let que : List Position := [g.start]
  let open_ := setInsert [] g.start
  let g := NodeHandle.markAsExplored g g.start true
  bfsLoop fuel fuel g que open_

/-! ### Best-first search -/


/-- The body of the push loop of `bestFirstSearch` for one neighbour. -/
def bestPush (g : Game) (s : List Position × List Position) (n : Position) :
    List Position × List Position :=
  if !NodeHandle.isWalkable g n || decide (n ∈ s.2) || NodeHandle.isExplored g n then s
  else (heapPush (NodeHandleComparatorGCost g) s.1 n, setInsert s.2 n)

/-- The `while` loop of `bestFirstSearch`. -/
def bestLoop (pathFuel : Nat) : Nat → Game → List Position → List Position →
    Option (Bool × Game)
  | 0, _, _, _ => none
  | fuel + 1, g, que, open_ =>
    match que with
    | [] => some (false, setFailure g)
    | curr :: _ =>
      let que := heapPop (NodeHandleComparatorGCost g) que
      let open_ := setErase open_ curr
      let g := NodeHandle.markAsExplored g curr true
      let g := incSearchCost g
      if curr = g.end_ then
        match retracePath pathFuel g with
        | none => none
        | some g => some (true, setSuccess g)
      else
        let g := updateNeighbourCost g curr
        let neighbours := getNeighbours g curr
        let s := neighbours.foldl (bestPush g) (que, open_)
        bestLoop pathFuel fuel g s.1 s.2

def bestFirstSearch (fuel : Nat) (g : Game) : Option (Bool × Game) :=
  let que := heapPush (NodeHandleComparatorGCost g) [] g.start
  let open_ := setInsert [] g.start
  let g := NodeHandle.markAsExplored g g.start true
  bestLoop fuel fuel g que open_

/-! ### Greedy best-first search -/


/-- The body of the push loop of `greedyBestFirstSearch` for one neighbour. -/
def greedyPush (g : Game) (s : List Position × List Position) (n : Position) :
    List Position × List Position :=
  if !NodeHandle.isWalkable g n || NodeHandle.isExplored g n || decide (n ∈ s.2) then s
  else (heapPush (NodeHandleComparatorHCost g) s.1 n, setInsert s.2 n)

/-- The `while` loop of `greedyBestFirstSearch`. -/
def greedyLoop (pathFuel : Nat) : Nat → Game → List Position → List Position →
    Option (Bool × Game)
  | 0, _, _, _ => none
  | fuel + 1, g, openList, open_ =>
    match openList with
    | [] => some (false, setFailure g)
    | curr :: _ =>
      let openList := heapPop (NodeHandleComparatorHCost g) openList
      let open_ := setErase open_ curr
      let g := NodeHandle.markAsExplored g curr true
      let g := incSearchCost g
      if curr = g.end_ then
        match retracePath pathFuel g with
        | none => none
        | some g => some (true, setSuccess g)
      else
        let g := updateNeighbourCost g curr
        let neighbours := getNeighbours g curr
        let s := neighbours.foldl (greedyPush g) (openList, open_)
        greedyLoop pathFuel fuel g s.1 s.2

def greedyBestFirstSearch (fuel : Nat) (g : Game) : Option (Bool × Game) :=
  let openList := heapPush (NodeHandleComparatorHCost g) [] g.start
  let open_ := setInsert [] g.start
  greedyLoop fuel fuel g openList open_

/-! ### A* -/


/-- The body of the neighbour loop of `aStarSearch` for one neighbour, on the
game, the heap `openList` and the set `open`. -/
def aStarRelax (curr : Position) (s : Game × List Position × List Position)
    (neighbour : Position) : Game × List Position × List Position :=
  let g := s.1
  let openList := s.2.1
  let open_ := s.2.2
  if !NodeHandle.isWalkable g neighbour || NodeHandle.isExplored g neighbour then s
  else
    let new_cost_to_neighbour :=
      (NodeHandle.getGCost g curr).add (getChessBoardDistance g curr neighbour)
    if new_cost_to_neighbour.lt (NodeHandle.getGCost g neighbour)
        || decide (neighbour ∉ open_) then
      let g := NodeHandle.setGCost g neighbour new_cost_to_neighbour
      let g := NodeHandle.setParent g neighbour (some curr)
      if neighbour ∉ open_ then
        (g, heapPush (NodeHandleComparatorFCost g) openList neighbour, setInsert open_ neighbour)
      else (g, openList, open_)
    else s

/-- The `while` loop of `aStarSearch`. -/
def aStarLoop (pathFuel : Nat) : Nat → Game → List Position → List Position → Option Game
  | 0, _, _, _ => none
  | fuel + 1, g, openList, open_ =>
    match openList with
    | [] => some (setFailure g)
    | curr :: _ =>
      let openList := heapPop (NodeHandleComparatorFCost g) openList
      let open_ := setErase open_ curr
      let g := NodeHandle.markAsExplored g curr true
      let g := incSearchCost g
      if curr = g.end_ then
        match retracePath pathFuel g with
        | none => none
        | some g => some (setSuccess g)
      else
        let neighbourList := getNeighbours g curr
        let s := neighbourList.foldl (aStarRelax curr) (g, openList, open_)
        aStarLoop pathFuel fuel s.1 s.2.1 s.2.2

def aStarSearch (fuel : Nat) (g : Game) : Option Game :=
  let openList := heapPush (NodeHandleComparatorFCost g) [] g.start
  aStarLoop fuel fuel g openList []

/-! ### The menu of `findPath` -/


/-- One round of the loop of `findPath` for the key `choice`: the buffers and
the statistics are cleared, then the chosen search runs. -/
def findPath (fuel : Nat) (g : Game) (choice : Char) : Option Game :=
  let g := clearBuffer g BUFFER_ALL_BIT
  let g := { g with result := g.result.reset }
  if choice = '1' then
    let g := { g with result := g.result.setAlgorithm "Depth First Search" }
    (depthFirstSearch fuel fuel g g.start).map Prod.snd
  else if choice = '2' then
    let g := { g with result := g.result.setAlgorithm "Breadth First Search" }
    (breadthFirstSearch fuel g).map Prod.snd
  else if choice = '3' then
    let g := { g with result := g.result.setAlgorithm "Best First Search" }
    (bestFirstSearch fuel g).map Prod.snd
  else if choice = '4' then
    let g := { g with result := g.result.setAlgorithm "Greedy Best First Search" }
    (greedyBestFirstSearch fuel g).map Prod.snd
  else if choice = '5' then
    let g := { g with result := g.result.setAlgorithm "A star" }
    aStarSearch fuel g
  else some g

end Game

/-! ## Specification vocabulary -/


/-- The cell `p` lies on the board of `g`. -/
def InBounds (g : Game) (p : Position) : Prop :=
  0 ≤ p.row ∧ p.row < g.size ∧ 0 ≤ p.col ∧ p.col < g.size

instance (g : Game) (p : Position) : Decidable (InBounds g p) :=
  inferInstanceAs (Decidable (0 ≤ p.row ∧ p.row < g.size ∧ 0 ≤ p.col ∧ p.col < g.size))

/-- Every cell of the board stores its own coordinates, as `Game::Game`
arranges. -/
def PosOK (g : Game) : Prop := ∀ p ∈ boardCells g.size.toNat, (g.board p).pos = p

instance (g : Game) : Decidable (PosOK g) :=
  inferInstanceAs (Decidable (∀ p ∈ boardCells g.size.toNat, (g.board p).pos = p))

/-- The cell a `Node` becomes when `clearBuffer` clears all four buffers. -/
def Node.cleared (n : Node) : Node :=
  { n with explored := false, visited := false, gCost := Cost.sentinel, parent := none }

/-- The cell `p` is on the board and is not a wall. -/
def Walkable (g : Game) (p : Position) : Prop :=
  InBounds g p ∧ (g.board p).is_walkable = true

instance (g : Game) (p : Position) : Decidable (Walkable g p) :=
  inferInstanceAs (Decidable (InBounds g p ∧ (g.board p).is_walkable = true))

/-- A sequence of walkable cells in which consecutive cells are 8-adjacent. -/
def IsPath (g : Game) (l : List Position) : Prop :=
  (∀ p ∈ l, Walkable g p) ∧ l.Chain' Adjacent

/-- There is a sequence of walkable, pairwise 8-adjacent cells from `a` to `b`. -/
def Connected (g : Game) (a b : Position) : Prop :=
  ∃ l : List Position, l.head? = some a ∧ l.getLast? = some b ∧ IsPath g l

/-- The game states a search is run on: every cell stores its coordinates, the
start handle points at a cell of the board, and that cell is not a wall. -/
structure WellFormed (g : Game) : Prop where
  posOK : PosOK g
  start_in : InBounds g g.start
  start_walk : (g.board g.start).is_walkable = true

instance (g : Game) : Decidable (WellFormed g) :=
  decidable_of_iff (PosOK g ∧ InBounds g g.start ∧ (g.board g.start).is_walkable = true)
    ⟨fun h => ⟨h.1, h.2.1, h.2.2⟩, fun h => ⟨h.posOK, h.start_in, h.start_walk⟩⟩

/-- The cells met when following the parent links from `c` until the start
cell, `c` first; `none` when the links end elsewhere or `fuel` links do not
suffice. -/
def parentChain : Nat → Game → Position → Option (List Position)
  | 0, _, _ => none
  | fuel + 1, g, c =>
    if c = g.start then some [c]
    else
      match (g.board c).parent with
      | none => none
      | some p => (parentChain fuel g p).map (fun l => c :: l)

/-- The run recorded in `g` reported success. -/
def Succeeded (g : Game) : Prop := g.result.status = statusSuccess

instance (g : Game) : Decidable (Succeeded g) :=
  inferInstanceAs (Decidable (g.result.status = statusSuccess))

/-- The run recorded in `g` reported failure. -/
def Failed (g : Game) : Prop := g.result.status = statusFailure

instance (g : Game) : Decidable (Failed g) :=
  inferInstanceAs (Decidable (g.result.status = statusFailure))

/-- The static part of two game states is the same: side, start and end
handles, and the walkability and stored position of every cell. -/
structure SameGrid (g g' : Game) : Prop where
  size : g'.size = g.size
  start : g'.start = g.start
  end_ : g'.end_ = g.end_
  walk : ∀ p, (g'.board p).is_walkable = (g.board p).is_walkable
  pos : ∀ p, (g'.board p).pos = (g.board p).pos

/-! ## Invariants of a run, for the binary32 model -/


/-- An upper bound, in units, of what one relaxation adds to a cost below the
sentinel: `1.5`, more than `sqrt(2.0f)` and the rounding of the sum. -/
def stepBound : Nat := 12582912

/-- One move of a path: to an 8-adjacent cell that is walkable. -/
def Step (g : Game) (p q : Position) : Prop := Adjacent p q ∧ Walkable g q

/-- The cell `b` is reached from `a` by finitely many moves. -/
def Reach (g : Game) (a b : Position) : Prop := Relation.ReflTransGen (Step g) a b

/-- The cell `c` is the start cell or has a parent. -/
def Rooted (g : Game) (c : Position) : Prop :=
  c = g.start ∨ ∃ p, (g.board c).parent = some p

/-- The invariant of the parent links during a run: the start cell has cost
`0` and no parent; a cell of the board is either untouched or rooted with a
cost of at most `K` times `stepBound`; and a parent is a walkable, rooted
8-neighbour whose cost is below the cost of the child, and whose cost plus the
step, added as the program adds them, is at most the cost of the child. -/
structure ParentInv (g : Game) (K : Nat) : Prop where
  start_cost : (g.board g.start).gCost = Cost.zero
  start_parent : (g.board g.start).parent = none
  fresh_or_rooted : ∀ c, InBounds g c →
    ((g.board c).gCost = Cost.sentinel ∧ (g.board c).parent = none) ∨
    (Rooted g c ∧ (g.board c).gCost.units ≤ K * stepBound)
  parent_ok : ∀ c p, InBounds g c → (g.board c).parent = some p →
    Walkable g p ∧ Walkable g c ∧ Adjacent p c ∧ Rooted g p ∧
    (g.board p).gCost.units < (g.board c).gCost.units ∧
    ((g.board p).gCost.add (Game.getChessBoardDistance g p c)).units
      ≤ (g.board c).gCost.units

/-- The part of the parent invariant that needs no bound on the number of
expanded cells: the start cell has cost `0` and no parent, no cost of a cell of
the board exceeds the sentinel, and a parent is a cell of the board whose cost
is below the cost of the child, and it is a walkable 8-neighbour whose cost
plus the step, added as the program adds them, is at most the cost of the
child. -/
structure WeakParentInv (g : Game) : Prop where
  start_cost : (g.board g.start).gCost = Cost.zero
  start_parent : (g.board g.start).parent = none
  le_sentinel : ∀ c, InBounds g c → (g.board c).gCost.units ≤ Cost.sentinel.units
  parent_lt : ∀ c p, InBounds g c → (g.board c).parent = some p →
    InBounds g p ∧ (g.board p).gCost.units < (g.board c).gCost.units
  parent_step : ∀ c p, InBounds g c → (g.board c).parent = some p →
    Walkable g p ∧ Adjacent p c ∧
    ((g.board p).gCost.add (Game.getChessBoardDistance g p c)).units
      ≤ (g.board c).gCost.units

/-- A cost that a binary32 number holds, of at most `2 ^ 25`. -/
def Cost.IsFloat (c : Cost) : Prop := round24 c.units = c.units ∧ c.units ≤ 2 ^ 48

/-- What every search keeps of the parent links, on a board of any size: the
start cell has cost `0` and no parent; a parent is a walkable 8-neighbour whose
cost is at most the cost of the child, and whose cost plus the step, added as
the program adds them, is at most the cost of the child; and the cells can be
ranked so that every parent ranks below its child. -/
structure ChainInv (g : Game) : Prop where
  start_cost : (g.board g.start).gCost = Cost.zero
  start_parent : (g.board g.start).parent = none
  parent_le : ∀ c p, InBounds g c → (g.board c).parent = some p →
    (g.board p).gCost.units ≤ (g.board c).gCost.units
  parent_step : ∀ c p, InBounds g c → (g.board c).parent = some p →
    Walkable g p ∧ Adjacent p c ∧
    ((g.board p).gCost.add (Game.getChessBoardDistance g p c)).units
      ≤ (g.board c).gCost.units
  ranked : ∃ rank : Position → Nat, ∀ c p, InBounds g c → (g.board c).parent = some p →
    rank p < rank c

/-- Every cost of a cell of the board is one that a binary32 number holds. -/
def FloatInv (g : Game) : Prop := ∀ c, InBounds g c → (g.board c).gCost.IsFloat

/-- The cells of two game states carry the same g-costs and parents. -/
def SameCosts (g g' : Game) : Prop :=
  ∀ p, (g'.board p).gCost = (g.board p).gCost ∧ (g'.board p).parent = (g.board p).parent

/-- The cells of two game states carry the same explored flags. -/
def SameExplored (g g' : Game) : Prop :=
  ∀ p, (g'.board p).explored = (g.board p).explored

/-- The list `l` starts at `c`, follows the parent links of `g` and ends at
the start cell. -/
inductive IsChain (g : Game) : Position → List Position → Prop where
  | start : IsChain g g.start [g.start]
  | link (c p : Position) (l : List Position) :
      c ≠ g.start → (g.board c).parent = some p → IsChain g p l → IsChain g c (c :: l)

/-- The list `l` starts at `c`, follows the parent links of `g` and ends at
the start cell or at a cell without parent: the cells the loop of
`retracePath` runs through. -/
inductive IsTrace (g : Game) : Position → List Position → Prop where
  | stop (c : Position) : (c = g.start ∨ (g.board c).parent = none) → IsTrace g c [c]
  | link (c p : Position) (l : List Position) :
      c ≠ g.start → (g.board c).parent = some p → IsTrace g p l → IsTrace g c (c :: l)

/-- Two game states differ at most in g-costs, h-costs and parents. -/
structure CostOnly (g g' : Game) : Prop where
  same : SameGrid g g'
  explored : SameExplored g g'
  visited : ∀ p, (g'.board p).visited = (g.board p).visited
  result : g'.result = g.result

/-- The invariant of the four frontier searches at the head of the loop, for
the frontier `Q`, the set `open_` and the list `cl` of the cells expanded so
far, on the grid of the state `g0` the run started from. -/
structure SearchInv (g0 g : Game) (Q open_ cl : List Position) : Prop where
  same : SameGrid g0 g
  q_nodup : Q.Nodup
  cl_nodup : cl.Nodup
  disj : ∀ p ∈ cl, p ∉ Q
  q_ok : ∀ p ∈ Q, Walkable g0 p ∧ Reach g0 g0.start p
  cl_ok : ∀ p ∈ cl, Walkable g0 p ∧ Reach g0 g0.start p
  cl_explored : ∀ p ∈ cl, (g.board p).explored = true
  open_iff : (∀ p, p ∈ open_ ↔ p ∈ Q) ∨ (Q = [g0.start] ∧ open_ = [] ∧ cl = [])
  explored_cl : ∀ p, InBounds g0 p → (g.board p).explored = true →
    p ∈ cl ∨ (p = g0.start ∧ p ∈ Q)
  closed : ∀ p ∈ cl, ∀ q, Adjacent p q → Walkable g0 q → q ∈ cl ∨ q ∈ Q
  start_seen : g0.start ∈ cl ∨ g0.start ∈ Q
  end_open : g0.end_ ∉ cl
  count : g.result.search_cost = wrapInt (cl.length : Int)

/-- The invariant shared by the frontier searches at the head of their loop.
The part on rooted cells needs a board small enough for every cost to stay
below the sentinel `100000`. -/
structure LoopInv (g0 g : Game) (Q open_ cl : List Position) : Prop where
  search : SearchInv g0 g Q open_ cl
  weak : ChainInv g
  strong : g0.size ≤ 200 → ParentInv g cl.length ∧ ∀ p ∈ Q, Rooted g p
  path0 : g.result.path_cost = 0
  unvisited : ∀ p, InBounds g0 p → (g.board p).visited = false

/-- What a search has established when it returns `b` in the state `g'`, on
the grid of the state `g0` it started from.  The facts on the parent chain
need a board small enough for every cost to stay below the sentinel. -/
structure SearchPost (g0 : Game) (b : Bool) (g' : Game) : Prop where
  same : SameGrid g0 g'
  status : (b = true → Succeeded g') ∧ (b = false → Failed g')
  reach : b = true ↔ Reach g0 g0.start g0.end_
  weak : ChainInv g'
  parents : g0.size ≤ 200 → ∃ K, ParentInv g' K
  chain : g0.size ≤ 200 → b = true → ∃ l, IsChain g' g0.end_ l ∧ (∀ x ∈ l, Walkable g0 x) ∧
    l.Chain' (fun a b => Adjacent b a) ∧ l.Nodup ∧
    g'.result.path_cost = ((l.length - 2 : Nat) : Int) + 1 ∧
    (∀ p, InBounds g0 p → (g'.board p).visited = decide (p ∈ l.tail.dropLast))
  expanded : b = false → ∃ cl : List Position, cl.Nodup ∧
    (∀ p, p ∈ cl ↔ Reach g0 g0.start p) ∧
    g'.result.search_cost = wrapInt (cl.length : Int) ∧
    (∀ p, InBounds g0 p → ((g'.board p).explored = true ↔ p ∈ cl))

/-- The push loop body shared by `bestFirstSearch` and
`greedyBestFirstSearch`, for a comparator `comp`. -/
def pqPush (comp : Game → Position → Position → Bool) (g : Game)
    (s : List Position × List Position) (n : Position) : List Position × List Position :=
  if !NodeHandle.isWalkable g n || decide (n ∈ s.2) || NodeHandle.isExplored g n then s
  else (heapPush (comp g) s.1 n, setInsert s.2 n)

/-- The loop shared by `bestFirstSearch` and `greedyBestFirstSearch`, for a
comparator `comp`. -/
def pqLoop (comp : Game → Position → Position → Bool) (pathFuel : Nat) :
    Nat → Game → List Position → List Position → Option (Bool × Game)
  | 0, _, _, _ => none
  | fuel + 1, g, que, open_ =>
    match que with
    | [] => some (false, Game.setFailure g)
    | curr :: _ =>
      let que := heapPop (comp g) que
      let open_ := setErase open_ curr
      let g := NodeHandle.markAsExplored g curr true
      let g := Game.incSearchCost g
      if curr = g.end_ then
        match Game.retracePath pathFuel g with
        | none => none
        | some g => some (true, Game.setSuccess g)
      else
        let g := Game.updateNeighbourCost g curr
        let neighbours := Game.getNeighbours g curr
        let s := neighbours.foldl (pqPush comp g) (que, open_)
        pqLoop comp pathFuel fuel g s.1 s.2

/-- Every parent of a cell of the board is flagged explored. -/
def ParentsExplored (g : Game) : Prop :=
  ∀ c p, InBounds g c → (g.board c).parent = some p → (g.board p).explored = true

/-- The invariant of the neighbour loop of `aStarSearch` while it expands
`curr`, relative to the state `g1` at the start of the loop. -/
structure RelaxInv (g1 : Game) (K : Nat) (curr : Position)
    (s : Game × List Position × List Position) : Prop where
  parents : ParentInv s.1 K
  costOnly : CostOnly g1 s.1
  parentsExplored : ParentsExplored s.1
  curr_cost : (s.1.board curr).gCost = (g1.board curr).gCost
  curr_rooted : Rooted s.1 curr
  open_rooted : ∀ p ∈ s.2.2, Rooted s.1 p

/-- The part of the invariant of the neighbour loop of `aStarSearch` that
holds on boards of every size. -/
structure RelaxWeak (g1 : Game) (curr : Position)
    (s : Game × List Position × List Position) : Prop where
  weak : ChainInv s.1
  float : FloatInv s.1
  costOnly : CostOnly g1 s.1
  parentsExplored : ParentsExplored s.1
  curr_cost : (s.1.board curr).gCost = (g1.board curr).gCost

/-- The state in which `findPath` starts a search: a well-formed game whose
explored and visited flags, parents and costs are cleared, with the cost of the
start cell `0` and zeroed statistics. -/
structure ResetState (g0 : Game) : Prop where
  wf : WellFormed g0
  explored : ∀ p, InBounds g0 p → (g0.board p).explored = false
  visited : ∀ p, InBounds g0 p → (g0.board p).visited = false
  parent : ∀ p, InBounds g0 p → (g0.board p).parent = none
  cost : ∀ p, InBounds g0 p →
    (g0.board p).gCost = if p = g0.start then Cost.zero else Cost.sentinel
  search_cost : g0.result.search_cost = 0
  path_cost : g0.result.path_cost = 0

/-- The invariant of `depthFirstSearch` between calls, for the list `cl` of
the cells entered so far. -/
structure DfsInv (g0 g : Game) (cl : List Position) : Prop where
  same : SameGrid g0 g
  cl_nodup : cl.Nodup
  cl_ok : ∀ p ∈ cl, Walkable g0 p ∧ Reach g0 g0.start p
  explored_iff : ∀ p, InBounds g0 p → ((g.board p).explored = true ↔ p ∈ cl)
  end_open : g0.end_ ∉ cl
  count : g.result.search_cost = wrapInt (cl.length : Int)
  weak : WeakParentInv g
  strong : g0.size ≤ 200 → ParentInv g cl.length
  path0 : g.result.path_cost = 0
  unvisited : ∀ p, InBounds g0 p → (g.board p).visited = false

/-- What a call of `depthFirstSearch` or its neighbour loop has established
when it returns `b` in the state `g'`, having started with the entered cells
`cl` in the state `g`: either the search succeeded, or the invariant holds for
a longer list of entered cells, which contains the cells `must` and in which
every new cell has all its walkable neighbours. -/
def DfsPost (g0 g : Game) (cl must : List Position) (b : Bool) (g' : Game) : Prop :=
  (b = true ∧ SearchPost g0 true g') ∨
  (b = false ∧ ∃ cl' : List Position, DfsInv g0 g' cl' ∧ (∀ p ∈ cl, p ∈ cl') ∧
    (∀ p ∈ must, p ∈ cl') ∧ Failed g' ∧
    (∀ p ∈ cl', p ∉ cl → ∀ q, Adjacent p q → Walkable g0 q → q ∈ cl') ∧
    (∀ c, Rooted g c → Rooted g' c))

/-- What `retracePath` leaves unchanged. -/
structure RetraceFrame (g g' : Game) : Prop where
  same : SameGrid g g'
  costs : SameCosts g g'
  explored : SameExplored g g'
  status : g'.result.status = g.result.status
  search_cost : g'.result.search_cost = g.result.search_cost
  algorithm : g'.result.algorithm = g.result.algorithm

/-- The effect of `markAsExplored` and `incSearchCost`, in either order. -/
structure Marked (g g1 : Game) (curr : Position) : Prop where
  same : SameGrid g g1
  costs : SameCosts g g1
  explored : ∀ p, (g1.board p).explored = true ↔ ((g.board p).explored = true ∨ p = curr)
  visited : ∀ p, (g1.board p).visited = (g.board p).visited
  count : g1.result.search_cost = wrapInt (g.result.search_cost + 1)
  path : g1.result.path_cost = g.result.path_cost

/-- The state in which `findPath` runs the chosen search. -/
def resetFor (g : Game) (algo : String) : Game :=
  { ({ Game.clearBuffer g BUFFER_ALL_BIT with
        result := (Game.clearBuffer g BUFFER_ALL_BIT).result.reset } : Game) with
    result := ((Game.clearBuffer g BUFFER_ALL_BIT).result.reset).setAlgorithm algo }

/-! ## Example grids -/


/-- A game on a board of side `size` whose walls are the cells `walls`, with
the given start and end cells and otherwise as `Game::Game` builds it. -/
def Game.onGrid (size : Int) (walls : List Position) (start end_ : Position) : Game :=
  { board := fun p => { Node.new p with is_walkable := !(walls.contains p) }
    size := size
    curser := { row := size / 2, col := size / 2 }
    start := start
    end_ := end_
    curserMode := CurserMode.SELECT
    result := Result.new }

/-- A board of side 5 with walls at (1,1) and (1,2), start (4,0) and end
(0,2). -/
def exampleDetour : Game :=
  Game.onGrid 5 [{ row := 1, col := 1 }, { row := 1, col := 2 }]
    { row := 4, col := 0 } { row := 0, col := 2 }

/-- A board of side 3 with start (0,0) and end (2,2), whose end cell is
enclosed by the walls (1,1), (1,2) and (2,1). -/
def exampleEnclosed : Game :=
  Game.onGrid 3 [{ row := 1, col := 1 }, { row := 1, col := 2 }, { row := 2, col := 1 }]
    { row := 0, col := 0 } { row := 2, col := 2 }

/-- A board of side 4 with one wall at (1,1), start (0,0) and end (3,3). -/
def exampleOpen : Game :=
  Game.onGrid 4 [{ row := 1, col := 1 }] { row := 0, col := 0 } { row := 3, col := 3 }

/-- The parent chain from the end cell after one round of `findPath`. -/
def chainAfter (fuel : Nat) (g : Game) (choice : Char) : Option (List Position) :=
  (Game.findPath fuel g choice).bind (fun g' => parentChain fuel g' g'.end_)

/-- The status reported by one round of `findPath`. -/
def statusAfter (fuel : Nat) (g : Game) (choice : Char) : Option String :=
  (Game.findPath fuel g choice).map (fun g' => g'.result.status)

/-! ## Runs on two states of one grid -/


/-- Two game states agree in what a search reads and in what it reports: the
static part, the statistics, and on every cell of the board the explored and
visited flags, the parent and the g-cost.  The stored h-cost, which
`clearBuffer` does not clear and no search reads, and the cells off the board
are left out. -/
structure Agree (g h : Game) : Prop where
  same : SameGrid g h
  result : h.result = g.result
  explored : ∀ p, InBounds g p → (h.board p).explored = (g.board p).explored
  visited : ∀ p, InBounds g p → (h.board p).visited = (g.board p).visited
  parent : ∀ p, InBounds g p → (h.board p).parent = (g.board p).parent
  gCost : ∀ p, InBounds g p → (h.board p).gCost = (g.board p).gCost

/-- The parent of every cell of the board is a cell of the board. -/
def ParentsIn (g : Game) : Prop :=
  ∀ c p, InBounds g c → (g.board c).parent = some p → InBounds g p

/-- Two runs of a search on a board of side `n` end alike: both run out of
fuel, or both return, with the same answer, in states that agree, the parents
of the first staying on the board. -/
def AgreeRun (n : Int) : Option (Bool × Game) → Option (Bool × Game) → Prop
  | none, none => True
  | some a, some b => a.1 = b.1 ∧ Agree a.2 b.2 ∧ ParentsIn a.2 ∧ a.2.size = n
  | _, _ => False

/-- Two runs that return a state only end alike. -/
def AgreeOpt (n : Int) : Option Game → Option Game → Prop
  | none, none => True
  | some a, some b => Agree a b ∧ ParentsIn a ∧ a.size = n
  | _, _ => False

/-! ## Counting cells and recorded calls, for the binary32 model -/


/-- The number of cells of the board flagged visited. -/
def visitedCount (g : Game) : Nat :=
  ((boardCells g.size.toNat).filter fun p => (g.board p).visited).length

/-- A board of side 3 with walls at (0,0) and (0,2), start (1,2) and end
(2,0). -/
def exampleCorner : Game :=
  Game.onGrid 3 [{ row := 0, col := 0 }, { row := 0, col := 2 }]
    { row := 1, col := 2 } { row := 2, col := 0 }

/-- The `for` loop of `depthFirstSearch` with the active calls recorded: the
result of a call is the list of the cells of the calls active when the end
cell is reached, or `none` when the call returns `false`. -/
def dfsNeighboursCalls (call : Game → Position → Option (Option (List Position) × Game)) :
    List Position → Game → Option (Option (List Position) × Game)
  | [], g => some (none, Game.setFailure g)
  | n :: rest, g =>
    if !NodeHandle.isWalkable g n || NodeHandle.isExplored g n then
      dfsNeighboursCalls call rest g
    else
      match call g n with
      | none => none
      | some (some calls, g) => some (some calls, g)
      | some (none, g) => dfsNeighboursCalls call rest g

/-- The function `depthFirstSearch` with the active calls recorded: when the
end cell is reached the result lists the cells of the calls active at that
moment, the outermost call first. -/
def depthFirstCalls (pathFuel : Nat) :
    Nat → Game → Position → Option (Option (List Position) × Game)
  | 0, _, _ => none
  | fuel + 1, g, curr =>
    let g := NodeHandle.markAsExplored g curr true
    let g := Game.incSearchCost g
    if curr = g.end_ then
      match Game.retracePath pathFuel g with
      | none => none
      | some g => some (some [curr], Game.setSuccess g)
    else
      let g := Game.updateNeighbourCost g curr
      let neighbours := Game.getNeighbours g curr
      match dfsNeighboursCalls (depthFirstCalls pathFuel fuel) neighbours g with
      | none => none
      | some (some calls, g) => some (some (curr :: calls), g)
      | some (none, g) => some (none, g)

/-- The cells of the calls of `depthFirstSearch` active when the end cell is
reached, in the run `findPath` starts for the key `1`. -/
def callsAfter (fuel : Nat) (g : Game) : Option (List Position) :=
  (depthFirstCalls fuel fuel (resetFor g "Depth First Search")
    (resetFor g "Depth First Search").start).bind fun r => r.1

/-- The parent of the cell `c` after one round of `findPath`, the g-cost of
`c` in units, and the exact sum, in units, of the g-cost of the parent and the
step from the parent to `c`. -/
def linkAfter (fuel : Nat) (g : Game) (choice : Char) (c : Position) :
    Option (Option Position × Nat × Nat) :=
  (Game.findPath fuel g choice).map fun g' =>
    ((g'.board c).parent, (g'.board c).gCost.units,
      match (g'.board c).parent with
      | none => 0
      | some p => (g'.board p).gCost.units + (Game.getChessBoardDistance g' p c).units)

/-! ## Layers of a breadth-first search -/


/-- The cell `v` is reached from `a` by `n` moves. -/
inductive Moves (g : Game) (a : Position) : Nat → Position → Prop where
  | refl : Moves g a 0 a
  | tail (n : Nat) (u v : Position) : Moves g a n u → Step g u v → Moves g a (n + 1) v

/-- An upper bound, in units, of what one relaxation adds to a cost below the
sentinel: `sqrt(2.0f)` and the rounding of the sum. -/
def stepMost : Nat := 11896051

/-- A lower bound, in units, of what one relaxation adds to a cost below the
sentinel: `1` less the rounding of the sum. -/
def stepLeast : Nat := 8355840

/-- The invariant of `breadthFirstSearch` on the number of moves: with a layer
`lay` assigned to every cell met so far, the queue `Q` is sorted by layer and
spans at most two layers, the cost of a cell met is at most its layer times
the most one step adds, and no cell met is reached from the start cell by
fewer moves than its layer. -/
structure BfsLayers (g0 g : Game) (Q cl : List Position) (lay : Position → Nat) : Prop where
  sorted : Q.Pairwise (fun a b => lay a ≤ lay b)
  near : ∀ q ∈ Q, ∀ r ∈ Q, lay r ≤ lay q + 1
  cost : ∀ v, v ∈ Q ∨ v ∈ cl → (g.board v).gCost.units ≤ lay v * stepMost
  least : ∀ v, v ∈ Q ∨ v ∈ cl → ∀ n, Moves g0 g0.start n v → lay v ≤ n

/-! ## Step costs as the specification words them -/


/-- Whether the step between two cells changes both coordinates. -/
def isDiagonal (a b : Position) : Bool := decide (a.row ≠ b.row) && decide (a.col ≠ b.col)

/-- The number of straight steps of a sequence of cells, each of cost `1`. -/
def straightSteps : List Position → Nat
  | [] => 0
  | [_] => 0
  | a :: b :: l => (if isDiagonal a b then 0 else 1) + straightSteps (b :: l)

/-- The number of diagonal steps of a sequence of cells, each of cost
`sqrt 2`. -/
def diagonalSteps : List Position → Nat
  | [] => 0
  | [_] => 0
  | a :: b :: l => (if isDiagonal a b then 1 else 0) + diagonalSteps (b :: l)

/-- The number of straight moves of a shortest route of the king between two
cells: the difference of the two coordinate distances. -/
def straightPart (a b : Position) : Nat :=
  (((b.row - a.row).natAbs : Int) - ((b.col - a.col).natAbs : Int)).natAbs

/-- The number of diagonal moves of a shortest route of the king between two
cells: the smaller of the two coordinate distances. -/
def diagonalPart (a b : Position) : Nat :=
  min (b.row - a.row).natAbs (b.col - a.col).natAbs

/-- The cost that a search accumulates along a sequence of cells, starting
with the cost `c` at its first cell: each step adds in binary32, as
`updateNeighbourCost` does, `sqrt(2.0f)` when it is diagonal and `1` when it is
straight. -/
def accumulatedCost : Cost → List Position → Cost
  | c, [] => c
  | c, [_] => c
  | c, a :: b :: l =>
    accumulatedCost (c.add (if isDiagonal a b then Cost.sqrt2 else Cost.ofNat 1)) (b :: l)

/-- The board of side 30 that `main` builds, without walls, with start (0,0)
and end (26,16). -/
def exampleWide : Game :=
  Game.onGrid 30 [] { row := 0, col := 0 } { row := 26, col := 16 }

/-- The board of side 30 that `main` builds, without walls, with start (0,0)
and end (29,3). -/
def exampleFar : Game :=
  Game.onGrid 30 [] { row := 0, col := 0 } { row := 29, col := 3 }

/-- A board of side 4 without walls, with start (0,0) and end (3,3). -/
def exampleDiagonal : Game :=
  Game.onGrid 4 [] { row := 0, col := 0 } { row := 3, col := 3 }

end Binary32

/-! ## Basic facts about cell updates -/


@[simp] theorem setNode_board_self (g : Game) (h : Position) (n : Node) :
    (g.setNode h n).board h = n := by
  simp [Game.setNode]

theorem setNode_board (g : Game) (h : Position) (n : Node) (q : Position) :
    (g.setNode h n).board q = if q = h then n else g.board q := rfl

@[simp] theorem setNode_board_ne (g : Game) (h : Position) (n : Node) (q : Position)
    (hq : q ≠ h) : (g.setNode h n).board q = g.board q := by
  simp [Game.setNode, hq]

theorem setNode_setNode (g : Game) (h : Position) (n m : Node) :
    (g.setNode h n).setNode h m = g.setNode h m := by
  unfold Game.setNode
  congr 1
  funext q
  by_cases hq : q = h <;> simp [hq]

/-! ## Edits of the wall state -/


theorem insertWall_anchor (g : Game) (h : Position) (hh : h = g.start ∨ h = g.end_) :
    NodeHandle.insertWall g h = g := by
  unfold NodeHandle.insertWall
  rcases hh with rfl | rfl <;> simp

theorem insertWall_other (g : Game) (h : Position) (h1 : h ≠ g.start) (h2 : h ≠ g.end_) :
    NodeHandle.insertWall g h = g.setNode h { g.board h with is_walkable := false } := by
  unfold NodeHandle.insertWall
  rw [if_pos ⟨fun e => h1 e.symm, fun e => h2 e.symm⟩]

/-! ## `clearBuffer` -/


theorem clearCell_all (g : Game) (p : Position) :
    Game.clearCell BUFFER_ALL_BIT g p = g.setNode p (g.board p).cleared := by
  have e1 : BUFFER_ALL_BIT &&& BUFFER_BIT_EXPLORED ≠ 0 := by decide
  have e2 : BUFFER_ALL_BIT &&& BUFFER_BIT_VISITED ≠ 0 := by decide
  have e3 : BUFFER_ALL_BIT &&& BUFFER_BIT_COST ≠ 0 := by decide
  have e4 : BUFFER_ALL_BIT &&& BUFFER_BIT_PARENT ≠ 0 := by decide
  unfold Game.clearCell
  simp only [e1, e2, e3, e4, ne_eq, not_false_eq_true, if_true, NodeHandle.markAsExplored,
    NodeHandle.markAsVisited, NodeHandle.setGCost, NodeHandle.setParent, setNode_setNode,
    setNode_board_self, Node.cleared]

/-- Clearing a list of cells one after the other. -/
theorem foldl_clearCell (L : List Position) (g : Game) :
    L.foldl (Game.clearCell BUFFER_ALL_BIT) g =
      { g with board := fun p => if p ∈ L then (g.board p).cleared else g.board p } := by
  induction L generalizing g with
  | nil => simp
  | cons a L ih =>
    rw [List.foldl_cons, ih, clearCell_all]
    unfold Game.setNode
    congr 1
    funext p
    by_cases hpa : p = a
    · subst hpa
      by_cases hpL : p ∈ L <;> simp [hpL, Node.cleared]
    · by_cases hpL : p ∈ L <;> simp [hpL, hpa]

theorem mem_boardCells (n : Nat) (p : Position) :
    p ∈ boardCells n ↔ 0 ≤ p.row ∧ p.row < n ∧ 0 ≤ p.col ∧ p.col < n := by
  unfold boardCells
  simp only [List.mem_flatMap, List.mem_map, List.mem_range]
  constructor
  · rintro ⟨i, hi, j, hj, rfl⟩
    simp only [Int.ofNat_eq_coe]
    omega
  · rintro ⟨h1, h2, h3, h4⟩
    refine ⟨p.row.toNat, by omega, p.col.toNat, by omega, ?_⟩
    cases p with
    | mk r c =>
      simp only at h1 h2 h3 h4 ⊢
      rw [Int.ofNat_eq_coe, Int.ofNat_eq_coe, Int.toNat_of_nonneg h1, Int.toNat_of_nonneg h3]

theorem mem_boardCells_iff (g : Game) (p : Position) :
    p ∈ boardCells g.size.toNat ↔ InBounds g p := by
  rw [mem_boardCells]
  unfold InBounds
  constructor
  · rintro ⟨h1, h2, h3, h4⟩
    refine ⟨h1, ?_, h3, ?_⟩ <;> omega
  · rintro ⟨h1, h2, h3, h4⟩
    refine ⟨h1, ?_, h3, ?_⟩ <;> omega

theorem clearLoops_eq (g : Game) (n : Nat) (hn : n = g.size.toNat) :
    (List.range n).foldl
      (fun g i => (List.range g.size.toNat).foldl
        (fun g j => Game.clearCell BUFFER_ALL_BIT g { row := Int.ofNat i, col := Int.ofNat j }) g) g
      = (boardCells n).foldl (Game.clearCell BUFFER_ALL_BIT) g := by
  unfold boardCells
  rw [List.flatMap, List.foldl_flatten, List.foldl_map]
  have key : ∀ (L : List Nat) (g : Game), n = g.size.toNat →
      L.foldl (fun g i => (List.range g.size.toNat).foldl
        (fun g j => Game.clearCell BUFFER_ALL_BIT g { row := Int.ofNat i, col := Int.ofNat j }) g) g
      = L.foldl (fun g i => ((List.range n).map fun j =>
          ({ row := Int.ofNat i, col := Int.ofNat j } : Position)).foldl
            (Game.clearCell BUFFER_ALL_BIT) g) g := by
    intro L
    induction L with
    | nil => intro g _; rfl
    | cons i L ih =>
      intro g hg
      rw [List.foldl_cons, List.foldl_cons]
      have e : (List.range g.size.toNat).foldl
          (fun g j => Game.clearCell BUFFER_ALL_BIT g { row := Int.ofNat i, col := Int.ofNat j }) g
          = ((List.range n).map fun j =>
            ({ row := Int.ofNat i, col := Int.ofNat j } : Position)).foldl
              (Game.clearCell BUFFER_ALL_BIT) g := by
        rw [List.foldl_map, hg]
      rw [e]
      apply ih
      rw [foldl_clearCell]
      exact hg
  exact key _ g hn

theorem clearBuffer_eq (g : Game) :
    Game.clearBuffer g BUFFER_ALL_BIT =
      NodeHandle.setGCost
        { g with board := fun p => if InBounds g p then (g.board p).cleared else g.board p }
        g.start Cost.zero := by
  unfold Game.clearBuffer
  simp only
  rw [clearLoops_eq g _ rfl, foldl_clearCell]
  have : (fun p => if p ∈ boardCells g.size.toNat then (g.board p).cleared else g.board p)
      = (fun p => if InBounds g p then (g.board p).cleared else g.board p) := by
    funext p
    simp only [mem_boardCells_iff]
  rw [this]

/-! ## Costs as real numbers -/

namespace Cost


theorem sqrt_two_mul_self : Real.sqrt 2 * Real.sqrt 2 = 2 :=
  Real.mul_self_sqrt (by norm_num)

theorem sqrt_two_pos : 0 < Real.sqrt 2 := Real.sqrt_pos.mpr (by norm_num)

theorem one_lt_sqrt_two : 1 < Real.sqrt 2 := by
  have h := sqrt_two_mul_self
  have hp := sqrt_two_pos
  nlinarith

theorem sqrt_two_lt_two : Real.sqrt 2 < 2 := by
  have h := sqrt_two_mul_self
  have hp := sqrt_two_pos
  nlinarith

@[simp] theorem toReal_zero : Cost.zero.toReal = 0 := by
  simp [zero, toReal]

@[simp] theorem toReal_sentinel : Cost.sentinel.toReal = 100000 := by
  simp [sentinel, toReal]

/-- A cost made of at most `50000` steps is below the sentinel. -/
theorem toReal_lt_sentinel (a : Cost) (h : a.straight + a.diag ≤ 50000) :
    a.toReal < 100000 := by
  unfold toReal
  have hs := sqrt_two_lt_two
  have h0 := sqrt_two_pos
  have h1 : (a.straight : ℝ) + (a.diag : ℝ) ≤ 50000 := by exact_mod_cast h
  have h2 : (0 : ℝ) ≤ a.straight := Nat.cast_nonneg _
  have h3 : (0 : ℝ) ≤ a.diag := Nat.cast_nonneg _
  nlinarith

end Cost

/-! ## The heap operations keep the contents of the vector -/


theorem boole_getElem_le_count (l : List Position) (i : Nat) (h : i < l.length) (b : Position) :
    (if l[i] == b then 1 else 0) ≤ l.count b := by
  induction l generalizing i with
  | nil => simp at h
  | cons x l ih =>
    cases i with
    | zero =>
      simp only [List.getElem_cons_zero, List.count_cons]
      split <;> omega
    | succ i =>
      simp only [List.length_cons, Nat.add_lt_add_iff_right] at h
      simp only [List.getElem_cons_succ, List.count_cons]
      have := ih i h
      omega

/-- Moving the element at `j` into the hole at `i` and filling `j` gives the
same contents as filling `i`. -/
theorem set_set_perm (a : List Position) (i j : Nat) (hi : i < a.length) (hj : j < a.length)
    (hij : i ≠ j) (d v : Position) :
    ((a.set i (a.getD j d)).set j v).Perm (a.set i v) := by
  rw [List.perm_iff_count]
  intro b
  have hj2 : j < (a.set i (a.getD j d)).length := by simpa using hj
  rw [List.count_set _ _ _ _ hj2, List.count_set _ _ _ _ hi, List.count_set _ _ _ _ hi]
  have e1 : (a.set i (a.getD j d))[j] = a[j] := by
    rw [List.getElem_set_ne hij]
  rw [e1, List.getD_eq_getElem _ _ hj]
  have h1 := boole_getElem_le_count a i hi b
  have h2 := boole_getElem_le_count a j hj b
  omega

theorem set_getD_self (a : List Position) (i : Nat) (hi : i < a.length) (d : Position) :
    a.set i (a.getD i d) = a := by
  rw [List.getD_eq_getElem _ _ hi]
  apply List.ext_getElem?
  intro k
  by_cases hk : i = k
  · subst hk
    rw [List.getElem?_set_self hi, List.getElem?_eq_getElem hi]
  · rw [List.getElem?_set_ne hk]

theorem pushHeapLoop_length (comp : Position → Position → Bool) (value : Position)
    (top fuel : Nat) (a : List Position) (hole : Nat) :
    (pushHeapLoop comp value top fuel a hole).length = a.length := by
  induction fuel generalizing a hole with
  | zero => simp [pushHeapLoop]
  | succ fuel ih =>
    unfold pushHeapLoop
    simp only
    split
    · rw [ih]; simp
    · simp

theorem pushHeapLoop_perm (comp : Position → Position → Bool) (value : Position)
    (top fuel : Nat) (a : List Position) (hole : Nat) (hh : hole < a.length) :
    (pushHeapLoop comp value top fuel a hole).Perm (a.set hole value) := by
  induction fuel generalizing a hole with
  | zero => simp [pushHeapLoop]
  | succ fuel ih =>
    unfold pushHeapLoop
    simp only
    split
    · rename_i hc
      have hp : (hole - 1) / 2 < hole := by omega
      have hp2 : (hole - 1) / 2 < a.length := by omega
      refine (ih _ _ (by simpa using hp2)).trans ?_
      exact set_set_perm a hole ((hole - 1) / 2) hh hp2 (by omega) value value
    · exact List.Perm.refl _

/-- The loop of `std::__push_heap` writes at the hole and above it only. -/
theorem pushHeapLoop_frame (comp : Position → Position → Bool) (value : Position)
    (top fuel : Nat) (a : List Position) (hole k : Nat) (hk : hole < k) :
    (pushHeapLoop comp value top fuel a hole)[k]? = a[k]? := by
  induction fuel generalizing a hole with
  | zero =>
    simp only [pushHeapLoop]
    rw [List.getElem?_set_ne (by omega)]
  | succ fuel ih =>
    unfold pushHeapLoop
    simp only
    split
    · rw [ih _ _ (by omega), List.getElem?_set_ne (by omega)]
    · rw [List.getElem?_set_ne (by omega)]

theorem heapPush_perm (comp : Position → Position → Bool) (a : List Position) (x : Position) :
    (heapPush comp a x).Perm (x :: a) := by
  unfold heapPush pushHeap
  simp only
  have hl : (a ++ [x]).length - 1 < (a ++ [x]).length := by simp
  refine (pushHeapLoop_perm _ _ _ _ _ _ hl).trans ?_
  rw [set_getD_self _ _ hl]
  exact List.perm_append_singleton x a

theorem adjustHeapLoop_spec (comp : Position → Position → Bool) (len fuel : Nat)
    (a : List Position) (hole : Nat) (hlen : len ≤ a.length) (hh : hole < len ∨ len = 0) :
    let r := adjustHeapLoop comp len fuel a hole hole
    r.1.length = a.length ∧ r.2.1 = r.2.2 ∧ (r.2.1 < len ∨ len = 0) ∧
    (∀ v, (r.1.set r.2.1 v).Perm (a.set hole v)) ∧
    (∀ k, len ≤ k → r.1[k]? = a[k]?) := by
  induction fuel generalizing a hole with
  | zero =>
    unfold adjustHeapLoop
    exact ⟨rfl, rfl, hh, fun v => List.Perm.refl _, fun k _ => rfl⟩
  | succ fuel ih =>
    unfold adjustHeapLoop
    simp only
    split
    · rename_i hc
      -- the chosen child
      generalize hsc : (if comp (a.getD (2 * (hole + 1)) default)
          (a.getD (2 * (hole + 1) - 1) default) = true
          then 2 * (hole + 1) - 1 else 2 * (hole + 1)) = sc
      have hsc1 : hole < sc := by
        rw [← hsc]; split <;> omega
      have hsc2 : sc < len := by
        rw [← hsc]; split <;> omega
      have hsc3 : sc < a.length := by omega
      have hh2 : hole < a.length := by omega
      have := ih (a.set hole (a.getD sc default)) sc (by simpa using hlen) (Or.inl hsc2)
      simp only at this
      obtain ⟨h1, h2, h3, h4, h5⟩ := this
      refine ⟨by rw [h1]; simp, h2, h3, ?_, ?_⟩
      · intro v
        refine (h4 v).trans ?_
        exact set_set_perm a hole sc hh2 hsc3 (by omega) default v
      · intro k hk
        rw [h5 k hk, List.getElem?_set_ne (by omega)]
    · exact ⟨rfl, rfl, hh, fun v => List.Perm.refl _, fun k _ => rfl⟩

theorem adjustHeap_spec (comp : Position → Position → Bool) (a : List Position) (len : Nat)
    (value : Position) (hlen : len ≤ a.length) (hpos : 0 < len) :
    (adjustHeap comp a 0 len value).length = a.length ∧
    (adjustHeap comp a 0 len value).Perm (a.set 0 value) ∧
    (∀ k, len ≤ k → (adjustHeap comp a 0 len value)[k]? = a[k]?) := by
  unfold adjustHeap
  simp only
  have hs := adjustHeapLoop_spec comp len len a 0 hlen (Or.inl hpos)
  simp only at hs
  generalize adjustHeapLoop comp len len a 0 0 = r at hs
  obtain ⟨a1, hole, sc⟩ := r
  simp only at hs
  obtain ⟨h1, h2, h3, h4, h5⟩ := hs
  subst h2
  have hhole : hole < len := by omega
  simp only
  split
  · rename_i hc
    have hidx : 2 * (hole + 1) - 1 < len := by omega
    have hne : hole ≠ 2 * (hole + 1) - 1 := by omega
    unfold pushHeap
    refine ⟨?_, ?_, ?_⟩
    · rw [pushHeapLoop_length]; simp [h1]
    · refine (pushHeapLoop_perm _ _ _ _ _ _ (by simp; omega)).trans ?_
      refine (set_set_perm a1 hole _ (by omega) (by omega) hne default value).trans ?_
      exact h4 value
    · intro k hk
      rw [pushHeapLoop_frame _ _ _ _ _ _ _ (by omega), List.getElem?_set_ne (by omega)]
      exact h5 k hk
  · unfold pushHeap
    refine ⟨?_, ?_, ?_⟩
    · rw [pushHeapLoop_length]; exact h1
    · refine (pushHeapLoop_perm _ _ _ _ _ _ (by omega)).trans ?_
      exact h4 value
    · intro k hk
      rw [pushHeapLoop_frame _ _ _ _ _ _ _ (by omega)]
      exact h5 k hk

/-- The call `priority_queue::pop` removes the front element and keeps all
the others. -/
theorem heapPop_perm (comp : Position → Position → Bool) (top : Position)
    (rest : List Position) :
    (top :: heapPop comp (top :: rest)).Perm (top :: rest) := by
  unfold heapPop
  split
  · rename_i hlen
    simp only [List.length_cons] at hlen
    set a := top :: rest with ha
    have hal : a.length = rest.length + 1 := by simp [ha]
    set last := a.length - 1 with hlast
    have hlast2 : last < a.length := by omega
    have hlast0 : 0 < last := by omega
    set a1 := a.set last (a.getD 0 default) with ha1
    have ha1l : a1.length = a.length := by simp [ha1]
    obtain ⟨h1, h2, h3⟩ := adjustHeap_spec comp a1 last (a.getD last default)
      (by omega) hlast0
    set R := adjustHeap comp a1 0 last (a.getD last default) with hR
    -- the last element of R is the old top
    have hRl : R.length = last + 1 := by omega
    have hRlast : R[last]? = some top := by
      rw [h3 last (le_refl _), ha1, List.getElem?_set_self hlast2]
      simp [ha]
    have hRne : R ≠ [] := by
      intro e; rw [e] at hRl; simp at hRl
    have hRsplit : R = R.dropLast ++ [top] := by
      have e1 := (List.dropLast_concat_getLast hRne).symm
      have e2 : R.getLast hRne = top := by
        rw [List.getLast_eq_getElem]
        have : R.length - 1 = last := by omega
        have h4 : R[R.length - 1]? = some top := by rw [this]; exact hRlast
        rw [List.getElem?_eq_getElem (by omega)] at h4
        exact Option.some.inj h4
      rw [e2] at e1
      exact e1
    -- R is a permutation of a
    have hRa : R.Perm a := by
      refine h2.trans ?_
      rw [ha1]
      have hsw := set_set_perm a last 0 hlast2 (by omega) (by omega) default (a.getD last default)
      refine hsw.trans ?_
      rw [set_getD_self _ _ hlast2]
    have : (top :: R.dropLast).Perm R := by
      conv_rhs => rw [hRsplit]
      exact (List.perm_append_singleton top R.dropLast).symm
    exact this.trans hRa
  · rename_i hlen
    simp only [List.length_cons, gt_iff_lt, not_lt] at hlen
    have : rest = [] := by
      cases rest with
      | nil => rfl
      | cons x xs => simp at hlen
    subst this
    simp

open Game

/-! ## Bounds, stored positions and neighbours -/


theorem isOutOfBounds_eq_false_iff (g : Game) (p : Position) :
    isOutOfBounds g p = false ↔ InBounds g p := by
  unfold isOutOfBounds InBounds
  constructor
  · intro h
    by_contra hc
    have : p.row < 0 ∨ p.col < 0 ∨ p.row ≥ g.size ∨ p.col ≥ g.size := by omega
    rw [if_pos this] at h
    exact absurd h (by simp)
  · intro h
    rw [if_neg (by omega)]

theorem PosOK.pos_eq {g : Game} (h : PosOK g) {p : Position} (hp : InBounds g p) :
    (g.board p).pos = p :=
  h p ((mem_boardCells_iff g p).mpr hp)

theorem Adjacent.symm {p q : Position} (h : Adjacent p q) : Adjacent q p := by
  unfold Adjacent at *
  obtain ⟨h1, h2, h3⟩ := h
  refine ⟨fun e => h1 e.symm, ?_, ?_⟩ <;> omega

theorem Adjacent.ne {p q : Position} (h : Adjacent p q) : p ≠ q := h.1

/-- The neighbours of a cell, read off the two loops of `getNeighbours`. -/
theorem mem_getNeighbours_raw (g : Game) (curr q : Position) :
    q ∈ getNeighbours g curr ↔
      Adjacent (g.board curr).pos q ∧ Walkable g q := by
  unfold getNeighbours NodeHandle.getPosition Node.isWalkable
  simp only [List.mem_flatMap, List.mem_filterMap, List.mem_cons, List.mem_singleton,
    List.not_mem_nil, or_false]
  constructor
  · rintro ⟨dx, hdx, dy, hdy, h⟩
    split at h
    · exact absurd h (by simp)
    · rename_i hz
      split at h
      · exact absurd h (by simp)
      · rename_i hob
        split at h
        · rename_i hw
          have hq : q = { row := (g.board curr).pos.row + dx, col := (g.board curr).pos.col + dy } :=
            (Option.some.inj h).symm
          have hin : InBounds g q := by
            rw [hq]
            exact (isOutOfBounds_eq_false_iff g _).mp (by simpa using hob)
          refine ⟨⟨?_, ?_, ?_⟩, hin, by rw [hq]; exact hw⟩
          · intro e
            rw [hq] at e
            have e1 := congrArg Position.row e
            have e2 := congrArg Position.col e
            simp only at e1 e2
            apply hz
            constructor <;> omega
          · rw [hq]; simp only
            rcases hdx with rfl | rfl | rfl <;> simp
          · rw [hq]; simp only
            rcases hdy with rfl | rfl | rfl <;> simp
        · exact absurd h (by simp)
  · rintro ⟨⟨hne, hr, hc⟩, hin, hw⟩
    refine ⟨q.row - (g.board curr).pos.row, by omega, q.col - (g.board curr).pos.col,
      by omega, ?_⟩
    have hz : ¬ (q.row - (g.board curr).pos.row = 0 ∧ q.col - (g.board curr).pos.col = 0) := by
      rintro ⟨e1, e2⟩
      apply hne
      cases q with
      | mk r c =>
        cases hp : (g.board curr).pos with
        | mk r' c' =>
          rw [hp] at e1 e2
          simp only at e1 e2
          congr 1 <;> omega
    have hq : ({ row := (g.board curr).pos.row + (q.row - (g.board curr).pos.row),
                 col := (g.board curr).pos.col + (q.col - (g.board curr).pos.col) } : Position)
        = q := by
      cases q with
      | mk r c => simp
    rw [if_neg hz, hq]
    have hob : isOutOfBounds g q = false := (isOutOfBounds_eq_false_iff g q).mpr hin
    simp [hob, hw]

theorem mem_getNeighbours {g : Game} (hpos : PosOK g) {curr : Position}
    (hc : InBounds g curr) (q : Position) :
    q ∈ getNeighbours g curr ↔ Adjacent curr q ∧ Walkable g q := by
  rw [mem_getNeighbours_raw, hpos.pos_eq hc]

/-! ## Game states with the same static part -/

theorem SameGrid.trans_sg {g1 g2 g3 : Game} (h12 : SameGrid g1 g2) (h23 : SameGrid g2 g3) :
    SameGrid g1 g3 :=
  ⟨h23.size.trans h12.size, h23.start.trans h12.start, h23.end_.trans h12.end_,
    fun p => (h23.walk p).trans (h12.walk p), fun p => (h23.pos p).trans (h12.pos p)⟩

theorem SameGrid.inBounds {g g' : Game} (h : SameGrid g g') (p : Position) :
    InBounds g' p ↔ InBounds g p := by
  unfold InBounds; rw [h.size]

theorem SameGrid.walkable {g g' : Game} (h : SameGrid g g') (p : Position) :
    Walkable g' p ↔ Walkable g p := by
  unfold Walkable; rw [h.inBounds, h.walk]

theorem SameGrid.posOK {g g' : Game} (h : SameGrid g g') (hp : PosOK g) : PosOK g' := by
  intro p hm
  rw [h.size] at hm
  rw [h.pos]
  exact hp p hm

theorem SameGrid.wellFormed {g g' : Game} (h : SameGrid g g') (hw : WellFormed g) :
    WellFormed g' :=
  ⟨h.posOK hw.posOK, by rw [h.inBounds, h.start]; exact hw.start_in,
    by rw [h.start, h.walk]; exact hw.start_walk⟩

theorem SameGrid.isOutOfBounds {g g' : Game} (h : SameGrid g g') (p : Position) :
    isOutOfBounds g' p = isOutOfBounds g p := by
  unfold Game.isOutOfBounds; rw [h.size]

theorem SameGrid.getNeighbours {g g' : Game} (h : SameGrid g g') (p : Position) :
    getNeighbours g' p = getNeighbours g p := by
  unfold Game.getNeighbours NodeHandle.getPosition Node.isWalkable
  simp only [h.pos, h.walk, h.isOutOfBounds]

theorem SameGrid.getChessBoardDistance {g g' : Game} (h : SameGrid g g') (p q : Position) :
    getChessBoardDistance g' p q = getChessBoardDistance g p q := by
  unfold Game.getChessBoardDistance NodeHandle.getPosition
  simp only [h.pos]

theorem sameGrid_result (g : Game) (r : Result) : SameGrid g { g with result := r } :=
  ⟨rfl, rfl, rfl, fun _ => rfl, fun _ => rfl⟩

/-! ## The cost of one step -/


theorem dist_adjacent_cases {g : Game} (hpos : PosOK g) {p c : Position}
    (hp : InBounds g p) (hc : InBounds g c) (hadj : Adjacent p c) :
    getChessBoardDistance g p c = { straight := 1, diag := 0 } ∨
    getChessBoardDistance g p c = { straight := 0, diag := 1 } := by
  unfold getChessBoardDistance NodeHandle.getPosition Position.sub
  rw [hpos.pos_eq hp, hpos.pos_eq hc]
  obtain ⟨hne, hr, hcl⟩ := hadj
  simp only
  have hne2 : ¬ ((c.row - p.row).natAbs = 0 ∧ (c.col - p.col).natAbs = 0) := by
    rintro ⟨e1, e2⟩
    apply hne
    cases p with
    | mk r1 c1 =>
      cases c with
      | mk r2 c2 =>
        simp only at e1 e2
        congr 1 <;> omega
  generalize (c.row - p.row).natAbs = dx at hr hne2
  generalize (c.col - p.col).natAbs = dy at hcl hne2
  have hx : dx = 0 ∨ dx = 1 := by omega
  have hy : dy = 0 ∨ dy = 1 := by omega
  rcases hx with rfl | rfl <;> rcases hy with rfl | rfl
  · exact absurd ⟨rfl, rfl⟩ hne2
  · left; rfl
  · left; rfl
  · right; rfl

theorem dist_adjacent_steps {g : Game} (hpos : PosOK g) {p c : Position}
    (hp : InBounds g p) (hc : InBounds g c) (hadj : Adjacent p c) :
    (getChessBoardDistance g p c).steps = 1 := by
  rcases dist_adjacent_cases hpos hp hc hadj with h | h <;> rw [h] <;> rfl

theorem Cost.steps_add (a b : Cost) : (a.add b).steps = a.steps + b.steps := by
  unfold Cost.add Cost.steps
  simp only
  omega

/-! ## The relaxation of one neighbour keeps the parent invariant -/


theorem Rooted.mono_rooted {g g' : Game} {c : Position} (hs : g'.start = g.start)
    (hp : ∀ p, (g.board c).parent = some p → ∃ p', (g'.board c).parent = some p')
    (h : Rooted g c) : Rooted g' c := by
  rcases h with h | ⟨p, h⟩
  · left; rw [hs]; exact h
  · right; exact hp p h

/-- Changing flags, h-costs or statistics keeps the parent invariant. -/
theorem ParentInv.transfer_pi {g g' : Game} {K : Nat} (hI : ParentInv g K)
    (hg : SameGrid g g') (hc : SameCosts g g') : ParentInv g' K := by
  have hroot : ∀ c, Rooted g c → Rooted g' c := fun c h =>
    Rooted.mono_rooted hg.start (fun p hp => ⟨p, by rw [(hc c).2]; exact hp⟩) h
  refine ⟨?_, ?_, ?_, ?_⟩
  · rw [hg.start, (hc _).1]; exact hI.start_cost
  · rw [hg.start, (hc _).2]; exact hI.start_parent
  · intro c hcin
    rw [hg.inBounds] at hcin
    rcases hI.fresh_or_rooted c hcin with h | h
    · left; rw [(hc c).1, (hc c).2]; exact h
    · right; rw [(hc c).1]; exact ⟨hroot c h.1, h.2⟩
  · intro c p hcin hpar
    rw [hg.inBounds] at hcin
    rw [(hc c).2] at hpar
    obtain ⟨h1, h2, h3, h4, h5⟩ := hI.parent_ok c p hcin hpar
    refine ⟨(hg.walkable p).mpr h1, (hg.walkable c).mpr h2, h3, hroot p h4, ?_⟩
    rw [(hc p).1, (hc c).1, hg.getChessBoardDistance]
    exact h5

/-! ## The part of the parent invariant that needs no bound -/

theorem WeakParentInv.transfer_wpi {g g' : Game} (hW : WeakParentInv g)
    (hg : SameGrid g g') (hc : SameCosts g g') : WeakParentInv g' := by
  refine ⟨?_, ?_, ?_, ?_⟩
  · rw [hg.start, (hc _).1]; exact hW.start_cost
  · rw [hg.start, (hc _).2]; exact hW.start_parent
  · intro c p hcin hpar
    rw [hg.inBounds] at hcin
    rw [(hc c).2] at hpar
    obtain ⟨h1, h2⟩ := hW.parent_lt c p hcin hpar
    refine ⟨(hg.inBounds p).mpr h1, ?_⟩
    rw [(hc p).1, (hc c).1]
    exact h2
  · intro c p hcin hpar
    rw [hg.inBounds] at hcin
    rw [(hc c).2] at hpar
    obtain ⟨h1, h2, h3⟩ := hW.parent_step c p hcin hpar
    refine ⟨(hg.walkable p).mpr h1, h2, ?_⟩
    rw [(hc p).1, (hc c).1, hg.getChessBoardDistance]
    exact h3

/-! ## The parent chain of a rooted cell -/


theorem IsChain.head {g : Game} {c : Position} {l : List Position} (h : IsChain g c l) :
    l.head? = some c := by
  cases h <;> rfl

theorem IsChain.getLast {g : Game} {c : Position} {l : List Position} (h : IsChain g c l) :
    l.getLast? = some g.start := by
  induction h with
  | start => rfl
  | link c p l _ _ hl ih =>
    cases l with
    | nil => cases hl
    | cons x xs => rw [List.getLast?_cons_cons]; exact ih

/-! ## Counting cells of the board -/


theorem length_boardCells (n : Nat) : (boardCells n).length = n * n := by
  unfold boardCells
  rw [List.length_flatMap]
  simp [Function.comp_def]

/-- A duplicate-free list of cells of the board is no longer than the board
has cells. -/
theorem length_le_of_nodup_inBounds (g : Game) (l : List Position) (hn : l.Nodup)
    (hin : ∀ p ∈ l, InBounds g p) : l.length ≤ g.size.toNat * g.size.toNat := by
  rw [← length_boardCells]
  apply List.Subperm.length_le
  apply List.subperm_of_subset hn
  intro p hp
  exact (mem_boardCells_iff g p).mpr (hin p hp)

/-! ## Reachability -/

theorem SameGrid.reach {g g' : Game} (h : SameGrid g g') (a b : Position) :
    Reach g' a b ↔ Reach g a b := by
  have : Step g' = Step g := by
    funext p q
    unfold Step
    rw [h.walkable]
  unfold Reach
  rw [this]

/-! ## The sets `open` -/


theorem mem_setInsert (s : List Position) (x p : Position) :
    p ∈ setInsert s x ↔ p = x ∨ p ∈ s := by
  unfold setInsert
  split
  · rename_i h
    constructor
    · intro hp; exact Or.inr hp
    · rintro (e | e)
      · rw [e]; exact h
      · exact e
  · simp

theorem mem_setErase (s : List Position) (x p : Position) :
    p ∈ setErase s x ↔ p ∈ s ∧ p ≠ x := by
  unfold setErase
  simp [List.mem_filter]

/-! ## Push loops -/


theorem PushSteps.spec {ok : Position → Prop} {N : List Position}
    {s s' : List Position × List Position} (h : PushSteps ok N s s')
    (hiff : ∀ p, p ∈ s.2 ↔ p ∈ s.1) (hnd : s.1.Nodup) :
    s'.1.Nodup ∧ (∀ p, p ∈ s'.2 ↔ p ∈ s'.1) ∧
      (∀ p, p ∈ s'.1 ↔ p ∈ s.1 ∨ (p ∈ N ∧ ok p)) := by
  induction h with
  | nil s => exact ⟨hnd, hiff, fun p => by simp⟩
  | skip n N s s' hskip _ ih =>
    obtain ⟨h1, h2, h3⟩ := ih hiff hnd
    refine ⟨h1, h2, fun p => ?_⟩
    rw [h3 p]
    constructor
    · rintro (e | ⟨e1, e2⟩)
      · exact Or.inl e
      · exact Or.inr ⟨List.mem_cons_of_mem _ e1, e2⟩
    · rintro (e | ⟨e1, e2⟩)
      · exact Or.inl e
      · rcases List.mem_cons.mp e1 with e | e
        · subst e
          rcases hskip with hno | hin
          · exact absurd e2 hno
          · exact Or.inl ((hiff p).mp hin)
        · exact Or.inr ⟨e, e2⟩
  | push n N s Q1 s' hok hnin hperm _ ih =>
    have hn1 : n ∉ s.1 := fun hm => hnin ((hiff n).mpr hm)
    have hQ1 : Q1.Nodup := hperm.nodup_iff.mpr (List.nodup_cons.mpr ⟨hn1, hnd⟩)
    have hiff1 : ∀ p, p ∈ setInsert s.2 n ↔ p ∈ Q1 := by
      intro p
      rw [mem_setInsert, hperm.mem_iff, List.mem_cons, hiff p]
    obtain ⟨h1, h2, h3⟩ := ih hiff1 hQ1
    refine ⟨h1, h2, fun p => ?_⟩
    rw [h3 p]
    simp only
    rw [hperm.mem_iff, List.mem_cons]
    constructor
    · rintro ((e | e) | ⟨e1, e2⟩)
      · exact Or.inr ⟨by rw [e]; exact List.mem_cons_self _ _, by rw [e]; exact hok⟩
      · exact Or.inl e
      · exact Or.inr ⟨List.mem_cons_of_mem _ e1, e2⟩
    · rintro (e | ⟨e1, e2⟩)
      · exact Or.inl (Or.inr e)
      · rcases List.mem_cons.mp e1 with e | e
        · exact Or.inl (Or.inl e)
        · exact Or.inr ⟨e, e2⟩

/-! ## The three exits of a round -/

theorem status_ne : statusSuccess ≠ statusFailure := by decide

/-! ## Marking and counting -/

theorem size_sq_le {g0 : Game} (hsz : g0.size ≤ 200) :
    g0.size.toNat * g0.size.toNat ≤ 40000 := by
  have h : g0.size.toNat ≤ 200 := by omega
  calc g0.size.toNat * g0.size.toNat ≤ 200 * 200 := Nat.mul_le_mul h h
    _ = 40000 := by norm_num

/-! ## The loop of best-first and greedy search -/

theorem CostOnly.explored_iff {g g' : Game} (h : CostOnly g g') (p : Position) :
    (g'.board p).explored = (g.board p).explored := h.explored p

/-- Membership in the frontier after the front cell was removed. -/
theorem mem_rest_iff {curr : Position} {rest : List Position} (hnd : (curr :: rest).Nodup)
    (p : Position) : p ∈ rest ↔ (p ∈ curr :: rest ∧ p ≠ curr) := by
  have hcr : curr ∉ rest := (List.nodup_cons.mp hnd).1
  constructor
  · intro h
    exact ⟨List.mem_cons_of_mem _ h, fun e => hcr (e ▸ h)⟩
  · rintro ⟨h1, h2⟩
    rcases List.mem_cons.mp h1 with e | e
    · exact absurd e h2
    · exact e

/-! ## The loop of breadth-first search -/

theorem visited_markAsExplored (g : Game) (curr p : Position) (v : Bool) :
    ((NodeHandle.markAsExplored g curr v).board p).visited = (g.board p).visited := by
  unfold NodeHandle.markAsExplored
  simp only [setNode_board]
  split
  · rename_i e; subst e; rfl
  · rfl

/-! ## The loop of A* -/


theorem Marked.parentsExplored {g g1 : Game} {curr : Position} (hM : Marked g g1 curr)
    (h : ParentsExplored g) : ParentsExplored g1 := by
  intro c p hc hp
  rw [(hM.costs c).2] at hp
  exact (hM.explored p).mpr (Or.inl (h c p ((hM.same.inBounds c).mp hc) hp))

/-! ## The four frontier searches from a reset state -/

theorem heapPush_nil (comp : Position → Position → Bool) (x : Position) :
    heapPush comp [] x = [x] := by
  simp [heapPush, pushHeap, pushHeapLoop]

/-! ## Depth-first search -/


theorem DfsInv.setFailure {g0 g : Game} {cl : List Position} (h : DfsInv g0 g cl) :
    DfsInv g0 (setFailure g) cl :=
  ⟨h.same.trans_sg (sameGrid_result _ _), h.cl_nodup, h.cl_ok, h.explored_iff, h.end_open,
    h.count, h.weak.transfer_wpi (sameGrid_result _ _) (fun _ => ⟨rfl, rfl⟩),
    fun hsz => (h.strong hsz).transfer_pi (sameGrid_result _ _) (fun _ => ⟨rfl, rfl⟩), h.path0,
    h.unvisited⟩

theorem length_le_of_subset {cl cl' : List Position} (hnd : cl.Nodup)
    (h : ∀ p ∈ cl, p ∈ cl') : cl.length ≤ cl'.length :=
  (List.subperm_of_subset hnd h).length_le

/-! ## The state after `clearBuffer` -/


/-- The cell of the board at `p` after `clearBuffer` cleared all buffers. -/
theorem clearBuffer_board (g : Game) (p : Position) :
    ((clearBuffer g BUFFER_ALL_BIT).board p) =
      if p = g.start then
        { (if InBounds g p then (g.board p).cleared else g.board p) with gCost := Cost.zero }
      else if InBounds g p then (g.board p).cleared else g.board p := by
  rw [clearBuffer_eq]
  unfold NodeHandle.setGCost
  rw [setNode_board]
  by_cases h : p = g.start
  · rw [if_pos h, if_pos h, h]
  · rw [if_neg h, if_neg h]

/-- The fields of a cell after `clearBuffer` cleared all buffers. -/
theorem clearBuffer_cell (g : Game) (p : Position) :
    ((clearBuffer g BUFFER_ALL_BIT).board p).is_walkable = (g.board p).is_walkable ∧
    ((clearBuffer g BUFFER_ALL_BIT).board p).pos = (g.board p).pos ∧
    ((clearBuffer g BUFFER_ALL_BIT).board p).hCost = (g.board p).hCost ∧
    (InBounds g p →
      ((clearBuffer g BUFFER_ALL_BIT).board p).explored = false ∧
      ((clearBuffer g BUFFER_ALL_BIT).board p).visited = false ∧
      ((clearBuffer g BUFFER_ALL_BIT).board p).parent = none ∧
      ((clearBuffer g BUFFER_ALL_BIT).board p).gCost =
        if p = g.start then Cost.zero else Cost.sentinel) := by
  rw [clearBuffer_board]
  by_cases h1 : p = g.start
  · subst h1
    by_cases h2 : InBounds g g.start
    · simp [h2, Node.cleared]
    · simp [h2]
  · by_cases h2 : InBounds g p
    · simp [h1, h2, Node.cleared]
    · simp [h1, h2]

theorem clearBuffer_sameGrid (g : Game) : SameGrid g (clearBuffer g BUFFER_ALL_BIT) :=
  ⟨by rw [clearBuffer_eq]; rfl, by rw [clearBuffer_eq]; rfl, by rw [clearBuffer_eq]; rfl,
    fun p => (clearBuffer_cell g p).1, fun p => (clearBuffer_cell g p).2.1⟩

theorem clearBuffer_fields (g : Game) :
    (clearBuffer g BUFFER_ALL_BIT).curser = g.curser ∧
    (clearBuffer g BUFFER_ALL_BIT).curserMode = g.curserMode ∧
    (clearBuffer g BUFFER_ALL_BIT).result = g.result := by
  rw [clearBuffer_eq]
  exact ⟨rfl, rfl, rfl⟩

theorem resetFor_board (g : Game) (algo : String) (p : Position) :
    (resetFor g algo).board p = (clearBuffer g BUFFER_ALL_BIT).board p := rfl

theorem resetFor_sameGrid (g : Game) (algo : String) : SameGrid g (resetFor g algo) :=
  (clearBuffer_sameGrid g).trans_sg ⟨rfl, rfl, rfl, fun _ => rfl, fun _ => rfl⟩

theorem resetFor_resetState (g : Game) (algo : String) (hwf : WellFormed g) :
    ResetState (resetFor g algo) := by
  have hs := resetFor_sameGrid g algo
  have hstart : (resetFor g algo).start = g.start := hs.start
  refine ⟨hs.wellFormed hwf, ?_, ?_, ?_, ?_, rfl, rfl⟩
  · intro p hp
    rw [resetFor_board]
    exact ((clearBuffer_cell g p).2.2.2 ((hs.inBounds p).mp hp)).1
  · intro p hp
    rw [resetFor_board]
    exact ((clearBuffer_cell g p).2.2.2 ((hs.inBounds p).mp hp)).2.1
  · intro p hp
    rw [resetFor_board]
    exact ((clearBuffer_cell g p).2.2.2 ((hs.inBounds p).mp hp)).2.2.1
  · intro p hp
    rw [resetFor_board, hstart]
    exact ((clearBuffer_cell g p).2.2.2 ((hs.inBounds p).mp hp)).2.2.2

/-! ## The contracts of the searches -/

/-- C7: after `clearBuffer` with all four buffer bits, every cell of the
board has `explored = false`, `visited = false`, no parent and the sentinel as
g-cost, except the start cell whose g-cost is `0`; the walkability and the
position of every cell and the side, the start, end and cursor handles are
unchanged. -/
theorem clearBuffer_all_resets (g : Game) :
    (∀ p, InBounds g p →
      ((clearBuffer g BUFFER_ALL_BIT).board p).explored = false ∧
      ((clearBuffer g BUFFER_ALL_BIT).board p).visited = false ∧
      ((clearBuffer g BUFFER_ALL_BIT).board p).parent = none ∧
      ((clearBuffer g BUFFER_ALL_BIT).board p).gCost =
        if p = g.start then Cost.zero else Cost.sentinel) ∧
    (∀ p, ((clearBuffer g BUFFER_ALL_BIT).board p).is_walkable = (g.board p).is_walkable ∧
      ((clearBuffer g BUFFER_ALL_BIT).board p).pos = (g.board p).pos) ∧
    (clearBuffer g BUFFER_ALL_BIT).size = g.size ∧
    (clearBuffer g BUFFER_ALL_BIT).start = g.start ∧
    (clearBuffer g BUFFER_ALL_BIT).end_ = g.end_ ∧
    (clearBuffer g BUFFER_ALL_BIT).curser = g.curser := by
  have hs := clearBuffer_sameGrid g
  exact ⟨fun p hp => (clearBuffer_cell g p).2.2.2 hp,
    fun p => ⟨(clearBuffer_cell g p).1, (clearBuffer_cell g p).2.1⟩,
    hs.size, hs.start, hs.end_, (clearBuffer_fields g).1⟩

/-! ## Evaluation on example grids -/

set_option maxRecDepth 100000 in
/-- C3, evaluated: on the example board with a detour `aStarSearch` succeeds
and the parent chain from the end cell is the route of four diagonal steps
through (3,1), (2,2), (1,3), of cost `4 * sqrt 2`, although the walkable route
through (3,0), (2,0), (1,0), (0,1) costs `4 + sqrt 2`, which is less. -/
theorem aStar_detour_not_optimal :
    statusAfter 26 exampleDetour '5' = some statusSuccess ∧
    chainAfter 26 exampleDetour '5' =
      some [⟨0, 2⟩, ⟨1, 3⟩, ⟨2, 2⟩, ⟨3, 1⟩, ⟨4, 0⟩] ∧
    IsPath exampleDetour [⟨4, 0⟩, ⟨3, 0⟩, ⟨2, 0⟩, ⟨1, 0⟩, ⟨0, 1⟩, ⟨0, 2⟩] ∧
    (pathCost exampleDetour [⟨4, 0⟩, ⟨3, 0⟩, ⟨2, 0⟩, ⟨1, 0⟩, ⟨0, 1⟩, ⟨0, 2⟩]).lt
      (pathCost exampleDetour [⟨4, 0⟩, ⟨3, 1⟩, ⟨2, 2⟩, ⟨1, 3⟩, ⟨0, 2⟩]) = true := by
  refine ⟨by decide, by decide, ⟨by decide, ?_⟩, by decide⟩
  simp only [List.chain'_cons, List.chain'_singleton, and_true]
  decide

/-! ## Wall edits at the anchors -/


/-- C9: `insertWall` on the start or the end cell leaves the game unchanged;
on any other cell it sets the walkable flag of that cell to false and changes
no other field of that cell, no other cell and no other part of the game. -/
theorem insertWall_guard (g : Game) (h : Position) :
    ((h = g.start ∨ h = g.end_) → NodeHandle.insertWall g h = g) ∧
    ((h ≠ g.start ∧ h ≠ g.end_) →
      (NodeHandle.insertWall g h).board h = { g.board h with is_walkable := false } ∧
      (∀ q, q ≠ h → (NodeHandle.insertWall g h).board q = g.board q) ∧
      (NodeHandle.insertWall g h).size = g.size ∧
      (NodeHandle.insertWall g h).start = g.start ∧
      (NodeHandle.insertWall g h).end_ = g.end_ ∧
      (NodeHandle.insertWall g h).curser = g.curser ∧
      (NodeHandle.insertWall g h).curserMode = g.curserMode ∧
      (NodeHandle.insertWall g h).result = g.result) := by
  constructor
  · exact insertWall_anchor g h
  · rintro ⟨h1, h2⟩
    rw [insertWall_other g h h1 h2]
    exact ⟨setNode_board_self _ _ _, fun q hq => setNode_board_ne _ _ _ _ hq, rfl, rfl, rfl,
      rfl, rfl, rfl⟩

/-- Witness of C9: walling the start cell of the example board changes
nothing, and the start cell stays walkable. -/
theorem insertWall_guard_witness :
    NodeHandle.insertWall exampleOpen exampleOpen.start = exampleOpen ∧
    ((NodeHandle.insertWall exampleOpen exampleOpen.start).board exampleOpen.start).is_walkable
      = true :=
  have h := (insertWall_guard exampleOpen exampleOpen.start).1 (Or.inl rfl)
  ⟨h, by rw [h]; decide⟩

/-- C10, evaluated: `toggle` has no guard; applied to the start cell of the
example board it turns the start cell into a wall. -/
theorem toggle_walls_start :
    (exampleOpen.board exampleOpen.start).is_walkable = true ∧
    ((NodeHandle.toggle exampleOpen exampleOpen.start).board exampleOpen.start).is_walkable
      = false := by
  decide

/-! ## Moving the anchors -/


/-- C11: `putStart` leaves the game unchanged when the cursor cell is not
walkable or is the end cell, and otherwise only makes `start` the cursor cell;
`putEnd` leaves the game unchanged when the cursor cell is not walkable or is
the start cell, and otherwise only makes `end` the cursor cell. -/
theorem putStart_putEnd_guard (g : Game) :
    (((g.board g.curser).is_walkable = false ∨ g.curser = g.end_) → putStart g = g) ∧
    (((g.board g.curser).is_walkable = true ∧ g.curser ≠ g.end_) →
      putStart g = { g with start := g.curser }) ∧
    (((g.board g.curser).is_walkable = false ∨ g.curser = g.start) → putEnd g = g) ∧
    (((g.board g.curser).is_walkable = true ∧ g.curser ≠ g.start) →
      putEnd g = { g with end_ := g.curser }) := by
  unfold putStart putEnd NodeHandle.isWalkable
  refine ⟨?_, ?_, ?_, ?_⟩
  · rintro (h | h)
    · simp [h]
    · simp [h]
  · rintro ⟨h1, h2⟩
    simp [h1, h2]
  · rintro (h | h)
    · simp [h]
    · simp [h]
  · rintro ⟨h1, h2⟩
    simp [h1, h2]

/-- Witness of C11: on the example board with the cursor moved onto the wall
at (1,1), `putStart` is rejected; with the cursor at (2,2) it is accepted. -/
theorem putStart_putEnd_guard_witness :
    putStart { exampleOpen with curser := { row := 1, col := 1 } }
      = { exampleOpen with curser := { row := 1, col := 1 } } ∧
    putStart exampleOpen = { exampleOpen with start := exampleOpen.curser } :=
  ⟨(putStart_putEnd_guard { exampleOpen with curser := { row := 1, col := 1 } }).1
      (Or.inl (by decide)),
    (putStart_putEnd_guard exampleOpen).2.1 ⟨by decide, by decide⟩⟩

/-! ## The neighbour list -/


/-- The eight cells around a cell. -/
theorem adjacent_mem_around {p q : Position} (h : Adjacent p q) :
    q ∈ [({ row := p.row - 1, col := p.col - 1 } : Position),
      { row := p.row - 1, col := p.col }, { row := p.row - 1, col := p.col + 1 },
      { row := p.row, col := p.col - 1 }, { row := p.row, col := p.col + 1 },
      { row := p.row + 1, col := p.col - 1 }, { row := p.row + 1, col := p.col },
      { row := p.row + 1, col := p.col + 1 }] := by
  obtain ⟨hne, hr, hc⟩ := h
  cases p with
  | mk r1 c1 =>
    cases q with
    | mk r2 c2 =>
      simp only at hr hc
      have hne2 : ¬ (r2 = r1 ∧ c2 = c1) := by
        rintro ⟨e1, e2⟩
        exact hne (by rw [e1, e2])
      have hr2 : r2 = r1 - 1 ∨ r2 = r1 ∨ r2 = r1 + 1 := by omega
      have hc2 : c2 = c1 - 1 ∨ c2 = c1 ∨ c2 = c1 + 1 := by omega
      simp only [List.mem_cons, Position.mk.injEq, List.mem_singleton, List.not_mem_nil,
        or_false]
      omega

/-- The cell one pass of the inner loop of `getNeighbours` may add. -/
theorem neighbourCell_eq (g : Game) (curr : Position) (dx dy : Int) (b : Position)
    (h : (if dx = 0 ∧ dy = 0 then none
      else
        let x := (NodeHandle.getPosition g curr).row + dx
        let y := (NodeHandle.getPosition g curr).col + dy
        if isOutOfBounds g { row := x, col := y } then none
        else if (g.board { row := x, col := y }).isWalkable then some { row := x, col := y }
        else none) = some b) :
    b = { row := (NodeHandle.getPosition g curr).row + dx,
          col := (NodeHandle.getPosition g curr).col + dy } := by
  split at h
  · simp at h
  · dsimp only at h
    split at h
    · simp at h
    · split at h
      · exact (Option.some.inj h).symm
      · simp at h

theorem getNeighbours_nodup (g : Game) (curr : Position) : (getNeighbours g curr).Nodup := by
  unfold getNeighbours
  rw [List.nodup_flatMap]
  constructor
  · intro dx _
    apply List.Nodup.filterMap
    · intro a a' b hb hb'
      have h1 := neighbourCell_eq g curr dx a b hb
      have h2 := neighbourCell_eq g curr dx a' b hb'
      rw [h1] at h2
      simp only [Position.mk.injEq] at h2
      omega
    · decide
  · refine List.Pairwise.cons ?_ (List.Pairwise.cons ?_ (List.Pairwise.cons ?_
      List.Pairwise.nil)) <;>
    · intro dx' hdx' a h1 h2
      rw [List.mem_filterMap] at h1 h2
      obtain ⟨dy, _, e1⟩ := h1
      obtain ⟨dy', _, e2⟩ := h2
      have f1 := neighbourCell_eq g curr _ dy a e1
      have f2 := neighbourCell_eq g curr dx' dy' a e2
      rw [f1] at f2
      simp only [Position.mk.injEq] at f2
      simp only [List.mem_cons, List.mem_singleton, List.not_mem_nil, or_false] at hdx' <;>
        omega


/-- The neighbour list is computed from the side of the board and the cells
of the board alone. -/
theorem getNeighbours_congr (g g' : Game) (p : Position) (hp : InBounds g p)
    (hs : g'.size = g.size) (hb : ∀ q, InBounds g q → g'.board q = g.board q) :
    getNeighbours g' p = getNeighbours g p := by
  have hob : ∀ q, isOutOfBounds g' q = isOutOfBounds g q := by
    intro q; unfold isOutOfBounds; rw [hs]
  unfold getNeighbours NodeHandle.getPosition
  rw [hb p hp]
  congr 1
  funext dx
  congr 1
  funext dy
  split
  · rfl
  · dsimp only
    rw [hob]
    split
    · rfl
    · rename_i h
      have hin := (isOutOfBounds_eq_false_iff g _).mp (by simpa using h)
      rw [hb _ hin]

/-- C13: for an in-bounds cell `p`, a cell `q` is in `getNeighbours p` exactly
when `q` is on the board, walkable, different from `p` and at most one row and
one column away; the list has no duplicates and at most 8 entries; it is
computed from in-bounds cells only; and a walkable diagonal neighbour is in
the list whatever the state of the two cells adjoining the diagonal. -/
theorem getNeighbours_spec (g : Game) (hpos : PosOK g) (p : Position) (hp : InBounds g p) :
    (∀ q, q ∈ getNeighbours g p ↔
      InBounds g q ∧ (g.board q).is_walkable = true ∧ q ≠ p ∧
      (q.row - p.row).natAbs ≤ 1 ∧ (q.col - p.col).natAbs ≤ 1) ∧
    (getNeighbours g p).Nodup ∧ (getNeighbours g p).length ≤ 8 ∧
    (∀ g' : Game, g'.size = g.size → (∀ q, InBounds g q → g'.board q = g.board q) →
      getNeighbours g' p = getNeighbours g p) ∧
    (∀ q, InBounds g q → (g.board q).is_walkable = true →
      (q.row - p.row).natAbs = 1 → (q.col - p.col).natAbs = 1 → q ∈ getNeighbours g p) := by
  have hiff : ∀ q, q ∈ getNeighbours g p ↔
      InBounds g q ∧ (g.board q).is_walkable = true ∧ q ≠ p ∧
      (q.row - p.row).natAbs ≤ 1 ∧ (q.col - p.col).natAbs ≤ 1 := by
    intro q
    rw [mem_getNeighbours hpos hp]
    unfold Adjacent Walkable
    constructor
    · rintro ⟨⟨h1, h2, h3⟩, h4, h5⟩
      exact ⟨h4, h5, fun e => h1 e.symm, h2, h3⟩
    · rintro ⟨h1, h2, h3, h4, h5⟩
      exact ⟨⟨fun e => h3 e.symm, h4, h5⟩, h1, h2⟩
  refine ⟨hiff, getNeighbours_nodup g p, ?_, ?_, ?_⟩
  · have hsub := length_le_of_subset (getNeighbours_nodup g p)
      (fun q hq => adjacent_mem_around ((mem_getNeighbours hpos hp q).mp hq).1)
    simpa using hsub
  · intro g' hs hb
    exact getNeighbours_congr g g' p hp hs hb
  · intro q h1 h2 h3 h4
    refine (hiff q).mpr ⟨h1, h2, ?_, by omega, by omega⟩
    intro e
    rw [e] at h3
    simp at h3

set_option maxRecDepth 100000 in
/-- Witness of C13: the cell (0,0) of the example board, whose diagonal
neighbour (1,1) is a wall. -/
theorem getNeighbours_spec_witness :
    (PosOK exampleOpen ∧ InBounds exampleOpen { row := 0, col := 0 }) ∧
    (getNeighbours exampleOpen { row := 0, col := 0 }).Nodup ∧
    (getNeighbours exampleOpen { row := 0, col := 0 }).length ≤ 8 :=
  ⟨⟨by decide, by decide⟩,
    (getNeighbours_spec exampleOpen (by decide) { row := 0, col := 0 } (by decide)).2.1,
    (getNeighbours_spec exampleOpen (by decide) { row := 0, col := 0 } (by decide)).2.2.1⟩

/-! ## The chessboard distance as a real number -/

/-- The value of `getChessBoardDistance` as a real number. -/
theorem dist_toReal (g : Game) (a b : Position) :
    (getChessBoardDistance g a b).toReal
      = |(|(((g.board b).pos.row - (g.board a).pos.row : Int) : ℝ)|
          - |(((g.board b).pos.col - (g.board a).pos.col : Int) : ℝ)|)|
        + min |(((g.board b).pos.row - (g.board a).pos.row : Int) : ℝ)|
            |(((g.board b).pos.col - (g.board a).pos.col : Int) : ℝ)| * Real.sqrt 2 := by
  unfold getChessBoardDistance NodeHandle.getPosition Position.sub Cost.toReal
  simp only
  simp only [Nat.cast_min, Nat.cast_natAbs, Int.cast_abs, Int.cast_sub, Int.cast_natCast,
    Int.cast_id]

theorem dist_comm (g : Game) (a b : Position) :
    getChessBoardDistance g a b = getChessBoardDistance g b a := by
  unfold getChessBoardDistance NodeHandle.getPosition Position.sub
  simp only [Cost.mk.injEq]
  constructor <;> omega

theorem Cost.toReal_eq_zero_iff (c : Cost) : c.toReal = 0 ↔ c = Cost.zero := by
  constructor
  · intro h
    unfold Cost.toReal at h
    have hs := Cost.sqrt_two_pos
    have h1 : (0 : ℝ) ≤ (c.straight : ℝ) := Nat.cast_nonneg _
    have h2 : (0 : ℝ) ≤ (c.diag : ℝ) * Real.sqrt 2 := by positivity
    have e1 : (c.straight : ℝ) = 0 := by linarith
    have e2 : (c.diag : ℝ) * Real.sqrt 2 = 0 := by linarith
    have e3 : (c.diag : ℝ) = 0 := by
      rcases mul_eq_zero.mp e2 with h | h
      · exact h
      · linarith
    cases c with
    | mk s d =>
      simp only [Nat.cast_eq_zero] at e1 e3
      rw [e1, e3]
      rfl
  · intro h
    rw [h]
    exact Cost.toReal_zero

theorem dist_eq_zero_iff (g : Game) (a b : Position) :
    getChessBoardDistance g a b = Cost.zero ↔ (g.board a).pos = (g.board b).pos := by
  unfold getChessBoardDistance NodeHandle.getPosition Position.sub Cost.zero
  simp only [Cost.mk.injEq]
  constructor
  · rintro ⟨h1, h2⟩
    cases hpa : (g.board a).pos with
    | mk r1 c1 =>
      cases hpb : (g.board b).pos with
      | mk r2 c2 =>
        rw [hpa, hpb] at h1 h2
        simp only at h1 h2
        congr 1 <;> omega
  · intro h
    rw [h]
    simp


/-- The distance between two cells stored one straight step apart. -/
theorem dist_straight (g : Game) (a b : Position)
    (hadj : Adjacent (g.board a).pos (g.board b).pos)
    (h : (g.board a).pos.row = (g.board b).pos.row ∨ (g.board a).pos.col = (g.board b).pos.col) :
    getChessBoardDistance g a b = { straight := 1, diag := 0 } := by
  obtain ⟨hne, hr, hc⟩ := hadj
  unfold getChessBoardDistance NodeHandle.getPosition Position.sub
  cases hpa : (g.board a).pos with
  | mk r1 c1 =>
    cases hpb : (g.board b).pos with
    | mk r2 c2 =>
      rw [hpa, hpb] at hne hr hc h
      simp only at hr hc h
      have hne2 : ¬ (r1 = r2 ∧ c1 = c2) := by
        rintro ⟨e1, e2⟩
        exact hne (by rw [e1, e2])
      simp only [Cost.mk.injEq]
      constructor <;> omega

/-- The distance between two cells stored one diagonal step apart. -/
theorem dist_diagonal (g : Game) (a b : Position)
    (hadj : Adjacent (g.board a).pos (g.board b).pos)
    (h : (g.board a).pos.row ≠ (g.board b).pos.row ∧ (g.board a).pos.col ≠ (g.board b).pos.col) :
    getChessBoardDistance g a b = { straight := 0, diag := 1 } := by
  obtain ⟨_, hr, hc⟩ := hadj
  unfold getChessBoardDistance NodeHandle.getPosition Position.sub
  cases hpa : (g.board a).pos with
  | mk r1 c1 =>
    cases hpb : (g.board b).pos with
    | mk r2 c2 =>
      rw [hpa, hpb] at hr hc h
      simp only at hr hc h
      simp only [Cost.mk.injEq]
      constructor <;> omega

/-- C14: `getChessBoardDistance` of two cells with row delta `dx` and column
delta `dy` is `sqrt 2 * min |dx| |dy| + | |dx| - |dy| |`; it does not depend on
the order of the arguments; for 8-adjacent cells it is `1` when they share a
row or a column and `sqrt 2` when they are diagonal; and it is `0` exactly
when the two cells have the same coordinates. -/
theorem getChessBoardDistance_formula (g : Game) (a b : Position) :
    (getChessBoardDistance g a b).toReal
      = Real.sqrt 2 * min |(((g.board b).pos.row - (g.board a).pos.row : Int) : ℝ)|
            |(((g.board b).pos.col - (g.board a).pos.col : Int) : ℝ)|
        + |(|(((g.board b).pos.row - (g.board a).pos.row : Int) : ℝ)|
          - |(((g.board b).pos.col - (g.board a).pos.col : Int) : ℝ)|)| ∧
    getChessBoardDistance g a b = getChessBoardDistance g b a ∧
    (Adjacent (g.board a).pos (g.board b).pos →
      (((g.board a).pos.row = (g.board b).pos.row ∨
          (g.board a).pos.col = (g.board b).pos.col) →
        (getChessBoardDistance g a b).toReal = 1) ∧
      (((g.board a).pos.row ≠ (g.board b).pos.row ∧
          (g.board a).pos.col ≠ (g.board b).pos.col) →
        (getChessBoardDistance g a b).toReal = Real.sqrt 2)) ∧
    ((getChessBoardDistance g a b).toReal = 0 ↔ (g.board a).pos = (g.board b).pos) := by
  refine ⟨?_, dist_comm g a b, ?_, ?_⟩
  · rw [dist_toReal]; ring
  · intro hadj
    constructor
    · intro h
      rw [dist_straight g a b hadj h]
      simp [Cost.toReal]
    · intro h
      rw [dist_diagonal g a b hadj h]
      simp [Cost.toReal]
  · rw [Cost.toReal_eq_zero_iff, dist_eq_zero_iff]

/-- Witness of C14: the straight step from (0,0) to (0,1) on the example
board has distance `1`. -/
theorem getChessBoardDistance_formula_witness :
    Adjacent (exampleOpen.board { row := 0, col := 0 }).pos
      (exampleOpen.board { row := 0, col := 1 }).pos ∧
    (getChessBoardDistance exampleOpen { row := 0, col := 0 } { row := 0, col := 1 }).toReal
      = 1 :=
  ⟨by decide,
    ((getChessBoardDistance_formula exampleOpen { row := 0, col := 0 }
      { row := 0, col := 1 }).2.2.1 (by decide)).1 (Or.inl (by decide))⟩

/-! ## The chessboard distance is the length of a shortest route -/


theorem pathCost_cons_cons (g : Game) (a b : Position) (l : List Position) :
    pathCost g (a :: b :: l) = (getChessBoardDistance g a b).add (pathCost g (b :: l)) := rfl

theorem kingPath_head (n : Nat) (a b : Position) : (kingPath n a b).head? = some a := by
  cases n <;> rfl

/-! ## The board built by the constructor -/


theorem new_board (size : Int) (p : Position) :
    ((Game.new size).board p).pos = p ∧ ((Game.new size).board p).is_walkable = true ∧
    ((Game.new size).board p).gCost
      = if p = (Game.new size).start then Cost.zero else Cost.sentinel := by
  unfold Game.new NodeHandle.setGCost Game.setNode Node.new
  simp only
  by_cases h : p = { row := size / 5, col := size / 5 }
  · subst h
    simp [Cost.sentinel]
  · simp [h, Cost.sentinel]

theorem new_size (size : Int) : (Game.new size).size = size := rfl

theorem new_posOK (size : Int) : PosOK (Game.new size) :=
  fun p _ => (new_board size p).1

/-- The number of steps of a sequence of pairwise 8-adjacent cells of the
board. -/
theorem pathCost_steps {g : Game} (hpos : PosOK g) :
    ∀ l : List Position, (∀ p ∈ l, InBounds g p) → l.Chain' Adjacent →
      (pathCost g l).steps = l.length - 1 := by
  intro l
  induction l with
  | nil => intro _ _; rfl
  | cons a l ih =>
    intro hin hch
    cases l with
    | nil => rfl
    | cons b l =>
      rw [pathCost_cons_cons, Cost.steps_add]
      rw [List.chain'_cons] at hch
      rw [ih (fun p hp => hin p (List.mem_cons_of_mem _ hp)) hch.2,
        dist_adjacent_steps hpos (hin a (List.mem_cons_self _ _))
          (hin b (List.mem_cons_of_mem _ (List.mem_cons_self _ _))) hch.1]
      simp only [List.length_cons]
      omega

/-- On a board of side at most 200 the cost of a duplicate-free sequence of
pairwise 8-adjacent cells stays below the sentinel. -/
theorem pathCost_lt_sentinel {g : Game} (hpos : PosOK g) (hsz : g.size ≤ 200)
    (l : List Position) (hn : l.Nodup) (hin : ∀ p ∈ l, InBounds g p)
    (hch : l.Chain' Adjacent) : (pathCost g l).toReal < Cost.sentinel.toReal := by
  rw [Cost.toReal_sentinel]
  apply Cost.toReal_lt_sentinel
  have h1 := pathCost_steps hpos l hin hch
  have h2 := length_le_of_nodup_inBounds g l hn hin
  have h3 := size_sq_le hsz
  unfold Cost.steps at h1
  omega

/-! ## A long row of a large board -/


theorem mem_rowPath (r : Int) : ∀ (n : Nat) (c : Int) (p : Position),
    p ∈ rowPath r c n → p.row = r ∧ c ≤ p.col ∧ p.col ≤ c + n := by
  intro n
  induction n with
  | zero =>
    intro c p hp
    simp only [rowPath, List.mem_singleton] at hp
    subst hp
    simp
  | succ n ih =>
    intro c p hp
    simp only [rowPath, List.mem_cons] at hp
    rcases hp with e | e
    · subst e
      simp only [true_and]
      omega
    · obtain ⟨h1, h2, h3⟩ := ih (c + 1) p e
      refine ⟨h1, by omega, ?_⟩
      push_cast
      omega

theorem rowPath_head (r c : Int) (n : Nat) : (rowPath r c n).head? = some { row := r, col := c } := by
  cases n <;> rfl

/-- A stretch of a row of the board built by the constructor is a
duplicate-free path that costs one unit per step. -/
theorem rowPath_spec (size r : Int) (hr : 0 ≤ r ∧ r < size) :
    ∀ (n : Nat) (c : Int), 0 ≤ c → c + n < size →
      IsPath (Game.new size) (rowPath r c n) ∧ (rowPath r c n).Nodup ∧
      (rowPath r c n).getLast? = some { row := r, col := c + n } ∧
      pathCost (Game.new size) (rowPath r c n) = { straight := n, diag := 0 } := by
  intro n
  induction n with
  | zero =>
    intro c hc hcn
    refine ⟨⟨?_, List.chain'_singleton _⟩, List.nodup_singleton _, ?_, rfl⟩
    · intro p hp
      simp only [rowPath, List.mem_singleton] at hp
      subst hp
      refine ⟨?_, (new_board size _).2.1⟩
      unfold InBounds
      rw [new_size]
      simp only
      simp only [Nat.cast_zero, add_zero] at hcn
      omega
    · simp [rowPath]
  | succ n ih =>
    intro c hc hcn
    push_cast at hcn
    obtain ⟨⟨i1, i2⟩, i3, i4, i5⟩ := ih (c + 1) (by omega) (by omega)
    have hin : InBounds (Game.new size) { row := r, col := c } := by
      unfold InBounds
      rw [new_size]
      simp only
      omega
    have hhead := rowPath_head r (c + 1) n
    obtain ⟨rest, hrest⟩ : ∃ rest, rowPath r (c + 1) n = { row := r, col := c + 1 } :: rest := by
      cases hk : rowPath r (c + 1) n with
      | nil => rw [hk] at hhead; simp at hhead
      | cons x rest =>
        rw [hk] at hhead
        simp only [List.head?_cons, Option.some.injEq] at hhead
        exact ⟨rest, by rw [hhead]⟩
    have hadj : Adjacent ({ row := r, col := c } : Position) { row := r, col := c + 1 } := by
      unfold Adjacent
      simp only [ne_eq, Position.mk.injEq, true_and, sub_self, Int.natAbs_zero, zero_le]
      refine ⟨by omega, ?_⟩
      have : c + 1 - c = 1 := by omega
      rw [this]
      decide
    show IsPath (Game.new size) ({ row := r, col := c } :: rowPath r (c + 1) n) ∧
      ({ row := r, col := c } :: rowPath r (c + 1) n).Nodup ∧
      ({ row := r, col := c } :: rowPath r (c + 1) n).getLast?
        = some { row := r, col := c + ((n + 1 : Nat) : Int) } ∧
      pathCost (Game.new size) ({ row := r, col := c } :: rowPath r (c + 1) n)
        = { straight := n + 1, diag := 0 }
    refine ⟨⟨?_, ?_⟩, ?_, ?_, ?_⟩
    · intro p hp
      rcases List.mem_cons.mp hp with e | e
      · rw [e]; exact ⟨hin, (new_board size _).2.1⟩
      · exact i1 p e
    · rw [hrest, List.chain'_cons, ← hrest]
      exact ⟨hadj, i2⟩
    · rw [List.nodup_cons]
      refine ⟨?_, i3⟩
      intro hmem
      have := (mem_rowPath r n (c + 1) _ hmem).2.1
      simp only at this
      omega
    · rw [hrest, List.getLast?_cons_cons, ← hrest, i4]
      congr 2
      push_cast
      omega
    · have hin2 : InBounds (Game.new size) { row := r, col := c + 1 } := by
        unfold InBounds
        rw [new_size]
        simp only
        omega
      rw [hrest, pathCost_cons_cons, ← hrest, i5,
        dist_straight (Game.new size) _ _ (by
          rw [(new_board size _).1, (new_board size _).1]; exact hadj)
          (Or.inl (by rw [(new_board size _).1, (new_board size _).1]))]
      unfold Cost.add
      simp only [Cost.mk.injEq]
      exact ⟨by omega, trivial⟩


set_option maxRecDepth 100000 in
/-- C17, evaluated: on the board built by `Game(150000)` the 100001 straight
steps along row 30000 from the start cell (30000, 30000) to the cell
(30000, 130001) form a duplicate-free walkable path whose cost `100001`
exceeds the g-cost `100000` stored in its last cell. -/
theorem sentinel_below_long_path :
    IsPath (Game.new 150000) (rowPath 30000 30000 100001) ∧
    (rowPath 30000 30000 100001).Nodup ∧
    (rowPath 30000 30000 100001).head? = some (Game.new 150000).start ∧
    (rowPath 30000 30000 100001).getLast? = some { row := 30000, col := 130001 } ∧
    ((Game.new 150000).board { row := 30000, col := 130001 }).gCost = Cost.sentinel ∧
    Cost.sentinel.lt (pathCost (Game.new 150000) (rowPath 30000 30000 100001)) = true := by
  obtain ⟨h1, h2, h3, h4⟩ :=
    rowPath_spec 150000 30000 ⟨by decide, by decide⟩ 100001 30000 (by decide) (by decide)
  refine ⟨h1, h2, ?_, ?_, ?_, ?_⟩
  · rw [rowPath_head]; rfl
  · rw [h3]; rfl
  · rw [(new_board 150000 _).2.2, if_neg (by decide)]
  · rw [h4]; decide

/-- C17, amended: after `Game(size)` with `size ≥ 1` every cell is walkable,
the start cell is on the board and has g-cost `0`, and every other cell has
g-cost equal to the sentinel `100000`; on boards of side at most 200 the
sentinel exceeds the cost of every duplicate-free sequence of pairwise
8-adjacent cells of the board. -/
theorem new_game_costs (size : Int) (hs : 1 ≤ size) :
    (∀ p, ((Game.new size).board p).is_walkable = true) ∧
    InBounds (Game.new size) (Game.new size).start ∧
    ((Game.new size).board (Game.new size).start).gCost = Cost.zero ∧
    (∀ p, p ≠ (Game.new size).start → ((Game.new size).board p).gCost = Cost.sentinel) ∧
    Cost.sentinel.toReal = 100000 ∧
    (size ≤ 200 → ∀ l : List Position, l.Nodup → (∀ p ∈ l, InBounds (Game.new size) p) →
      l.Chain' Adjacent → (pathCost (Game.new size) l).toReal < Cost.sentinel.toReal) := by
  refine ⟨fun p => (new_board size p).2.1, ?_, ?_, ?_, Cost.toReal_sentinel, ?_⟩
  · show 0 ≤ size / 5 ∧ size / 5 < size ∧ 0 ≤ size / 5 ∧ size / 5 < size
    omega
  · rw [(new_board size _).2.2, if_pos rfl]
  · intro p hp
    rw [(new_board size _).2.2, if_neg hp]
  · intro hsz l hn hin hch
    exact pathCost_lt_sentinel (new_posOK size) (by rw [new_size]; exact hsz) l hn hin hch

/-- Witness of C17: the board of side 4. -/
theorem new_game_costs_witness :
    (1 : Int) ≤ 4 ∧ ((Game.new 4).board (Game.new 4).start).gCost = Cost.zero ∧
    ((Game.new 4).board { row := 3, col := 3 }).gCost = Cost.sentinel :=
  ⟨by decide, (new_game_costs 4 (by decide)).2.2.1,
    (new_game_costs 4 (by decide)).2.2.2.1 { row := 3, col := 3 } (by decide)⟩

/-! ## The menu of `findPath` -/


/-- The search `findPath` runs for each of the five keys, on the reset state. -/
theorem findPath_cases (fuel : Nat) (g : Game) :
    findPath fuel g '1' = (depthFirstSearch fuel fuel (resetFor g "Depth First Search")
      (resetFor g "Depth First Search").start).map Prod.snd ∧
    findPath fuel g '2'
      = (breadthFirstSearch fuel (resetFor g "Breadth First Search")).map Prod.snd ∧
    findPath fuel g '3'
      = (Game.bestFirstSearch fuel (resetFor g "Best First Search")).map Prod.snd ∧
    findPath fuel g '4'
      = (greedyBestFirstSearch fuel (resetFor g "Greedy Best First Search")).map Prod.snd ∧
    findPath fuel g '5' = aStarSearch fuel (resetFor g "A star") := by
  unfold findPath
  refine ⟨?_, ?_, ?_, ?_, ?_⟩
  · simp only [if_true]; rfl
  · simp only [if_neg (show ¬ '2' = '1' by decide), if_true]; rfl
  · simp only [if_neg (show ¬ '3' = '1' by decide), if_neg (show ¬ '3' = '2' by decide),
      if_true]; rfl
  · simp only [if_neg (show ¬ '4' = '1' by decide), if_neg (show ¬ '4' = '2' by decide),
      if_neg (show ¬ '4' = '3' by decide), if_true]; rfl
  · simp only [if_neg (show ¬ '5' = '1' by decide), if_neg (show ¬ '5' = '2' by decide),
      if_neg (show ¬ '5' = '3' by decide), if_neg (show ¬ '5' = '4' by decide), if_true]; rfl

/-! ## A run whose start cell is the end cell -/


theorem retracePath_none (pathFuel : Nat) (g : Game) (h : (g.board g.end_).parent = none) :
    retracePath pathFuel g = some g := by
  unfold retracePath NodeHandle.getParent
  rw [h]

theorem markAsExplored_twice (g : Game) (h : Position) :
    NodeHandle.markAsExplored (NodeHandle.markAsExplored g h true) h true
      = NodeHandle.markAsExplored g h true := by
  unfold NodeHandle.markAsExplored
  rw [setNode_setNode, setNode_board_self]

theorem parent_markAsExplored (g : Game) (h p : Position) :
    ((NodeHandle.markAsExplored g h true).board p).parent = (g.board p).parent := by
  unfold NodeHandle.markAsExplored
  by_cases e : p = h
  · subst e; rw [setNode_board_self]
  · rw [setNode_board_ne _ _ _ _ e]

/-- Each of the five searches, started with the start cell equal to the end
cell and the end cell without parent, succeeds in its first round. -/
theorem search_start_is_end (g : Game) (hse : g.start = g.end_)
    (hpar : (g.board g.end_).parent = none) (pathFuel fuel : Nat) :
    depthFirstSearch pathFuel (fuel + 1) g g.start
      = some (true, setSuccess (incSearchCost (NodeHandle.markAsExplored g g.start true))) ∧
    breadthFirstSearch (fuel + 1) g
      = some (true, setSuccess (incSearchCost (NodeHandle.markAsExplored g g.start true))) ∧
    Game.bestFirstSearch (fuel + 1) g
      = some (true, setSuccess (incSearchCost (NodeHandle.markAsExplored g g.start true))) ∧
    greedyBestFirstSearch (fuel + 1) g
      = some (true, setSuccess (incSearchCost (NodeHandle.markAsExplored g g.start true))) ∧
    aStarSearch (fuel + 1) g
      = some (setSuccess (incSearchCost (NodeHandle.markAsExplored g g.start true))) := by
  have hr : retracePath pathFuel (incSearchCost (NodeHandle.markAsExplored g g.start true))
      = some (incSearchCost (NodeHandle.markAsExplored g g.start true)) := by
    apply retracePath_none
    show ((NodeHandle.markAsExplored g g.start true).board g.end_).parent = none
    rw [parent_markAsExplored]; exact hpar
  have hr' : retracePath (fuel + 1) (incSearchCost (NodeHandle.markAsExplored g g.start true))
      = some (incSearchCost (NodeHandle.markAsExplored g g.start true)) := by
    apply retracePath_none
    show ((NodeHandle.markAsExplored g g.start true).board g.end_).parent = none
    rw [parent_markAsExplored]; exact hpar
  have he : (incSearchCost (NodeHandle.markAsExplored g g.start true)).end_ = g.end_ := rfl
  have hc : g.start = (incSearchCost (NodeHandle.markAsExplored g g.start true)).end_ :=
    hse.trans he.symm
  refine ⟨?_, ?_, ?_, ?_, ?_⟩
  · unfold depthFirstSearch
    dsimp only
    rw [if_pos hc, hr]
  · unfold breadthFirstSearch bfsLoop
    dsimp only
    rw [if_pos hc, hr']
  · unfold Game.bestFirstSearch
    rw [heapPush_nil]
    unfold bestLoop
    dsimp only
    rw [markAsExplored_twice, if_pos hc, hr']
  · unfold greedyBestFirstSearch
    rw [heapPush_nil]
    unfold greedyLoop
    dsimp only
    rw [if_pos hc, hr']
  · unfold aStarSearch
    rw [heapPush_nil]
    unfold aStarLoop
    dsimp only
    rw [if_pos hc, hr']


/-- The state after a first round that ends the run with success. -/
theorem firstRound_facts {R : Game} (rs : ResetState R) :
    Succeeded (setSuccess (incSearchCost (NodeHandle.markAsExplored R R.start true))) ∧
    (setSuccess (incSearchCost (NodeHandle.markAsExplored R R.start true))).result.search_cost
      = 0 ∧
    (setSuccess (incSearchCost (NodeHandle.markAsExplored R R.start true))).result.path_cost
      = 1 ∧
    (∀ p, InBounds R p →
      ((setSuccess (incSearchCost (NodeHandle.markAsExplored R R.start true))).board p).visited
        = false) := by
  refine ⟨rfl, ?_, ?_, ?_⟩
  · show R.result.search_cost + 1 - 1 = 0
    rw [rs.search_cost]; rfl
  · show R.result.path_cost + 1 = 1
    rw [rs.path_cost]; rfl
  · intro p hp
    show ((NodeHandle.markAsExplored R R.start true).board p).visited = false
    rw [visited_markAsExplored]
    exact rs.visited p hp

/-- C18, amended: when the start cell is the end cell, each of the five
searches run by `findPath` reports success with search cost `0` and path
cost `1`, and flags no cell of the board visited. -/
theorem start_is_end_run (g : Game) (hwf : WellFormed g) (hse : g.start = g.end_)
    (fuel : Nat) (hf : 1 ≤ fuel) (choice : Char)
    (hc : choice ∈ ['1', '2', '3', '4', '5']) :
    ∃ g', findPath fuel g choice = some g' ∧ Succeeded g' ∧
      g'.result.search_cost = 0 ∧ g'.result.path_cost = 1 ∧
      (∀ p, InBounds g p → (g'.board p).visited = false) := by
  obtain ⟨k, rfl⟩ : ∃ k, fuel = k + 1 := ⟨fuel - 1, by omega⟩
  have key : ∀ algo : String,
      (resetFor g algo).start = (resetFor g algo).end_ ∧
      ((resetFor g algo).board (resetFor g algo).end_).parent = none ∧
      ResetState (resetFor g algo) := by
    intro algo
    have hs := resetFor_sameGrid g algo
    have rs := resetFor_resetState g algo hwf
    have e : (resetFor g algo).start = (resetFor g algo).end_ := by
      rw [hs.start, hs.end_]; exact hse
    refine ⟨e, ?_, rs⟩
    rw [← e]
    exact rs.parent _ rs.wf.start_in
  have fin : ∀ algo : String, ∀ p, InBounds g p → InBounds (resetFor g algo) p :=
    fun algo p hp => ((resetFor_sameGrid g algo).inBounds p).mpr hp
  obtain ⟨c1, c2, c3, c4, c5⟩ := findPath_cases (k + 1) g
  simp only [List.mem_cons, List.mem_singleton, List.not_mem_nil, or_false] at hc
  rcases hc with rfl | rfl | rfl | rfl | rfl
  · obtain ⟨e, hp, rs⟩ := key "Depth First Search"
    obtain ⟨f1, f2, f3, f4⟩ := firstRound_facts rs
    refine ⟨_, ?_, f1, f2, f3, fun p hp => f4 p (fin _ p hp)⟩
    rw [c1, (search_start_is_end _ e hp (k + 1) k).1]; rfl
  · obtain ⟨e, hp, rs⟩ := key "Breadth First Search"
    obtain ⟨f1, f2, f3, f4⟩ := firstRound_facts rs
    refine ⟨_, ?_, f1, f2, f3, fun p hp => f4 p (fin _ p hp)⟩
    rw [c2, (search_start_is_end _ e hp (k + 1) k).2.1]; rfl
  · obtain ⟨e, hp, rs⟩ := key "Best First Search"
    obtain ⟨f1, f2, f3, f4⟩ := firstRound_facts rs
    refine ⟨_, ?_, f1, f2, f3, fun p hp => f4 p (fin _ p hp)⟩
    rw [c3, (search_start_is_end _ e hp (k + 1) k).2.2.1]; rfl
  · obtain ⟨e, hp, rs⟩ := key "Greedy Best First Search"
    obtain ⟨f1, f2, f3, f4⟩ := firstRound_facts rs
    refine ⟨_, ?_, f1, f2, f3, fun p hp => f4 p (fin _ p hp)⟩
    rw [c4, (search_start_is_end _ e hp (k + 1) k).2.2.2.1]; rfl
  · obtain ⟨e, hp, rs⟩ := key "A star"
    obtain ⟨f1, f2, f3, f4⟩ := firstRound_facts rs
    refine ⟨_, ?_, f1, f2, f3, fun p hp => f4 p (fin _ p hp)⟩
    rw [c5, (search_start_is_end _ e hp (k + 1) k).2.2.2.2]

set_option maxRecDepth 100000 in
/-- Witness of C18: A* on the board of side 1, whose start cell is its end
cell. -/
theorem start_is_end_run_witness :
    (WellFormed (Game.new 1) ∧ (Game.new 1).start = (Game.new 1).end_) ∧
    ∃ g', findPath 1 (Game.new 1) '5' = some g' ∧ Succeeded g' ∧
      g'.result.search_cost = 0 ∧ g'.result.path_cost = 1 ∧
      (∀ p, InBounds (Game.new 1) p → (g'.board p).visited = false) :=
  ⟨⟨by decide, by decide⟩,
    start_is_end_run (Game.new 1) (by decide) (by decide) 1 (by decide) '5' (by decide)⟩

set_option maxRecDepth 100000 in
/-- C18, evaluated: on the board built by `Game(1)` the start cell is the end
cell, and each of the five searches reports success with search cost `0` and
path cost `1`, not `0`. -/
theorem start_is_end_reports_one :
    (Game.new 1).start = (Game.new 1).end_ ∧
    resultAfter 2 (Game.new 1) '1' =
      some (Result.mk "Depth First Search" 0 1 statusSuccess) ∧
    resultAfter 2 (Game.new 1) '2' =
      some (Result.mk "Breadth First Search" 0 1 statusSuccess) ∧
    resultAfter 2 (Game.new 1) '3' =
      some (Result.mk "Best First Search" 0 1 statusSuccess) ∧
    resultAfter 2 (Game.new 1) '4' =
      some (Result.mk "Greedy Best First Search" 0 1 statusSuccess) ∧
    resultAfter 2 (Game.new 1) '5' =
      some (Result.mk "A star" 0 1 statusSuccess) := by
  decide

/-! ## The cells flagged visited -/


/-- The cells strictly inside a duplicate-free list. -/
theorem mem_tail_dropLast {l : List Position} (hn : l.Nodup) {a b : Position}
    (hh : l.head? = some a) (hl : l.getLast? = some b) (p : Position) :
    p ∈ l.tail.dropLast ↔ p ∈ l ∧ p ≠ a ∧ p ≠ b := by
  cases l with
  | nil => simp at hh
  | cons x rest =>
    simp only [List.head?_cons, Option.some.injEq] at hh
    subst hh
    rw [List.nodup_cons] at hn
    simp only [List.tail_cons, List.mem_cons]
    cases hr : rest with
    | nil =>
      simp only [List.dropLast_nil, List.not_mem_nil, or_false, false_iff]
      rintro ⟨h1, h2, _⟩
      exact h2 h1
    | cons y rest' =>
      rw [← hr]
      have hl' : rest.getLast? = some b := by
        rw [hr] at hl ⊢
        rw [List.getLast?_cons_cons] at hl
        exact hl
      have hsplit : rest.dropLast ++ [b] = rest := List.dropLast_append_getLast? b hl'
      have hn2 : (rest.dropLast ++ [b]).Nodup := by rw [hsplit]; exact hn.2
      rw [List.nodup_append] at hn2
      have hb : b ∉ rest.dropLast := fun h => hn2.2.2 h (List.mem_singleton_self b)
      constructor
      · intro hp
        have hpr : p ∈ rest := by
          rw [← hsplit]; exact List.mem_append_left _ hp
        refine ⟨Or.inr hpr, ?_, ?_⟩
        · intro e; rw [e] at hpr; exact hn.1 hpr
        · intro e; rw [e] at hp; exact hb hp
      · rintro ⟨h1 | h1, h2, h3⟩
        · exact absurd h1 h2
        · rw [← hsplit] at h1
          rcases List.mem_append.mp h1 with h | h
          · exact h
          · exact absurd (List.mem_singleton.mp h) h3

/-! ## The anchors during editing -/


theorem EditInv.applyCurser {g : Game} (h : EditInv g) : EditInv (applyCurser g) := by
  unfold Game.applyCurser
  split
  · unfold NodeHandle.insertWall
    split
    · rename_i hne
      have h1 : g.start ≠ g.curser := hne.1
      have h2 : g.end_ ≠ g.curser := hne.2
      refine ⟨?_, h.curser_in, h.start_in, h.end_in, h.distinct, ?_, ?_⟩
      · intro p
        by_cases e : p = g.curser
        · subst e; simp [Game.setNode, h.pos]
        · simp [Game.setNode, e, h.pos]
      · show ((g.setNode g.curser _).board g.start).is_walkable = true
        rw [setNode_board_ne _ _ _ _ h1]; exact h.start_walk
      · show ((g.setNode g.curser _).board g.end_).is_walkable = true
        rw [setNode_board_ne _ _ _ _ h2]; exact h.end_walk
    · exact h
  · split
    · unfold NodeHandle.removeWall
      refine ⟨?_, h.curser_in, h.start_in, h.end_in, h.distinct, ?_, ?_⟩
      · intro p
        by_cases e : p = g.curser
        · subst e; simp [Game.setNode, h.pos]
        · simp [Game.setNode, e, h.pos]
      · show ((g.setNode g.curser _).board g.start).is_walkable = true
        by_cases e : g.start = g.curser
        · rw [e, setNode_board_self]
        · rw [setNode_board_ne _ _ _ _ e]; exact h.start_walk
      · show ((g.setNode g.curser _).board g.end_).is_walkable = true
        by_cases e : g.end_ = g.curser
        · rw [e, setNode_board_self]
        · rw [setNode_board_ne _ _ _ _ e]; exact h.end_walk
    · exact h

theorem EditInv.setCurser {g : Game} (h : EditInv g) (c : Position)
    (hc : isOutOfBounds g c = false) : EditInv { g with curser := c } :=
  ⟨h.pos, (isOutOfBounds_eq_false_iff g c).mp hc, h.start_in, h.end_in, h.distinct,
    h.start_walk, h.end_walk⟩

theorem EditInv.applyEdit {g : Game} (h : EditInv g) (op : EditOp) :
    EditInv (g.applyEdit op) := by
  cases op with
  | moveUp =>
    show EditInv (Game.moveUp g)
    unfold Game.moveUp
    dsimp only
    split
    · exact h
    · rename_i hob
      exact (h.setCurser _ (by simpa using hob)).applyCurser
  | moveDown =>
    show EditInv (Game.moveDown g)
    unfold Game.moveDown
    dsimp only
    split
    · exact h
    · rename_i hob
      exact (h.setCurser _ (by simpa using hob)).applyCurser
  | moveLeft =>
    show EditInv (Game.moveLeft g)
    unfold Game.moveLeft
    dsimp only
    split
    · exact h
    · rename_i hob
      exact (h.setCurser _ (by simpa using hob)).applyCurser
  | moveRight =>
    show EditInv (Game.moveRight g)
    unfold Game.moveRight
    dsimp only
    split
    · exact h
    · rename_i hob
      exact (h.setCurser _ (by simpa using hob)).applyCurser
  | changeCurserMode mode =>
    show EditInv (Game.changeCurserMode g mode)
    unfold Game.changeCurserMode
    exact EditInv.applyCurser ⟨h.pos, h.curser_in, h.start_in, h.end_in, h.distinct,
      h.start_walk, h.end_walk⟩
  | putStart =>
    show EditInv (Game.putStart g)
    unfold Game.putStart NodeHandle.isWalkable
    split
    · rename_i hc
      exact ⟨h.pos, h.curser_in, h.curser_in, h.end_in, hc.2, hc.1, h.end_walk⟩
    · exact h
  | putEnd =>
    show EditInv (Game.putEnd g)
    unfold Game.putEnd NodeHandle.isWalkable
    split
    · rename_i hc
      exact ⟨h.pos, h.curser_in, h.start_in, h.curser_in, fun e => hc.2 e.symm,
        h.start_walk, hc.1⟩
    · exact h

theorem EditInv.applyEdits (ops : List EditOp) :
    ∀ {g : Game}, EditInv g → EditInv (g.applyEdits ops) := by
  induction ops with
  | nil => intro g h; exact h
  | cons op ops ih =>
    intro g h
    exact ih (h.applyEdit op)

theorem EditInv.new (size : Int) (hs : 2 ≤ size) : EditInv (Game.new size) := by
  refine ⟨fun p => (new_board size p).1, ?_, ?_, ?_, ?_, (new_board size _).2.1,
    (new_board size _).2.1⟩
  · show 0 ≤ size / 2 ∧ size / 2 < size ∧ 0 ≤ size / 2 ∧ size / 2 < size
    omega
  · show 0 ≤ size / 5 ∧ size / 5 < size ∧ 0 ≤ size / 5 ∧ size / 5 < size
    omega
  · show 0 ≤ size / 3 ∧ size / 3 < size ∧ 0 ≤ size / 2 ∧ size / 2 < size
    omega
  · show ({ row := size / 5, col := size / 5 } : Position) ≠ { row := size / 3, col := size / 2 }
    intro e
    simp only [Position.mk.injEq] at e
    omega

/-- C12: in every state reached from `Game(size)`, `size ≥ 2`, by a finite
sequence of the operations `moveUp`, `moveDown`, `moveLeft`, `moveRight`,
`changeCurserMode`, `putStart` and `putEnd`, the start cell and the end cell
are different cells of the board and both are walkable. -/
theorem anchors_distinct_walkable (size : Int) (hs : 2 ≤ size) (ops : List EditOp) :
    ((Game.new size).applyEdits ops).start ≠ ((Game.new size).applyEdits ops).end_ ∧
    Walkable ((Game.new size).applyEdits ops) ((Game.new size).applyEdits ops).start ∧
    Walkable ((Game.new size).applyEdits ops) ((Game.new size).applyEdits ops).end_ := by
  have h := EditInv.applyEdits ops (EditInv.new size hs)
  exact ⟨h.distinct, ⟨h.start_in, h.start_walk⟩, ⟨h.end_in, h.end_walk⟩⟩

/-- Witness of C12: on the board of side 2 the wall mode is switched on with
the cursor moved onto the start cell, then the start is moved. -/
theorem anchors_distinct_walkable_witness :
    (2 : Int) ≤ 2 ∧
    ((Game.new 2).applyEdits [EditOp.changeCurserMode CurserMode.INSERT_WALL, EditOp.moveUp,
        EditOp.moveLeft, EditOp.putStart]).start
      ≠ ((Game.new 2).applyEdits [EditOp.changeCurserMode CurserMode.INSERT_WALL,
        EditOp.moveUp, EditOp.moveLeft, EditOp.putStart]).end_ :=
  ⟨by decide, (anchors_distinct_walkable 2 (by decide)
    [EditOp.changeCurserMode CurserMode.INSERT_WALL, EditOp.moveUp, EditOp.moveLeft,
      EditOp.putStart]).1⟩

/-! ## Runs on the example boards -/


/-- What the evaluated status and chain of a round of `findPath` say about
the returned state. -/
theorem after_facts {fuel : Nat} {g : Game} {choice : Char} {l : List Position}
    (h1 : chainAfter fuel g choice = some l)
    (h2 : statusAfter fuel g choice = some statusSuccess) :
    ∃ g', findPath fuel g choice = some g' ∧ Succeeded g' ∧
      parentChain fuel g' g'.end_ = some l := by
  unfold chainAfter at h1
  unfold statusAfter at h2
  cases h : findPath fuel g choice with
  | none => rw [h] at h1; simp at h1
  | some g' =>
    rw [h] at h1 h2
    simp only [Option.some_bind] at h1
    simp only [Option.map_some', Option.some.injEq] at h2
    exact ⟨g', rfl, h2, h1⟩

set_option maxRecDepth 100000 in
/-- C24: on the board of side 5 with walls at (0,0), (2,3), (3,3), start (2,4)
and end (4,0), `breadthFirstSearch` and `aStarSearch` both succeed, and the
path reconstructed after `breadthFirstSearch` costs `4 * sqrt 2`, strictly
more than the path reconstructed after `aStarSearch`, which costs
`4 + sqrt 2`. -/
theorem bfs_costlier_than_aStar :
    ∃ (g : Game) (lb la : List Position), WellFormed g ∧
      (∃ gb, findPath 26 g '2' = some gb ∧ Succeeded gb ∧
        parentChain 26 gb gb.end_ = some lb) ∧
      (∃ ga, findPath 26 g '5' = some ga ∧ Succeeded ga ∧
        parentChain 26 ga ga.end_ = some la) ∧
      (pathCost g la.reverse).lt (pathCost g lb.reverse) = true :=
  ⟨exampleWeights, [⟨4, 0⟩, ⟨3, 1⟩, ⟨2, 2⟩, ⟨1, 3⟩, ⟨2, 4⟩],
    [⟨4, 0⟩, ⟨4, 1⟩, ⟨4, 2⟩, ⟨4, 3⟩, ⟨3, 4⟩, ⟨2, 4⟩], by decide,
    after_facts (by decide) (by decide), after_facts (by decide) (by decide), by decide⟩

set_option maxRecDepth 100000 in
/-- C21, evaluated: after `breadthFirstSearch` succeeds on the example board
with a detour, 16 cells are flagged explored and the search cost is 16, not
15; after `bestFirstSearch` on the same board 22 cells are flagged explored
and the search cost is 21. -/
theorem bfs_explored_count_example :
    statusAfter 26 exampleDetour '2' = some statusSuccess ∧
    exploredAfter 26 exampleDetour '2' = some (16, 16) ∧
    statusAfter 26 exampleDetour '3' = some statusSuccess ∧
    exploredAfter 26 exampleDetour '3' = some (22, 21) := by
  decide

/-! ## Single rounds of the greedy search -/

set_option maxRecDepth 100000 in
/-- C23, evaluated: in the run of `greedyBestFirstSearch` on the board of
side 4 whose third row is walled off, the cell (0,3) is flagged explored after
three rounds with g-cost `2 * sqrt 2` and parent (1,2); the fourth round, which
expands (0,2), changes its g-cost to `2` and its parent to (0,2). -/
theorem greedy_relaxes_explored_cell :
    greedyCellAfter 3 exampleWalled { row := 0, col := 3 }
      = some (true, { straight := 0, diag := 2 }, some { row := 1, col := 2 }) ∧
    greedyCellAfter 4 exampleWalled { row := 0, col := 3 }
      = some (true, { straight := 2, diag := 0 }, some { row := 0, col := 2 }) := by
  decide

/-! ## The reported path length -/


theorem nodup_boardCells (n : Nat) : (boardCells n).Nodup := by
  unfold boardCells
  rw [List.nodup_flatMap]
  constructor
  · intro i _
    apply List.Nodup.map _ (List.nodup_range n)
    intro a b h
    simp only [Position.mk.injEq, Int.ofNat_eq_coe, Nat.cast_inj, true_and] at h
    exact h
  · apply List.Pairwise.imp _ (List.nodup_range n)
    intro a b hab p h1 h2
    simp only [List.mem_map] at h1 h2
    obtain ⟨j1, _, e1⟩ := h1
    obtain ⟨j2, _, e2⟩ := h2
    rw [← e2] at e1
    simp only [Position.mk.injEq, Int.ofNat_eq_coe, Nat.cast_inj] at e1
    exact hab e1.1

/-! ## The heap reads its comparator on its elements only -/


theorem getD_mem_or (a : List Position) (i : Nat) (d : Position) :
    a.getD i d ∈ a ∨ a.getD i d = d := by
  by_cases h : i < a.length
  · left
    rw [List.getD_eq_getElem _ _ h]
    exact List.getElem_mem h
  · right
    exact List.getD_eq_default _ _ (by omega)

theorem getD_mem (a : List Position) (i : Nat) (d : Position) (h : i < a.length) :
    a.getD i d ∈ a := by
  rw [List.getD_eq_getElem _ _ h]
  exact List.getElem_mem h

theorem forall_mem_set {S : Position → Prop} {a : List Position} (ha : ∀ x ∈ a, S x)
    (i : Nat) {v : Position} (hv : S v) : ∀ x ∈ a.set i v, S x := by
  intro x hx
  rcases List.mem_or_eq_of_mem_set hx with h | h
  · exact ha x h
  · rw [h]; exact hv

theorem pushHeapLoop_congr (c1 c2 : Position → Position → Bool) (S : Position → Prop)
    (hc : ∀ x y, S x → S y → c1 x y = c2 x y) (value : Position) (hv : S value) (top : Nat) :
    ∀ (fuel : Nat) (a : List Position) (hole : Nat), (∀ x ∈ a, S x) →
      pushHeapLoop c1 value top fuel a hole = pushHeapLoop c2 value top fuel a hole := by
  intro fuel
  induction fuel with
  | zero => intro a hole _; rfl
  | succ fuel ih =>
    intro a hole ha
    have hget : S (a.getD ((hole - 1) / 2) value) := by
      rcases getD_mem_or a ((hole - 1) / 2) value with h | h
      · exact ha _ h
      · rw [h]; exact hv
    unfold pushHeapLoop
    simp only
    rw [hc _ _ hget hv]
    split
    · exact ih _ _ (forall_mem_set ha hole hget)
    · rfl

theorem pushHeap_congr (c1 c2 : Position → Position → Bool) (S : Position → Prop)
    (hc : ∀ x y, S x → S y → c1 x y = c2 x y) (a : List Position) (hole top : Nat)
    (value : Position) (hv : S value) (ha : ∀ x ∈ a, S x) :
    pushHeap c1 a hole top value = pushHeap c2 a hole top value :=
  pushHeapLoop_congr c1 c2 S hc value hv top _ a hole ha

theorem heapPush_congr (c1 c2 : Position → Position → Bool) (S : Position → Prop)
    (hc : ∀ x y, S x → S y → c1 x y = c2 x y) (a : List Position) (x : Position)
    (ha : ∀ y ∈ a, S y) (hx : S x) : heapPush c1 a x = heapPush c2 a x := by
  have hax : ∀ y ∈ a ++ [x], S y := by
    intro y hy
    rcases List.mem_append.mp hy with h | h
    · exact ha y h
    · rw [List.mem_singleton.mp h]; exact hx
  unfold heapPush
  simp only
  refine pushHeap_congr c1 c2 S hc _ _ _ _ ?_ hax
  rcases getD_mem_or (a ++ [x]) ((a ++ [x]).length - 1) x with h | h
  · exact hax _ h
  · rw [h]; exact hx

theorem adjustHeapLoop_congr (c1 c2 : Position → Position → Bool) (S : Position → Prop)
    (hc : ∀ x y, S x → S y → c1 x y = c2 x y) (len : Nat) :
    ∀ (fuel : Nat) (a : List Position) (hole sc : Nat), len ≤ a.length → (∀ x ∈ a, S x) →
      adjustHeapLoop c1 len fuel a hole sc = adjustHeapLoop c2 len fuel a hole sc ∧
      (∀ x ∈ (adjustHeapLoop c2 len fuel a hole sc).1, S x) ∧
      (adjustHeapLoop c2 len fuel a hole sc).1.length = a.length := by
  intro fuel
  induction fuel with
  | zero => intro a hole sc _ ha; exact ⟨rfl, ha, rfl⟩
  | succ fuel ih =>
    intro a hole sc hlen ha
    unfold adjustHeapLoop
    by_cases h : sc < (len - 1) / 2
    · simp only [h, if_true]
      have h1 : 2 * (sc + 1) < a.length := by omega
      have h2 : 2 * (sc + 1) - 1 < a.length := by omega
      have s1 := ha _ (getD_mem a (2 * (sc + 1)) default h1)
      have s2 := ha _ (getD_mem a (2 * (sc + 1) - 1) default h2)
      rw [hc _ _ s1 s2]
      have hnext : ∀ k, k < a.length →
          (∀ x ∈ a.set hole (a.getD k default), S x) ∧
          len ≤ (a.set hole (a.getD k default)).length :=
        fun k hk => ⟨forall_mem_set ha hole (ha _ (getD_mem a k default hk)),
          by rw [List.length_set]; exact hlen⟩
      split
      · obtain ⟨e1, e2, e3⟩ := ih (a.set hole (a.getD (2 * (sc + 1) - 1) default))
          (2 * (sc + 1) - 1) (2 * (sc + 1) - 1) (hnext _ h2).2 (hnext _ h2).1
        exact ⟨e1, e2, by rw [e3, List.length_set]⟩
      · obtain ⟨e1, e2, e3⟩ := ih (a.set hole (a.getD (2 * (sc + 1)) default))
          (2 * (sc + 1)) (2 * (sc + 1)) (hnext _ h1).2 (hnext _ h1).1
        exact ⟨e1, e2, by rw [e3, List.length_set]⟩
    · simp only [h, if_false]
      exact ⟨trivial, ha, trivial⟩

theorem adjustHeap_congr (c1 c2 : Position → Position → Bool) (S : Position → Prop)
    (hc : ∀ x y, S x → S y → c1 x y = c2 x y) (a : List Position) (len : Nat)
    (value : Position) (hlen : len ≤ a.length) (hpos : 0 < len) (hv : S value)
    (ha : ∀ x ∈ a, S x) :
    adjustHeap c1 a 0 len value = adjustHeap c2 a 0 len value := by
  obtain ⟨e1, e2, e3⟩ := adjustHeapLoop_congr c1 c2 S hc len len a 0 0 hlen ha
  unfold adjustHeap
  simp only
  rw [e1]
  split
  · rename_i hcase
    refine pushHeap_congr c1 c2 S hc _ _ _ _ hv (forall_mem_set e2 _ (e2 _ (getD_mem _ _ _ ?_)))
    rw [e3]
    omega
  · exact pushHeap_congr c1 c2 S hc _ _ _ _ hv e2

theorem heapPop_congr (c1 c2 : Position → Position → Bool) (S : Position → Prop)
    (hc : ∀ x y, S x → S y → c1 x y = c2 x y) (a : List Position) (ha : ∀ x ∈ a, S x) :
    heapPop c1 a = heapPop c2 a := by
  unfold heapPop
  split
  · rename_i hl
    simp only
    rw [adjustHeap_congr c1 c2 S hc _ _ _ (by rw [List.length_set]; omega) (by omega)
      (ha _ (getD_mem a _ default (by omega)))
      (forall_mem_set ha _ (ha _ (getD_mem a 0 default (by omega))))]
  · rfl

/-! ## The comparators and the push loops on two states that agree -/

theorem mem_heapPush {comp : Position → Position → Bool} {a : List Position} {x y : Position}
    (h : y ∈ heapPush comp a x) : y = x ∨ y ∈ a :=
  List.mem_cons.mp ((heapPush_perm comp a x).mem_iff.mp h)

theorem mem_heapPop {comp : Position → Position → Bool} {top : Position}
    {rest : List Position} {y : Position} (h : y ∈ heapPop comp (top :: rest)) : y ∈ rest :=
  (heapPop_perm comp top rest).cons_inv.mem_iff.mp h

/-! ## `NodeHandle::toggle` -/


/-- C10, amended: `NodeHandle::toggle` has no guard.  For every game state
and every handle, a handle on the start cell or on the end cell included, it
flips the wall state of the cell of the handle and leaves the other fields of
that cell, every other cell, and the side, the start, end and cursor handles,
the cursor mode and the statistics unchanged. -/
theorem toggle_flips (g : Game) (h : Position) :
    ((NodeHandle.toggle g h).board h).is_walkable = !(g.board h).is_walkable ∧
    ((NodeHandle.toggle g g.start).board g.start).is_walkable
      = !(g.board g.start).is_walkable ∧
    ((NodeHandle.toggle g g.end_).board g.end_).is_walkable
      = !(g.board g.end_).is_walkable ∧
    (NodeHandle.toggle g h).board h
      = { g.board h with is_walkable := !(g.board h).is_walkable } ∧
    (∀ q, q ≠ h → (NodeHandle.toggle g h).board q = g.board q) ∧
    (NodeHandle.toggle g h).size = g.size ∧
    (NodeHandle.toggle g h).start = g.start ∧
    (NodeHandle.toggle g h).end_ = g.end_ ∧
    (NodeHandle.toggle g h).curser = g.curser ∧
    (NodeHandle.toggle g h).curserMode = g.curserMode ∧
    (NodeHandle.toggle g h).result = g.result := by
  unfold NodeHandle.toggle
  refine ⟨?_, ?_, ?_, ?_, ?_, rfl, rfl, rfl, rfl, rfl, rfl⟩
  · rw [setNode_board_self]
  · rw [setNode_board_self]
  · rw [setNode_board_self]
  · rw [setNode_board_self]
  · intro q hq
    exact setNode_board_ne g h _ q hq

end MazePathFinder

namespace MazePathFinder

namespace Binary32

/-! ## Rounding to binary32 -/


theorem round24_of_lt {n : Nat} (h : n < 2 ^ 24) : round24 n = n := by
  unfold round24
  rw [if_pos h]

theorem shiftOf_small : ∀ (fuel : Nat) {n : Nat}, n < 2 ^ 24 → shiftOf fuel n = 0 := by
  intro fuel n h
  cases fuel with
  | zero => rfl
  | succ fuel => unfold shiftOf; rw [if_pos h]

/-- The number of dropped bits puts the number between two powers of two. -/
theorem shiftOf_spec : ∀ (fuel n : Nat), 2 ^ 24 ≤ n → n < 2 ^ (24 + fuel) →
    1 ≤ shiftOf fuel n ∧ 2 ^ shiftOf fuel n * 2 ^ 23 ≤ n ∧ n < 2 ^ shiftOf fuel n * 2 ^ 24 := by
  intro fuel
  induction fuel with
  | zero => intro n h1 h2; simp only [Nat.add_zero] at h2; omega
  | succ fuel ih =>
    intro n h1 h2
    have h2' : n < 2 * 2 ^ (24 + fuel) := by
      have e : 2 ^ (24 + (fuel + 1)) = 2 * 2 ^ (24 + fuel) := by
        rw [← Nat.add_assoc, Nat.pow_succ, Nat.mul_comm]
      rw [e] at h2; exact h2
    unfold shiftOf
    rw [if_neg (by omega)]
    by_cases hm : n / 2 < 2 ^ 24
    · rw [shiftOf_small fuel hm]
      norm_num at hm h1 ⊢
      omega
    · obtain ⟨i1, i2, i3⟩ := ih (n / 2) (by omega) (by omega)
      refine ⟨by omega, ?_, ?_⟩
      · rw [Nat.pow_succ]
        generalize 2 ^ shiftOf fuel (n / 2) = P at i2 i3
        have : P * 2 * 2 ^ 23 = 2 * (P * 2 ^ 23) := by ring
        omega
      · rw [Nat.pow_succ]
        generalize 2 ^ shiftOf fuel (n / 2) = P at i2 i3
        have : P * 2 * 2 ^ 24 = 2 * (P * 2 ^ 24) := by ring
        omega

/-- The parts of a number of at least `2^24` units that `round24` works with:
the number `k` of dropped bits, the kept bits `q` and the rest `r`. -/
theorem round24_parts {n : Nat} (h : 2 ^ 24 ≤ n) (hn : n < 2 ^ 152) :
    ∃ k q r : Nat, 1 ≤ k ∧ 2 ^ k * 2 ^ 23 ≤ n ∧ n < 2 ^ k * 2 ^ 24 ∧
      2 ^ k * q + r = n ∧ r < 2 ^ k ∧ 2 ^ 23 ≤ q ∧ q < 2 ^ 24 ∧
      round24 n = (if 2 ^ k < 2 * r ∨ (2 * r = 2 ^ k ∧ q % 2 = 1)
        then 2 ^ k * q + 2 ^ k else 2 ^ k * q) := by
  obtain ⟨k1, k2, k3⟩ := shiftOf_spec 128 n h (by norm_num at hn ⊢; exact hn)
  have hP0 : 0 < 2 ^ shiftOf 128 n := Nat.pos_pow_of_pos _ (by norm_num)
  refine ⟨shiftOf 128 n, n / 2 ^ shiftOf 128 n, n % 2 ^ shiftOf 128 n, k1, k2, k3,
    Nat.div_add_mod n _, Nat.mod_lt _ hP0, ?_, ?_, ?_⟩
  · rw [Nat.le_div_iff_mul_le hP0, Nat.mul_comm]
    exact k2
  · rw [Nat.div_lt_iff_lt_mul hP0, Nat.mul_comm]
    exact k3
  · unfold round24
    rw [if_neg (by omega)]
    simp only
    split
    · rw [Nat.add_mul, Nat.one_mul, Nat.mul_comm]
    · rw [Nat.mul_comm]

/-- The rounding error on numbers below `2^40` units, which is more than the
sentinel plus a step: at most `2^15` units. -/
theorem round24_near {n : Nat} (h : n < 2 ^ 40) :
    n ≤ round24 n + 2 ^ 15 ∧ round24 n ≤ n + 2 ^ 15 := by
  by_cases hs : n < 2 ^ 24
  · rw [round24_of_lt hs]
    constructor <;> omega
  · obtain ⟨k, q, r, hk, h1, h2, h3, h4, h5, h6, h7⟩ :=
      round24_parts (by omega : 2 ^ 24 ≤ n) (lt_trans h (by norm_num))
    have hP16 : 2 ^ k ≤ 2 ^ 16 := by
      apply Nat.pow_le_pow_right (by norm_num)
      by_contra hc
      have : 2 ^ 17 ≤ 2 ^ k := Nat.pow_le_pow_right (by norm_num) (by omega)
      have : 2 ^ 17 * 2 ^ 23 ≤ 2 ^ k * 2 ^ 23 := Nat.mul_le_mul_right _ this
      norm_num at this h
      omega
    rw [h7]
    generalize 2 ^ k = P at h1 h2 h3 h4 h7 hP16
    generalize P * q = m at h3 h7
    norm_num at hP16 ⊢
    split <;> constructor <;> omega

/-- Rounding keeps the order. -/
theorem round24_mono {a b : Nat} (h : a ≤ b) (hb152 : b < 2 ^ 152) :
    round24 a ≤ round24 b := by
  by_cases hb : b < 2 ^ 24
  · rw [round24_of_lt hb, round24_of_lt (by omega)]
    exact h
  · obtain ⟨k', q', r', hk', h1', h2', h3', h4', h5', h6', h7'⟩ :=
      round24_parts (by omega : 2 ^ 24 ≤ b) hb152
    have lb : 2 ^ k' * 2 ^ 23 ≤ round24 b := by
      have : 2 ^ k' * 2 ^ 23 ≤ 2 ^ k' * q' := Nat.mul_le_mul_left _ h5'
      rw [h7']
      split <;> omega
    by_cases ha : a < 2 ^ 24
    · rw [round24_of_lt ha]
      have : 2 ^ 1 * 2 ^ 23 ≤ 2 ^ k' * 2 ^ 23 :=
        Nat.mul_le_mul_right _ (Nat.pow_le_pow_right (by norm_num) hk')
      norm_num at this ha
      omega
    · obtain ⟨k, q, r, hk, h1, h2, h3, h4, h5, h6, h7⟩ :=
        round24_parts (by omega : 2 ^ 24 ≤ a) (lt_of_le_of_lt h hb152)
      have ua : round24 a ≤ 2 ^ k * 2 ^ 24 := by
        have : 2 ^ k * (q + 1) ≤ 2 ^ k * 2 ^ 24 := Nat.mul_le_mul_left _ h6
        rw [Nat.mul_add, Nat.mul_one] at this
        rw [h7]
        split <;> omega
      have hkk : k ≤ k' := by
        by_contra hc
        have : 2 ^ (k' + 1) ≤ 2 ^ k := Nat.pow_le_pow_right (by norm_num) (by omega)
        have : 2 ^ (k' + 1) * 2 ^ 23 ≤ 2 ^ k * 2 ^ 23 := Nat.mul_le_mul_right _ this
        have e : 2 ^ (k' + 1) * 2 ^ 23 = 2 ^ k' * 2 ^ 24 := by ring
        omega
      rcases Nat.lt_or_ge k k' with hlt | hge
      · have : 2 ^ (k + 1) ≤ 2 ^ k' := Nat.pow_le_pow_right (by norm_num) hlt
        have : 2 ^ (k + 1) * 2 ^ 23 ≤ 2 ^ k' * 2 ^ 23 := Nat.mul_le_mul_right _ this
        have e : 2 ^ (k + 1) * 2 ^ 23 = 2 ^ k * 2 ^ 24 := by ring
        omega
      · have hL : k = k' := by omega
        subst hL
        rw [h7, h7']
        generalize 2 ^ k = P at h1 h2 h3 h4 h1' h2' h3' h4'
        rcases Nat.lt_or_ge q q' with hq | hq
        · have : P * (q + 1) ≤ P * q' := Nat.mul_le_mul_left _ hq
          rw [Nat.mul_add, Nat.mul_one] at this
          split <;> split <;> omega
        · have hqq : q = q' := by
            by_contra hne
            have hlt : q' < q := by omega
            have : P * (q' + 1) ≤ P * q := Nat.mul_le_mul_left _ hlt
            rw [Nat.mul_add, Nat.mul_one] at this
            omega
          subst hqq
          have hr : r ≤ r' := by omega
          split
          · rename_i hup
            rw [if_pos (by
              rcases hup with hup | hup
              · left; omega
              · by_cases e : r = r'
                · right; rw [← e]; exact hup
                · left; omega)]
          · split <;> omega

/-! ## Sums of costs -/

theorem Cost.lt_iff_units (a b : Cost) : a.lt b = true ↔ a.units < b.units := by
  unfold Cost.lt
  simp

theorem Cost.add_mono {a b : Cost} (d : Cost) (h : a.units ≤ b.units)
    (hb : b.units + d.units < 2 ^ 152) : (a.add d).units ≤ (b.add d).units := by
  unfold Cost.add
  exact round24_mono (by omega) hb

theorem Cost.sentinel_units : Cost.sentinel.units = 838860800000 := by decide

/-- Adding a step of at least `1` to a cost of at most the sentinel gives a
greater cost, by less than `stepBound`. -/
theorem Cost.add_step {a d : Cost} (ha : a.units ≤ Cost.sentinel.units)
    (hd1 : 2 ^ 23 ≤ d.units) (hd2 : d.units ≤ 11863283) :
    a.units < (a.add d).units ∧ (a.add d).units ≤ a.units + stepBound := by
  rw [Cost.sentinel_units] at ha
  have := @round24_near (a.units + d.units) (by norm_num; omega)
  unfold Cost.add stepBound
  norm_num at this hd1 ⊢
  omega

/-! ## Values that a binary32 number can hold -/


/-- A number with at most 24 significant bits is its own rounding. -/
theorem round24_mul_pow {k q : Nat} (hq1 : 2 ^ 23 ≤ q) (hq2 : q < 2 ^ 24)
    (hm : 2 ^ k * q < 2 ^ 152) : round24 (2 ^ k * q) = 2 ^ k * q := by
  by_cases hs : 2 ^ k * q < 2 ^ 24
  · exact round24_of_lt hs
  · obtain ⟨k2, q2, r2, _, h1, h2, h3, h4, _, _, h7⟩ :=
      round24_parts (by omega : 2 ^ 24 ≤ 2 ^ k * q) hm
    have hP : 0 < 2 ^ k := Nat.pos_pow_of_pos _ (by norm_num)
    have hP2 : 0 < 2 ^ k2 := Nat.pos_pow_of_pos _ (by norm_num)
    have l1 : 2 ^ k * 2 ^ 23 ≤ 2 ^ k * q := Nat.mul_le_mul_left _ hq1
    have l2 : 2 ^ k * q < 2 ^ k * 2 ^ 24 := Nat.mul_lt_mul_of_pos_left hq2 hP
    have hk : k2 = k := by
      rcases Nat.lt_trichotomy k2 k with h | h | h
      · exfalso
        have : 2 ^ (k2 + 1) ≤ 2 ^ k := Nat.pow_le_pow_right (by norm_num) h
        rw [Nat.pow_succ] at this
        generalize 2 ^ k * q = m at *
        generalize 2 ^ k = P at *
        generalize 2 ^ k2 = P2 at *
        norm_num at h1 h2 l1 l2
        omega
      · exact h
      · exfalso
        have : 2 ^ (k + 1) ≤ 2 ^ k2 := Nat.pow_le_pow_right (by norm_num) h
        rw [Nat.pow_succ] at this
        generalize 2 ^ k * q = m at *
        generalize 2 ^ k = P at *
        generalize 2 ^ k2 = P2 at *
        norm_num at h1 h2 l1 l2
        omega
    subst hk
    have hr : r2 = 0 := by
      have e1 : (2 ^ k2 * q2 + r2) % 2 ^ k2 = r2 := by
        rw [Nat.mul_add_mod, Nat.mod_eq_of_lt h4]
      rw [h3, Nat.mul_mod_right] at e1
      exact e1.symm
    subst hr
    rw [h7, if_neg (by omega)]
    simpa using h3

/-- Rounding gives a number that rounding leaves unchanged. -/
theorem round24_idem {n : Nat} (hn : n < 2 ^ 151) : round24 (round24 n) = round24 n := by
  by_cases hs : n < 2 ^ 24
  · rw [round24_of_lt hs, round24_of_lt hs]
  · obtain ⟨k, q, r, _, h1, h2, h3, h4, h5, h6, h7⟩ :=
      round24_parts (by omega : 2 ^ 24 ≤ n) (lt_trans hn (by norm_num))
    have hP : 0 < 2 ^ k := Nat.pos_pow_of_pos _ (by norm_num)
    have hn2 : 2 ^ k * 2 ^ 24 < 2 ^ 152 := by
      have e : (2 : Nat) ^ 152 = 2 * 2 ^ 151 := by norm_num
      have e2 : 2 ^ k * 2 ^ 24 = 2 * (2 ^ k * 2 ^ 23) := by
        have : (2 : Nat) ^ 24 = 2 * 2 ^ 23 := by norm_num
        rw [this]; ring
      rw [e, e2]
      omega
    rw [h7]
    split
    · by_cases hq : q + 1 < 2 ^ 24
      · have e : 2 ^ k * q + 2 ^ k = 2 ^ k * (q + 1) := by ring
        rw [e]
        refine round24_mul_pow (by omega) hq ?_
        exact lt_trans (Nat.mul_lt_mul_of_pos_left hq hP) hn2
      · have hq' : q + 1 = 2 ^ 24 := by omega
        have e : 2 ^ k * q + 2 ^ k = 2 ^ (k + 1) * 2 ^ 23 := by
          have : 2 ^ k * q + 2 ^ k = 2 ^ k * (q + 1) := by ring
          rw [this, hq', Nat.pow_succ]
          ring
        rw [e]
        refine round24_mul_pow (le_refl _) (by norm_num) ?_
        have e3 : 2 ^ (k + 1) * 2 ^ 23 = 2 ^ k * 2 ^ 24 := by
          rw [Nat.pow_succ]
          have : (2 : Nat) ^ 24 = 2 * 2 ^ 23 := by norm_num
          rw [this]; ring
        rw [e3]
        exact hn2
    · exact round24_mul_pow h5 h6 (lt_trans (Nat.mul_lt_mul_of_pos_left h6 hP) hn2)

/-- No sum of a cost of at most `2 ^ 25` and one step exceeds `2 ^ 25`: the
costs of a run stay in a range in which the rounding is defined. -/
theorem round24_cap {n : Nat} (h : n ≤ 2 ^ 48 + 2 ^ 24) : round24 n ≤ 2 ^ 48 := by
  have e : round24 (2 ^ 48 + 2 ^ 24) = 2 ^ 48 := by decide
  rw [← e]
  exact round24_mono h (by norm_num)

theorem Cost.isFloat_zero : Cost.zero.IsFloat := by
  unfold Cost.IsFloat; decide

theorem Cost.isFloat_sentinel : Cost.sentinel.IsFloat := by
  unfold Cost.IsFloat; decide

/-- The sum of a cost and one step is again such a cost, and it is not below
the cost. -/
theorem Cost.isFloat_add {a d : Cost} (ha : a.IsFloat) (hd : d.units ≤ 11863283) :
    (a.add d).IsFloat ∧ a.units ≤ (a.add d).units := by
  have h48 : (2 : Nat) ^ 48 + 2 ^ 24 < 2 ^ 151 := by norm_num
  have hs : a.units + d.units ≤ 2 ^ 48 + 2 ^ 24 := by
    have := ha.2
    norm_num at this ⊢
    omega
  refine ⟨⟨?_, ?_⟩, ?_⟩
  · exact round24_idem (lt_of_le_of_lt hs h48)
  · exact round24_cap hs
  · have := @round24_mono a.units (a.units + d.units) (by omega)
      (lt_trans (lt_of_le_of_lt hs h48) (by norm_num))
    rw [ha.1] at this
    exact this

open MazePathFinder.Binary32.Game

/-! ## Basic facts about cell updates -/


@[simp] theorem setNode_board_self32 (g : Game) (h : Position) (n : Node) :
    (g.setNode h n).board h = n := by
  simp [Game.setNode]

theorem setNode_board32 (g : Game) (h : Position) (n : Node) (q : Position) :
    (g.setNode h n).board q = if q = h then n else g.board q := rfl

@[simp] theorem setNode_board_ne32 (g : Game) (h : Position) (n : Node) (q : Position)
    (hq : q ≠ h) : (g.setNode h n).board q = g.board q := by
  simp [Game.setNode, hq]

@[simp] theorem setNode_result32 (g : Game) (h : Position) (n : Node) :
    (g.setNode h n).result = g.result := rfl

theorem setNode_setNode32 (g : Game) (h : Position) (n m : Node) :
    (g.setNode h n).setNode h m = g.setNode h m := by
  unfold Game.setNode
  congr 1
  funext q
  by_cases hq : q = h <;> simp [hq]

/-! ## `clearBuffer` -/


theorem clearCell_all32 (g : Game) (p : Position) :
    Game.clearCell BUFFER_ALL_BIT g p = g.setNode p (g.board p).cleared := by
  have e1 : BUFFER_ALL_BIT &&& BUFFER_BIT_EXPLORED ≠ 0 := by decide
  have e2 : BUFFER_ALL_BIT &&& BUFFER_BIT_VISITED ≠ 0 := by decide
  have e3 : BUFFER_ALL_BIT &&& BUFFER_BIT_COST ≠ 0 := by decide
  have e4 : BUFFER_ALL_BIT &&& BUFFER_BIT_PARENT ≠ 0 := by decide
  unfold Game.clearCell
  simp only [e1, e2, e3, e4, ne_eq, not_false_eq_true, if_true, NodeHandle.markAsExplored,
    NodeHandle.markAsVisited, NodeHandle.setGCost, NodeHandle.setParent, setNode_setNode32,
    setNode_board_self32, Node.cleared]

/-- Clearing a list of cells one after the other. -/
theorem foldl_clearCell32 (L : List Position) (g : Game) :
    L.foldl (Game.clearCell BUFFER_ALL_BIT) g =
      { g with board := fun p => if p ∈ L then (g.board p).cleared else g.board p } := by
  induction L generalizing g with
  | nil => simp
  | cons a L ih =>
    rw [List.foldl_cons, ih, clearCell_all32]
    unfold Game.setNode
    congr 1
    funext p
    by_cases hpa : p = a
    · subst hpa
      by_cases hpL : p ∈ L <;> simp [hpL, Node.cleared]
    · by_cases hpL : p ∈ L <;> simp [hpL, hpa]

theorem mem_boardCells_iff32 (g : Game) (p : Position) :
    p ∈ boardCells g.size.toNat ↔ InBounds g p := by
  rw [mem_boardCells]
  unfold InBounds
  constructor
  · rintro ⟨h1, h2, h3, h4⟩
    refine ⟨h1, ?_, h3, ?_⟩ <;> omega
  · rintro ⟨h1, h2, h3, h4⟩
    refine ⟨h1, ?_, h3, ?_⟩ <;> omega

theorem clearLoops_eq32 (g : Game) (n : Nat) (hn : n = g.size.toNat) :
    (List.range n).foldl
      (fun g i => (List.range g.size.toNat).foldl
        (fun g j => Game.clearCell BUFFER_ALL_BIT g { row := Int.ofNat i, col := Int.ofNat j }) g) g
      = (boardCells n).foldl (Game.clearCell BUFFER_ALL_BIT) g := by
  unfold boardCells
  rw [List.flatMap, List.foldl_flatten, List.foldl_map]
  have key : ∀ (L : List Nat) (g : Game), n = g.size.toNat →
      L.foldl (fun g i => (List.range g.size.toNat).foldl
        (fun g j => Game.clearCell BUFFER_ALL_BIT g { row := Int.ofNat i, col := Int.ofNat j }) g) g
      = L.foldl (fun g i => ((List.range n).map fun j =>
          ({ row := Int.ofNat i, col := Int.ofNat j } : Position)).foldl
            (Game.clearCell BUFFER_ALL_BIT) g) g := by
    intro L
    induction L with
    | nil => intro g _; rfl
    | cons i L ih =>
      intro g hg
      rw [List.foldl_cons, List.foldl_cons]
      have e : (List.range g.size.toNat).foldl
          (fun g j => Game.clearCell BUFFER_ALL_BIT g { row := Int.ofNat i, col := Int.ofNat j }) g
          = ((List.range n).map fun j =>
            ({ row := Int.ofNat i, col := Int.ofNat j } : Position)).foldl
              (Game.clearCell BUFFER_ALL_BIT) g := by
        rw [List.foldl_map, hg]
      rw [e]
      apply ih
      rw [foldl_clearCell32]
      exact hg
  exact key _ g hn

theorem clearBuffer_eq32 (g : Game) :
    Game.clearBuffer g BUFFER_ALL_BIT =
      NodeHandle.setGCost
        { g with board := fun p => if InBounds g p then (g.board p).cleared else g.board p }
        g.start Cost.zero := by
  unfold Game.clearBuffer
  simp only
  rw [clearLoops_eq32 g _ rfl, foldl_clearCell32]
  have : (fun p => if p ∈ boardCells g.size.toNat then (g.board p).cleared else g.board p)
      = (fun p => if InBounds g p then (g.board p).cleared else g.board p) := by
    funext p
    simp only [mem_boardCells_iff32]
  rw [this]

/-! ## Bounds, stored positions and neighbours -/


theorem isOutOfBounds_eq_false_iff32 (g : Game) (p : Position) :
    isOutOfBounds g p = false ↔ InBounds g p := by
  unfold isOutOfBounds InBounds
  constructor
  · intro h
    by_contra hc
    have : p.row < 0 ∨ p.col < 0 ∨ p.row ≥ g.size ∨ p.col ≥ g.size := by omega
    rw [if_pos this] at h
    exact absurd h (by simp)
  · intro h
    rw [if_neg (by omega)]

theorem PosOK.pos_eq32 {g : Game} (h : PosOK g) {p : Position} (hp : InBounds g p) :
    (g.board p).pos = p :=
  h p ((mem_boardCells_iff32 g p).mpr hp)

/-- The neighbours of a cell, read off the two loops of `getNeighbours`. -/
theorem mem_getNeighbours_raw32 (g : Game) (curr q : Position) :
    q ∈ getNeighbours g curr ↔
      Adjacent (g.board curr).pos q ∧ Walkable g q := by
  unfold getNeighbours NodeHandle.getPosition Node.isWalkable
  simp only [List.mem_flatMap, List.mem_filterMap, List.mem_cons, List.mem_singleton,
    List.not_mem_nil, or_false]
  constructor
  · rintro ⟨dx, hdx, dy, hdy, h⟩
    split at h
    · exact absurd h (by simp)
    · rename_i hz
      split at h
      · exact absurd h (by simp)
      · rename_i hob
        split at h
        · rename_i hw
          have hq : q = { row := (g.board curr).pos.row + dx, col := (g.board curr).pos.col + dy } :=
            (Option.some.inj h).symm
          have hin : InBounds g q := by
            rw [hq]
            exact (isOutOfBounds_eq_false_iff32 g _).mp (by simpa using hob)
          refine ⟨⟨?_, ?_, ?_⟩, hin, by rw [hq]; exact hw⟩
          · intro e
            rw [hq] at e
            have e1 := congrArg Position.row e
            have e2 := congrArg Position.col e
            simp only at e1 e2
            apply hz
            constructor <;> omega
          · rw [hq]; simp only
            rcases hdx with rfl | rfl | rfl <;> simp
          · rw [hq]; simp only
            rcases hdy with rfl | rfl | rfl <;> simp
        · exact absurd h (by simp)
  · rintro ⟨⟨hne, hr, hc⟩, hin, hw⟩
    refine ⟨q.row - (g.board curr).pos.row, by omega, q.col - (g.board curr).pos.col,
      by omega, ?_⟩
    have hz : ¬ (q.row - (g.board curr).pos.row = 0 ∧ q.col - (g.board curr).pos.col = 0) := by
      rintro ⟨e1, e2⟩
      apply hne
      cases q with
      | mk r c =>
        cases hp : (g.board curr).pos with
        | mk r' c' =>
          rw [hp] at e1 e2
          simp only at e1 e2
          congr 1 <;> omega
    have hq : ({ row := (g.board curr).pos.row + (q.row - (g.board curr).pos.row),
                 col := (g.board curr).pos.col + (q.col - (g.board curr).pos.col) } : Position)
        = q := by
      cases q with
      | mk r c => simp
    rw [if_neg hz, hq]
    have hob : isOutOfBounds g q = false := (isOutOfBounds_eq_false_iff32 g q).mpr hin
    simp [hob, hw]

theorem mem_getNeighbours32 {g : Game} (hpos : PosOK g) {curr : Position}
    (hc : InBounds g curr) (q : Position) :
    q ∈ getNeighbours g curr ↔ Adjacent curr q ∧ Walkable g q := by
  rw [mem_getNeighbours_raw32, hpos.pos_eq32 hc]

/-! ## Game states with the same static part -/


theorem SameGrid.refl_sg32 (g : Game) : SameGrid g g :=
  ⟨rfl, rfl, rfl, fun _ => rfl, fun _ => rfl⟩

theorem SameGrid.trans_sg32 {g1 g2 g3 : Game} (h12 : SameGrid g1 g2) (h23 : SameGrid g2 g3) :
    SameGrid g1 g3 :=
  ⟨h23.size.trans h12.size, h23.start.trans h12.start, h23.end_.trans h12.end_,
    fun p => (h23.walk p).trans (h12.walk p), fun p => (h23.pos p).trans (h12.pos p)⟩

theorem SameGrid.inBounds32 {g g' : Game} (h : SameGrid g g') (p : Position) :
    InBounds g' p ↔ InBounds g p := by
  unfold InBounds; rw [h.size]

theorem SameGrid.walkable32 {g g' : Game} (h : SameGrid g g') (p : Position) :
    Walkable g' p ↔ Walkable g p := by
  unfold Walkable; rw [h.inBounds32, h.walk]

theorem SameGrid.posOK32 {g g' : Game} (h : SameGrid g g') (hp : PosOK g) : PosOK g' := by
  intro p hm
  rw [h.size] at hm
  rw [h.pos]
  exact hp p hm

theorem SameGrid.wellFormed32 {g g' : Game} (h : SameGrid g g') (hw : WellFormed g) :
    WellFormed g' :=
  ⟨h.posOK32 hw.posOK, by rw [h.inBounds32, h.start]; exact hw.start_in,
    by rw [h.start, h.walk]; exact hw.start_walk⟩

theorem SameGrid.isOutOfBounds32 {g g' : Game} (h : SameGrid g g') (p : Position) :
    isOutOfBounds g' p = isOutOfBounds g p := by
  unfold Game.isOutOfBounds; rw [h.size]

theorem SameGrid.getNeighbours32 {g g' : Game} (h : SameGrid g g') (p : Position) :
    getNeighbours g' p = getNeighbours g p := by
  unfold Game.getNeighbours NodeHandle.getPosition Node.isWalkable
  simp only [h.pos, h.walk, h.isOutOfBounds32]

theorem SameGrid.getChessBoardDistance32 {g g' : Game} (h : SameGrid g g') (p q : Position) :
    getChessBoardDistance g' p q = getChessBoardDistance g p q := by
  unfold Game.getChessBoardDistance NodeHandle.getPosition
  simp only [h.pos]

/-- Writing a cell whose walkability and position are those of the old cell
keeps the static part. -/
theorem sameGrid_setNode32 (g : Game) (h : Position) (n : Node)
    (hw : n.is_walkable = (g.board h).is_walkable) (hp : n.pos = (g.board h).pos) :
    SameGrid g (g.setNode h n) := by
  refine ⟨rfl, rfl, rfl, fun p => ?_, fun p => ?_⟩
  · rw [setNode_board32]; split
    · rename_i e; rw [e, hw]
    · rfl
  · rw [setNode_board32]; split
    · rename_i e; rw [e, hp]
    · rfl

theorem sameGrid_markAsExplored32 (g : Game) (h : Position) (v : Bool) :
    SameGrid g (NodeHandle.markAsExplored g h v) := sameGrid_setNode32 g h _ rfl rfl

theorem sameGrid_markAsVisited32 (g : Game) (h : Position) (v : Bool) :
    SameGrid g (NodeHandle.markAsVisited g h v) := sameGrid_setNode32 g h _ rfl rfl

theorem sameGrid_setGCost32 (g : Game) (h : Position) (c : Cost) :
    SameGrid g (NodeHandle.setGCost g h c) := sameGrid_setNode32 g h _ rfl rfl

theorem sameGrid_result32 (g : Game) (r : Result) : SameGrid g { g with result := r } :=
  ⟨rfl, rfl, rfl, fun _ => rfl, fun _ => rfl⟩

/-! ## The cost of one step, in binary32 -/


theorem dist_adjacent_cases32 {g : Game} (hpos : PosOK g) {p c : Position}
    (hp : InBounds g p) (hc : InBounds g c) (hadj : Adjacent p c) :
    getChessBoardDistance g p c = Cost.ofNat 1 ∨ getChessBoardDistance g p c = Cost.sqrt2 := by
  unfold getChessBoardDistance NodeHandle.getPosition Position.sub
  rw [hpos.pos_eq32 hp, hpos.pos_eq32 hc]
  obtain ⟨hne, hr, hcl⟩ := hadj
  simp only
  have hne2 : ¬ ((c.row - p.row).natAbs = 0 ∧ (c.col - p.col).natAbs = 0) := by
    rintro ⟨e1, e2⟩
    apply hne
    cases p with
    | mk r1 c1 =>
      cases c with
      | mk r2 c2 =>
        simp only at e1 e2
        congr 1 <;> omega
  generalize (c.row - p.row).natAbs = dx at hr hne2
  generalize (c.col - p.col).natAbs = dy at hcl hne2
  have hx : dx = 0 ∨ dx = 1 := by omega
  have hy : dy = 0 ∨ dy = 1 := by omega
  rcases hx with rfl | rfl <;> rcases hy with rfl | rfl
  · exact absurd ⟨rfl, rfl⟩ hne2
  · left; decide
  · left; decide
  · right; decide

/-- A step between 8-adjacent cells costs `1` or `sqrt(2.0f)`. -/
theorem dist_adjacent_step32 {g : Game} (hpos : PosOK g) {p c : Position}
    (hp : InBounds g p) (hc : InBounds g c) (hadj : Adjacent p c) :
    2 ^ 23 ≤ (getChessBoardDistance g p c).units ∧
      (getChessBoardDistance g p c).units ≤ 11863283 := by
  rcases dist_adjacent_cases32 hpos hp hc hadj with h | h <;> rw [h] <;> decide

/-! ## The relaxation of one neighbour keeps the parent invariant -/


theorem Rooted.mono_rooted32 {g g' : Game} {c : Position} (hs : g'.start = g.start)
    (hp : ∀ p, (g.board c).parent = some p → ∃ p', (g'.board c).parent = some p')
    (h : Rooted g c) : Rooted g' c := by
  rcases h with h | ⟨p, h⟩
  · left; rw [hs]; exact h
  · right; exact hp p h

/-- Changing flags, h-costs or statistics keeps the parent invariant. -/
theorem ParentInv.transfer_pi32 {g g' : Game} {K : Nat} (hI : ParentInv g K)
    (hg : SameGrid g g') (hc : SameCosts g g') : ParentInv g' K := by
  have hroot : ∀ c, Rooted g c → Rooted g' c := fun c h =>
    Rooted.mono_rooted32 hg.start (fun p hp => ⟨p, by rw [(hc c).2]; exact hp⟩) h
  refine ⟨?_, ?_, ?_, ?_⟩
  · rw [hg.start, (hc _).1]; exact hI.start_cost
  · rw [hg.start, (hc _).2]; exact hI.start_parent
  · intro c hcin
    rw [hg.inBounds32] at hcin
    rcases hI.fresh_or_rooted c hcin with h | h
    · left; rw [(hc c).1, (hc c).2]; exact h
    · right; rw [(hc c).1]; exact ⟨hroot c h.1, h.2⟩
  · intro c p hcin hpar
    rw [hg.inBounds32] at hcin
    rw [(hc c).2] at hpar
    obtain ⟨h1, h2, h3, h4, h5, h6⟩ := hI.parent_ok c p hcin hpar
    refine ⟨(hg.walkable32 p).mpr h1, (hg.walkable32 c).mpr h2, h3, hroot p h4, ?_, ?_⟩
    · rw [(hc p).1, (hc c).1]; exact h5
    · rw [(hc p).1, (hc c).1, hg.getChessBoardDistance32]; exact h6

theorem ParentInv.mono_pi32 {g : Game} {K K' : Nat} (hI : ParentInv g K) (hK : K ≤ K') :
    ParentInv g K' := by
  refine ⟨hI.start_cost, hI.start_parent, fun c hc => ?_, hI.parent_ok⟩
  rcases hI.fresh_or_rooted c hc with h | h
  · exact Or.inl h
  · exact Or.inr ⟨h.1, le_trans h.2 (Nat.mul_le_mul_right _ hK)⟩

/-- Under the parent invariant with at most `50000` expanded cells no cost of
a cell of the board exceeds the sentinel. -/
theorem ParentInv.le_sentinel32 {g : Game} {K : Nat} (hI : ParentInv g K) (hK : K ≤ 50000)
    {c : Position} (hc : InBounds g c) : (g.board c).gCost.units ≤ Cost.sentinel.units := by
  rcases hI.fresh_or_rooted c hc with h | h
  · rw [h.1]
  · have : K * stepBound ≤ 50000 * stepBound := Nat.mul_le_mul_right _ hK
    rw [Cost.sentinel_units]
    unfold stepBound at *
    omega

/-- The relaxation step: the neighbour `n` of `curr` receives the cost of
`curr` plus the step and the parent `curr`, either because this lowers its
cost or while no cell has `n` as parent. -/
theorem ParentInv.relax_pi32 {g g' : Game} {K : Nat} {curr n : Position}
    (hI : ParentInv g K) (hpos : PosOK g)
    (hcw : Walkable g curr) (hcr : Rooted g curr)
    (hck : (g.board curr).gCost.units + stepBound ≤ K * stepBound) (hK : K ≤ 50000)
    (hadj : Adjacent curr n) (hnw : Walkable g n) (hns : n ≠ g.start)
    (hcond : ((g.board curr).gCost.add (getChessBoardDistance g curr n)).units
        < (g.board n).gCost.units ∨ ∀ c, InBounds g c → (g.board c).parent ≠ some n)
    (hg : SameGrid g g')
    (hn1 : (g'.board n).gCost = (g.board curr).gCost.add (getChessBoardDistance g curr n))
    (hn2 : (g'.board n).parent = some curr)
    (hfr : ∀ q, q ≠ n → (g'.board q).gCost = (g.board q).gCost ∧
      (g'.board q).parent = (g.board q).parent) :
    ParentInv g' K := by
  have hcn : curr ≠ n := hadj.ne
  have hd := dist_adjacent_step32 hpos hcw.1 hnw.1 hadj
  have hcs : (g.board curr).gCost.units ≤ Cost.sentinel.units := hI.le_sentinel32 hK hcw.1
  have hstep := Cost.add_step hcs hd.1 hd.2
  have hroot : ∀ c, Rooted g c → Rooted g' c := by
    intro c h
    by_cases hc : c = n
    · right; exact ⟨curr, by rw [hc]; exact hn2⟩
    · exact Rooted.mono_rooted32 hg.start (fun p hp => ⟨p, by rw [(hfr c hc).2]; exact hp⟩) h
  refine ⟨?_, ?_, ?_, ?_⟩
  · rw [hg.start, (hfr _ (fun e => hns e.symm)).1]; exact hI.start_cost
  · rw [hg.start, (hfr _ (fun e => hns e.symm)).2]; exact hI.start_parent
  · intro c hcin
    rw [hg.inBounds32] at hcin
    by_cases hc : c = n
    · right
      refine ⟨Or.inr ⟨curr, by rw [hc]; exact hn2⟩, ?_⟩
      rw [hc, hn1]
      omega
    · rcases hI.fresh_or_rooted c hcin with h | h
      · left; rw [(hfr c hc).1, (hfr c hc).2]; exact h
      · right; rw [(hfr c hc).1]; exact ⟨hroot c h.1, h.2⟩
  · intro c p hcin hpar
    rw [hg.inBounds32] at hcin
    by_cases hc : c = n
    · subst hc
      rw [hn2] at hpar
      have hp : p = curr := (Option.some.inj hpar).symm
      subst hp
      refine ⟨(hg.walkable32 _).mpr hcw, (hg.walkable32 _).mpr hnw, hadj, hroot _ hcr, ?_, ?_⟩
      · rw [(hfr p hcn).1, hn1]; exact hstep.1
      · rw [(hfr p hcn).1, hn1, hg.getChessBoardDistance32]
    · rw [(hfr c hc).2] at hpar
      obtain ⟨h1, h2, h3, h4, h5, h6⟩ := hI.parent_ok c p hcin hpar
      refine ⟨(hg.walkable32 p).mpr h1, (hg.walkable32 c).mpr h2, h3, hroot p h4, ?_, ?_⟩
      · rw [(hfr c hc).1]
        by_cases hp : p = n
        · subst hp
          rcases hcond with hlt | hno
          · rw [hn1]; omega
          · exact absurd hpar (hno c hcin)
        · rw [(hfr p hp).1]; exact h5
      · rw [(hfr c hc).1, hg.getChessBoardDistance32]
        by_cases hp : p = n
        · subst hp
          rcases hcond with hlt | hno
          · rw [hn1]
            have hps := hI.le_sentinel32 hK h1.1
            have hdd := dist_adjacent_step32 hpos h1.1 hcin h3
            refine le_trans (Cost.add_mono _ (le_of_lt hlt) ?_) h6
            rw [Cost.sentinel_units] at hps
            have : (2 : Nat) ^ 40 < 2 ^ 152 := by norm_num
            norm_num at this ⊢
            omega
          · exact absurd hpar (hno c hcin)
        · rw [(hfr p hp).1]; exact h6

/-! ## The part of the parent invariant that needs no bound -/


theorem ParentInv.toWeak32 {g : Game} {K : Nat} (hI : ParentInv g K) (hK : K ≤ 50000) :
    WeakParentInv g := by
  refine ⟨hI.start_cost, hI.start_parent, fun c hc => hI.le_sentinel32 hK hc, ?_, ?_⟩
  · intro c p hc hp
    obtain ⟨h1, _, h3, _, h5, _⟩ := hI.parent_ok c p hc hp
    exact ⟨h1.1, h5⟩
  · intro c p hc hp
    obtain ⟨h1, _, h3, _, _, h6⟩ := hI.parent_ok c p hc hp
    exact ⟨h1, h3, h6⟩

theorem WeakParentInv.transfer_wpi32 {g g' : Game} (hW : WeakParentInv g)
    (hg : SameGrid g g') (hc : SameCosts g g') : WeakParentInv g' := by
  refine ⟨?_, ?_, ?_, ?_, ?_⟩
  · rw [hg.start, (hc _).1]; exact hW.start_cost
  · rw [hg.start, (hc _).2]; exact hW.start_parent
  · intro c hcin
    rw [hg.inBounds32] at hcin
    rw [(hc c).1]; exact hW.le_sentinel c hcin
  · intro c p hcin hpar
    rw [hg.inBounds32] at hcin
    rw [(hc c).2] at hpar
    obtain ⟨h1, h2⟩ := hW.parent_lt c p hcin hpar
    refine ⟨(hg.inBounds32 p).mpr h1, ?_⟩
    rw [(hc p).1, (hc c).1]
    exact h2
  · intro c p hcin hpar
    rw [hg.inBounds32] at hcin
    rw [(hc c).2] at hpar
    obtain ⟨h1, h2, h3⟩ := hW.parent_step c p hcin hpar
    refine ⟨(hg.walkable32 p).mpr h1, h2, ?_⟩
    rw [(hc p).1, (hc c).1, hg.getChessBoardDistance32]
    exact h3

/-- The relaxation step of `updateNeighbourCost`, which lowers the cost of the
neighbour, keeps the unbounded part of the parent invariant. -/
theorem WeakParentInv.relax_wpi32 {g g' : Game} {curr n : Position}
    (hW : WeakParentInv g) (hpos : PosOK g)
    (hcw : Walkable g curr) (hadj : Adjacent curr n) (hni : InBounds g n) (hns : n ≠ g.start)
    (hlt : ((g.board curr).gCost.add (getChessBoardDistance g curr n)).units
        < (g.board n).gCost.units)
    (hg : SameGrid g g')
    (hn1 : (g'.board n).gCost = (g.board curr).gCost.add (getChessBoardDistance g curr n))
    (hn2 : (g'.board n).parent = some curr)
    (hfr : ∀ q, q ≠ n → (g'.board q).gCost = (g.board q).gCost ∧
      (g'.board q).parent = (g.board q).parent) :
    WeakParentInv g' := by
  have hci : InBounds g curr := hcw.1
  have hcn : curr ≠ n := hadj.ne
  have hd := dist_adjacent_step32 hpos hci hni hadj
  have hstep := Cost.add_step (hW.le_sentinel curr hci) hd.1 hd.2
  have hns' := hW.le_sentinel n hni
  refine ⟨?_, ?_, ?_, ?_, ?_⟩
  · rw [hg.start, (hfr _ (fun e => hns e.symm)).1]; exact hW.start_cost
  · rw [hg.start, (hfr _ (fun e => hns e.symm)).2]; exact hW.start_parent
  · intro c hcin
    rw [hg.inBounds32] at hcin
    by_cases hc : c = n
    · rw [hc, hn1]; omega
    · rw [(hfr c hc).1]; exact hW.le_sentinel c hcin
  · intro c p hcin hpar
    rw [hg.inBounds32] at hcin
    by_cases hc : c = n
    · subst hc
      rw [hn2] at hpar
      have hp : p = curr := (Option.some.inj hpar).symm
      subst hp
      refine ⟨(hg.inBounds32 _).mpr hci, ?_⟩
      rw [(hfr p hcn).1, hn1]
      exact hstep.1
    · rw [(hfr c hc).2] at hpar
      obtain ⟨h1, h2⟩ := hW.parent_lt c p hcin hpar
      refine ⟨(hg.inBounds32 p).mpr h1, ?_⟩
      rw [(hfr c hc).1]
      by_cases hp : p = n
      · subst hp
        rw [hn1]; omega
      · rw [(hfr p hp).1]; exact h2
  · intro c p hcin hpar
    rw [hg.inBounds32] at hcin
    rw [hg.getChessBoardDistance32]
    by_cases hc : c = n
    · subst hc
      rw [hn2] at hpar
      have hp : p = curr := (Option.some.inj hpar).symm
      subst hp
      refine ⟨(hg.walkable32 _).mpr hcw, hadj, ?_⟩
      rw [(hfr p hcn).1, hn1]
    · rw [(hfr c hc).2] at hpar
      obtain ⟨h1, h2, h3⟩ := hW.parent_step c p hcin hpar
      refine ⟨(hg.walkable32 p).mpr h1, h2, ?_⟩
      rw [(hfr c hc).1]
      by_cases hp : p = n
      · subst hp
        rw [hn1]
        have hdd := dist_adjacent_step32 hpos h1.1 hcin h2
        refine le_trans (Cost.add_mono _ (le_of_lt hlt) ?_) h3
        rw [Cost.sentinel_units] at hns'
        have : (2 : Nat) ^ 40 < 2 ^ 152 := by norm_num
        norm_num at this ⊢
        omega
      · rw [(hfr p hp).1]; exact h3

/-! ## The parent chain of a rooted cell -/


theorem IsChain.head32 {g : Game} {c : Position} {l : List Position} (h : IsChain g c l) :
    l.head? = some c := by
  cases h <;> rfl

theorem IsChain.getLast32 {g : Game} {c : Position} {l : List Position} (h : IsChain g c l) :
    l.getLast? = some g.start := by
  induction h with
  | start => rfl
  | link c p l _ _ hl ih =>
    cases l with
    | nil => cases hl
    | cons x xs => rw [List.getLast?_cons_cons]; exact ih

/-- Under the parent invariant every rooted cell of the board has a parent
chain; its cells are walkable, consecutive cells are 8-adjacent, and the costs
strictly decrease along it. -/
theorem ParentInv.chain_exists32 {g : Game} {K : Nat} (hI : ParentInv g K)
    (hsw : Walkable g g.start) :
    ∀ (m : Nat) (c : Position), InBounds g c → Rooted g c → (g.board c).gCost.units < m →
      ∃ l, IsChain g c l ∧ (∀ x ∈ l, Walkable g x) ∧ l.Chain' (fun a b => Adjacent b a) ∧
        (∀ x ∈ l, (g.board x).gCost.units ≤ (g.board c).gCost.units) ∧ l.Nodup := by
  intro m
  induction m with
  | zero => intro c _ _ hlt; omega
  | succ m ih =>
    intro c hcin hroot hlt
    by_cases hcs : c = g.start
    · subst hcs
      refine ⟨[g.start], IsChain.start, ?_, List.chain'_singleton _, ?_, List.nodup_singleton _⟩
      · intro x hx; rw [List.mem_singleton] at hx; rw [hx]; exact hsw
      · intro x hx; rw [List.mem_singleton] at hx; rw [hx]
    · rcases hroot with h | ⟨p, hp⟩
      · exact absurd h hcs
      · obtain ⟨h1, h2, h3, h4, h5, _⟩ := hI.parent_ok c p hcin hp
        obtain ⟨l, hl1, hl2, hl3, hl4, hl5⟩ := ih p h1.1 h4 (by omega)
        refine ⟨c :: l, IsChain.link c p l hcs hp hl1, ?_, ?_, ?_, ?_⟩
        · intro x hx
          rcases List.mem_cons.mp hx with e | e
          · rw [e]; exact h2
          · exact hl2 x e
        · rw [List.chain'_cons']
          refine ⟨?_, hl3⟩
          intro y hy
          rw [hl1.head32] at hy
          rw [← Option.some.inj hy]
          exact h3
        · intro x hx
          rcases List.mem_cons.mp hx with e | e
          · rw [e]
          · have := hl4 x e; omega
        · rw [List.nodup_cons]
          refine ⟨?_, hl5⟩
          intro hmem
          have := hl4 c hmem
          omega


/-- An `int` operation whose exact result lies in the range of `int` gives
that result. -/
theorem wrapInt_of_range {x : Int} (h0 : -(2 ^ 31) ≤ x) (h1 : x < 2 ^ 31) : wrapInt x = x := by
  unfold wrapInt
  omega

/-! ## Counting cells of the board -/


/-- A duplicate-free list of cells of the board is no longer than the board
has cells. -/
theorem length_le_of_nodup_inBounds32 (g : Game) (l : List Position) (hn : l.Nodup)
    (hin : ∀ p ∈ l, InBounds g p) : l.length ≤ g.size.toNat * g.size.toNat := by
  rw [← length_boardCells]
  apply List.Subperm.length_le
  apply List.subperm_of_subset hn
  intro p hp
  exact (mem_boardCells_iff32 g p).mpr (hin p hp)

/-! ## Following the parent links -/


theorem IsChain.transfer_chain32 {g g' : Game} {c : Position} {l : List Position}
    (h : IsChain g c l) (hs : g'.start = g.start)
    (hp : ∀ p, (g'.board p).parent = (g.board p).parent) : IsChain g' c l := by
  induction h with
  | start => rw [← hs]; exact IsChain.start
  | link c p l hc hpar _ ih =>
    exact IsChain.link c p l (by rw [hs]; exact hc) (by rw [hp]; exact hpar) ih

theorem IsChain.length_pos_chain32 {g : Game} {c : Position} {l : List Position} (h : IsChain g c l) :
    0 < l.length := by
  cases h <;> simp

theorem IsChain.toTrace32 {g : Game} {c : Position} {l : List Position} (h : IsChain g c l) :
    IsTrace g c l := by
  induction h with
  | start => exact IsTrace.stop _ (Or.inl rfl)
  | link c p l hc hpar _ ih => exact IsTrace.link c p l hc hpar ih

theorem IsTrace.transfer_trace32 {g g' : Game} {c : Position} {l : List Position}
    (h : IsTrace g c l) (hs : g'.start = g.start)
    (hp : ∀ p, (g'.board p).parent = (g.board p).parent) : IsTrace g' c l := by
  induction h with
  | stop c hc => exact IsTrace.stop c (by rw [hs, hp]; exact hc)
  | link c p l hc hpar _ ih =>
    exact IsTrace.link c p l (by rw [hs]; exact hc) (by rw [hp]; exact hpar) ih

theorem IsTrace.length_pos_trace32 {g : Game} {c : Position} {l : List Position} (h : IsTrace g c l) :
    0 < l.length := by
  cases h <;> simp

/-- With enough fuel `parentChain` returns the parent chain. -/
theorem parentChain_of_isChain32 {g : Game} {c : Position} {l : List Position}
    (h : IsChain g c l) (fuel : Nat) (hf : l.length ≤ fuel) :
    parentChain fuel g c = some l := by
  induction h generalizing fuel with
  | start =>
    cases fuel with
    | zero => simp at hf
    | succ fuel => simp [parentChain]
  | link c p l hc hpar _ ih =>
    cases fuel with
    | zero => simp at hf
    | succ fuel =>
      simp only [List.length_cons, Nat.add_le_add_iff_right] at hf
      unfold parentChain
      rw [if_neg hc, hpar]
      simp only
      rw [ih fuel hf]
      rfl

/-! ## `retracePath` -/


theorem RetraceFrame.refl_rf32 (g : Game) : RetraceFrame g g :=
  ⟨SameGrid.refl_sg32 g, fun _ => ⟨rfl, rfl⟩, fun _ => rfl, rfl, rfl, rfl⟩

theorem RetraceFrame.trans_rf32 {g1 g2 g3 : Game} (h12 : RetraceFrame g1 g2)
    (h23 : RetraceFrame g2 g3) : RetraceFrame g1 g3 :=
  ⟨h12.same.trans_sg32 h23.same,
    fun p => ⟨((h23.costs p).1).trans (h12.costs p).1, ((h23.costs p).2).trans (h12.costs p).2⟩,
    fun p => (h23.explored p).trans (h12.explored p),
    h23.status.trans h12.status, h23.search_cost.trans h12.search_cost,
    h23.algorithm.trans h12.algorithm⟩

theorem retraceFrame_step32 (g : Game) (c : Position) :
    RetraceFrame g (incPathCost (NodeHandle.markAsVisited g c true)) := by
  refine ⟨?_, ?_, ?_, rfl, rfl, rfl⟩
  · exact (sameGrid_markAsVisited32 g c true).trans_sg32 (sameGrid_result32 _ _)
  · intro p
    unfold incPathCost NodeHandle.markAsVisited
    simp only [setNode_board32]
    split
    · rename_i e; subst e; exact ⟨rfl, rfl⟩
    · exact ⟨rfl, rfl⟩
  · intro p
    unfold incPathCost NodeHandle.markAsVisited
    simp only [setNode_board32]
    split
    · rename_i e; subst e; rfl
    · rfl

/-- Along the parent links from `c`, the loop of `retracePath` ends; it
marks the cells it runs through, other than the last, as visited, counts them,
and changes nothing else. -/
theorem retraceLoop_of_isTrace32 (l : List Position) :
    ∀ (g : Game) (c : Position) (fuel : Nat), IsTrace g c l → l.length ≤ fuel →
    ∃ g', retraceLoop fuel g c = some g' ∧ RetraceFrame g g' ∧
      (0 ≤ g.result.path_cost → g.result.path_cost + (l.length : Int) ≤ 2 ^ 31 →
        g'.result.path_cost = g.result.path_cost + ((l.length - 1 : Nat) : Int)) ∧
      (∀ q, (g'.board q).visited = ((g.board q).visited || decide (q ∈ l.dropLast))) := by
  induction l with
  | nil => intro g c fuel h; cases h
  | cons x l ih =>
    intro g c fuel h hf
    cases fuel with
    | zero => simp at hf
    | succ fuel =>
      simp only [List.length_cons, Nat.add_le_add_iff_right] at hf
      cases h with
      | stop _ hc =>
        refine ⟨g, ?_, RetraceFrame.refl_rf32 g, fun _ _ => by simp, fun q => by simp⟩
        unfold retraceLoop NodeHandle.getParent
        rcases hc with hc | hc
        · cases (g.board x).parent <;> simp [hc]
        · rw [hc]
      | link _ p _ hc hpar hl =>
        have hl1 : IsTrace (incPathCost (NodeHandle.markAsVisited g x true)) p l :=
          hl.transfer_trace32 rfl (fun q => ((retraceFrame_step32 g x).costs q).2)
        obtain ⟨g', hg1, hg2, hg3, hg4⟩ := ih _ p fuel hl1 hf
        refine ⟨g', ?_, (retraceFrame_step32 g x).trans_rf32 hg2, ?_, ?_⟩
        · unfold retraceLoop NodeHandle.getParent
          rw [hpar]
          simp only
          rw [if_pos hc]
          exact hg1
        · intro h0 h1
          have hpos := hl.length_pos_trace32
          simp only [List.length_cons, Nat.cast_add, Nat.cast_one] at h1
          have e1 : (incPathCost (NodeHandle.markAsVisited g x true)).result.path_cost
              = g.result.path_cost + 1 := by
            show wrapInt (g.result.path_cost + 1) = g.result.path_cost + 1
            exact wrapInt_of_range (by omega) (by omega)
          rw [hg3 (by rw [e1]; omega) (by rw [e1]; omega), e1]
          simp only [List.length_cons, Nat.add_sub_cancel]
          omega
        · intro q
          rw [hg4 q]
          have hne : l ≠ [] := by
            intro e; rw [e] at hl; cases hl
          rw [List.dropLast_cons_of_ne_nil hne]
          unfold incPathCost NodeHandle.markAsVisited
          simp only [setNode_board32, List.mem_cons]
          by_cases hq : q = x
          · simp [hq]
          · simp [hq]

/-- On a state whose start cell has no parent, `retracePath` ends along the
parent links from the end cell; it marks the cells strictly between the end
cell and the last cell as visited and counts them. -/
theorem retracePath_of_isTrace32 {g : Game} {l : List Position}
    (h : IsTrace g g.end_ l) (fuel : Nat) (hf : l.length ≤ fuel + 1)
    (hsp : (g.board g.start).parent = none) :
    ∃ g', retracePath fuel g = some g' ∧ RetraceFrame g g' ∧
      (0 ≤ g.result.path_cost → g.result.path_cost + (l.length : Int) ≤ 2 ^ 31 →
        g'.result.path_cost = g.result.path_cost + ((l.length - 2 : Nat) : Int)) ∧
      (∀ q, (g'.board q).visited = ((g.board q).visited || decide (q ∈ l.tail.dropLast))) := by
  generalize he : g.end_ = e at h
  cases h with
  | stop _ hc =>
    refine ⟨g, ?_, RetraceFrame.refl_rf32 g, fun _ _ => by simp, fun q => by simp⟩
    unfold retracePath NodeHandle.getParent
    rcases hc with hc | hc
    · rw [he, hc, hsp]
    · rw [he, hc]
  | link _ p l' hc hpar hl =>
    simp only [List.length_cons, Nat.add_le_add_iff_right] at hf
    obtain ⟨g', hg1, hg2, hg3, hg4⟩ := retraceLoop_of_isTrace32 l' g p fuel hl hf
    refine ⟨g', ?_, hg2, ?_, ?_⟩
    · unfold retracePath NodeHandle.getParent
      rw [he, hpar]
      exact hg1
    · intro h0 h1
      simp only [List.length_cons, Nat.cast_add, Nat.cast_one] at h1
      rw [hg3 h0 (by omega)]; simp
    · intro q; rw [hg4 q]; simp

/-- The same along a parent chain that reaches the start cell. -/
theorem retracePath_of_isChain32 {g : Game} {l : List Position}
    (h : IsChain g g.end_ l) (fuel : Nat) (hf : l.length ≤ fuel + 1)
    (hsp : (g.board g.start).parent = none) :
    ∃ g', retracePath fuel g = some g' ∧ RetraceFrame g g' ∧
      (0 ≤ g.result.path_cost → g.result.path_cost + (l.length : Int) ≤ 2 ^ 31 →
        g'.result.path_cost = g.result.path_cost + ((l.length - 2 : Nat) : Int)) ∧
      (∀ q, (g'.board q).visited = ((g.board q).visited || decide (q ∈ l.tail.dropLast))) :=
  retracePath_of_isTrace32 h.toTrace32 fuel hf hsp

/-! ## What every search keeps of the parent links -/


/-- While no cost exceeds the sentinel, the costs rank the cells. -/
theorem WeakParentInv.toChain {g : Game} (hW : WeakParentInv g) : ChainInv g := by
  refine ⟨hW.start_cost, hW.start_parent, ?_, hW.parent_step,
    ⟨fun c => (g.board c).gCost.units, fun c p hc hp => (hW.parent_lt c p hc hp).2⟩⟩
  intro c p hc hp
  exact le_of_lt (hW.parent_lt c p hc hp).2

theorem ChainInv.transfer_ci {g g' : Game} (hC : ChainInv g)
    (hg : SameGrid g g') (hc : SameCosts g g') : ChainInv g' := by
  obtain ⟨rank, hrank⟩ := hC.ranked
  refine ⟨?_, ?_, ?_, ?_, ⟨rank, ?_⟩⟩
  · rw [hg.start, (hc _).1]; exact hC.start_cost
  · rw [hg.start, (hc _).2]; exact hC.start_parent
  · intro c p hcin hpar
    rw [hg.inBounds32] at hcin
    rw [(hc c).2] at hpar
    rw [(hc p).1, (hc c).1]
    exact hC.parent_le c p hcin hpar
  · intro c p hcin hpar
    rw [hg.inBounds32] at hcin
    rw [(hc c).2] at hpar
    obtain ⟨h1, h2, h3⟩ := hC.parent_step c p hcin hpar
    refine ⟨(hg.walkable32 p).mpr h1, h2, ?_⟩
    rw [(hc p).1, (hc c).1, hg.getChessBoardDistance32]
    exact h3
  · intro c p hcin hpar
    rw [hg.inBounds32] at hcin
    rw [(hc c).2] at hpar
    exact hrank c p hcin hpar

theorem FloatInv.transfer_fi {g g' : Game} (hF : FloatInv g)
    (hg : SameGrid g g') (hc : SameCosts g g') : FloatInv g' := by
  intro c hcin
  rw [hg.inBounds32] at hcin
  rw [(hc c).1]
  exact hF c hcin

/-- The relaxation step of `aStarSearch`: the neighbour `n` of `curr`, which
is the parent of no cell, receives the cost of `curr` plus the step and the
parent `curr`. -/
theorem ChainInv.relax_ci {g g' : Game} {curr n : Position}
    (hC : ChainInv g) (hF : FloatInv g) (hpos : PosOK g)
    (hcw : Walkable g curr) (hadj : Adjacent curr n) (hni : InBounds g n) (hns : n ≠ g.start)
    (hno : ∀ c, InBounds g c → (g.board c).parent ≠ some n)
    (hg : SameGrid g g')
    (hn1 : (g'.board n).gCost = (g.board curr).gCost.add (getChessBoardDistance g curr n))
    (hn2 : (g'.board n).parent = some curr)
    (hfr : ∀ q, q ≠ n → (g'.board q).gCost = (g.board q).gCost ∧
      (g'.board q).parent = (g.board q).parent) :
    ChainInv g' ∧ FloatInv g' := by
  have hci : InBounds g curr := hcw.1
  have hcn : curr ≠ n := hadj.ne
  have hd := dist_adjacent_step32 hpos hci hni hadj
  have hadd := Cost.isFloat_add (hF curr hci) hd.2
  obtain ⟨rank, hrank⟩ := hC.ranked
  refine ⟨⟨?_, ?_, ?_, ?_, ⟨fun c => if c = n then rank curr + 1 else rank c, ?_⟩⟩, ?_⟩
  · rw [hg.start, (hfr _ (fun e => hns e.symm)).1]; exact hC.start_cost
  · rw [hg.start, (hfr _ (fun e => hns e.symm)).2]; exact hC.start_parent
  · intro c p hcin hpar
    rw [hg.inBounds32] at hcin
    by_cases hc : c = n
    · subst hc
      rw [hn2] at hpar
      have hp : p = curr := (Option.some.inj hpar).symm
      subst hp
      rw [(hfr p hcn).1, hn1]
      exact hadd.2
    · rw [(hfr c hc).2] at hpar
      have hp : p ≠ n := fun e => hno c hcin (by rw [← e]; exact hpar)
      rw [(hfr c hc).1, (hfr p hp).1]
      exact hC.parent_le c p hcin hpar
  · intro c p hcin hpar
    rw [hg.inBounds32] at hcin
    rw [hg.getChessBoardDistance32]
    by_cases hc : c = n
    · subst hc
      rw [hn2] at hpar
      have hp : p = curr := (Option.some.inj hpar).symm
      subst hp
      refine ⟨(hg.walkable32 _).mpr hcw, hadj, ?_⟩
      rw [(hfr p hcn).1, hn1]
    · rw [(hfr c hc).2] at hpar
      have hp : p ≠ n := fun e => hno c hcin (by rw [← e]; exact hpar)
      obtain ⟨h1, h2, h3⟩ := hC.parent_step c p hcin hpar
      refine ⟨(hg.walkable32 p).mpr h1, h2, ?_⟩
      rw [(hfr c hc).1, (hfr p hp).1]
      exact h3
  · intro c p hcin hpar
    rw [hg.inBounds32] at hcin
    by_cases hc : c = n
    · subst hc
      rw [hn2] at hpar
      have hp : p = curr := (Option.some.inj hpar).symm
      subst hp
      simp only [if_neg hcn, if_true]
      omega
    · rw [(hfr c hc).2] at hpar
      have hp : p ≠ n := fun e => hno c hcin (by rw [← e]; exact hpar)
      simp only [if_neg hc, if_neg hp]
      exact hrank c p hcin hpar
  · intro c hcin
    rw [hg.inBounds32] at hcin
    by_cases hc : c = n
    · rw [hc, hn1]; exact hadd.1
    · rw [(hfr c hc).1]; exact hF c hcin

/-- Following the parent links from a cell of the board ends, at the start
cell or at a cell without parent, without meeting a cell twice. -/
theorem ChainInv.trace_ci {g : Game} (hC : ChainInv g) (c : Position)
    (hc : InBounds g c) : ∃ l, IsTrace g c l ∧ (∀ x ∈ l, InBounds g x) ∧ l.Nodup := by
  obtain ⟨rank, hrank⟩ := hC.ranked
  have key : ∀ (m : Nat) (c : Position), InBounds g c → rank c < m →
      ∃ l, IsTrace g c l ∧ (∀ x ∈ l, InBounds g x) ∧ (∀ x ∈ l, rank x ≤ rank c) ∧ l.Nodup := by
    intro m
    induction m with
    | zero => intro c _ hlt; omega
    | succ m ih =>
      intro c hcin hlt
      by_cases hcs : c = g.start
      · refine ⟨[c], IsTrace.stop c (Or.inl hcs), ?_, ?_, List.nodup_singleton _⟩
        · intro x hx; rw [List.mem_singleton] at hx; rw [hx]; exact hcin
        · intro x hx; rw [List.mem_singleton] at hx; rw [hx]
      · cases hp : (g.board c).parent with
        | none =>
          refine ⟨[c], IsTrace.stop c (Or.inr hp), ?_, ?_, List.nodup_singleton _⟩
          · intro x hx; rw [List.mem_singleton] at hx; rw [hx]; exact hcin
          · intro x hx; rw [List.mem_singleton] at hx; rw [hx]
        | some p =>
          have h1 := (hC.parent_step c p hcin hp).1.1
          have h2 := hrank c p hcin hp
          obtain ⟨l, hl1, hl2, hl4, hl5⟩ := ih p h1 (by omega)
          refine ⟨c :: l, IsTrace.link c p l hcs hp hl1, ?_, ?_, ?_⟩
          · intro x hx
            rcases List.mem_cons.mp hx with e | e
            · rw [e]; exact hcin
            · exact hl2 x e
          · intro x hx
            rcases List.mem_cons.mp hx with e | e
            · rw [e]
            · have := hl4 x e; omega
          · rw [List.nodup_cons]
            refine ⟨?_, hl5⟩
            intro hmem
            have := hl4 c hmem
            omega
  obtain ⟨l, h1, h2, _, h4⟩ := key (rank c + 1) c hc (Nat.lt_succ_self _)
  exact ⟨l, h1, h2, h4⟩

/-- The statistics count in the range of an `int`. -/
theorem wrapInt_succ (n : Int) : wrapInt (wrapInt n + 1) = wrapInt (n + 1) := by
  unfold wrapInt
  omega

theorem wrapInt_natCast {n : Nat} (h : n < 2 ^ 31) : wrapInt (n : Int) = (n : Int) :=
  wrapInt_of_range (by omega) (by exact_mod_cast h)

/-! ## `updateNeighbourCost` -/


theorem CostOnly.refl_co32 (g : Game) : CostOnly g g :=
  ⟨SameGrid.refl_sg32 g, fun _ => rfl, fun _ => rfl, rfl⟩

theorem CostOnly.trans_co32 {g1 g2 g3 : Game} (h12 : CostOnly g1 g2) (h23 : CostOnly g2 g3) :
    CostOnly g1 g3 :=
  ⟨h12.same.trans_sg32 h23.same, fun p => (h23.explored p).trans (h12.explored p),
    fun p => (h23.visited p).trans (h12.visited p), h23.result.trans h12.result⟩

/-- The cell that a relaxation writes. -/
theorem relaxed_eq32 (g : Game) (n : Position) (c d : Cost) (par : Option Position) :
    NodeHandle.setParent (NodeHandle.setHCost (NodeHandle.setGCost g n c) n d) n par
      = g.setNode n { g.board n with gCost := c, hCost := d, parent := par } := by
  unfold NodeHandle.setParent NodeHandle.setHCost NodeHandle.setGCost
  simp only [setNode_board_self32, setNode_setNode32]

theorem relaxedA_eq32 (g : Game) (n : Position) (c : Cost) (par : Option Position) :
    NodeHandle.setParent (NodeHandle.setGCost g n c) n par
      = g.setNode n { g.board n with gCost := c, parent := par } := by
  unfold NodeHandle.setParent NodeHandle.setGCost
  simp only [setNode_board_self32, setNode_setNode32]

theorem costOnly_setNode32 (g : Game) (n : Position) (m : Node)
    (h1 : m.is_walkable = (g.board n).is_walkable) (h2 : m.pos = (g.board n).pos)
    (h3 : m.explored = (g.board n).explored) (h4 : m.visited = (g.board n).visited) :
    CostOnly g (g.setNode n m) := by
  refine ⟨sameGrid_setNode32 g n m h1 h2, fun p => ?_, fun p => ?_, rfl⟩
  · rw [setNode_board32]; split
    · rename_i e; rw [e, h3]
    · rfl
  · rw [setNode_board32]; split
    · rename_i e; rw [e, h4]
    · rfl

/-- One round of the loop of `updateNeighbourCost`. -/
theorem updateNeighbour_step32 {g : Game} {K : Nat} {curr n : Position}
    (hI : ParentInv g K) (hpos : PosOK g) (hcw : Walkable g curr) (hcr : Rooted g curr)
    (hck : (g.board curr).gCost.units + stepBound ≤ K * stepBound) (hK : K ≤ 50000)
    (hadj : Adjacent curr n) (hnw : Walkable g n) :
    ParentInv (updateNeighbour curr g n) K ∧ CostOnly g (updateNeighbour curr g n) ∧
      (∀ c, Rooted g c → Rooted (updateNeighbour curr g n) c) ∧
      Rooted (updateNeighbour curr g n) n ∧
      ((updateNeighbour curr g n).board curr).gCost = (g.board curr).gCost := by
  have hd := dist_adjacent_step32 hpos hcw.1 hnw.1 hadj
  have hstep := Cost.add_step (hI.le_sentinel32 hK hcw.1) hd.1 hd.2
  have hsteps : ((g.board curr).gCost.add (getChessBoardDistance g curr n)).units
      ≤ K * stepBound := by omega
  unfold updateNeighbour NodeHandle.isWalkable NodeHandle.getGCost
  rw [hnw.2]
  simp only [Bool.not_true, Bool.false_eq_true, if_false]
  split
  · rename_i hlt
    rw [Cost.lt_iff_units] at hlt
    rw [(sameGrid_setGCost32 g n _).getChessBoardDistance32, relaxed_eq32]
    set g' := g.setNode n { g.board n with
      gCost := (g.board curr).gCost.add (getChessBoardDistance g curr n),
      hCost := getChessBoardDistance g curr n, parent := some curr } with hg'
    have hco : CostOnly g g' := costOnly_setNode32 g n _ rfl rfl rfl rfl
    have hns : n ≠ g.start := by
      intro e
      rw [e, hI.start_cost] at hlt
      exact absurd hlt (Nat.not_lt_zero _)
    have hfr : ∀ q, q ≠ n → (g'.board q).gCost = (g.board q).gCost ∧
        (g'.board q).parent = (g.board q).parent := by
      intro q hq
      rw [hg', setNode_board_ne32 _ _ _ _ hq]
      exact ⟨rfl, rfl⟩
    have hn2 : (g'.board n).parent = some curr := by rw [hg', setNode_board_self32]
    refine ⟨?_, hco, ?_, Or.inr ⟨curr, hn2⟩, (hfr curr hadj.ne).1⟩
    · exact ParentInv.relax_pi32 hI hpos hcw hcr hck hK hadj hnw hns (Or.inl hlt) hco.same
        (by rw [hg', setNode_board_self32]) hn2 hfr
    · intro c hc
      by_cases hcn : c = n
      · right; exact ⟨curr, by rw [hcn]; exact hn2⟩
      · exact @Rooted.mono_rooted32 g g' c rfl (fun p hp => ⟨p, by rw [(hfr c hcn).2]; exact hp⟩) hc
  · rename_i hlt
    refine ⟨hI, CostOnly.refl_co32 g, fun c hc => hc, ?_, rfl⟩
    rcases hI.fresh_or_rooted n hnw.1 with h | h
    · exfalso
      have h1 : ((g.board curr).gCost.add (getChessBoardDistance g curr n)).lt
          (g.board n).gCost = true := by
        rw [Cost.lt_iff_units, h.1, Cost.sentinel_units]
        have : K * stepBound ≤ 50000 * stepBound := Nat.mul_le_mul_right _ hK
        unfold stepBound at *
        omega
      exact hlt h1
    · exact h.1

theorem foldl_updateNeighbour_spec32 {g : Game} {K : Nat} {curr : Position}
    (hpos : PosOK g) (hcw : Walkable g curr)
    (hck : (g.board curr).gCost.units + stepBound ≤ K * stepBound) (hK : K ≤ 50000) (L : List Position) :
    ∀ g1, (∀ n ∈ L, Adjacent curr n ∧ Walkable g n) → ParentInv g1 K → CostOnly g g1 →
      Rooted g1 curr → (g1.board curr).gCost = (g.board curr).gCost →
      ParentInv (L.foldl (updateNeighbour curr) g1) K ∧
      CostOnly g (L.foldl (updateNeighbour curr) g1) ∧
      (∀ c, Rooted g1 c → Rooted (L.foldl (updateNeighbour curr) g1) c) ∧
      (∀ n ∈ L, Rooted (L.foldl (updateNeighbour curr) g1) n) ∧
      ((L.foldl (updateNeighbour curr) g1).board curr).gCost = (g.board curr).gCost := by
  induction L with
  | nil =>
    intro g1 _ hI hco _ hg
    exact ⟨hI, hco, fun c hc => hc, fun n hn => absurd hn (List.not_mem_nil n), hg⟩
  | cons n L ih =>
    intro g1 hL hI hco hcr hg
    rw [List.foldl_cons]
    have hn := hL n (List.mem_cons_self n L)
    have hpos1 : PosOK g1 := hco.same.posOK32 hpos
    obtain ⟨s1, s2, s3, s4, s5⟩ := updateNeighbour_step32 hI hpos1
      ((hco.same.walkable32 curr).mpr hcw) hcr (by rw [hg]; exact hck) hK hn.1
      ((hco.same.walkable32 n).mpr hn.2)
    obtain ⟨t1, t2, t3, t4, t5⟩ := ih (updateNeighbour curr g1 n)
      (fun m hm => hL m (List.mem_cons_of_mem n hm)) s1 (hco.trans_co32 s2) (s3 curr hcr)
      (s5.trans hg)
    refine ⟨t1, t2, fun c hc => t3 c (s3 c hc), ?_, t5⟩
    intro m hm
    rcases List.mem_cons.mp hm with e | e
    · rw [e]; exact t3 n s4
    · exact t4 m e

/-- The function `updateNeighbourCost` keeps the parent invariant, changes
costs and parents only, and leaves every walkable neighbour rooted. -/
theorem updateNeighbourCost_spec32 {g : Game} {K : Nat} {curr : Position}
    (hI : ParentInv g K) (hpos : PosOK g) (hcw : Walkable g curr) (hcr : Rooted g curr)
    (hck : (g.board curr).gCost.units + stepBound ≤ K * stepBound) (hK : K ≤ 50000) :
    ParentInv (updateNeighbourCost g curr) K ∧ CostOnly g (updateNeighbourCost g curr) ∧
      (∀ c, Rooted g c → Rooted (updateNeighbourCost g curr) c) ∧
      (∀ n, Adjacent curr n → Walkable g n → Rooted (updateNeighbourCost g curr) n) ∧
      ((updateNeighbourCost g curr).board curr).gCost = (g.board curr).gCost := by
  unfold updateNeighbourCost
  obtain ⟨t1, t2, t3, t4, t5⟩ := foldl_updateNeighbour_spec32 hpos hcw hck hK
    (getNeighbours g curr) g
    (fun n hn => (mem_getNeighbours32 hpos hcw.1 n).mp hn) hI (CostOnly.refl_co32 g) hcr rfl
  exact ⟨t1, t2, t3, fun n h1 h2 => t4 n ((mem_getNeighbours32 hpos hcw.1 n).mpr ⟨h1, h2⟩), t5⟩

/-- One round of the loop of `updateNeighbourCost`, on a board of any size. -/
theorem updateNeighbour_weak32 {g : Game} {curr n : Position}
    (hW : WeakParentInv g) (hpos : PosOK g) (hcw : Walkable g curr)
    (hadj : Adjacent curr n) (hnw : Walkable g n) :
    WeakParentInv (updateNeighbour curr g n) ∧ CostOnly g (updateNeighbour curr g n) ∧
      (∀ c, Rooted g c → Rooted (updateNeighbour curr g n) c) ∧
      ((updateNeighbour curr g n).board curr).gCost = (g.board curr).gCost := by
  unfold updateNeighbour NodeHandle.isWalkable NodeHandle.getGCost
  rw [hnw.2]
  simp only [Bool.not_true, Bool.false_eq_true, if_false]
  split
  · rename_i hlt
    rw [Cost.lt_iff_units] at hlt
    rw [(sameGrid_setGCost32 g n _).getChessBoardDistance32, relaxed_eq32]
    set g' := g.setNode n { g.board n with
      gCost := (g.board curr).gCost.add (getChessBoardDistance g curr n),
      hCost := getChessBoardDistance g curr n, parent := some curr } with hg'
    have hco : CostOnly g g' := costOnly_setNode32 g n _ rfl rfl rfl rfl
    have hns : n ≠ g.start := by
      intro e
      rw [e, hW.start_cost] at hlt
      exact absurd hlt (Nat.not_lt_zero _)
    have hfr : ∀ q, q ≠ n → (g'.board q).gCost = (g.board q).gCost ∧
        (g'.board q).parent = (g.board q).parent := by
      intro q hq
      rw [hg', setNode_board_ne32 _ _ _ _ hq]
      exact ⟨rfl, rfl⟩
    have hn2 : (g'.board n).parent = some curr := by rw [hg', setNode_board_self32]
    refine ⟨?_, hco, ?_, (hfr curr hadj.ne).1⟩
    · exact WeakParentInv.relax_wpi32 hW hpos hcw hadj hnw.1 hns hlt hco.same
        (by rw [hg', setNode_board_self32]) hn2 hfr
    · intro c hc
      by_cases hcn : c = n
      · right; exact ⟨curr, by rw [hcn]; exact hn2⟩
      · exact @Rooted.mono_rooted32 g g' c rfl (fun p hp => ⟨p, by rw [(hfr c hcn).2]; exact hp⟩) hc
  · exact ⟨hW, CostOnly.refl_co32 g, fun c hc => hc, rfl⟩

theorem foldl_updateNeighbour_weak32 {g : Game} {curr : Position}
    (hpos : PosOK g) (hcw : Walkable g curr) (L : List Position) :
    ∀ g1, (∀ n ∈ L, Adjacent curr n ∧ Walkable g n) → WeakParentInv g1 → CostOnly g g1 →
      WeakParentInv (L.foldl (updateNeighbour curr) g1) ∧
      CostOnly g (L.foldl (updateNeighbour curr) g1) ∧
      (∀ c, Rooted g1 c → Rooted (L.foldl (updateNeighbour curr) g1) c) := by
  induction L with
  | nil =>
    intro g1 _ hW hco
    exact ⟨hW, hco, fun c hc => hc⟩
  | cons n L ih =>
    intro g1 hL hW hco
    rw [List.foldl_cons]
    have hn := hL n (List.mem_cons_self n L)
    obtain ⟨s1, s2, s3, _⟩ := updateNeighbour_weak32 hW (hco.same.posOK32 hpos)
      ((hco.same.walkable32 curr).mpr hcw) hn.1 ((hco.same.walkable32 n).mpr hn.2)
    obtain ⟨t1, t2, t3⟩ := ih (updateNeighbour curr g1 n)
      (fun m hm => hL m (List.mem_cons_of_mem n hm)) s1 (hco.trans_co32 s2)
    exact ⟨t1, t2, fun c hc => t3 c (s3 c hc)⟩

/-- The function `updateNeighbourCost` on a board of any size: it keeps the
unbounded part of the parent invariant, changes costs and parents only, and
takes no parent away. -/
theorem updateNeighbourCost_weak32 {g : Game} {curr : Position}
    (hW : WeakParentInv g) (hpos : PosOK g) (hcw : Walkable g curr) :
    WeakParentInv (updateNeighbourCost g curr) ∧ CostOnly g (updateNeighbourCost g curr) ∧
      (∀ c, Rooted g c → Rooted (updateNeighbourCost g curr) c) := by
  unfold updateNeighbourCost
  exact foldl_updateNeighbour_weak32 hpos hcw (getNeighbours g curr) g
    (fun n hn => (mem_getNeighbours32 hpos hcw.1 n).mp hn) hW (CostOnly.refl_co32 g)

/-! ## Reachability -/


theorem Reach.refl_reach32 (g : Game) (a : Position) : Reach g a a := Relation.ReflTransGen.refl

theorem Reach.step_reach32 {g : Game} {a b c : Position} (h : Reach g a b) (hadj : Adjacent b c)
    (hw : Walkable g c) : Reach g a c :=
  Relation.ReflTransGen.tail h ⟨hadj, hw⟩

/-- A set of cells that contains `a` and is closed under moves contains all
cells reached from `a`. -/
theorem Reach.mem_of_closed32 {g : Game} {a b : Position} (S : Position → Prop) (ha : S a)
    (hcl : ∀ p q, S p → Adjacent p q → Walkable g q → S q) (h : Reach g a b) : S b := by
  induction h with
  | refl => exact ha
  | tail _ hs ih => exact hcl _ _ ih hs.1 hs.2

theorem isPath_of_reach32 {g : Game} {a b : Position} (ha : Walkable g a) (h : Reach g a b) :
    ∃ l : List Position, l.head? = some a ∧ l.getLast? = some b ∧ IsPath g l := by
  induction h with
  | refl =>
    refine ⟨[a], rfl, rfl, ?_, List.chain'_singleton _⟩
    intro p hp; rw [List.mem_singleton] at hp; rw [hp]; exact ha
  | @tail b c _ hs ih =>
    obtain ⟨l, h1, h2, h3, h4⟩ := ih
    refine ⟨l ++ [c], ?_, ?_, ?_, ?_⟩
    · cases l with
      | nil => simp at h1
      | cons x xs => simpa using h1
    · simp
    · intro p hp
      rcases List.mem_append.mp hp with e | e
      · exact h3 p e
      · rw [List.mem_singleton] at e; rw [e]; exact hs.2
    · rw [List.chain'_append]
      refine ⟨h4, List.chain'_singleton _, ?_⟩
      intro x hx y hy
      rw [h2] at hx
      simp only [List.head?_cons, Option.mem_def, Option.some.injEq] at hx hy
      rw [← hx, ← hy]
      exact hs.1

theorem reach_of_isPath32 {g : Game} (l : List Position) :
    ∀ (a b : Position), l.head? = some a → l.getLast? = some b → IsPath g l → Reach g a b := by
  induction l with
  | nil => intro a b h; simp at h
  | cons x l ih =>
    intro a b h1 h2 h3
    simp only [List.head?_cons, Option.some.injEq] at h1
    subst h1
    cases l with
    | nil =>
      simp only [List.getLast?_singleton, Option.some.injEq] at h2
      subst h2
      exact Reach.refl_reach32 g _
    | cons y l =>
      rw [List.getLast?_cons_cons] at h2
      have hyw : Walkable g y := h3.1 y (by simp)
      have hadj : Adjacent x y := by
        have := h3.2
        rw [List.chain'_cons] at this
        exact this.1
      have htail : IsPath g (y :: l) :=
        ⟨fun p hp => h3.1 p (List.mem_cons_of_mem _ hp), (List.chain'_cons.mp h3.2).2⟩
      have := ih y b rfl h2 htail
      exact Relation.ReflTransGen.head ⟨hadj, hyw⟩ this

/-- A path from `a` to `b` exists exactly when `a` is walkable and `b` is
reached from `a`. -/
theorem connected_iff32 {g : Game} (a b : Position) :
    Connected g a b ↔ Walkable g a ∧ Reach g a b := by
  constructor
  · rintro ⟨l, h1, h2, h3⟩
    refine ⟨?_, reach_of_isPath32 l a b h1 h2 h3⟩
    apply h3.1
    cases l with
    | nil => simp at h1
    | cons x xs =>
      simp only [List.head?_cons, Option.some.injEq] at h1
      rw [h1]; exact List.mem_cons_self _ _
  · rintro ⟨h1, h2⟩
    exact isPath_of_reach32 h1 h2

theorem SameGrid.reach32 {g g' : Game} (h : SameGrid g g') (a b : Position) :
    Reach g' a b ↔ Reach g a b := by
  have : Step g' = Step g := by
    funext p q
    unfold Step
    rw [h.walkable32]
  unfold Reach
  rw [this]

/-! ## One round of a frontier search -/


/-- Expanding the cell `curr` of the frontier: it moves to the expanded
cells, and its walkable neighbours that are neither explored nor in the
frontier join the frontier. -/
theorem SearchInv.step_inv32 {g0 g g' : Game} {Q open_ cl Q' open' : List Position}
    {curr : Position} (hI : SearchInv g0 g Q open_ cl)
    (hcurr : curr ∈ Q) (hend : curr ≠ g0.end_) (hsame : SameGrid g g')
    (hexp : ∀ p, (g'.board p).explored = true ↔ ((g.board p).explored = true ∨ p = curr))
    (hcnt : g'.result.search_cost = wrapInt (g.result.search_cost + 1))
    (hQn : Q'.Nodup)
    (hQ : ∀ p, p ∈ Q' ↔ ((p ∈ Q ∧ p ≠ curr) ∨
      (Adjacent curr p ∧ Walkable g0 p ∧ (g.board p).explored = false)))
    (hopen : ∀ p, p ∈ open' ↔ p ∈ Q') :
    SearchInv g0 g' Q' open' (curr :: cl) := by
  have hccl : curr ∉ cl := fun h => hI.disj curr h hcurr
  have hcok := hI.q_ok curr hcurr
  refine ⟨hI.same.trans_sg32 hsame, hQn, List.nodup_cons.mpr ⟨hccl, hI.cl_nodup⟩, ?_, ?_, ?_, ?_,
    Or.inl hopen, ?_, ?_, ?_, ?_, ?_⟩
  · intro p hp hpQ
    rcases List.mem_cons.mp hp with e | e
    · subst e
      rcases (hQ p).mp hpQ with ⟨_, h⟩ | ⟨h, _⟩
      · exact h rfl
      · exact h.ne rfl
    · rcases (hQ p).mp hpQ with ⟨h, _⟩ | ⟨_, _, h⟩
      · exact hI.disj p e h
      · rw [hI.cl_explored p e] at h
        exact absurd h (by simp)
  · intro p hp
    rcases (hQ p).mp hp with ⟨h, _⟩ | ⟨h1, h2, _⟩
    · exact hI.q_ok p h
    · exact ⟨h2, hcok.2.step_reach32 h1 h2⟩
  · intro p hp
    rcases List.mem_cons.mp hp with e | e
    · rw [e]; exact hcok
    · exact hI.cl_ok p e
  · intro p hp
    rw [hexp]
    rcases List.mem_cons.mp hp with e | e
    · exact Or.inr e
    · exact Or.inl (hI.cl_explored p e)
  · intro p hpin hpe
    rcases (hexp p).mp hpe with h | h
    · rcases hI.explored_cl p hpin h with h' | ⟨h1, h2⟩
      · exact Or.inl (List.mem_cons_of_mem _ h')
      · by_cases hpc : p = curr
        · exact Or.inl (by rw [hpc]; exact List.mem_cons_self _ _)
        · exact Or.inr ⟨h1, (hQ p).mpr (Or.inl ⟨h2, hpc⟩)⟩
    · exact Or.inl (by rw [h]; exact List.mem_cons_self _ _)
  · intro p hp q hadj hqw
    have key : q ∈ cl ∨ q ∈ Q → q ∈ curr :: cl ∨ q ∈ Q' := by
      rintro (h | h)
      · exact Or.inl (List.mem_cons_of_mem _ h)
      · by_cases hqc : q = curr
        · exact Or.inl (by rw [hqc]; exact List.mem_cons_self _ _)
        · exact Or.inr ((hQ q).mpr (Or.inl ⟨h, hqc⟩))
    rcases List.mem_cons.mp hp with e | e
    · subst e
      by_cases hqQ : q ∈ Q
      · exact key (Or.inr hqQ)
      · cases hqe : (g.board q).explored with
        | false => exact Or.inr ((hQ q).mpr (Or.inr ⟨hadj, hqw, hqe⟩))
        | true =>
          rcases hI.explored_cl q hqw.1 hqe with h | ⟨_, h⟩
          · exact key (Or.inl h)
          · exact absurd h hqQ
    · exact key (hI.closed p e q hadj hqw)
  · rcases hI.start_seen with h | h
    · exact Or.inl (List.mem_cons_of_mem _ h)
    · by_cases hsc : g0.start = curr
      · exact Or.inl (by rw [hsc]; exact List.mem_cons_self _ _)
      · exact Or.inr ((hQ _).mpr (Or.inl ⟨h, hsc⟩))
  · intro h
    rcases List.mem_cons.mp h with e | e
    · exact hend e.symm
    · exact hI.end_open e
  · rw [hcnt, hI.count, wrapInt_succ]; simp

/-- At most as many cells are in the frontier or expanded as the board has. -/
theorem SearchInv.measure32 {g0 g : Game} {Q open_ cl : List Position}
    (hI : SearchInv g0 g Q open_ cl) :
    cl.length + Q.length ≤ g0.size.toNat * g0.size.toNat := by
  have hnd : (cl ++ Q).Nodup := by
    rw [List.nodup_append]
    exact ⟨hI.cl_nodup, hI.q_nodup, fun p h1 h2 => hI.disj p h1 h2⟩
  have := length_le_of_nodup_inBounds32 g0 (cl ++ Q) hnd (by
    intro p hp
    rcases List.mem_append.mp hp with h | h
    · exact (hI.cl_ok p h).1.1
    · exact (hI.q_ok p h).1.1)
  simpa using this

/-- When the frontier is empty, the expanded cells are exactly the cells
reached from the start cell, and the end cell is not among them. -/
theorem SearchInv.exhausted32 {g0 g : Game} {open_ cl : List Position}
    (hI : SearchInv g0 g [] open_ cl) :
    (∀ p, p ∈ cl ↔ Reach g0 g0.start p) ∧ ¬ Reach g0 g0.start g0.end_ := by
  have hs : g0.start ∈ cl := by
    rcases hI.start_seen with h | h
    · exact h
    · exact absurd h (List.not_mem_nil _)
  have hall : ∀ p, Reach g0 g0.start p → p ∈ cl := by
    intro p hp
    refine Reach.mem_of_closed32 (fun x => x ∈ cl) hs ?_ hp
    intro x y hx hadj hw
    rcases hI.closed x hx y hadj hw with h | h
    · exact h
    · exact absurd h (List.not_mem_nil _)
  exact ⟨fun p => ⟨fun h => (hI.cl_ok p h).2, hall p⟩, fun h => hI.end_open (hall _ h)⟩

/-! ## The three exits of a round -/


theorem ParentInv.steps_le_of_rooted32 {g : Game} {K : Nat} (hI : ParentInv g K) {c : Position}
    (hc : InBounds g c) (hr : Rooted g c) : (g.board c).gCost.units ≤ K * stepBound := by
  rcases hI.fresh_or_rooted c hc with ⟨h1, h2⟩ | h
  · rcases hr with e | ⟨p, hp⟩
    · rw [e, hI.start_cost] at h1
      exact absurd h1 (by decide)
    · rw [h2] at hp
      exact absurd hp (by simp)
  · exact h.2

/-- The frontier is empty: the search fails. -/
theorem LoopInv.failure32 {g0 g : Game} {open_ cl : List Position}
    (hI : LoopInv g0 g [] open_ cl) : SearchPost g0 false (setFailure g) := by
  obtain ⟨h1, h2⟩ := hI.search.exhausted32
  have hs : SameGrid g0 (setFailure g) := hI.search.same.trans_sg32 (sameGrid_result32 _ _)
  refine ⟨hs, ⟨fun h => absurd h (by simp), fun _ => rfl⟩, ?_, ?_, ?_,
    fun _ h => absurd h (by simp), ?_⟩
  · constructor
    · intro h; exact absurd h (by simp)
    · intro h; exact absurd h h2
  · exact hI.weak.transfer_ci (sameGrid_result32 _ _) (fun _ => ⟨rfl, rfl⟩)
  · intro hsz
    exact ⟨cl.length, (hI.strong hsz).1.transfer_pi32 (sameGrid_result32 _ _) (fun _ => ⟨rfl, rfl⟩)⟩
  · intro _
    refine ⟨cl, hI.search.cl_nodup, h1, hI.search.count, ?_⟩
    intro p hp
    constructor
    · intro he
      rcases hI.search.explored_cl p hp he with h | ⟨_, h⟩
      · exact h
      · exact absurd h (List.not_mem_nil _)
    · intro h; exact hI.search.cl_explored p h

/-- The end cell is reached in a state `g2` that satisfies the parent
invariant: `retracePath` ends and the search succeeds. -/
theorem success_post32 {g0 g2 : Game} (hwf : WellFormed g0) (hs02 : SameGrid g0 g2)
    (hW2 : ChainInv g2)
    (hstrong : g0.size ≤ 200 → (∃ K, ParentInv g2 K) ∧ Rooted g2 g0.end_)
    (hendw : Walkable g0 g0.end_) (hreach : Reach g0 g0.start g0.end_)
    (hpath : g2.result.path_cost = 0)
    (hvis : ∀ p, InBounds g0 p → (g2.board p).visited = false)
    (pathFuel : Nat) (hpf : g0.size.toNat * g0.size.toNat ≤ pathFuel) :
    ∃ g3, retracePath pathFuel g2 = some g3 ∧ SearchPost g0 true (setSuccess g3) := by
  have hpos2 : PosOK g2 := hs02.posOK32 hwf.posOK
  have hsw2 : Walkable g2 g2.start := by
    rw [hs02.start, hs02.walkable32]; exact ⟨hwf.start_in, hwf.start_walk⟩
  have hei : InBounds g2 g0.end_ := (hs02.inBounds32 _).mpr hendw.1
  -- the loop of `retracePath` ends on every board
  obtain ⟨t, ht1, ht2, ht4⟩ := hW2.trace_ci g0.end_ hei
  have htlen : t.length ≤ pathFuel + 1 := by
    have := length_le_of_nodup_inBounds32 g2 t ht4 ht2
    rw [hs02.size] at this
    omega
  have ht1' : IsTrace g2 g2.end_ t := by rw [hs02.end_]; exact ht1
  obtain ⟨g3, hg1, hg2, _, _⟩ := retracePath_of_isTrace32 ht1' pathFuel htlen hW2.start_parent
  refine ⟨g3, hg1, ?_⟩
  have hs23 : SameGrid g2 (setSuccess g3) := hg2.same.trans_sg32 (sameGrid_result32 _ _)
  have hc23 : SameCosts g2 (setSuccess g3) := hg2.costs
  refine ⟨hs02.trans_sg32 hs23, ⟨fun _ => rfl, fun h => absurd h (by simp)⟩, ?_,
    hW2.transfer_ci hs23 hc23, ?_, ?_, fun h => absurd h (by simp)⟩
  · exact ⟨fun _ => hreach, fun _ => rfl⟩
  · intro hsz
    obtain ⟨⟨K, hP2⟩, _⟩ := hstrong hsz
    exact ⟨K, hP2.transfer_pi32 hs23 hc23⟩
  · intro hsz _
    obtain ⟨⟨K, hP2⟩, hroot2⟩ := hstrong hsz
    obtain ⟨l, hl1, hl2, hl3, _, hl5⟩ := hP2.chain_exists32 hsw2
      ((g2.board g0.end_).gCost.units + 1) g0.end_ hei hroot2 (Nat.lt_succ_self _)
    have hlen0 := length_le_of_nodup_inBounds32 g2 l hl5 (fun p hp => (hl2 p hp).1)
    rw [hs02.size] at hlen0
    have hlen : l.length ≤ pathFuel + 1 := by omega
    have hsq : g0.size.toNat * g0.size.toNat ≤ 200 * 200 :=
      Nat.mul_le_mul (by omega) (by omega)
    have hpos := hl1.length_pos_chain32
    have hl1' : IsChain g2 g2.end_ l := by rw [hs02.end_]; exact hl1
    obtain ⟨g3', hg1', _, hg3', hg4'⟩ :=
      retracePath_of_isChain32 hl1' pathFuel hlen hP2.start_parent
    have heq : g3' = g3 := by
      rw [hg1] at hg1'
      exact (Option.some.inj hg1').symm
    subst heq
    refine ⟨l, ?_, fun x hx => (hs02.walkable32 x).mp (hl2 x hx), hl3, hl5, ?_, ?_⟩
    · exact hl1.transfer_chain32 hs23.start (fun p => (hc23 p).2)
    · show wrapInt (g3'.result.path_cost + 1) = _
      rw [hg3' (by rw [hpath]) (by rw [hpath]; omega), hpath]
      rw [wrapInt_of_range (by omega) (by omega)]
      simp
    · intro p hp
      show (g3'.board p).visited = _
      rw [hg4' p, hvis p hp]
      simp

/-- The end cell is taken from the frontier: `retracePath` ends and the
search succeeds. -/
theorem LoopInv.success32 {g0 g g2 : Game} {Q open_ cl : List Position}
    (hI : LoopInv g0 g Q open_ cl) (hwf : WellFormed g0) (hend : g0.end_ ∈ Q)
    (hsame : SameGrid g g2) (hcost : SameCosts g g2)
    (hvis : ∀ p, (g2.board p).visited = (g.board p).visited)
    (hpath : g2.result.path_cost = g.result.path_cost)
    (pathFuel : Nat) (hpf : g0.size.toNat * g0.size.toNat ≤ pathFuel) :
    ∃ g3, retracePath pathFuel g2 = some g3 ∧ SearchPost g0 true (setSuccess g3) := by
  have hendok := hI.search.q_ok _ hend
  refine success_post32 hwf (hI.search.same.trans_sg32 hsame) (hI.weak.transfer_ci hsame hcost) ?_
    hendok.1 hendok.2 (by rw [hpath]; exact hI.path0)
    (fun p hp => by rw [hvis p]; exact hI.unvisited p hp) pathFuel hpf
  intro hsz
  obtain ⟨hP, hQ⟩ := hI.strong hsz
  exact ⟨⟨cl.length, hP.transfer_pi32 hsame hcost⟩,
    Rooted.mono_rooted32 hsame.start (fun p hp => ⟨p, by rw [(hcost _).2]; exact hp⟩) (hQ _ hend)⟩

/-- A cell other than the end cell is expanded: the invariant holds for the
new frontier. -/
theorem LoopInv.round32 {g0 g g3 : Game} {Q open_ cl Q' open' : List Position}
    {curr : Position} (hI : LoopInv g0 g Q open_ cl)
    (hcurr : curr ∈ Q) (hend : curr ≠ g0.end_) (hsame : SameGrid g g3)
    (hexp : ∀ p, (g3.board p).explored = true ↔ ((g.board p).explored = true ∨ p = curr))
    (hcnt : g3.result.search_cost = wrapInt (g.result.search_cost + 1))
    (hpath : g3.result.path_cost = g.result.path_cost)
    (hvis : ∀ p, (g3.board p).visited = (g.board p).visited)
    (hW3 : ChainInv g3)
    (hstrong : g0.size ≤ 200 → ParentInv g3 (cl.length + 1) ∧
      (∀ c, Rooted g c → Rooted g3 c) ∧
      (∀ n, Adjacent curr n → Walkable g0 n → (g.board n).explored = false → Rooted g3 n))
    (hQn : Q'.Nodup)
    (hQ : ∀ p, p ∈ Q' ↔ ((p ∈ Q ∧ p ≠ curr) ∨
      (Adjacent curr p ∧ Walkable g0 p ∧ (g.board p).explored = false)))
    (hopen : ∀ p, p ∈ open' ↔ p ∈ Q') :
    LoopInv g0 g3 Q' open' (curr :: cl) := by
  refine ⟨SearchInv.step_inv32 hI.search hcurr hend hsame hexp hcnt hQn hQ hopen, hW3, ?_, ?_, ?_⟩
  · intro hsz
    obtain ⟨hPI, hroot, hnroot⟩ := hstrong hsz
    refine ⟨hPI, ?_⟩
    intro p hp
    rcases (hQ p).mp hp with ⟨h, _⟩ | ⟨h1, h2, h3⟩
    · exact hroot p ((hI.strong hsz).2 p h)
    · exact hnroot p h1 h2 h3
  · rw [hpath, hI.path0]
  · intro p hp
    rw [hvis p, hI.unvisited p hp]

/-! ## Best-first and greedy search as instances of one loop -/


theorem bestPush_eq32 (g : Game) : bestPush g = pqPush NodeHandleComparatorGCost g := by
  funext s n
  rfl

theorem greedyPush_eq32 (g : Game) : greedyPush g = pqPush NodeHandleComparatorHCost g := by
  funext s n
  unfold greedyPush pqPush
  cases h1 : NodeHandle.isWalkable g n <;> cases h2 : NodeHandle.isExplored g n <;>
    by_cases h3 : n ∈ s.2 <;> simp [h3]

theorem bestLoop_eq32 (pathFuel fuel : Nat) (g : Game) (que open_ : List Position) :
    bestLoop pathFuel fuel g que open_
      = pqLoop NodeHandleComparatorGCost pathFuel fuel g que open_ := by
  induction fuel generalizing g que open_ with
  | zero => rfl
  | succ fuel ih =>
    unfold bestLoop pqLoop
    cases que with
    | nil => rfl
    | cons curr rest =>
      simp only [bestPush_eq32, ih] <;> rfl

theorem greedyLoop_eq32 (pathFuel fuel : Nat) (g : Game) (que open_ : List Position) :
    greedyLoop pathFuel fuel g que open_
      = pqLoop NodeHandleComparatorHCost pathFuel fuel g que open_ := by
  induction fuel generalizing g que open_ with
  | zero => rfl
  | succ fuel ih =>
    unfold greedyLoop pqLoop
    cases que with
    | nil => rfl
    | cons curr rest =>
      simp only [greedyPush_eq32, ih] <;> rfl

/-! ## The push loops -/


theorem pqPush_pushSteps32 (comp : Game → Position → Position → Bool) (g : Game)
    (N : List Position) :
    ∀ s, PushSteps (fun n => (g.board n).is_walkable = true ∧ (g.board n).explored = false)
      N s (N.foldl (pqPush comp g) s) := by
  induction N with
  | nil => intro s; exact PushSteps.nil s
  | cons n N ih =>
    intro s
    rw [List.foldl_cons]
    by_cases hok : (g.board n).is_walkable = true ∧ (g.board n).explored = false
    · by_cases hin : n ∈ s.2
      · have e : pqPush comp g s n = s := by
          unfold pqPush; simp [hin]
        rw [e]
        exact PushSteps.skip n N s _ (Or.inr hin) (ih s)
      · have e : pqPush comp g s n = (heapPush (comp g) s.1 n, setInsert s.2 n) := by
          unfold pqPush NodeHandle.isWalkable NodeHandle.isExplored
          simp [hin, hok.1, hok.2]
        rw [e]
        exact PushSteps.push n N s _ _ hok hin (heapPush_perm _ _ _) (ih _)
    · have e : pqPush comp g s n = s := by
        unfold pqPush NodeHandle.isWalkable NodeHandle.isExplored
        rw [not_and_or] at hok
        rcases hok with h | h
        · simp [h]
        · have : (g.board n).explored = true := by
            cases hh : (g.board n).explored <;> simp_all
          simp [this]
      rw [e]
      exact PushSteps.skip n N s _ (Or.inl hok) (ih s)

theorem bfsPush_pushSteps32 (g : Game) (N : List Position) :
    ∀ s, PushSteps (fun n => (g.board n).is_walkable = true ∧ (g.board n).explored = false)
      N s (N.foldl (bfsPush g) s) := by
  induction N with
  | nil => intro s; exact PushSteps.nil s
  | cons n N ih =>
    intro s
    rw [List.foldl_cons]
    by_cases hok : (g.board n).is_walkable = true ∧ (g.board n).explored = false
    · by_cases hin : n ∈ s.2
      · have e : bfsPush g s n = s := by
          unfold bfsPush; simp [hin]
        rw [e]
        exact PushSteps.skip n N s _ (Or.inr hin) (ih s)
      · have e : bfsPush g s n = (s.1 ++ [n], setInsert s.2 n) := by
          unfold bfsPush NodeHandle.isWalkable NodeHandle.isExplored
          simp [hin, hok.1, hok.2]
        rw [e]
        exact PushSteps.push n N s _ _ hok hin (List.perm_append_singleton n s.1) (ih _)
    · have e : bfsPush g s n = s := by
        unfold bfsPush NodeHandle.isWalkable NodeHandle.isExplored
        rw [not_and_or] at hok
        rcases hok with h | h
        · simp [h]
        · have : (g.board n).explored = true := by
            cases hh : (g.board n).explored <;> simp_all
          simp [this]
      rw [e]
      exact PushSteps.skip n N s _ (Or.inl hok) (ih s)

/-- The queue of `breadthFirstSearch` only grows at the back. -/
theorem bfsPush_append32 (g : Game) (N : List Position) :
    ∀ s, ∃ L, (N.foldl (bfsPush g) s).1 = s.1 ++ L := by
  induction N with
  | nil => intro s; exact ⟨[], by simp⟩
  | cons n N ih =>
    intro s
    rw [List.foldl_cons]
    obtain ⟨L, hL⟩ := ih (bfsPush g s n)
    unfold bfsPush at hL ⊢
    split at hL
    · rename_i h; rw [if_pos h]; exact ⟨L, hL⟩
    · rename_i h; rw [if_neg h]
      exact ⟨n :: L, by rw [hL]; simp⟩

/-! ## Marking and counting -/


theorem explored_markAsExplored32 (g : Game) (curr p : Position) :
    ((NodeHandle.markAsExplored g curr true).board p).explored = true ↔
      ((g.board p).explored = true ∨ p = curr) := by
  unfold NodeHandle.markAsExplored
  rw [setNode_board32]
  by_cases h : p = curr
  · simp [h]
  · simp [h]

theorem marked_mark_inc32 (g : Game) (curr : Position) :
    Marked g (incSearchCost (NodeHandle.markAsExplored g curr true)) curr := by
  refine ⟨(sameGrid_markAsExplored32 g curr true).trans_sg32 (sameGrid_result32 _ _), ?_,
    explored_markAsExplored32 g curr, ?_, rfl, rfl⟩
  · intro p
    unfold incSearchCost NodeHandle.markAsExplored
    simp only [setNode_board32]
    split
    · rename_i e; subst e; exact ⟨rfl, rfl⟩
    · exact ⟨rfl, rfl⟩
  · intro p
    unfold incSearchCost NodeHandle.markAsExplored
    simp only [setNode_board32]
    split
    · rename_i e; subst e; rfl
    · rfl

theorem size_sq_le32 {g0 : Game} (hsz : g0.size ≤ 200) :
    g0.size.toNat * g0.size.toNat ≤ 40000 := by
  have h : g0.size.toNat ≤ 200 := by omega
  calc g0.size.toNat * g0.size.toNat ≤ 200 * 200 := Nat.mul_le_mul h h
    _ = 40000 := by norm_num

/-! ## The loop of best-first and greedy search -/


theorem Marked.rooted32 {g g1 : Game} {curr : Position} (hM : Marked g g1 curr) {c : Position}
    (h : Rooted g c) : Rooted g1 c :=
  Rooted.mono_rooted32 hM.same.start (fun p hp => ⟨p, by rw [(hM.costs c).2]; exact hp⟩) h

/-- The set `open` after the front cell was erased matches the rest of the
frontier. -/
theorem open_rest_iff32 {g0 g : Game} {curr : Position} {rest open_ cl : List Position}
    (hI : SearchInv g0 g (curr :: rest) open_ cl) (p : Position) :
    p ∈ setErase open_ curr ↔ p ∈ rest := by
  rw [mem_setErase, mem_rest_iff hI.q_nodup]
  rcases hI.open_iff with h | ⟨h1, h2, _⟩
  · rw [h p]
  · rw [h2]
    have : rest = [] := by
      have := congrArg List.tail h1
      simpa using this
    have hc : curr = g0.start := by
      have := congrArg List.head? h1
      simpa using this
    subst this
    constructor
    · rintro ⟨h, _⟩; exact absurd h (List.not_mem_nil _)
    · rintro ⟨h, h'⟩
      rw [List.mem_singleton] at h
      exact absurd h h'

theorem pqLoop_spec32 (comp : Game → Position → Position → Bool) {g0 : Game}
    (hwf : WellFormed g0) {pathFuel : Nat}
    (hpf : g0.size.toNat * g0.size.toNat ≤ pathFuel) :
    ∀ (fuel : Nat) (g : Game) (Q open_ cl : List Position), LoopInv g0 g Q open_ cl →
      WeakParentInv g → g0.size.toNat * g0.size.toNat + 1 ≤ fuel + cl.length →
      ∃ b g', pqLoop comp pathFuel fuel g Q open_ = some (b, g') ∧ SearchPost g0 b g' := by
  intro fuel
  induction fuel with
  | zero =>
    intro g Q open_ cl hI hW hf
    have := hI.search.measure32
    omega
  | succ fuel ih =>
    intro g Q open_ cl hI hW hf
    cases Q with
    | nil => exact ⟨false, setFailure g, by unfold pqLoop; rfl, hI.failure32⟩
    | cons curr rest =>
      unfold pqLoop
      simp only
      have hM : Marked g (incSearchCost (NodeHandle.markAsExplored g curr true)) curr :=
        marked_mark_inc32 g curr
      generalize incSearchCost (NodeHandle.markAsExplored g curr true) = g1 at hM ⊢
      have hcurr : curr ∈ curr :: rest := List.mem_cons_self _ _
      have hs01 : SameGrid g0 g1 := hI.search.same.trans_sg32 hM.same
      by_cases hce : curr = g1.end_
      · rw [if_pos hce]
        have hend : g0.end_ ∈ curr :: rest := by rw [← hs01.end_, ← hce]; exact hcurr
        obtain ⟨g3, h3, hpost⟩ :=
          hI.success32 hwf hend hM.same hM.costs hM.visited hM.path pathFuel hpf
        rw [h3]
        exact ⟨true, setSuccess g3, rfl, hpost⟩
      · rw [if_neg hce]
        have hcend : curr ≠ g0.end_ := by rw [← hs01.end_]; exact hce
        have hcok := hI.search.q_ok curr hcurr
        have hmeas := hI.search.measure32
        have hpos1 : PosOK g1 := hs01.posOK32 hwf.posOK
        have hcw1 : Walkable g1 curr := (hs01.walkable32 curr).mpr hcok.1
        have hstrong : g0.size ≤ 200 → ParentInv (updateNeighbourCost g1 curr) (cl.length + 1) ∧
            (∀ c, Rooted g c → Rooted (updateNeighbourCost g1 curr) c) ∧
            (∀ n, Adjacent curr n → Walkable g0 n → (g.board n).explored = false →
              Rooted (updateNeighbourCost g1 curr) n) := by
          intro hsz
          obtain ⟨hP, hQr⟩ := hI.strong hsz
          have hsq := size_sq_le32 hsz
          have hK : cl.length + 1 ≤ 50000 := by
            simp only [List.length_cons] at hmeas; omega
          have hP1 : ParentInv g1 (cl.length + 1) :=
            (hP.transfer_pi32 hM.same hM.costs).mono_pi32 (Nat.le_succ _)
          have hcr1 : Rooted g1 curr := hM.rooted32 (hQr curr hcurr)
          have hck : (g1.board curr).gCost.units + stepBound
              ≤ (cl.length + 1) * stepBound := by
            rw [(hM.costs curr).1]
            have := hP.steps_le_of_rooted32 ((hI.search.same.inBounds32 curr).mpr hcok.1.1)
              (hQr curr hcurr)
            rw [Nat.add_mul, Nat.one_mul]
            omega
          obtain ⟨u1, _, u3, u4, _⟩ := updateNeighbourCost_spec32 hP1 hpos1 hcw1 hcr1 hck hK
          exact ⟨u1, fun c hc => u3 c (hM.rooted32 hc),
            fun n hadj hnw _ => u4 n hadj ((hs01.walkable32 n).mpr hnw)⟩
        obtain ⟨w1, u2, _⟩ := updateNeighbourCost_weak32 (hW.transfer_wpi32 hM.same hM.costs)
          hpos1 hcw1
        generalize updateNeighbourCost g1 curr = g3 at hstrong w1 u2 ⊢
        have hs03 : SameGrid g0 g3 := hs01.trans_sg32 u2.same
        have hperm : (heapPop (comp g) (curr :: rest)).Perm rest :=
          (heapPop_perm _ curr rest).cons_inv
        have hnd := hI.search.q_nodup
        have hiff1 : ∀ p, p ∈ setErase open_ curr ↔ p ∈ heapPop (comp g) (curr :: rest) := by
          intro p
          rw [open_rest_iff32 hI.search, hperm.mem_iff]
        have hPS := pqPush_pushSteps32 comp g3 (getNeighbours g3 curr)
          (heapPop (comp g) (curr :: rest), setErase open_ curr)
        obtain ⟨s1, s2, s3⟩ := hPS.spec hiff1
          (hperm.nodup_iff.mpr (List.nodup_cons.mp hnd).2)
        apply ih g3 _ _ (curr :: cl) ?_ w1 (by simp only [List.length_cons]; omega)
        refine hI.round32 hcurr hcend (hM.same.trans_sg32 u2.same) ?_ ?_ ?_ ?_ w1.toChain hstrong s1 ?_ s2
        · intro p; rw [u2.explored p]; exact hM.explored p
        · rw [u2.result]; exact hM.count
        · rw [u2.result]; exact hM.path
        · intro p; rw [u2.visited p]; exact hM.visited p
        · intro p
          rw [s3 p]
          simp only
          rw [hperm.mem_iff, mem_rest_iff hnd,
            mem_getNeighbours32 (hs03.posOK32 hwf.posOK) ((hs03.inBounds32 curr).mpr hcok.1.1),
            hs03.walkable32]
          constructor
          · rintro (h | ⟨⟨h1, h2⟩, _, h4⟩)
            · exact Or.inl h
            · refine Or.inr ⟨h1, h2, ?_⟩
              rw [u2.explored p] at h4
              cases he : (g.board p).explored with
              | false => rfl
              | true =>
                have := (hM.explored p).mpr (Or.inl he)
                rw [this] at h4
                exact absurd h4 (by simp)
          · rintro (h | ⟨h1, h2, h3⟩)
            · exact Or.inl h
            · refine Or.inr ⟨⟨h1, h2⟩, ?_, ?_⟩
              · rw [hs03.walk]; exact h2.2
              · rw [u2.explored p]
                cases he : (g1.board p).explored with
                | false => rfl
                | true =>
                  rcases (hM.explored p).mp he with h | h
                  · rw [h3] at h; exact absurd h (by simp)
                  · exact absurd h.symm h1.ne

/-! ## The loop of breadth-first search -/


theorem costs_incSearchCost32 (g : Game) : SameCosts g (incSearchCost g) :=
  fun _ => ⟨rfl, rfl⟩

theorem costs_markAsExplored32 (g : Game) (curr : Position) (v : Bool) :
    SameCosts g (NodeHandle.markAsExplored g curr v) := by
  intro p
  unfold NodeHandle.markAsExplored
  simp only [setNode_board32]
  split
  · rename_i e; subst e; exact ⟨rfl, rfl⟩
  · exact ⟨rfl, rfl⟩

theorem visited_markAsExplored32 (g : Game) (curr p : Position) (v : Bool) :
    ((NodeHandle.markAsExplored g curr v).board p).visited = (g.board p).visited := by
  unfold NodeHandle.markAsExplored
  simp only [setNode_board32]
  split
  · rename_i e; subst e; rfl
  · rfl

/-- One round of the loop of `breadthFirstSearch` that expands a cell other
than the end cell: the invariants hold for the new queue, which is the rest of
the queue followed by the neighbours of the cell met for the first time. -/
theorem bfs_round32 {g0 : Game} (hwf : WellFormed g0) {g : Game} {curr : Position}
    {rest open_ cl : List Position} (hI : LoopInv g0 g (curr :: rest) open_ cl)
    (hW : WeakParentInv g) (hopen : ∀ p, p ∈ open_ ↔ p ∈ curr :: rest)
    (hcend : curr ≠ g0.end_) :
    LoopInv g0
        (NodeHandle.markAsExplored (updateNeighbourCost (incSearchCost g) curr) curr true)
        (List.foldl (bfsPush (updateNeighbourCost (incSearchCost g) curr)) (curr :: rest, open_)
          (getNeighbours (updateNeighbourCost (incSearchCost g) curr) curr)).1.tail
        (setErase (List.foldl (bfsPush (updateNeighbourCost (incSearchCost g) curr))
          (curr :: rest, open_)
          (getNeighbours (updateNeighbourCost (incSearchCost g) curr) curr)).2 curr)
        (curr :: cl) ∧
      WeakParentInv
        (NodeHandle.markAsExplored (updateNeighbourCost (incSearchCost g) curr) curr true) ∧
      (∀ p, p ∈ setErase (List.foldl (bfsPush (updateNeighbourCost (incSearchCost g) curr))
          (curr :: rest, open_)
          (getNeighbours (updateNeighbourCost (incSearchCost g) curr) curr)).2 curr ↔
        p ∈ (List.foldl (bfsPush (updateNeighbourCost (incSearchCost g) curr))
          (curr :: rest, open_)
          (getNeighbours (updateNeighbourCost (incSearchCost g) curr) curr)).1.tail) ∧
      ∃ L, (List.foldl (bfsPush (updateNeighbourCost (incSearchCost g) curr))
          (curr :: rest, open_)
          (getNeighbours (updateNeighbourCost (incSearchCost g) curr) curr)).1.tail = rest ++ L ∧
        ∀ p ∈ L, Adjacent curr p ∧ Walkable g0 p ∧ p ∉ curr :: rest ∧ p ∉ cl := by
  have hcurr : curr ∈ curr :: rest := List.mem_cons_self _ _
  have hsg : SameGrid g (incSearchCost g) := sameGrid_result32 _ _
  have hs01 : SameGrid g0 (incSearchCost g) := hI.search.same.trans_sg32 hsg
  have hcok := hI.search.q_ok curr hcurr
  have hmeas := hI.search.measure32
  have hpos1 : PosOK (incSearchCost g) := hs01.posOK32 hwf.posOK
  have hcw1 : Walkable (incSearchCost g) curr := (hs01.walkable32 curr).mpr hcok.1
  have hstrong0 : g0.size ≤ 200 →
      ParentInv (updateNeighbourCost (incSearchCost g) curr) (cl.length + 1) ∧
      (∀ c, Rooted g c → Rooted (updateNeighbourCost (incSearchCost g) curr) c) ∧
      (∀ n, Adjacent curr n → Walkable g0 n → (g.board n).explored = false →
        Rooted (updateNeighbourCost (incSearchCost g) curr) n) := by
    intro hsz
    obtain ⟨hP, hQr⟩ := hI.strong hsz
    have hsq := size_sq_le32 hsz
    have hK : cl.length + 1 ≤ 50000 := by
      simp only [List.length_cons] at hmeas; omega
    have hP1 : ParentInv (incSearchCost g) (cl.length + 1) :=
      (hP.transfer_pi32 hsg (costs_incSearchCost32 g)).mono_pi32 (Nat.le_succ _)
    have hcr1 : Rooted (incSearchCost g) curr := hQr curr hcurr
    have hck : ((incSearchCost g).board curr).gCost.units + stepBound
        ≤ (cl.length + 1) * stepBound := by
      have := hP.steps_le_of_rooted32 ((hI.search.same.inBounds32 curr).mpr hcok.1.1)
        (hQr curr hcurr)
      show (g.board curr).gCost.units + stepBound ≤ (cl.length + 1) * stepBound
      rw [Nat.add_mul, Nat.one_mul]
      omega
    obtain ⟨u1, _, u3, u4, _⟩ := updateNeighbourCost_spec32 hP1 hpos1 hcw1 hcr1 hck hK
    exact ⟨u1, fun c hc => u3 c hc,
      fun n hadj hnw _ => u4 n hadj ((hs01.walkable32 n).mpr hnw)⟩
  obtain ⟨w1, u2, _⟩ := updateNeighbourCost_weak32
    (hW.transfer_wpi32 hsg (costs_incSearchCost32 g)) hpos1 hcw1
  generalize updateNeighbourCost (incSearchCost g) curr = g2 at hstrong0 w1 u2 ⊢
  have hs02 : SameGrid g0 g2 := hs01.trans_sg32 u2.same
  have hs23 := sameGrid_markAsExplored32 g2 curr true
  have hc23 := costs_markAsExplored32 g2 curr true
  have hnd := hI.search.q_nodup
  have hPS := bfsPush_pushSteps32 g2 (getNeighbours g2 curr) (curr :: rest, open_)
  obtain ⟨s1, s2, s3⟩ := hPS.spec hopen hnd
  obtain ⟨L, hL⟩ := bfsPush_append32 g2 (getNeighbours g2 curr) (curr :: rest, open_)
  generalize List.foldl (bfsPush g2) (curr :: rest, open_) (getNeighbours g2 curr) = s
    at s1 s2 s3 hL ⊢
  simp only [List.cons_append] at hL
  have htail : ∀ p, p ∈ s.1.tail ↔ (p ∈ s.1 ∧ p ≠ curr) := by
    intro p
    rw [hL] at s1 ⊢
    exact mem_rest_iff s1 p
  have htnd : s.1.tail.Nodup := by
    rw [hL] at s1 ⊢
    exact (List.nodup_cons.mp s1).2
  have hLmem : ∀ p ∈ L, Adjacent curr p ∧ Walkable g0 p ∧ p ∉ curr :: rest ∧ p ∉ cl := by
    intro p hp
    have hps : p ∈ s.1 := by rw [hL]; exact List.mem_cons_of_mem _ (List.mem_append_right _ hp)
    have hpQ : p ∉ curr :: rest := by
      intro hq
      rw [hL] at s1
      have hdis := (List.nodup_append.mp (by simpa using s1 : ((curr :: rest) ++ L).Nodup)).2.2
      exact hdis hq hp
    rcases (s3 p).mp hps with h | ⟨h1, h2, h3⟩
    · exact absurd h hpQ
    · have hm := (mem_getNeighbours32 (hs02.posOK32 hwf.posOK)
        ((hs02.inBounds32 curr).mpr hcok.1.1) p).mp h1
      refine ⟨hm.1, (hs02.walkable32 p).mp hm.2, hpQ, ?_⟩
      intro hcl
      have he := hI.search.cl_explored p hcl
      rw [u2.explored p] at h3
      have he2 : ((incSearchCost g).board p).explored = true := he
      rw [he2] at h3
      exact absurd h3 (by simp)
  refine ⟨?_, w1.transfer_wpi32 hs23 hc23, ?_, ⟨L, by rw [hL]; rfl, hLmem⟩⟩
  · refine hI.round32 hcurr hcend (hsg.trans_sg32 (u2.same.trans_sg32 hs23))
      ?_ ?_ ?_ ?_ (w1.transfer_wpi32 hs23 hc23).toChain ?_ htnd ?_ ?_
    · intro p
      rw [explored_markAsExplored32, u2.explored p]
      rfl
    · show (NodeHandle.markAsExplored g2 curr true).result.search_cost = _
      unfold NodeHandle.markAsExplored
      rw [setNode_result32, u2.result]
      rfl
    · show (NodeHandle.markAsExplored g2 curr true).result.path_cost = _
      unfold NodeHandle.markAsExplored
      rw [setNode_result32, u2.result]
      rfl
    · intro p
      rw [visited_markAsExplored32, u2.visited p]
      rfl
    · intro hsz
      obtain ⟨a1, a2, a3⟩ := hstrong0 hsz
      refine ⟨a1.transfer_pi32 hs23 hc23, ?_, ?_⟩
      · intro c hc
        exact Rooted.mono_rooted32 hs23.start (fun p hp => ⟨p, by rw [(hc23 c).2]; exact hp⟩)
          (a2 c hc)
      · intro n hadj hnw hne
        exact Rooted.mono_rooted32 hs23.start (fun p hp => ⟨p, by rw [(hc23 n).2]; exact hp⟩)
          (a3 n hadj hnw hne)
    · intro p
      rw [htail p, s3 p]
      simp only
      rw [mem_getNeighbours32 (hs02.posOK32 hwf.posOK) ((hs02.inBounds32 curr).mpr hcok.1.1),
        hs02.walkable32]
      constructor
      · rintro ⟨h | ⟨⟨h1, h2⟩, _, h4⟩, hne⟩
        · exact Or.inl ⟨h, hne⟩
        · refine Or.inr ⟨h1, h2, ?_⟩
          rw [u2.explored p] at h4
          exact h4
      · rintro (⟨h, hne⟩ | ⟨h1, h2, h3⟩)
        · exact ⟨Or.inl h, hne⟩
        · refine ⟨Or.inr ⟨⟨h1, h2⟩, ?_, ?_⟩, fun e => h1.ne e.symm⟩
          · rw [hs02.walk]; exact h2.2
          · rw [u2.explored p]; exact h3
    · intro p
      rw [mem_setErase, s2 p, htail p]
  · intro p
    rw [mem_setErase, s2 p, htail p]

theorem bfsLoop_spec32 {g0 : Game} (hwf : WellFormed g0) {pathFuel : Nat}
    (hpf : g0.size.toNat * g0.size.toNat ≤ pathFuel) :
    ∀ (fuel : Nat) (g : Game) (Q open_ cl : List Position), LoopInv g0 g Q open_ cl →
      WeakParentInv g → (∀ p, p ∈ open_ ↔ p ∈ Q) →
      g0.size.toNat * g0.size.toNat + 1 ≤ fuel + cl.length →
      ∃ b g', bfsLoop pathFuel fuel g Q open_ = some (b, g') ∧ SearchPost g0 b g' := by
  intro fuel
  induction fuel with
  | zero =>
    intro g Q open_ cl hI _ _ hf
    have := hI.search.measure32
    omega
  | succ fuel ih =>
    intro g Q open_ cl hI hW hopen hf
    cases Q with
    | nil => exact ⟨false, setFailure g, by unfold bfsLoop; rfl, hI.failure32⟩
    | cons curr rest =>
      unfold bfsLoop
      simp only
      have hcurr : curr ∈ curr :: rest := List.mem_cons_self _ _
      have hsg : SameGrid g (incSearchCost g) := sameGrid_result32 _ _
      have hs01 : SameGrid g0 (incSearchCost g) := hI.search.same.trans_sg32 hsg
      by_cases hce : curr = (incSearchCost g).end_
      · rw [if_pos hce]
        have hend : g0.end_ ∈ curr :: rest := by rw [← hs01.end_, ← hce]; exact hcurr
        obtain ⟨g3, h3, hpost⟩ :=
          hI.success32 hwf hend hsg (costs_incSearchCost32 g) (fun _ => rfl) rfl pathFuel hpf
        rw [h3]
        exact ⟨true, setSuccess g3, rfl, hpost⟩
      · rw [if_neg hce]
        have hcend : curr ≠ g0.end_ := by rw [← hs01.end_]; exact hce
        obtain ⟨r1, r2, r3, _⟩ := bfs_round32 hwf hI hW hopen hcend
        exact ih _ _ _ (curr :: cl) r1 r2 r3 (by
          have hmeas := hI.search.measure32
          simp only [List.length_cons] at hmeas ⊢; omega)

/-! ## The neighbour loop of A* -/


/-- One round of the neighbour loop of `aStarSearch`. -/
theorem aStarRelax_step32 {g1 : Game} {K : Nat} {curr n : Position}
    {s : Game × List Position × List Position}
    (hR : RelaxInv g1 K curr s) (hpos : PosOK g1) (hcw : Walkable g1 curr)
    (hck : (g1.board curr).gCost.units + stepBound ≤ K * stepBound) (hK : K ≤ 50000)
    (hse : (g1.board g1.start).explored = true)
    (hce : (g1.board curr).explored = true)
    (hadj : Adjacent curr n) (hnw : Walkable g1 n) :
    RelaxInv g1 K curr (aStarRelax curr s n) ∧
      (∀ c, Rooted s.1 c → Rooted (aStarRelax curr s n).1 c) ∧
      ((g1.board n).explored = false → Rooted (aStarRelax curr s n).1 n) ∧
      (((g1.board n).explored = true ∨ n ∈ s.2.2) ∧ (aStarRelax curr s n).2 = s.2 ∨
        ((g1.board n).explored = false ∧ n ∉ s.2.2 ∧
          (aStarRelax curr s n).2.1.Perm (n :: s.2.1) ∧
          (aStarRelax curr s n).2.2 = setInsert s.2.2 n)) := by
  obtain ⟨g, Q, open_⟩ := s
  have hco := hR.costOnly
  have hsg : SameGrid g1 g := hco.same
  have hnw' : (g.board n).is_walkable = true := by rw [hsg.walk]; exact hnw.2
  have hexp : (g.board n).explored = (g1.board n).explored := hco.explored n
  unfold aStarRelax NodeHandle.isWalkable NodeHandle.isExplored NodeHandle.getGCost
  simp only [hnw', Bool.not_true, Bool.false_or]
  by_cases hne : (g1.board n).explored = true
  · have h1 : (g.board n).explored = true := by rw [hexp]; exact hne
    rw [if_pos h1]
    exact ⟨hR, fun c hc => hc, fun h => by rw [hne] at h; exact absurd h (by simp),
      Or.inl ⟨Or.inl hne, rfl⟩⟩
  · have hne' : (g1.board n).explored = false := by simpa using hne
    have h1 : ¬ (g.board n).explored = true := by rw [hexp]; exact hne
    rw [if_neg h1]
    have hns : n ≠ g.start := by
      intro e
      rw [hsg.start] at e
      rw [e, hse] at hne'
      exact absurd hne' (by simp)
    have hnopar : ∀ c, InBounds g c → (g.board c).parent ≠ some n := by
      intro c hc hp
      have := hR.parentsExplored c n hc hp
      exact h1 this
    have hrel : ∀ g', g' = g.setNode n { g.board n with
          gCost := (g.board curr).gCost.add (getChessBoardDistance g curr n),
          parent := some curr } →
        ParentInv g' K ∧ CostOnly g g' ∧ ParentsExplored g' ∧
          (g'.board curr).gCost = (g.board curr).gCost ∧
          (∀ c, Rooted g c → Rooted g' c) ∧ Rooted g' n := by
      intro g' hg'
      have hcg : CostOnly g g' := by
        rw [hg']; exact costOnly_setNode32 g n _ rfl rfl rfl rfl
      have hfr : ∀ q, q ≠ n → (g'.board q).gCost = (g.board q).gCost ∧
          (g'.board q).parent = (g.board q).parent := by
        intro q hq
        rw [hg', setNode_board_ne32 _ _ _ _ hq]
        exact ⟨rfl, rfl⟩
      have hn2 : (g'.board n).parent = some curr := by rw [hg', setNode_board_self32]
      have hroot : ∀ c, Rooted g c → Rooted g' c := by
        intro c hc
        by_cases hcn : c = n
        · right; exact ⟨curr, by rw [hcn]; exact hn2⟩
        · exact @Rooted.mono_rooted32 g g' c hcg.same.start
            (fun p hp => ⟨p, by rw [(hfr c hcn).2]; exact hp⟩) hc
      refine ⟨?_, hcg, ?_, (hfr curr hadj.ne).1, hroot, Or.inr ⟨curr, hn2⟩⟩
      · exact ParentInv.relax_pi32 hR.parents (hsg.posOK32 hpos) ((hsg.walkable32 curr).mpr hcw)
          hR.curr_rooted (by rw [hR.curr_cost]; exact hck) hK hadj ((hsg.walkable32 n).mpr hnw)
          hns (Or.inr hnopar) hcg.same (by rw [hg', setNode_board_self32]) hn2 hfr
      · intro c p hc hp
        rw [hcg.explored p]
        by_cases hcn : c = n
        · rw [hcn, hn2] at hp
          rw [← Option.some.inj hp, hco.explored curr]
          exact hce
        · rw [(hfr c hcn).2] at hp
          exact hR.parentsExplored c p ((hcg.same.inBounds32 c).mp hc) hp
    rw [relaxedA_eq32]
    obtain ⟨r1, r2, r3, r4, r5, r6⟩ := hrel _ rfl
    generalize g.setNode n { g.board n with
          gCost := (g.board curr).gCost.add (getChessBoardDistance g curr n),
          parent := some curr } = g' at r1 r2 r3 r4 r5 r6 ⊢
    have hR' : ∀ open2 : List Position, (∀ p ∈ open2, p = n ∨ p ∈ open_) → ∀ Q2,
        RelaxInv g1 K curr (g', Q2, open2) := by
      intro open2 ho Q2
      refine ⟨r1, hco.trans_co32 r2, r3, r4.trans hR.curr_cost, r5 curr hR.curr_rooted, ?_⟩
      intro p hp
      rcases ho p hp with e | e
      · rw [e]; exact r6
      · exact r5 p (hR.open_rooted p e)
    by_cases hin : n ∈ open_
    · simp only [hin, not_true_eq_false, decide_False, Bool.or_false, if_false]
      split
      · exact ⟨hR' open_ (fun p hp => Or.inr hp) Q, r5, fun _ => r6,
          Or.inl ⟨Or.inr trivial, rfl⟩⟩
      · exact ⟨hR, fun c hc => hc, fun _ => hR.open_rooted n hin,
          Or.inl ⟨Or.inr trivial, rfl⟩⟩
    · simp only [hin, not_false_eq_true, decide_True, Bool.or_true, if_true]
      refine ⟨hR' _ (fun p hp => (mem_setInsert _ _ _).mp hp) _, r5, fun _ => r6,
        Or.inr ⟨hne', trivial, heapPush_perm _ _ _, trivial⟩⟩

/-- The neighbour loop of `aStarSearch`. -/
theorem foldl_aStarRelax_spec32 {g1 : Game} {K : Nat} {curr : Position}
    (hpos : PosOK g1) (hcw : Walkable g1 curr)
    (hck : (g1.board curr).gCost.units + stepBound ≤ K * stepBound) (hK : K ≤ 50000)
    (hse : (g1.board g1.start).explored = true)
    (hce : (g1.board curr).explored = true) (N : List Position) :
    ∀ s, (∀ n ∈ N, Adjacent curr n ∧ Walkable g1 n) → RelaxInv g1 K curr s →
      RelaxInv g1 K curr (N.foldl (aStarRelax curr) s) ∧
      (∀ c, Rooted s.1 c → Rooted (N.foldl (aStarRelax curr) s).1 c) ∧
      (∀ n ∈ N, (g1.board n).explored = false → Rooted (N.foldl (aStarRelax curr) s).1 n) ∧
      PushSteps (fun n => (g1.board n).explored = false) N s.2
        (N.foldl (aStarRelax curr) s).2 := by
  induction N with
  | nil =>
    intro s _ hR
    exact ⟨hR, fun c hc => hc, fun n hn => absurd hn (List.not_mem_nil n), PushSteps.nil _⟩
  | cons n N ih =>
    intro s hN hR
    rw [List.foldl_cons]
    have hn := hN n (List.mem_cons_self n N)
    obtain ⟨a1, a2, a3, a4⟩ := aStarRelax_step32 hR hpos hcw hck hK hse hce hn.1 hn.2
    obtain ⟨b1, b2, b3, b4⟩ := ih (aStarRelax curr s n)
      (fun m hm => hN m (List.mem_cons_of_mem n hm)) a1
    refine ⟨b1, fun c hc => b2 c (a2 c hc), ?_, ?_⟩
    · intro m hm hme
      rcases List.mem_cons.mp hm with e | e
      · rw [e]; exact b2 n (a3 (by rw [← e]; exact hme))
      · exact b3 m e hme
    · rcases a4 with ⟨h1, h2⟩ | ⟨h1, h2, h3, h4⟩
      · rw [h2] at b4
        refine PushSteps.skip n N s.2 _ ?_ b4
        rcases h1 with h | h
        · left; rw [h]; simp
        · right; exact h
      · refine PushSteps.push n N s.2 _ _ h1 h2 h3 ?_
        rw [← h4]
        exact b4

/-- One round of the neighbour loop of `aStarSearch`, on a board of any
size. -/
theorem aStarRelax_weak32 {g1 : Game} {curr n : Position}
    {s : Game × List Position × List Position}
    (hR : RelaxWeak g1 curr s) (hpos : PosOK g1) (hcw : Walkable g1 curr)
    (hse : (g1.board g1.start).explored = true)
    (hce : (g1.board curr).explored = true)
    (hadj : Adjacent curr n) (hnw : Walkable g1 n) :
    RelaxWeak g1 curr (aStarRelax curr s n) ∧
      (((g1.board n).explored = true ∨ n ∈ s.2.2) ∧ (aStarRelax curr s n).2 = s.2 ∨
        ((g1.board n).explored = false ∧ n ∉ s.2.2 ∧
          (aStarRelax curr s n).2.1.Perm (n :: s.2.1) ∧
          (aStarRelax curr s n).2.2 = setInsert s.2.2 n)) := by
  obtain ⟨g, Q, open_⟩ := s
  have hco := hR.costOnly
  have hsg : SameGrid g1 g := hco.same
  have hnw' : (g.board n).is_walkable = true := by rw [hsg.walk]; exact hnw.2
  have hexp : (g.board n).explored = (g1.board n).explored := hco.explored n
  unfold aStarRelax NodeHandle.isWalkable NodeHandle.isExplored NodeHandle.getGCost
  simp only [hnw', Bool.not_true, Bool.false_or]
  by_cases hne : (g1.board n).explored = true
  · have h1 : (g.board n).explored = true := by rw [hexp]; exact hne
    rw [if_pos h1]
    exact ⟨hR, Or.inl ⟨Or.inl hne, rfl⟩⟩
  · have hne' : (g1.board n).explored = false := by simpa using hne
    have h1 : ¬ (g.board n).explored = true := by rw [hexp]; exact hne
    rw [if_neg h1]
    have hns : n ≠ g.start := by
      intro e
      rw [hsg.start] at e
      rw [e, hse] at hne'
      exact absurd hne' (by simp)
    have hnopar : ∀ c, InBounds g c → (g.board c).parent ≠ some n := by
      intro c hc hp
      have := hR.parentsExplored c n hc hp
      exact h1 this
    have hrel : ∀ g', g' = g.setNode n { g.board n with
          gCost := (g.board curr).gCost.add (getChessBoardDistance g curr n),
          parent := some curr } →
        (ChainInv g' ∧ FloatInv g') ∧ CostOnly g g' ∧ ParentsExplored g' ∧
          (g'.board curr).gCost = (g.board curr).gCost := by
      intro g' hg'
      have hcg : CostOnly g g' := by
        rw [hg']; exact costOnly_setNode32 g n _ rfl rfl rfl rfl
      have hfr : ∀ q, q ≠ n → (g'.board q).gCost = (g.board q).gCost ∧
          (g'.board q).parent = (g.board q).parent := by
        intro q hq
        rw [hg', setNode_board_ne32 _ _ _ _ hq]
        exact ⟨rfl, rfl⟩
      have hn2 : (g'.board n).parent = some curr := by rw [hg', setNode_board_self32]
      refine ⟨?_, hcg, ?_, (hfr curr hadj.ne).1⟩
      · exact ChainInv.relax_ci hR.weak hR.float (hsg.posOK32 hpos)
          ((hsg.walkable32 curr).mpr hcw) hadj ((hsg.inBounds32 n).mpr hnw.1) hns hnopar hcg.same
          (by rw [hg', setNode_board_self32]) hn2 hfr
      · intro c p hc hp
        rw [hcg.explored p]
        by_cases hcn : c = n
        · rw [hcn, hn2] at hp
          rw [← Option.some.inj hp, hco.explored curr]
          exact hce
        · rw [(hfr c hcn).2] at hp
          exact hR.parentsExplored c p ((hcg.same.inBounds32 c).mp hc) hp
    rw [relaxedA_eq32]
    obtain ⟨r1, r2, r3, r4⟩ := hrel _ rfl
    generalize g.setNode n { g.board n with
          gCost := (g.board curr).gCost.add (getChessBoardDistance g curr n),
          parent := some curr } = g' at r1 r2 r3 r4 ⊢
    have hR' : ∀ (Q2 open2 : List Position), RelaxWeak g1 curr (g', Q2, open2) :=
      fun _ _ => ⟨r1.1, r1.2, hco.trans_co32 r2, r3, r4.trans hR.curr_cost⟩
    by_cases hin : n ∈ open_
    · simp only [hin, not_true_eq_false, decide_False, Bool.or_false, if_false]
      split
      · exact ⟨hR' _ _, Or.inl ⟨Or.inr trivial, rfl⟩⟩
      · exact ⟨hR, Or.inl ⟨Or.inr trivial, rfl⟩⟩
    · simp only [hin, not_false_eq_true, decide_True, Bool.or_true, if_true]
      exact ⟨hR' _ _, Or.inr ⟨hne', trivial, heapPush_perm _ _ _, trivial⟩⟩

/-- The neighbour loop of `aStarSearch`, on a board of any size. -/
theorem foldl_aStarRelax_weak32 {g1 : Game} {curr : Position}
    (hpos : PosOK g1) (hcw : Walkable g1 curr)
    (hse : (g1.board g1.start).explored = true)
    (hce : (g1.board curr).explored = true) (N : List Position) :
    ∀ s, (∀ n ∈ N, Adjacent curr n ∧ Walkable g1 n) → RelaxWeak g1 curr s →
      RelaxWeak g1 curr (N.foldl (aStarRelax curr) s) ∧
      PushSteps (fun n => (g1.board n).explored = false) N s.2
        (N.foldl (aStarRelax curr) s).2 := by
  induction N with
  | nil =>
    intro s _ hR
    exact ⟨hR, PushSteps.nil _⟩
  | cons n N ih =>
    intro s hN hR
    rw [List.foldl_cons]
    have hn := hN n (List.mem_cons_self n N)
    obtain ⟨a1, a4⟩ := aStarRelax_weak32 hR hpos hcw hse hce hn.1 hn.2
    obtain ⟨b1, b4⟩ := ih (aStarRelax curr s n)
      (fun m hm => hN m (List.mem_cons_of_mem n hm)) a1
    refine ⟨b1, ?_⟩
    rcases a4 with ⟨h1, h2⟩ | ⟨h1, h2, h3, h4⟩
    · rw [h2] at b4
      refine PushSteps.skip n N s.2 _ ?_ b4
      rcases h1 with h | h
      · left; rw [h]; simp
      · right; exact h
    · refine PushSteps.push n N s.2 _ _ h1 h2 h3 ?_
      rw [← h4]
      exact b4

/-! ## The loop of A* -/


theorem Marked.parentsExplored32 {g g1 : Game} {curr : Position} (hM : Marked g g1 curr)
    (h : ParentsExplored g) : ParentsExplored g1 := by
  intro c p hc hp
  rw [(hM.costs c).2] at hp
  exact (hM.explored p).mpr (Or.inl (h c p ((hM.same.inBounds32 c).mp hc) hp))

theorem aStarLoop_spec32 {g0 : Game} (hwf : WellFormed g0)
    {pathFuel : Nat} (hpf : g0.size.toNat * g0.size.toNat ≤ pathFuel) :
    ∀ (fuel : Nat) (g : Game) (Q open_ cl : List Position), LoopInv g0 g Q open_ cl →
      ParentsExplored g → FloatInv g → (g0.start ∈ cl ∨ Q = [g0.start]) →
      g0.size.toNat * g0.size.toNat + 1 ≤ fuel + cl.length →
      ∃ b g', aStarLoop pathFuel fuel g Q open_ = some g' ∧ SearchPost g0 b g' := by
  intro fuel
  induction fuel with
  | zero =>
    intro g Q open_ cl hI _ _ _ hf
    have := hI.search.measure32
    omega
  | succ fuel ih =>
    intro g Q open_ cl hI hPE hFl hst hf
    cases Q with
    | nil => exact ⟨false, setFailure g, by unfold aStarLoop; rfl, hI.failure32⟩
    | cons curr rest =>
      unfold aStarLoop
      simp only
      have hM : Marked g (incSearchCost (NodeHandle.markAsExplored g curr true)) curr :=
        marked_mark_inc32 g curr
      generalize incSearchCost (NodeHandle.markAsExplored g curr true) = g1 at hM ⊢
      have hcurr : curr ∈ curr :: rest := List.mem_cons_self _ _
      have hs01 : SameGrid g0 g1 := hI.search.same.trans_sg32 hM.same
      by_cases hce : curr = g1.end_
      · rw [if_pos hce]
        have hend : g0.end_ ∈ curr :: rest := by rw [← hs01.end_, ← hce]; exact hcurr
        obtain ⟨g3, h3, hpost⟩ :=
          hI.success32 hwf hend hM.same hM.costs hM.visited hM.path pathFuel hpf
        rw [h3]
        exact ⟨true, setSuccess g3, rfl, hpost⟩
      · rw [if_neg hce]
        have hcend : curr ≠ g0.end_ := by rw [← hs01.end_]; exact hce
        have hcok := hI.search.q_ok curr hcurr
        have hmeas := hI.search.measure32
        have hpos1 : PosOK g1 := hs01.posOK32 hwf.posOK
        have hcw1 : Walkable g1 curr := (hs01.walkable32 curr).mpr hcok.1
        have hce1 : (g1.board curr).explored = true := (hM.explored curr).mpr (Or.inr rfl)
        have hse1 : (g1.board g1.start).explored = true := by
          rw [hs01.start]
          rcases hst with h | h
          · exact (hM.explored _).mpr (Or.inl (hI.search.cl_explored _ h))
          · have : curr = g0.start := by
              have := congrArg List.head? h
              simpa using this
            rw [← this]; exact hce1
        have hperm : (heapPop (NodeHandleComparatorFCost g) (curr :: rest)).Perm rest :=
          (heapPop_perm _ curr rest).cons_inv
        have hnd := hI.search.q_nodup
        have hiff1 : ∀ p, p ∈ setErase open_ curr ↔
            p ∈ heapPop (NodeHandleComparatorFCost g) (curr :: rest) := by
          intro p
          rw [open_rest_iff32 hI.search, hperm.mem_iff]
        have hNmem : ∀ n ∈ getNeighbours g1 curr, Adjacent curr n ∧ Walkable g1 n :=
          fun n hn => (mem_getNeighbours32 hpos1 hcw1.1 n).mp hn
        have hstrong : g0.size ≤ 200 →
            RelaxInv g1 (cl.length + 1) curr (List.foldl (aStarRelax curr)
              (g1, heapPop (NodeHandleComparatorFCost g) (curr :: rest), setErase open_ curr)
              (getNeighbours g1 curr)) ∧
            (∀ c, Rooted g1 c → Rooted (List.foldl (aStarRelax curr)
              (g1, heapPop (NodeHandleComparatorFCost g) (curr :: rest), setErase open_ curr)
              (getNeighbours g1 curr)).1 c) ∧
            (∀ n ∈ getNeighbours g1 curr, (g1.board n).explored = false →
              Rooted (List.foldl (aStarRelax curr)
              (g1, heapPop (NodeHandleComparatorFCost g) (curr :: rest), setErase open_ curr)
              (getNeighbours g1 curr)).1 n) := by
          intro hsz
          obtain ⟨hP, hQr⟩ := hI.strong hsz
          have hsq := size_sq_le32 hsz
          have hP1 : ParentInv g1 (cl.length + 1) :=
            (hP.transfer_pi32 hM.same hM.costs).mono_pi32 (Nat.le_succ _)
          have hcr1 : Rooted g1 curr := hM.rooted32 (hQr curr hcurr)
          have hK : cl.length + 1 ≤ 50000 := by
            simp only [List.length_cons] at hmeas; omega
          have hck : (g1.board curr).gCost.units + stepBound
              ≤ (cl.length + 1) * stepBound := by
            rw [(hM.costs curr).1]
            have := hP.steps_le_of_rooted32 ((hI.search.same.inBounds32 curr).mpr hcok.1.1)
              (hQr curr hcurr)
            rw [Nat.add_mul, Nat.one_mul]
            omega
          have hR : RelaxInv g1 (cl.length + 1) curr
              (g1, heapPop (NodeHandleComparatorFCost g) (curr :: rest),
                setErase open_ curr) := by
            refine ⟨hP1, CostOnly.refl_co32 g1, hM.parentsExplored32 hPE, rfl, hcr1, ?_⟩
            intro p hp
            have hp2 : p ∈ rest := (open_rest_iff32 hI.search p).mp hp
            exact hM.rooted32 (hQr p (List.mem_cons_of_mem _ hp2))
          obtain ⟨b1, b2, b3, _⟩ := foldl_aStarRelax_spec32 hpos1 hcw1 hck hK hse1 hce1
            (getNeighbours g1 curr) _ hNmem hR
          exact ⟨b1, b2, b3⟩
        have hRW : RelaxWeak g1 curr
            (g1, heapPop (NodeHandleComparatorFCost g) (curr :: rest), setErase open_ curr) :=
          ⟨hI.weak.transfer_ci hM.same hM.costs, hFl.transfer_fi hM.same hM.costs,
            CostOnly.refl_co32 g1, hM.parentsExplored32 hPE, rfl⟩
        obtain ⟨b1, b4⟩ := foldl_aStarRelax_weak32 hpos1 hcw1 hse1 hce1
          (getNeighbours g1 curr) _ hNmem hRW
        obtain ⟨s1, s2, s3⟩ := b4.spec hiff1 (hperm.nodup_iff.mpr (List.nodup_cons.mp hnd).2)
        generalize List.foldl (aStarRelax curr)
          (g1, heapPop (NodeHandleComparatorFCost g) (curr :: rest), setErase open_ curr)
          (getNeighbours g1 curr) = s at hstrong b1 s1 s2 s3 ⊢
        apply ih s.1 _ _ (curr :: cl) ?_ b1.parentsExplored b1.float ?_
          (by simp only [List.length_cons]; omega)
        · refine hI.round32 hcurr hcend (hM.same.trans_sg32 b1.costOnly.same) ?_ ?_ ?_ ?_ b1.weak
            ?_ s1 ?_ s2
          · intro p; rw [b1.costOnly.explored p]; exact hM.explored p
          · rw [b1.costOnly.result]; exact hM.count
          · rw [b1.costOnly.result]; exact hM.path
          · intro p; rw [b1.costOnly.visited p]; exact hM.visited p
          · intro hsz
            obtain ⟨c1, c2, c3⟩ := hstrong hsz
            refine ⟨c1.parents, fun c hc => c2 c (hM.rooted32 hc), ?_⟩
            intro n hadj hnw hne
            apply c3 n ((mem_getNeighbours32 hpos1 hcw1.1 n).mpr
              ⟨hadj, (hs01.walkable32 n).mpr hnw⟩)
            cases he : (g1.board n).explored with
            | false => rfl
            | true =>
              rcases (hM.explored n).mp he with h | h
              · rw [hne] at h; exact absurd h (by simp)
              · exact absurd h.symm hadj.ne
          · intro p
            rw [s3 p]
            simp only
            rw [hperm.mem_iff, mem_rest_iff hnd, mem_getNeighbours32 hpos1 hcw1.1, hs01.walkable32]
            constructor
            · rintro (h | ⟨⟨h1, h2⟩, h4⟩)
              · exact Or.inl h
              · refine Or.inr ⟨h1, h2, ?_⟩
                cases he : (g.board p).explored with
                | false => rfl
                | true =>
                  have := (hM.explored p).mpr (Or.inl he)
                  rw [this] at h4
                  exact absurd h4 (by simp)
            · rintro (h | ⟨h1, h2, h3⟩)
              · exact Or.inl h
              · refine Or.inr ⟨⟨h1, h2⟩, ?_⟩
                cases he : (g1.board p).explored with
                | false => rfl
                | true =>
                  rcases (hM.explored p).mp he with h | h
                  · rw [h3] at h; exact absurd h (by simp)
                  · exact absurd h.symm h1.ne
        · rcases hst with h | h
          · exact Or.inl (List.mem_cons_of_mem _ h)
          · have : curr = g0.start := by
              have := congrArg List.head? h
              simpa using this
            exact Or.inl (by rw [this]; exact List.mem_cons_self _ _)

/-! ## The four frontier searches from a reset state -/


theorem ResetState.parentInv32 {g0 : Game} (h : ResetState g0) : ParentInv g0 0 := by
  refine ⟨?_, h.parent _ h.wf.start_in, ?_, ?_⟩
  · rw [h.cost _ h.wf.start_in, if_pos rfl]
  · intro c hc
    by_cases hcs : c = g0.start
    · right
      refine ⟨Or.inl hcs, ?_⟩
      rw [h.cost c hc, if_pos hcs]
      exact Nat.le_refl 0
    · left
      rw [h.cost c hc, if_neg hcs]
      exact ⟨rfl, h.parent c hc⟩
  · intro c p hc hp
    rw [h.parent c hc] at hp
    exact absurd hp (by simp)

theorem ResetState.weakInv {g0 : Game} (h : ResetState g0) : WeakParentInv g0 :=
  h.parentInv32.toWeak32 (Nat.zero_le _)

theorem ResetState.floatInv {g0 : Game} (h : ResetState g0) : FloatInv g0 := by
  intro c hc
  rw [h.cost c hc]
  split
  · exact Cost.isFloat_zero
  · exact Cost.isFloat_sentinel

/-- The loop invariant at the first round, for a frontier holding the start
cell only; `g` is the reset state, possibly with the start cell flagged
explored. -/
theorem ResetState.loopInv32 {g0 g : Game} (h : ResetState g0) (hs : SameGrid g0 g)
    (hc : SameCosts g0 g)
    (he : ∀ p, InBounds g0 p → (g.board p).explored = true → p = g0.start)
    (hv : ∀ p, (g.board p).visited = (g0.board p).visited)
    (hr : g.result = g0.result) (open_ : List Position)
    (ho : open_ = [g0.start] ∨ open_ = []) :
    LoopInv g0 g [g0.start] open_ [] := by
  have hsw : Walkable g0 g0.start := ⟨h.wf.start_in, h.wf.start_walk⟩
  refine ⟨⟨hs, List.nodup_singleton _, List.nodup_nil, ?_, ?_, ?_, ?_, ?_, ?_, ?_, ?_, ?_, ?_⟩,
    (h.weakInv.transfer_wpi32 hs hc).toChain, ?_, by rw [hr]; exact h.path_cost, ?_⟩
  · intro p hp; exact absurd hp (List.not_mem_nil _)
  · intro p hp
    rw [List.mem_singleton] at hp
    rw [hp]
    exact ⟨hsw, Reach.refl_reach32 _ _⟩
  · intro p hp; exact absurd hp (List.not_mem_nil _)
  · intro p hp; exact absurd hp (List.not_mem_nil _)
  · rcases ho with e | e
    · left; intro p; rw [e]
    · right; exact ⟨rfl, e, rfl⟩
  · intro p hp hpe
    right
    have := he p hp hpe
    exact ⟨this, by rw [this]; exact List.mem_singleton_self _⟩
  · intro p hp; exact absurd hp (List.not_mem_nil _)
  · exact Or.inr (List.mem_singleton_self _)
  · exact List.not_mem_nil _
  · rw [hr, h.search_cost]; rfl
  · intro _
    refine ⟨h.parentInv32.transfer_pi32 hs hc, ?_⟩
    intro p hp
    rw [List.mem_singleton] at hp
    left; rw [hp, hs.start]
  · intro p hp
    rw [hv p]; exact h.visited p hp

theorem explored_of_mark_start32 {g0 : Game} (h : ResetState g0) (p : Position)
    (hp : InBounds g0 p)
    (he : ((NodeHandle.markAsExplored g0 g0.start true).board p).explored = true) :
    p = g0.start := by
  rcases (explored_markAsExplored32 g0 g0.start p).mp he with h1 | h1
  · rw [h.explored p hp] at h1
    exact absurd h1 (by simp)
  · exact h1

theorem breadthFirstSearch_spec32 {g0 : Game} (h : ResetState g0)
    (fuel : Nat) (hf : g0.size.toNat * g0.size.toNat + 1 ≤ fuel) :
    ∃ b g', breadthFirstSearch fuel g0 = some (b, g') ∧ SearchPost g0 b g' := by
  unfold breadthFirstSearch
  have hI := h.loopInv32 (sameGrid_markAsExplored32 g0 g0.start true)
    (costs_markAsExplored32 g0 g0.start true) (explored_of_mark_start32 h)
    (fun p => visited_markAsExplored32 g0 g0.start p true) rfl [g0.start] (Or.inl rfl)
  exact bfsLoop_spec32 h.wf (by omega) fuel _ _ _ [] hI
    (h.weakInv.transfer_wpi32 (sameGrid_markAsExplored32 g0 g0.start true)
      (costs_markAsExplored32 g0 g0.start true))
    (fun p => by simp [setInsert]) (by simpa using hf)

theorem bestFirstSearch_spec32 {g0 : Game} (h : ResetState g0)
    (fuel : Nat) (hf : g0.size.toNat * g0.size.toNat + 1 ≤ fuel) :
    ∃ b g', Game.bestFirstSearch fuel g0 = some (b, g') ∧ SearchPost g0 b g' := by
  unfold Game.bestFirstSearch
  simp only [bestLoop_eq32, heapPush_nil]
  have hI := h.loopInv32 (sameGrid_markAsExplored32 g0 g0.start true)
    (costs_markAsExplored32 g0 g0.start true) (explored_of_mark_start32 h)
    (fun p => visited_markAsExplored32 g0 g0.start p true) rfl [g0.start] (Or.inl rfl)
  exact pqLoop_spec32 _ h.wf (by omega) fuel _ _ _ [] hI
    (h.weakInv.transfer_wpi32 (sameGrid_markAsExplored32 g0 g0.start true)
      (costs_markAsExplored32 g0 g0.start true)) (by simpa using hf)

theorem greedyBestFirstSearch_spec32 {g0 : Game} (h : ResetState g0)
    (fuel : Nat) (hf : g0.size.toNat * g0.size.toNat + 1 ≤ fuel) :
    ∃ b g', greedyBestFirstSearch fuel g0 = some (b, g') ∧ SearchPost g0 b g' := by
  unfold greedyBestFirstSearch
  simp only [greedyLoop_eq32, heapPush_nil]
  have hI := h.loopInv32 (SameGrid.refl_sg32 g0) (fun _ => ⟨rfl, rfl⟩)
    (fun p hp he => by rw [h.explored p hp] at he; exact absurd he (by simp))
    (fun p => rfl) rfl [g0.start] (Or.inl rfl)
  exact pqLoop_spec32 _ h.wf (by omega) fuel _ _ _ [] hI h.weakInv (by simpa using hf)

theorem aStarSearch_spec32 {g0 : Game} (h : ResetState g0)
    (fuel : Nat) (hf : g0.size.toNat * g0.size.toNat + 1 ≤ fuel) :
    ∃ b g', aStarSearch fuel g0 = some g' ∧ SearchPost g0 b g' := by
  unfold aStarSearch
  simp only [heapPush_nil]
  have hI := h.loopInv32 (SameGrid.refl_sg32 g0) (fun _ => ⟨rfl, rfl⟩)
    (fun p hp he => by rw [h.explored p hp] at he; exact absurd he (by simp))
    (fun p => rfl) rfl [] (Or.inr rfl)
  refine aStarLoop_spec32 h.wf (by omega) fuel _ _ _ [] hI ?_ h.floatInv (Or.inr rfl)
    (by simpa using hf)
  intro c p hc hp
  rw [h.parent c hc] at hp
  exact absurd hp (by simp)

/-! ## Depth-first search -/


theorem DfsInv.setFailure32 {g0 g : Game} {cl : List Position} (h : DfsInv g0 g cl) :
    DfsInv g0 (setFailure g) cl :=
  ⟨h.same.trans_sg32 (sameGrid_result32 _ _), h.cl_nodup, h.cl_ok, h.explored_iff, h.end_open,
    h.count, h.weak.transfer_wpi32 (sameGrid_result32 _ _) (fun _ => ⟨rfl, rfl⟩),
    fun hsz => (h.strong hsz).transfer_pi32 (sameGrid_result32 _ _) (fun _ => ⟨rfl, rfl⟩), h.path0,
    h.unvisited⟩

/-- The neighbour loop of `depthFirstSearch`, for a recursive call that meets
its specification. -/
theorem dfsNeighbours_spec32 {g0 : Game} {curr : Position} {fuel : Nat}
    (call : Game → Position → Option (Bool × Game))
    (hcall : ∀ g cl n, DfsInv g0 g cl → Walkable g0 n → Reach g0 g0.start n → n ∉ cl →
      (g0.size ≤ 200 → Rooted g n) → g0.size.toNat * g0.size.toNat + 1 ≤ fuel + cl.length →
      ∃ b g', call g n = some (b, g') ∧ DfsPost g0 g cl [n] b g')
    (hcr : Reach g0 g0.start curr) :
    ∀ (N : List Position) (g : Game) (cl : List Position), DfsInv g0 g cl →
      (∀ n ∈ N, Adjacent curr n ∧ Walkable g0 n) → (g0.size ≤ 200 → ∀ n ∈ N, Rooted g n) →
      g0.size.toNat * g0.size.toNat + 1 ≤ fuel + cl.length →
      ∃ b g', dfsNeighbours call N g = some (b, g') ∧ DfsPost g0 g cl N b g' := by
  intro N
  induction N with
  | nil =>
    intro g cl hI _ _ _
    refine ⟨false, setFailure g, rfl, Or.inr ⟨rfl, cl, hI.setFailure32, fun p hp => hp,
      fun p hp => absurd hp (List.not_mem_nil _), rfl, fun p hp hn => absurd hp hn,
      fun c hc => hc⟩⟩
  | cons n N ih =>
    intro g cl hI hN hR hf
    have hn := hN n (List.mem_cons_self n N)
    have hN' : ∀ m ∈ N, Adjacent curr m ∧ Walkable g0 m :=
      fun m hm => hN m (List.mem_cons_of_mem n hm)
    have hnw : NodeHandle.isWalkable g n = true := by
      unfold NodeHandle.isWalkable; rw [hI.same.walk]; exact hn.2.2
    unfold dfsNeighbours
    simp only [hnw, Bool.not_true, Bool.false_or]
    by_cases hne : NodeHandle.isExplored g n = true
    · rw [if_pos hne]
      have hncl : n ∈ cl := (hI.explored_iff n hn.2.1).mp hne
      obtain ⟨b, g', h1, h2⟩ := ih g cl hI hN'
        (fun hsz m hm => hR hsz m (List.mem_cons_of_mem n hm)) hf
      refine ⟨b, g', h1, ?_⟩
      rcases h2 with h2 | ⟨hb, cl', c1, c2, c3, c4, c5, c6⟩
      · exact Or.inl h2
      · refine Or.inr ⟨hb, cl', c1, c2, ?_, c4, c5, c6⟩
        intro m hm
        rcases List.mem_cons.mp hm with e | e
        · rw [e]; exact c2 n hncl
        · exact c3 m e
    · rw [if_neg hne]
      have hncl : n ∉ cl := fun h => hne ((hI.explored_iff n hn.2.1).mpr h)
      obtain ⟨b1, g1, h1, h2⟩ := hcall g cl n hI hn.2 (hcr.step_reach32 hn.1 hn.2) hncl
        (fun hsz => hR hsz n (List.mem_cons_self n N)) hf
      rw [h1]
      rcases h2 with ⟨hb, hpost⟩ | ⟨hb, cl1, c1, c2, c3, c4, c5, c6⟩
      · subst hb
        exact ⟨true, g1, rfl, Or.inl ⟨rfl, hpost⟩⟩
      · subst hb
        simp only
        have hlen := length_le_of_subset hI.cl_nodup c2
        obtain ⟨b, g', e1, e2⟩ := ih g1 cl1 c1 hN'
          (fun hsz m hm => c6 m (hR hsz m (List.mem_cons_of_mem n hm))) (by omega)
        refine ⟨b, g', e1, ?_⟩
        rcases e2 with e2 | ⟨hb, cl', d1, d2, d3, d4, d5, d6⟩
        · exact Or.inl e2
        · refine Or.inr ⟨hb, cl', d1, fun p hp => d2 p (c2 p hp), ?_, d4, ?_,
            fun c hc => d6 c (c6 c hc)⟩
          · intro m hm
            rcases List.mem_cons.mp hm with e | e
            · rw [e]; exact d2 n (c3 n (List.mem_singleton_self n))
            · exact d3 m e
          · intro p hp hpn q hadj hqw
            by_cases hp1 : p ∈ cl1
            · exact d2 q (c5 p hp1 hpn q hadj hqw)
            · exact d5 p hp hp1 q hadj hqw

theorem depthFirstSearch_call32 {g0 : Game} (hwf : WellFormed g0)
    {pathFuel : Nat} (hpf : g0.size.toNat * g0.size.toNat ≤ pathFuel) :
    ∀ (fuel : Nat) (g : Game) (cl : List Position) (curr : Position), DfsInv g0 g cl →
      Walkable g0 curr → Reach g0 g0.start curr → curr ∉ cl →
      (g0.size ≤ 200 → Rooted g curr) →
      g0.size.toNat * g0.size.toNat + 1 ≤ fuel + cl.length →
      ∃ b g', depthFirstSearch pathFuel fuel g curr = some (b, g') ∧
        DfsPost g0 g cl [curr] b g' := by
  intro fuel
  induction fuel with
  | zero =>
    intro g cl curr hI hcw _ hccl _ hf
    have hnd : (curr :: cl).Nodup := List.nodup_cons.mpr ⟨hccl, hI.cl_nodup⟩
    have := length_le_of_nodup_inBounds32 g0 (curr :: cl) hnd (by
      intro p hp
      rcases List.mem_cons.mp hp with e | e
      · rw [e]; exact hcw.1
      · exact (hI.cl_ok p e).1.1)
    simp only [List.length_cons] at this
    omega
  | succ fuel ih =>
    intro g cl curr hI hcw hcreach hccl hcroot hf
    unfold depthFirstSearch
    simp only
    have hM : Marked g (incSearchCost (NodeHandle.markAsExplored g curr true)) curr :=
      marked_mark_inc32 g curr
    generalize incSearchCost (NodeHandle.markAsExplored g curr true) = g1 at hM ⊢
    have hs01 : SameGrid g0 g1 := hI.same.trans_sg32 hM.same
    have hnd : (curr :: cl).Nodup := List.nodup_cons.mpr ⟨hccl, hI.cl_nodup⟩
    have hmeas := length_le_of_nodup_inBounds32 g0 (curr :: cl) hnd (by
      intro p hp
      rcases List.mem_cons.mp hp with e | e
      · rw [e]; exact hcw.1
      · exact (hI.cl_ok p e).1.1)
    simp only [List.length_cons] at hmeas
    have hvis1 : ∀ p, InBounds g0 p → (g1.board p).visited = false := by
      intro p hp; rw [hM.visited p]; exact hI.unvisited p hp
    have hpath1 : g1.result.path_cost = 0 := by rw [hM.path]; exact hI.path0
    by_cases hce : curr = g1.end_
    · rw [if_pos hce]
      have hce0 : curr = g0.end_ := by rw [← hs01.end_]; exact hce
      obtain ⟨g3, h3, hpost⟩ := success_post32 hwf hs01
        (hI.weak.transfer_wpi32 hM.same hM.costs).toChain
        (fun hsz => ⟨⟨cl.length, (hI.strong hsz).transfer_pi32 hM.same hM.costs⟩,
          by rw [← hce0]; exact hM.rooted32 (hcroot hsz)⟩) (by rw [← hce0]; exact hcw)
        (by rw [← hce0]; exact hcreach) hpath1 hvis1 pathFuel hpf
      rw [h3]
      exact ⟨true, setSuccess g3, rfl, Or.inl ⟨rfl, hpost⟩⟩
    · rw [if_neg hce]
      have hcend : curr ≠ g0.end_ := by rw [← hs01.end_]; exact hce
      have hpos1 : PosOK g1 := hs01.posOK32 hwf.posOK
      have hcw1 : Walkable g1 curr := (hs01.walkable32 curr).mpr hcw
      have hstrong : g0.size ≤ 200 → ParentInv (updateNeighbourCost g1 curr) (cl.length + 1) ∧
          (∀ n, Adjacent curr n → Walkable g1 n → Rooted (updateNeighbourCost g1 curr) n) := by
        intro hsz
        have hsq := size_sq_le32 hsz
        have hP1 : ParentInv g1 (cl.length + 1) :=
          ((hI.strong hsz).transfer_pi32 hM.same hM.costs).mono_pi32 (Nat.le_succ _)
        have hck : (g1.board curr).gCost.units + stepBound
            ≤ (cl.length + 1) * stepBound := by
          rw [(hM.costs curr).1]
          have := (hI.strong hsz).steps_le_of_rooted32 ((hI.same.inBounds32 curr).mpr hcw.1)
            (hcroot hsz)
          rw [Nat.add_mul, Nat.one_mul]
          omega
        obtain ⟨u1, _, _, u4, _⟩ := updateNeighbourCost_spec32 hP1 hpos1 hcw1
          (hM.rooted32 (hcroot hsz)) hck (by omega)
        exact ⟨u1, u4⟩
      obtain ⟨w1, u2, u3⟩ := updateNeighbourCost_weak32 (hI.weak.transfer_wpi32 hM.same hM.costs)
        hpos1 hcw1
      generalize updateNeighbourCost g1 curr = g2 at hstrong w1 u2 u3 ⊢
      have hs02 : SameGrid g0 g2 := hs01.trans_sg32 u2.same
      have hI2 : DfsInv g0 g2 (curr :: cl) := by
        refine ⟨hs02, hnd, ?_, ?_, ?_, ?_, w1, fun hsz => (hstrong hsz).1, ?_, ?_⟩
        · intro p hp
          rcases List.mem_cons.mp hp with e | e
          · rw [e]; exact ⟨hcw, hcreach⟩
          · exact hI.cl_ok p e
        · intro p hp
          rw [u2.explored p, hM.explored p, hI.explored_iff p hp, List.mem_cons]
          exact Or.comm
        · intro h
          rcases List.mem_cons.mp h with e | e
          · exact hcend e.symm
          · exact hI.end_open e
        · rw [u2.result, hM.count, hI.count, wrapInt_succ]; simp
        · rw [u2.result]; exact hpath1
        · intro p hp; rw [u2.visited p]; exact hvis1 p hp
      have hNmem : ∀ n, n ∈ getNeighbours g2 curr ↔ Adjacent curr n ∧ Walkable g0 n := by
        intro n
        rw [mem_getNeighbours32 (hs02.posOK32 hwf.posOK) ((hs02.inBounds32 curr).mpr hcw.1),
          hs02.walkable32]
      obtain ⟨b, g', e1, e2⟩ := dfsNeighbours_spec32 (depthFirstSearch pathFuel fuel)
        (fun g cl n a1 a2 a3 a4 a5 a6 => ih g cl n a1 a2 a3 a4 a5 a6) hcreach
        (getNeighbours g2 curr) g2 (curr :: cl) hI2 (fun n hn => (hNmem n).mp hn)
        (fun hsz n hn => (hstrong hsz).2 n ((hNmem n).mp hn).1
          ((hs01.walkable32 n).mpr ((hNmem n).mp hn).2))
        (by simp only [List.length_cons]; omega)
      refine ⟨b, g', e1, ?_⟩
      rcases e2 with e2 | ⟨hb, cl', d1, d2, d3, d4, d5, d6⟩
      · exact Or.inl e2
      · refine Or.inr ⟨hb, cl', d1, fun p hp => d2 p (List.mem_cons_of_mem _ hp), ?_, d4, ?_,
          fun c hc => d6 c (u3 c (hM.rooted32 hc))⟩
        · intro p hp
          rw [List.mem_singleton] at hp
          rw [hp]; exact d2 curr (List.mem_cons_self _ _)
        · intro p hp hpn q hadj hqw
          by_cases hpc : p = curr
          · rw [hpc] at hadj
            exact d3 q ((hNmem q).mpr ⟨hadj, hqw⟩)
          · apply d5 p hp ?_ q hadj hqw
            intro h
            rcases List.mem_cons.mp h with e | e
            · exact hpc e
            · exact hpn e

/-- The function `depthFirstSearch` called on the start cell of a reset
state. -/
theorem depthFirstSearch_spec32 {g0 : Game} (h : ResetState g0)
    (fuel : Nat) (hf : g0.size.toNat * g0.size.toNat + 1 ≤ fuel) :
    ∃ b g', depthFirstSearch fuel fuel g0 g0.start = some (b, g') ∧ SearchPost g0 b g' := by
  have hsw : Walkable g0 g0.start := ⟨h.wf.start_in, h.wf.start_walk⟩
  have hI : DfsInv g0 g0 [] := by
    refine ⟨SameGrid.refl_sg32 g0, List.nodup_nil, fun p hp => absurd hp (List.not_mem_nil _), ?_,
      List.not_mem_nil _, by rw [h.search_cost]; rfl, h.weakInv,
      fun _ => h.parentInv32, h.path_cost, h.visited⟩
    intro p hp
    rw [h.explored p hp]
    simp
  obtain ⟨b, g', h1, h2⟩ := depthFirstSearch_call32 h.wf (by omega : _ ≤ fuel) fuel g0 []
    g0.start hI hsw (Reach.refl_reach32 _ _) (List.not_mem_nil _) (fun _ => Or.inl rfl)
    (by simpa using hf)
  refine ⟨b, g', h1, ?_⟩
  rcases h2 with ⟨hb, hpost⟩ | ⟨hb, cl', d1, _, d3, d4, d5, _⟩
  · rw [hb]; exact hpost
  · rw [hb]
    have hs : g0.start ∈ cl' := d3 _ (List.mem_singleton_self _)
    have hall : ∀ p, Reach g0 g0.start p → p ∈ cl' := by
      intro p hp
      refine Reach.mem_of_closed32 (fun x => x ∈ cl') hs ?_ hp
      intro x y hx hadj hw
      exact d5 x hx (List.not_mem_nil _) y hadj hw
    refine ⟨d1.same, ⟨fun e => absurd e (by simp), fun _ => d4⟩, ?_, d1.weak.toChain,
      fun hsz => ⟨_, d1.strong hsz⟩, fun _ e => absurd e (by simp), ?_⟩
    · constructor
      · intro e; exact absurd e (by simp)
      · intro e; exact absurd (hall _ e) d1.end_open
    · intro _
      exact ⟨cl', d1.cl_nodup, fun p => ⟨fun hp => (d1.cl_ok p hp).2, hall p⟩, d1.count,
        d1.explored_iff⟩

/-! ## The state after `clearBuffer` -/


/-- The cell of the board at `p` after `clearBuffer` cleared all buffers. -/
theorem clearBuffer_board32 (g : Game) (p : Position) :
    ((clearBuffer g BUFFER_ALL_BIT).board p) =
      if p = g.start then
        { (if InBounds g p then (g.board p).cleared else g.board p) with gCost := Cost.zero }
      else if InBounds g p then (g.board p).cleared else g.board p := by
  rw [clearBuffer_eq32]
  unfold NodeHandle.setGCost
  rw [setNode_board32]
  by_cases h : p = g.start
  · rw [if_pos h, if_pos h, h]
  · rw [if_neg h, if_neg h]

/-- The fields of a cell after `clearBuffer` cleared all buffers. -/
theorem clearBuffer_cell32 (g : Game) (p : Position) :
    ((clearBuffer g BUFFER_ALL_BIT).board p).is_walkable = (g.board p).is_walkable ∧
    ((clearBuffer g BUFFER_ALL_BIT).board p).pos = (g.board p).pos ∧
    ((clearBuffer g BUFFER_ALL_BIT).board p).hCost = (g.board p).hCost ∧
    (InBounds g p →
      ((clearBuffer g BUFFER_ALL_BIT).board p).explored = false ∧
      ((clearBuffer g BUFFER_ALL_BIT).board p).visited = false ∧
      ((clearBuffer g BUFFER_ALL_BIT).board p).parent = none ∧
      ((clearBuffer g BUFFER_ALL_BIT).board p).gCost =
        if p = g.start then Cost.zero else Cost.sentinel) := by
  rw [clearBuffer_board32]
  by_cases h1 : p = g.start
  · subst h1
    by_cases h2 : InBounds g g.start
    · simp [h2, Node.cleared]
    · simp [h2]
  · by_cases h2 : InBounds g p
    · simp [h1, h2, Node.cleared]
    · simp [h1, h2]

theorem clearBuffer_sameGrid32 (g : Game) : SameGrid g (clearBuffer g BUFFER_ALL_BIT) :=
  ⟨by rw [clearBuffer_eq32]; rfl, by rw [clearBuffer_eq32]; rfl, by rw [clearBuffer_eq32]; rfl,
    fun p => (clearBuffer_cell32 g p).1, fun p => (clearBuffer_cell32 g p).2.1⟩

theorem resetFor_board32 (g : Game) (algo : String) (p : Position) :
    (resetFor g algo).board p = (clearBuffer g BUFFER_ALL_BIT).board p := rfl

theorem resetFor_sameGrid32 (g : Game) (algo : String) : SameGrid g (resetFor g algo) :=
  (clearBuffer_sameGrid32 g).trans_sg32 ⟨rfl, rfl, rfl, fun _ => rfl, fun _ => rfl⟩

theorem resetFor_resetState32 (g : Game) (algo : String) (hwf : WellFormed g) :
    ResetState (resetFor g algo) := by
  have hs := resetFor_sameGrid32 g algo
  have hstart : (resetFor g algo).start = g.start := hs.start
  refine ⟨hs.wellFormed32 hwf, ?_, ?_, ?_, ?_, rfl, rfl⟩
  · intro p hp
    rw [resetFor_board32]
    exact ((clearBuffer_cell32 g p).2.2.2 ((hs.inBounds32 p).mp hp)).1
  · intro p hp
    rw [resetFor_board32]
    exact ((clearBuffer_cell32 g p).2.2.2 ((hs.inBounds32 p).mp hp)).2.1
  · intro p hp
    rw [resetFor_board32]
    exact ((clearBuffer_cell32 g p).2.2.2 ((hs.inBounds32 p).mp hp)).2.2.1
  · intro p hp
    rw [resetFor_board32, hstart]
    exact ((clearBuffer_cell32 g p).2.2.2 ((hs.inBounds32 p).mp hp)).2.2.2

/-! ## One round of `findPath` -/


/-- The postcondition of a search, read on the grid of any state with the
same static part as the state the search started from. -/
theorem SearchPost.transfer_post32 {g g0 g' : Game} {b : Bool} (hs : SameGrid g g0)
    (h : SearchPost g0 b g') : SearchPost g b g' := by
  refine ⟨hs.trans_sg32 h.same, h.status, ?_, h.weak, ?_, ?_, ?_⟩
  · rw [h.reach, hs.start, hs.end_, hs.reach32]
  · intro hsz; exact h.parents (by rw [hs.size]; exact hsz)
  · intro hsz hb
    obtain ⟨l, h1, h2, h3, h4, h5, h6⟩ := h.chain (by rw [hs.size]; exact hsz) hb
    refine ⟨l, by rw [← hs.end_]; exact h1, fun x hx => (hs.walkable32 x).mp (h2 x hx), h3, h4,
      h5, fun p hp => h6 p ((hs.inBounds32 p).mpr hp)⟩
  · intro hb
    obtain ⟨cl, h1, h2, h3, h4⟩ := h.expanded hb
    refine ⟨cl, h1, fun p => ?_, h3, fun p hp => h4 p ((hs.inBounds32 p).mpr hp)⟩
    rw [h2 p, hs.start, hs.reach32]

/-- Every one of the five searches, run by `findPath` on a well-formed game
with enough fuel, returns and establishes the postcondition. -/
theorem findPath_spec32 (g : Game) (fuel : Nat) (choice : Char) (hwf : WellFormed g)
    (hf : g.size.toNat * g.size.toNat + 1 ≤ fuel)
    (hc : choice ∈ ['1', '2', '3', '4', '5']) :
    ∃ b g', findPath fuel g choice = some g' ∧ SearchPost g b g' := by
  have hsize : ∀ algo, (resetFor g algo).size = g.size := fun algo => (resetFor_sameGrid32 g algo).size
  simp only [List.mem_cons, List.mem_singleton, List.not_mem_nil, or_false] at hc
  unfold findPath
  simp only
  rcases hc with rfl | rfl | rfl | rfl | rfl
  · obtain ⟨b, g', h1, h2⟩ := depthFirstSearch_spec32
      (resetFor_resetState32 g "Depth First Search" hwf) fuel (by rw [hsize]; exact hf)
    refine ⟨b, g', ?_, h2.transfer_post32 (resetFor_sameGrid32 g _)⟩
    simp only [if_true]
    show Option.map Prod.snd (depthFirstSearch fuel fuel (resetFor g "Depth First Search")
      (resetFor g "Depth First Search").start) = some g'
    rw [h1]; rfl
  · obtain ⟨b, g', h1, h2⟩ := breadthFirstSearch_spec32
      (resetFor_resetState32 g "Breadth First Search" hwf) fuel (by rw [hsize]; exact hf)
    refine ⟨b, g', ?_, h2.transfer_post32 (resetFor_sameGrid32 g _)⟩
    rw [if_neg (by decide), if_pos rfl]
    show Option.map Prod.snd (breadthFirstSearch fuel (resetFor g "Breadth First Search"))
      = some g'
    rw [h1]; rfl
  · obtain ⟨b, g', h1, h2⟩ := bestFirstSearch_spec32
      (resetFor_resetState32 g "Best First Search" hwf) fuel (by rw [hsize]; exact hf)
    refine ⟨b, g', ?_, h2.transfer_post32 (resetFor_sameGrid32 g _)⟩
    rw [if_neg (by decide), if_neg (by decide), if_pos rfl]
    show Option.map Prod.snd (Game.bestFirstSearch fuel (resetFor g "Best First Search"))
      = some g'
    rw [h1]; rfl
  · obtain ⟨b, g', h1, h2⟩ := greedyBestFirstSearch_spec32
      (resetFor_resetState32 g "Greedy Best First Search" hwf) fuel (by rw [hsize]; exact hf)
    refine ⟨b, g', ?_, h2.transfer_post32 (resetFor_sameGrid32 g _)⟩
    rw [if_neg (by decide), if_neg (by decide), if_neg (by decide), if_pos rfl]
    show Option.map Prod.snd
      (greedyBestFirstSearch fuel (resetFor g "Greedy Best First Search")) = some g'
    rw [h1]; rfl
  · obtain ⟨b, g', h1, h2⟩ := aStarSearch_spec32
      (resetFor_resetState32 g "A star" hwf) fuel (by rw [hsize]; exact hf)
    refine ⟨b, g', ?_, h2.transfer_post32 (resetFor_sameGrid32 g _)⟩
    rw [if_neg (by decide), if_neg (by decide), if_neg (by decide), if_neg (by decide),
      if_pos rfl]
    exact h1

/-! ## The contracts of the searches -/


theorem succeeded_imp_true32 {g0 g' : Game} {b : Bool} (h : SearchPost g0 b g')
    (hs : Succeeded g') : b = true := by
  cases b with
  | true => rfl
  | false =>
    have := h.status.2 rfl
    unfold Succeeded at hs
    unfold Failed at this
    rw [hs] at this
    exact absurd this status_ne

/-- C1: for every well-formed grid of side at most 200 (so that no cost
reaches the sentinel 100000) and each of the five searches run by `findPath`
from the reset state, with binary32 costs, the run returns, and if it reports
success, the parent links from the end cell lead to the start cell, and the
cells met, read from the start cell to the end cell, are walkable, consecutive
cells are 8-adjacent and no cell occurs twice. -/
theorem success_path_valid32 (g : Game) (fuel : Nat) (choice : Char) (hwf : WellFormed g)
    (hsz : g.size ≤ 200) (hf : g.size.toNat * g.size.toNat + 1 ≤ fuel)
    (hc : choice ∈ ['1', '2', '3', '4', '5']) :
    ∃ g', findPath fuel g choice = some g' ∧
      (Succeeded g' → ∃ l, parentChain fuel g' g'.end_ = some l ∧
        l.reverse.head? = some g.start ∧ l.reverse.getLast? = some g.end_ ∧
        IsPath g l.reverse ∧ l.reverse.Nodup) := by
  obtain ⟨b, g', h1, hpost⟩ := findPath_spec32 g fuel choice hwf hf hc
  refine ⟨g', h1, fun hs => ?_⟩
  have hb := succeeded_imp_true32 hpost hs
  obtain ⟨l, hl1, hl2, hl3, hl4, _, _⟩ := hpost.chain hsz hb
  have hlen : l.length ≤ fuel := by
    have := length_le_of_nodup_inBounds32 g l hl4 (fun p hp => (hl2 p hp).1)
    omega
  refine ⟨l, ?_, ?_, ?_, ⟨?_, ?_⟩, List.nodup_reverse.mpr hl4⟩
  · rw [hpost.same.end_]
    exact parentChain_of_isChain32 hl1 fuel hlen
  · rw [List.head?_reverse, hl1.getLast32, hpost.same.start]
  · rw [List.getLast?_reverse, hl1.head32]
  · intro p hp
    exact hl2 p (List.mem_reverse.mp hp)
  · rw [List.chain'_reverse]
    exact hl3

/-- C2: for every well-formed grid of any side and each of the five searches
run by `findPath` from the reset state, with binary32 costs, the run returns
(with fuel for one round per cell of the board), it reports success exactly
when a sequence of walkable, pairwise 8-adjacent cells leads from the start
cell to the end cell, and it reports failure when there is none. -/
theorem success_iff_connected32 (g : Game) (fuel : Nat) (choice : Char) (hwf : WellFormed g)
    (hf : g.size.toNat * g.size.toNat + 1 ≤ fuel)
    (hc : choice ∈ ['1', '2', '3', '4', '5']) :
    ∃ g', findPath fuel g choice = some g' ∧
      (Succeeded g' ↔ Connected g g.start g.end_) ∧
      (¬ Connected g g.start g.end_ → Failed g') := by
  obtain ⟨b, g', h1, hpost⟩ := findPath_spec32 g fuel choice hwf hf hc
  have hsw : Walkable g g.start := ⟨hwf.start_in, hwf.start_walk⟩
  have hconn : Connected g g.start g.end_ ↔ b = true := by
    rw [connected_iff32, hpost.reach]
    exact ⟨fun h => h.2, fun h => ⟨hsw, h⟩⟩
  refine ⟨g', h1, ?_, ?_⟩
  · rw [hconn]
    exact ⟨succeeded_imp_true32 hpost, hpost.status.1⟩
  · intro hno
    apply hpost.status.2
    cases b with
    | false => rfl
    | true => exact absurd (hconn.mpr rfl) hno

/-- The cells connected to the start cell, counted through a duplicate-free
list of them. -/
theorem ncard_connected32 {g : Game} (hsw : Walkable g g.start) (cl : List Position)
    (hnd : cl.Nodup) (hcl : ∀ p, p ∈ cl ↔ Reach g g.start p) :
    Set.ncard {p | Connected g g.start p} = cl.length := by
  have : {p | Connected g g.start p} = (↑cl.toFinset : Set Position) := by
    ext p
    simp only [Set.mem_setOf_eq, Finset.mem_coe, List.mem_toFinset]
    rw [connected_iff32, hcl p]
    exact ⟨fun h => h.2, fun h => ⟨hsw, h⟩⟩
  rw [this, Set.ncard_coe_Finset, List.toFinset_card_of_nodup hnd]

/-- A cell reached from a cell of the board is a cell of the board. -/
theorem Reach.inBounds_of {g : Game} {a b : Position} (h : Reach g a b) (ha : InBounds g a) :
    InBounds g b := by
  rcases Relation.ReflTransGen.cases_tail h with e | ⟨c, _, hs⟩
  · rw [e]; exact ha
  · exact hs.2.1

/-- C6: for every well-formed grid in which no sequence of walkable, pairwise
8-adjacent cells leads from the start cell to the end cell, and each of the
five searches run by `findPath` from the reset state with zeroed statistics,
the run returns and reports failure, and the final `search_cost`, an `int`
that the run increments once per expanded cell, is the number of cells
connected to the start cell, the start cell included, reduced to the range of
`int`; on a board of side at most 46340, whose cells an `int` can count, it is
that number itself. -/
theorem failure_counts_reachable32 (g : Game) (fuel : Nat) (choice : Char) (hwf : WellFormed g)
    (hf : g.size.toNat * g.size.toNat + 1 ≤ fuel)
    (hc : choice ∈ ['1', '2', '3', '4', '5'])
    (hno : ¬ Connected g g.start g.end_) :
    ∃ g', findPath fuel g choice = some g' ∧ Failed g' ∧
      g'.result.search_cost
        = wrapInt ((Set.ncard {p | Connected g g.start p} : Nat) : Int) ∧
      (g.size ≤ 46340 →
        g'.result.search_cost = ((Set.ncard {p | Connected g g.start p} : Nat) : Int)) := by
  obtain ⟨b, g', h1, hpost⟩ := findPath_spec32 g fuel choice hwf hf hc
  have hsw : Walkable g g.start := ⟨hwf.start_in, hwf.start_walk⟩
  have hb : b = false := by
    cases b with
    | false => rfl
    | true =>
      exfalso
      apply hno
      rw [connected_iff32]
      exact ⟨hsw, hpost.reach.mp rfl⟩
  obtain ⟨cl, c1, c2, c3, _⟩ := hpost.expanded hb
  have hn := ncard_connected32 hsw cl c1 c2
  refine ⟨g', h1, hpost.status.2 hb, ?_, ?_⟩
  · rw [c3, hn]
  · intro hsz
    rw [c3, hn]
    apply wrapInt_natCast
    have hlen := length_le_of_nodup_inBounds32 g cl c1
      (fun p hp => ((c2 p).mp hp).inBounds_of hwf.start_in)
    have hsq : g.size.toNat * g.size.toNat ≤ 46340 * 46340 :=
      Nat.mul_le_mul (by omega) (by omega)
    omega

/-! ## Evaluation on example grids -/


/-- A run that reports failure shows that no path leads from the start cell
to the end cell. -/
theorem not_connected_of_failure32 (g : Game) (fuel : Nat) (choice : Char) (hwf : WellFormed g)
    (hf : g.size.toNat * g.size.toNat + 1 ≤ fuel)
    (hc : choice ∈ ['1', '2', '3', '4', '5'])
    (hs : statusAfter fuel g choice = some statusFailure) :
    ¬ Connected g g.start g.end_ := by
  obtain ⟨b, g', h1, hpost⟩ := findPath_spec32 g fuel choice hwf hf hc
  intro hconn
  have hsuc : Succeeded g' :=
    hpost.status.1 (hpost.reach.mpr ((connected_iff32 _ _).mp hconn).2)
  unfold statusAfter at hs
  rw [h1] at hs
  simp only [Option.map_some', Option.some.injEq] at hs
  unfold Succeeded at hsuc
  rw [hsuc] at hs
  exact status_ne hs

set_option maxRecDepth 100000 in
/-- Witness of C1: depth-first search on the example board with a detour. -/
theorem success_path_valid_witness32 :
    (WellFormed exampleDetour ∧ exampleDetour.size ≤ 200 ∧
      exampleDetour.size.toNat * exampleDetour.size.toNat + 1 ≤ 26) ∧
    ∃ g', findPath 26 exampleDetour '1' = some g' ∧
      (Succeeded g' → ∃ l, parentChain 26 g' g'.end_ = some l ∧
        l.reverse.head? = some exampleDetour.start ∧
        l.reverse.getLast? = some exampleDetour.end_ ∧
        IsPath exampleDetour l.reverse ∧ l.reverse.Nodup) :=
  ⟨⟨by decide, by decide, by decide⟩,
    success_path_valid32 exampleDetour 26 '1' (by decide) (by decide) (by decide) (by decide)⟩

set_option maxRecDepth 100000 in
/-- Witness of C2: greedy best-first search on the example board with one
wall. -/
theorem success_iff_connected_witness32 :
    (WellFormed exampleOpen ∧ exampleOpen.size.toNat * exampleOpen.size.toNat + 1 ≤ 17) ∧
    ∃ g', findPath 17 exampleOpen '4' = some g' ∧
      (Succeeded g' ↔ Connected exampleOpen exampleOpen.start exampleOpen.end_) ∧
      (¬ Connected exampleOpen exampleOpen.start exampleOpen.end_ → Failed g') :=
  ⟨⟨by decide, by decide⟩,
    success_iff_connected32 exampleOpen 17 '4' (by decide) (by decide) (by decide)⟩

set_option maxRecDepth 100000 in
/-- Witness of C6: breadth-first search on the example board whose end cell is
enclosed by walls. -/
theorem failure_counts_reachable_witness32 :
    (WellFormed exampleEnclosed ∧
      exampleEnclosed.size.toNat * exampleEnclosed.size.toNat + 1 ≤ 10 ∧
      ¬ Connected exampleEnclosed exampleEnclosed.start exampleEnclosed.end_) ∧
    ∃ g', findPath 10 exampleEnclosed '2' = some g' ∧ Failed g' ∧
      g'.result.search_cost =
        wrapInt ((Set.ncard {p | Connected exampleEnclosed exampleEnclosed.start p} : Nat) : Int) ∧
      (exampleEnclosed.size ≤ 46340 → g'.result.search_cost =
        ((Set.ncard {p | Connected exampleEnclosed exampleEnclosed.start p} : Nat) : Int)) :=
  have hno : ¬ Connected exampleEnclosed exampleEnclosed.start exampleEnclosed.end_ :=
    not_connected_of_failure32 exampleEnclosed 10 '2' (by decide) (by decide) (by decide)
      (by decide)
  ⟨⟨by decide, by decide, hno⟩,
    failure_counts_reachable32 exampleEnclosed 10 '2' (by decide) (by decide) (by decide) hno⟩

/-! ## The cells flagged visited -/


/-- C19: for every well-formed grid of side at most 200 and each of the five
searches run by `findPath` from the reset state, with binary32 costs, after a
successful run a
cell of the board is flagged visited exactly when it is on the parent chain
from the end cell and is neither the end cell nor the start cell. -/
theorem visited_is_chain_interior32 (g : Game) (fuel : Nat) (choice : Char)
    (hwf : WellFormed g) (hsz : g.size ≤ 200) (hf : g.size.toNat * g.size.toNat + 1 ≤ fuel)
    (hc : choice ∈ ['1', '2', '3', '4', '5']) :
    ∃ g', findPath fuel g choice = some g' ∧
      (Succeeded g' → ∃ l, parentChain fuel g' g'.end_ = some l ∧
        ∀ p, InBounds g p →
          ((g'.board p).visited = true ↔ p ∈ l ∧ p ≠ g.end_ ∧ p ≠ g.start)) := by
  obtain ⟨b, g', h1, hpost⟩ := findPath_spec32 g fuel choice hwf hf hc
  refine ⟨g', h1, fun hs => ?_⟩
  have hb := succeeded_imp_true32 hpost hs
  obtain ⟨l, hl1, hl2, _, hl4, _, hl6⟩ := hpost.chain hsz hb
  have hlen : l.length ≤ fuel := by
    have := length_le_of_nodup_inBounds32 g l hl4 (fun p hp => (hl2 p hp).1)
    omega
  refine ⟨l, ?_, ?_⟩
  · rw [hpost.same.end_]
    exact parentChain_of_isChain32 hl1 fuel hlen
  · intro p hp
    rw [hl6 p hp, decide_eq_true_iff]
    have hlast : l.getLast? = some g.start := by rw [hl1.getLast32, hpost.same.start]
    exact mem_tail_dropLast hl4 hl1.head32 hlast p

set_option maxRecDepth 100000 in
/-- Witness of C19: best-first search on the example board with a detour. -/
theorem visited_is_chain_interior_witness32 :
    (WellFormed exampleDetour ∧ exampleDetour.size ≤ 200 ∧
      exampleDetour.size.toNat * exampleDetour.size.toNat + 1 ≤ 26) ∧
    ∃ g', findPath 26 exampleDetour '3' = some g' ∧
      (Succeeded g' → ∃ l, parentChain 26 g' g'.end_ = some l ∧
        ∀ p, InBounds exampleDetour p →
          ((g'.board p).visited = true ↔
            p ∈ l ∧ p ≠ exampleDetour.end_ ∧ p ≠ exampleDetour.start)) :=
  ⟨⟨by decide, by decide, by decide⟩,
    visited_is_chain_interior32 exampleDetour 26 '3' (by decide) (by decide) (by decide)
      (by decide)⟩

/-! ## The reported path length -/


/-- The number of cells flagged visited, when these are the cells of a
duplicate-free list of cells of the board. -/
theorem visitedCount_eq32 (g : Game) (V : List Position) (hn : V.Nodup)
    (hin : ∀ p ∈ V, InBounds g p)
    (hv : ∀ p, InBounds g p → (g.board p).visited = decide (p ∈ V)) :
    visitedCount g = V.length := by
  unfold visitedCount
  apply List.Perm.length_eq
  rw [List.perm_ext_iff_of_nodup ((nodup_boardCells _).filter _) hn]
  intro p
  rw [List.mem_filter, mem_boardCells_iff32]
  constructor
  · rintro ⟨h1, h2⟩
    rw [hv p h1] at h2
    simpa using h2
  · intro h
    refine ⟨hin p h, ?_⟩
    rw [hv p (hin p h)]
    simpa using h

/-- A chain is the start cell alone, or a cell followed by the chain of its
parent. -/
theorem IsChain.shape32 {g : Game} {c : Position} {l : List Position} (h : IsChain g c l) :
    (c = g.start ∧ l = [c]) ∨
    (c ≠ g.start ∧ ∃ p l', (g.board c).parent = some p ∧ IsChain g p l' ∧ l = c :: l') := by
  cases h with
  | start => exact Or.inl ⟨rfl, rfl⟩
  | link c p l' hcs hpar hl' => exact Or.inr ⟨hcs, p, l', hpar, hl', rfl⟩

/-- C26: for every well-formed grid of side at most 200 with start and end
on different cells and each of the five searches run by `findPath`, with
binary32 costs and `int` statistics, after a
successful run the reported path length `path_cost` is the number of steps of
the parent chain from the end cell to the start cell, which is one more than
the number of cells flagged visited; it is `1` when the parent of the end cell
is the start cell. -/
theorem path_cost_counts_steps32 (g : Game) (fuel : Nat) (choice : Char) (hwf : WellFormed g)
    (hsz : g.size ≤ 200) (hf : g.size.toNat * g.size.toNat + 1 ≤ fuel)
    (hc : choice ∈ ['1', '2', '3', '4', '5']) (hne : g.start ≠ g.end_) :
    ∃ g', findPath fuel g choice = some g' ∧
      (Succeeded g' → ∃ l, parentChain fuel g' g'.end_ = some l ∧
        g'.result.path_cost = ((l.length - 1 : Nat) : Int) ∧
        g'.result.path_cost = (visitedCount g' : Int) + 1 ∧
        ((g'.board g.end_).parent = some g.start → g'.result.path_cost = 1)) := by
  obtain ⟨b, g', h1, hpost⟩ := findPath_spec32 g fuel choice hwf hf hc
  refine ⟨g', h1, fun hs => ?_⟩
  have hb := succeeded_imp_true32 hpost hs
  obtain ⟨l, hl1, hl2, _, hl4, hl5, hl6⟩ := hpost.chain hsz hb
  have hlen : l.length ≤ fuel := by
    have := length_le_of_nodup_inBounds32 g l hl4 (fun p hp => (hl2 p hp).1)
    omega
  have hes : g.end_ ≠ g'.start := by
    rw [hpost.same.start]; exact fun e => hne e.symm
  obtain ⟨p, l', hpar, hl', hll⟩ : ∃ p l', (g'.board g.end_).parent = some p ∧
      IsChain g' p l' ∧ l = g.end_ :: l' := by
    rcases hl1.shape32 with ⟨e, _⟩ | ⟨_, h⟩
    · exact absurd e hes
    · exact h
  have hl2len : 2 ≤ l.length := by
    have := hl'.length_pos_chain32
    rw [hll]
    simp only [List.length_cons]
    omega
  have hV : (l.tail.dropLast).length = l.length - 2 := by
    rw [List.length_dropLast, List.length_tail]
    omega
  have hvc : visitedCount g' = l.length - 2 := by
    rw [← hV]
    apply visitedCount_eq32 g' l.tail.dropLast
    · exact (hl4.sublist (List.tail_sublist l)).sublist (List.dropLast_sublist _)
    · intro p hp
      have hp1 : p ∈ l := List.mem_of_mem_tail (List.mem_of_mem_dropLast hp)
      exact (hpost.same.inBounds32 p).mpr (hl2 p hp1).1
    · intro p hp
      exact hl6 p ((hpost.same.inBounds32 p).mp hp)
  refine ⟨l, ?_, ?_, ?_, ?_⟩
  · rw [hpost.same.end_]
    exact parentChain_of_isChain32 hl1 fuel hlen
  · rw [hl5]
    omega
  · rw [hl5, hvc]
  · intro hp
    rw [hl5]
    rw [hpar] at hp
    have hps : p = g'.start := by rw [hpost.same.start]; exact Option.some.inj hp
    rcases hl'.shape32 with ⟨_, e⟩ | ⟨h2, _⟩
    · rw [hll, e]; rfl
    · exact absurd hps h2

set_option maxRecDepth 100000 in
/-- Witness of C26: breadth-first search on the example board with a detour. -/
theorem path_cost_counts_steps_witness32 :
    (WellFormed exampleDetour ∧ exampleDetour.size ≤ 200 ∧
      exampleDetour.size.toNat * exampleDetour.size.toNat + 1 ≤ 26 ∧
      exampleDetour.start ≠ exampleDetour.end_) ∧
    ∃ g', findPath 26 exampleDetour '2' = some g' ∧
      (Succeeded g' → ∃ l, parentChain 26 g' g'.end_ = some l ∧
        g'.result.path_cost = ((l.length - 1 : Nat) : Int) ∧
        g'.result.path_cost = (visitedCount g' : Int) + 1 ∧
        ((g'.board exampleDetour.end_).parent = some exampleDetour.start →
          g'.result.path_cost = 1)) :=
  ⟨⟨by decide, by decide, by decide, by decide⟩,
    path_cost_counts_steps32 exampleDetour 26 '2' (by decide) (by decide) (by decide)
      (by decide) (by decide)⟩

/-! ## The parent links -/


/-- No cell of the board is its own ancestor. -/
theorem ChainInv.acyclic_ci {g : Game} (hC : ChainInv g) (c : Position)
    (hc : InBounds g c) :
    ¬ Relation.TransGen (fun a b => (g.board a).parent = some b) c c := by
  obtain ⟨rank, hrank⟩ := hC.ranked
  have key : ∀ d, Relation.TransGen (fun a b => (g.board a).parent = some b) c d →
      InBounds g d ∧ rank d < rank c := by
    intro d h
    induction h with
    | single hp => exact ⟨(hC.parent_step _ _ hc hp).1.1, hrank _ _ hc hp⟩
    | tail _ hp ih =>
      exact ⟨(hC.parent_step _ _ ih.1 hp).1.1, lt_trans (hrank _ _ ih.1 hp) ih.2⟩
  intro h
  exact absurd (key c h).2 (lt_irrefl _)

set_option maxRecDepth 100000 in
/-- C20, evaluated: after A* on the board of side 4 without walls the parent
of (3,3) is (2,2); the g-cost of (3,3) is 35589848 units of `2^-23`, that is
4.24264050, while the g-cost of (2,2), 2.82842708, plus the step, 1.41421354,
is 35589849 units, that is 4.24264061: the program stored the sum rounded to
binary32, so the cost of the parent plus the step exceeds the cost of the
child.  Breadth-first and depth-first search leave the same link. -/
theorem parent_step_rounded :
    linkAfter 17 exampleDiagonal '5' { row := 3, col := 3 }
      = some (some { row := 2, col := 2 }, 35589848, 35589849) ∧
    linkAfter 17 exampleDiagonal '2' { row := 3, col := 3 }
      = some (some { row := 2, col := 2 }, 35589848, 35589849) ∧
    linkAfter 17 exampleDiagonal '1' { row := 3, col := 3 }
      = some (some { row := 2, col := 2 }, 35589848, 35589849) ∧
    (35589848 : Nat) < 35589849 := by
  decide

/-- C20, amended: for every well-formed grid and each of the five searches run by
`findPath`, with the costs held and added in binary32 as the program does, in
the state after the run the start cell has no parent, every parent `p` of a
cell `c` of the board is a walkable 8-neighbour of `c` with
`gCost p ≤ gCost c`, even `gCost p + step p c ≤ gCost c` for the sum that the
program computes, and no cell is its own ancestor.  The invariant holds in
the reset state the run starts from.  While no cost exceeds the sentinel it
is kept, with `gCost p < gCost c`, by every relaxation of a neighbour `n` of a
walkable cell `curr` by `updateNeighbourCost` (the only writer of g-costs and
parents in the depth-first, breadth-first, best-first and greedy searches);
and it is kept by the neighbour loop of `aStarSearch`, where parents are
explored cells. -/
theorem parent_invariant32 (g : Game) (fuel : Nat) (choice : Char) (hwf : WellFormed g)
    (hf : g.size.toNat * g.size.toNat + 1 ≤ fuel)
    (hc : choice ∈ ['1', '2', '3', '4', '5']) :
    (∃ g', findPath fuel g choice = some g' ∧
      (g'.board g.start).parent = none ∧
      (∀ c p, InBounds g c → (g'.board c).parent = some p →
        Walkable g p ∧ Adjacent p c ∧
        (g'.board p).gCost.units ≤ (g'.board c).gCost.units ∧
        ((g'.board p).gCost.add (getChessBoardDistance g p c)).units
          ≤ (g'.board c).gCost.units) ∧
      (∀ c, InBounds g c →
        ¬ Relation.TransGen (fun a b => (g'.board a).parent = some b) c c)) ∧
    (∀ algo : String, WeakParentInv (resetFor g algo) ∧ FloatInv (resetFor g algo)) ∧
    (∀ s : Game, WeakParentInv s → ChainInv s) ∧
    (∀ (s : Game) (curr n : Position), PosOK s → WeakParentInv s → Walkable s curr →
      n ∈ getNeighbours s curr → WeakParentInv (updateNeighbour curr s n)) ∧
    (∀ (s : Game) (Q open_ : List Position) (curr n : Position), PosOK s →
      ChainInv s → FloatInv s → ParentsExplored s → Walkable s curr →
      (s.board curr).explored = true → (s.board s.start).explored = true →
      n ∈ getNeighbours s curr →
      ChainInv (aStarRelax curr (s, Q, open_) n).1 ∧
      FloatInv (aStarRelax curr (s, Q, open_) n).1 ∧
      ParentsExplored (aStarRelax curr (s, Q, open_) n).1) := by
  refine ⟨?_, ?_, fun s hW => hW.toChain, ?_, ?_⟩
  · obtain ⟨b, g', h1, hpost⟩ := findPath_spec32 g fuel choice hwf hf hc
    have hW := hpost.weak
    refine ⟨g', h1, ?_, ?_, ?_⟩
    · rw [← hpost.same.start]; exact hW.start_parent
    · intro c p hcin hp
      have hcin' := (hpost.same.inBounds32 c).mpr hcin
      obtain ⟨a1, a2, a3⟩ := hW.parent_step c p hcin' hp
      rw [hpost.same.getChessBoardDistance32] at a3
      exact ⟨(hpost.same.walkable32 p).mp a1, a2, hW.parent_le c p hcin' hp, a3⟩
    · intro c hcin
      exact hW.acyclic_ci c ((hpost.same.inBounds32 c).mpr hcin)
  · intro algo
    have rs := resetFor_resetState32 g algo hwf
    exact ⟨rs.weakInv, rs.floatInv⟩
  · intro s curr n hpos hW hcw hn
    have hm := (mem_getNeighbours32 hpos hcw.1 n).mp hn
    exact (updateNeighbour_weak32 hW hpos hcw hm.1 hm.2).1
  · intro s Q open_ curr n hpos hW hF hPE hcw hce hse hn
    have hm := (mem_getNeighbours32 hpos hcw.1 n).mp hn
    have hR : RelaxWeak s curr (s, Q, open_) := ⟨hW, hF, CostOnly.refl_co32 s, hPE, rfl⟩
    obtain ⟨r, _⟩ := aStarRelax_weak32 hR hpos hcw hse hce hm.1 hm.2
    exact ⟨r.weak, r.float, r.parentsExplored⟩

set_option maxRecDepth 100000 in
/-- Witness of C20: A* on the example board with a detour. -/
theorem parent_invariant_witness32 :
    (WellFormed exampleDetour ∧
      exampleDetour.size.toNat * exampleDetour.size.toNat + 1 ≤ 26) ∧
    ∃ g', findPath 26 exampleDetour '5' = some g' ∧
      (g'.board exampleDetour.start).parent = none ∧
      (∀ c p, InBounds exampleDetour c → (g'.board c).parent = some p →
        Walkable exampleDetour p ∧ Adjacent p c ∧
        (g'.board p).gCost.units ≤ (g'.board c).gCost.units ∧
        ((g'.board p).gCost.add (getChessBoardDistance exampleDetour p c)).units
          ≤ (g'.board c).gCost.units) ∧
      (∀ c, InBounds exampleDetour c →
        ¬ Relation.TransGen (fun a b => (g'.board a).parent = some b) c c) :=
  ⟨⟨by decide, by decide⟩,
    (parent_invariant32 exampleDetour 26 '5' (by decide) (by decide) (by decide)).1⟩

/-- C22, amended: for every well-formed grid of side at most 200 on which
`depthFirstSearch`, run by `findPath` from the reset state, succeeds, the
parent chain from the end cell leads to the start cell along walkable,
pairwise 8-adjacent cells without repetition, and the parent of every cell on
it other than the start cell is an 8-neighbour on the chain whose g-cost plus
the step, added in binary32 as the program adds them, is at most the g-cost of
the cell. -/
theorem dfs_chain_links32 (g : Game) (fuel : Nat) (hwf : WellFormed g)
    (hsz : g.size ≤ 200) (hf : g.size.toNat * g.size.toNat + 1 ≤ fuel) :
    ∃ g', findPath fuel g '1' = some g' ∧
      (Succeeded g' → ∃ l, parentChain fuel g' g'.end_ = some l ∧
        l.reverse.head? = some g.start ∧ l.reverse.getLast? = some g.end_ ∧
        IsPath g l.reverse ∧ l.reverse.Nodup ∧
        (∀ c ∈ l, c ≠ g.start → ∃ p ∈ l, (g'.board c).parent = some p ∧
          Adjacent p c ∧
          ((g'.board p).gCost.add (getChessBoardDistance g p c)).units
            ≤ (g'.board c).gCost.units)) := by
  obtain ⟨b, g', h1, hpost⟩ := findPath_spec32 g fuel '1' hwf hf (by decide)
  refine ⟨g', h1, fun hs => ?_⟩
  have hb := succeeded_imp_true32 hpost hs
  obtain ⟨l, hl1, hl2, hl3, hl4, _, _⟩ := hpost.chain hsz hb
  have hlen : l.length ≤ fuel := by
    have := length_le_of_nodup_inBounds32 g l hl4 (fun p hp => (hl2 p hp).1)
    omega
  have hlinks : ∀ (e : Position) (m : List Position), IsChain g' e m →
      ∀ c ∈ m, c ≠ g'.start → ∃ p ∈ m, (g'.board c).parent = some p := by
    intro e m hm
    induction hm with
    | start =>
      intro c hcm hcs
      rw [List.mem_singleton] at hcm
      exact absurd hcm hcs
    | link c0 p0 l0 _ hpar hl0 ih =>
      intro c hcm hcs
      rcases List.mem_cons.mp hcm with e1 | e1
      · subst e1
        have : p0 ∈ l0 := by
          have := hl0.head32
          cases l0 with
          | nil => simp at this
          | cons x xs =>
            simp only [List.head?_cons, Option.some.injEq] at this
            rw [this]; exact List.mem_cons_self _ _
        exact ⟨p0, List.mem_cons_of_mem _ this, hpar⟩
      · obtain ⟨p, hp1, hp2⟩ := ih c e1 hcs
        exact ⟨p, List.mem_cons_of_mem _ hp1, hp2⟩
  refine ⟨l, ?_, ?_, ?_, ⟨?_, ?_⟩, List.nodup_reverse.mpr hl4, ?_⟩
  · rw [hpost.same.end_]
    exact parentChain_of_isChain32 hl1 fuel hlen
  · rw [List.head?_reverse, hl1.getLast32, hpost.same.start]
  · rw [List.getLast?_reverse, hl1.head32]
  · intro p hp
    exact hl2 p (List.mem_reverse.mp hp)
  · rw [List.chain'_reverse]
    exact hl3
  · intro c hcl hcs
    obtain ⟨p, hp1, hp2⟩ := hlinks _ l hl1 c hcl (by rw [hpost.same.start]; exact hcs)
    have hcin : InBounds g' c := (hpost.same.inBounds32 c).mpr (hl2 c hcl).1
    obtain ⟨_, a2, a3⟩ := hpost.weak.parent_step c p hcin hp2
    rw [hpost.same.getChessBoardDistance32] at a3
    exact ⟨p, hp1, hp2, a2, a3⟩

set_option maxRecDepth 100000 in
/-- Witness of C22, amended: depth-first search on the board of side 3. -/
theorem dfs_chain_links_witness32 :
    (WellFormed exampleCorner ∧ exampleCorner.size ≤ 200 ∧
      exampleCorner.size.toNat * exampleCorner.size.toNat + 1 ≤ 10) ∧
    ∃ g', findPath 10 exampleCorner '1' = some g' ∧
      (Succeeded g' → ∃ l, parentChain 10 g' g'.end_ = some l ∧
        l.reverse.head? = some exampleCorner.start ∧
        l.reverse.getLast? = some exampleCorner.end_ ∧
        IsPath exampleCorner l.reverse ∧ l.reverse.Nodup ∧
        (∀ c ∈ l, c ≠ exampleCorner.start → ∃ p ∈ l, (g'.board c).parent = some p ∧
          Adjacent p c ∧
          ((g'.board p).gCost.add (getChessBoardDistance exampleCorner p c)).units
            ≤ (g'.board c).gCost.units)) :=
  ⟨⟨by decide, by decide, by decide⟩,
    dfs_chain_links32 exampleCorner 10 (by decide) (by decide) (by decide)⟩

/-! ## The calls of the depth-first search -/

set_option maxRecDepth 100000 in
/-- C22, evaluated: on the board of side 3 with walls at (0,0) and (0,2),
start (1,2) and end (2,0), `depthFirstSearch` reaches the end cell with the
calls on (1,2), (0,1), (1,0), (1,1), (2,0) active, while the parent chain from
the end cell is (2,0), (1,1), (1,2): the parent of (1,1) is the start cell,
not the cell (1,0) from which the recursion entered it. -/
theorem dfs_chain_not_calls32 :
    statusAfter 10 exampleCorner '1' = some statusSuccess ∧
    callsAfter 10 exampleCorner
      = some [⟨1, 2⟩, ⟨0, 1⟩, ⟨1, 0⟩, ⟨1, 1⟩, ⟨2, 0⟩] ∧
    chainAfter 10 exampleCorner '1' = some [⟨2, 0⟩, ⟨1, 1⟩, ⟨1, 2⟩] := by
  decide

/-! ## Costs never rise during a breadth-first search -/


/-- A relaxation changes costs and parents only. -/
theorem updateNeighbour_costOnly32 (curr : Position) (g : Game) (n : Position) :
    CostOnly g (updateNeighbour curr g n) := by
  unfold updateNeighbour
  split
  · exact CostOnly.refl_co32 g
  · dsimp only
    split
    · rw [(sameGrid_setGCost32 g n _).getChessBoardDistance32, relaxed_eq32]
      exact costOnly_setNode32 g n _ rfl rfl rfl rfl
    · exact CostOnly.refl_co32 g

theorem foldl_updateNeighbour_costOnly32 (curr : Position) (L : List Position) :
    ∀ g, CostOnly g (L.foldl (updateNeighbour curr) g) := by
  induction L with
  | nil => intro g; exact CostOnly.refl_co32 g
  | cons n L ih =>
    intro g
    rw [List.foldl_cons]
    exact (updateNeighbour_costOnly32 curr g n).trans_co32 (ih _)

/-- The loop of `retracePath` changes no g-cost and no parent. -/
theorem retraceLoop_costs32 : ∀ (fuel : Nat) (g : Game) (c : Position) (g' : Game),
    retraceLoop fuel g c = some g' → SameCosts g g' := by
  intro fuel
  induction fuel with
  | zero => intro g c g' h; simp [retraceLoop] at h
  | succ fuel ih =>
    intro g c g' h
    unfold retraceLoop at h
    split at h
    · simp only [Option.some.injEq] at h
      rw [← h]; exact fun p => ⟨rfl, rfl⟩
    · split at h
      · have h1 := ih _ _ _ h
        have h2 := (retraceFrame_step32 g c).costs
        exact fun p => ⟨((h1 p).1).trans (h2 p).1, ((h1 p).2).trans (h2 p).2⟩
      · simp only [Option.some.injEq] at h
        rw [← h]; exact fun p => ⟨rfl, rfl⟩

theorem retracePath_costs32 (fuel : Nat) (g g' : Game) (h : retracePath fuel g = some g') :
    SameCosts g g' := by
  unfold retracePath at h
  split at h
  · simp only [Option.some.injEq] at h
    rw [← h]; exact fun p => ⟨rfl, rfl⟩
  · exact retraceLoop_costs32 _ _ _ _ h

/-! ## States that agree on the board -/

/-- Writing, in two states that agree, cells that agree at one place. -/
theorem agree_setNode32 {g h : Game} (a : Agree g h) (c : Position) (m m' : Node)
    (hw : m.is_walkable = (g.board c).is_walkable) (hp : m.pos = (g.board c).pos)
    (hw' : m'.is_walkable = (h.board c).is_walkable) (hp' : m'.pos = (h.board c).pos)
    (he : InBounds g c → m'.explored = m.explored ∧ m'.visited = m.visited ∧
      m'.parent = m.parent ∧ m'.gCost = m.gCost) :
    Agree (g.setNode c m) (h.setNode c m') := by
  refine ⟨⟨a.same.size, a.same.start, a.same.end_, fun p => ?_, fun p => ?_⟩, a.result,
    fun p hp0 => ?_, fun p hp0 => ?_, fun p hp0 => ?_, fun p hp0 => ?_⟩
  · rw [setNode_board32, setNode_board32]
    split
    · rw [hw', hw, a.same.walk]
    · exact a.same.walk p
  · rw [setNode_board32, setNode_board32]
    split
    · rw [hp', hp, a.same.pos]
    · exact a.same.pos p
  · rw [setNode_board32, setNode_board32]
    split
    · rename_i e; exact (he (e ▸ hp0)).1
    · exact a.explored p hp0
  · rw [setNode_board32, setNode_board32]
    split
    · rename_i e; exact (he (e ▸ hp0)).2.1
    · exact a.visited p hp0
  · rw [setNode_board32, setNode_board32]
    split
    · rename_i e; exact (he (e ▸ hp0)).2.2.1
    · exact a.parent p hp0
  · rw [setNode_board32, setNode_board32]
    split
    · rename_i e; exact (he (e ▸ hp0)).2.2.2
    · exact a.gCost p hp0

theorem agree_markAsExplored32 {g h : Game} (a : Agree g h) (c : Position) (v : Bool) :
    Agree (NodeHandle.markAsExplored g c v) (NodeHandle.markAsExplored h c v) :=
  agree_setNode32 a c _ _ rfl rfl rfl rfl
    (fun hc => ⟨rfl, a.visited c hc, a.parent c hc, a.gCost c hc⟩)

theorem agree_markAsVisited32 {g h : Game} (a : Agree g h) (c : Position) (v : Bool) :
    Agree (NodeHandle.markAsVisited g c v) (NodeHandle.markAsVisited h c v) :=
  agree_setNode32 a c _ _ rfl rfl rfl rfl
    (fun hc => ⟨a.explored c hc, rfl, a.parent c hc, a.gCost c hc⟩)

theorem agree_result32 {g h : Game} (a : Agree g h) (f : Result → Result) :
    Agree { g with result := f g.result } { h with result := f h.result } :=
  ⟨⟨a.same.size, a.same.start, a.same.end_, a.same.walk, a.same.pos⟩,
    congrArg f a.result, a.explored, a.visited, a.parent, a.gCost⟩

theorem agree_incSearchCost32 {g h : Game} (a : Agree g h) :
    Agree (incSearchCost g) (incSearchCost h) := agree_result32 a Result.incSearchCost

theorem agree_incPathCost32 {g h : Game} (a : Agree g h) :
    Agree (incPathCost g) (incPathCost h) := agree_result32 a Result.incPathCost

theorem agree_setSuccess32 {g h : Game} (a : Agree g h) :
    Agree (setSuccess g) (setSuccess h) := agree_result32 a Result.setSuccess

theorem agree_setFailure32 {g h : Game} (a : Agree g h) :
    Agree (setFailure g) (setFailure h) := agree_result32 a Result.setFailure

/-- The relaxation of one neighbour, in two states that agree. -/
theorem agree_updateNeighbour32 {g h : Game} (a : Agree g h) {curr n : Position}
    (hc : InBounds g curr) (hn : InBounds g n) :
    Agree (updateNeighbour curr g n) (updateNeighbour curr h n) := by
  unfold updateNeighbour NodeHandle.isWalkable NodeHandle.getGCost
  rw [a.same.walk n, a.gCost curr hc, a.gCost n hn, a.same.getChessBoardDistance32]
  split
  · exact a
  · dsimp only
    split
    · rw [(sameGrid_setGCost32 g n _).getChessBoardDistance32,
        (sameGrid_setGCost32 h n _).getChessBoardDistance32, a.same.getChessBoardDistance32,
        relaxed_eq32, relaxed_eq32]
      exact agree_setNode32 a n _ _ rfl rfl rfl rfl
        (fun hc => ⟨a.explored n hc, a.visited n hc, rfl, rfl⟩)
    · exact a

theorem agree_foldl_updateNeighbour32 (curr : Position) (L : List Position) :
    ∀ g h : Game, Agree g h → InBounds g curr → (∀ n ∈ L, InBounds g n) →
      Agree (L.foldl (updateNeighbour curr) g) (L.foldl (updateNeighbour curr) h) := by
  induction L with
  | nil => intro g h a _ _; exact a
  | cons n L ih =>
    intro g h a hc hL
    simp only [List.foldl_cons]
    have hs := (updateNeighbour_costOnly32 curr g n).same
    exact ih _ _ (agree_updateNeighbour32 a hc (hL n (List.mem_cons_self _ _)))
      ((hs.inBounds32 curr).mpr hc)
      (fun x hx => (hs.inBounds32 x).mpr (hL x (List.mem_cons_of_mem _ hx)))

theorem agree_updateNeighbourCost32 {g h : Game} (a : Agree g h) {curr : Position}
    (hc : InBounds g curr) :
    Agree (updateNeighbourCost g curr) (updateNeighbourCost h curr) := by
  unfold updateNeighbourCost
  rw [a.same.getNeighbours32]
  exact agree_foldl_updateNeighbour32 curr _ g h a hc
    (fun n hn => ((mem_getNeighbours_raw32 g curr n).mp hn).2.1)

/-! ## Parents on the board -/


theorem parentsIn_of_eq32 {g g' : Game} (hs : g'.size = g.size)
    (hp : ∀ p, (g'.board p).parent = (g.board p).parent) (h : ParentsIn g) : ParentsIn g' := by
  intro c p hc hpar
  unfold InBounds at *
  rw [hs] at hc ⊢
  rw [hp] at hpar
  exact h c p hc hpar

theorem parentsIn_markAsExplored32 {g : Game} (h : ParentsIn g) (c : Position) (v : Bool) :
    ParentsIn (NodeHandle.markAsExplored g c v) := by
  refine @parentsIn_of_eq32 g (NodeHandle.markAsExplored g c v) rfl (fun p => ?_) h
  unfold NodeHandle.markAsExplored
  rw [setNode_board32]
  split
  · rename_i e; rw [e]
  · rfl

theorem parentsIn_markAsVisited32 {g : Game} (h : ParentsIn g) (c : Position) (v : Bool) :
    ParentsIn (NodeHandle.markAsVisited g c v) := by
  refine @parentsIn_of_eq32 g (NodeHandle.markAsVisited g c v) rfl (fun p => ?_) h
  unfold NodeHandle.markAsVisited
  rw [setNode_board32]
  split
  · rename_i e; rw [e]
  · rfl

theorem parentsIn_result32 {g : Game} (h : ParentsIn g) (r : Result) :
    ParentsIn { g with result := r } :=
  @parentsIn_of_eq32 g { g with result := r } rfl (fun _ => rfl) h

theorem parentsIn_updateNeighbour32 {g : Game} (h : ParentsIn g) {curr : Position}
    (hc : InBounds g curr) (n : Position) : ParentsIn (updateNeighbour curr g n) := by
  unfold updateNeighbour
  split
  · exact h
  · dsimp only
    split
    · rw [(sameGrid_setGCost32 g n _).getChessBoardDistance32, relaxed_eq32]
      intro c p hcin hpar
      rw [setNode_board32] at hpar
      split at hpar
      · simp only [Option.some.injEq] at hpar
        rw [← hpar]; exact hc
      · exact h c p hcin hpar
    · exact h

theorem parentsIn_foldl_updateNeighbour32 (curr : Position) (L : List Position) :
    ∀ g : Game, ParentsIn g → InBounds g curr →
      ParentsIn (L.foldl (updateNeighbour curr) g) := by
  induction L with
  | nil => intro g h _; exact h
  | cons n L ih =>
    intro g h hc
    simp only [List.foldl_cons]
    exact ih _ (parentsIn_updateNeighbour32 h hc n)
      (((updateNeighbour_costOnly32 curr g n).same.inBounds32 curr).mpr hc)

theorem parentsIn_updateNeighbourCost32 {g : Game} (h : ParentsIn g) {curr : Position}
    (hc : InBounds g curr) : ParentsIn (updateNeighbourCost g curr) :=
  parentsIn_foldl_updateNeighbour32 curr _ g h hc

/-! ## `retracePath` on two states that agree -/


theorem agree_retraceLoop32 : ∀ (fuel : Nat) (g h : Game) (c : Position),
    Agree g h → ParentsIn g → InBounds g c →
      AgreeOpt g.size (retraceLoop fuel g c) (retraceLoop fuel h c) := by
  intro fuel
  induction fuel with
  | zero => intro g h c _ _ _; exact trivial
  | succ fuel ih =>
    intro g h c a hP hc
    unfold retraceLoop NodeHandle.getParent
    rw [a.parent c hc, a.same.start]
    cases hpar : (g.board c).parent with
    | none => exact ⟨a, hP, rfl⟩
    | some p =>
      dsimp only
      split
      · exact ih _ _ p (agree_incPathCost32 (agree_markAsVisited32 a c true))
          (parentsIn_result32 (parentsIn_markAsVisited32 hP c true) _) (hP c p hc hpar)
      · exact ⟨a, hP, rfl⟩

theorem agree_retracePath32 (fuel : Nat) {g h : Game} (a : Agree g h) (hP : ParentsIn g)
    (he : InBounds g g.end_) :
    AgreeOpt g.size (retracePath fuel g) (retracePath fuel h) := by
  unfold retracePath NodeHandle.getParent
  rw [a.same.end_, a.parent _ he]
  cases hpar : (g.board g.end_).parent with
  | none => exact ⟨a, hP, rfl⟩
  | some p => exact agree_retraceLoop32 fuel g h p a hP (hP _ p he hpar)

/-- The success branch shared by the five searches. -/
theorem agree_success32 (fuel : Nat) {g h : Game} (a : Agree g h) (hP : ParentsIn g)
    (he : InBounds g g.end_) :
    AgreeRun g.size
      (match retracePath fuel g with
        | none => none
        | some g => some (true, setSuccess g))
      (match retracePath fuel h with
        | none => none
        | some g => some (true, setSuccess g)) := by
  have := agree_retracePath32 fuel a hP he
  cases h1 : retracePath fuel g with
  | none =>
    cases h2 : retracePath fuel h with
    | none => exact trivial
    | some y => rw [h1, h2] at this; exact this.elim
  | some x =>
    cases h2 : retracePath fuel h with
    | none => rw [h1, h2] at this; exact this.elim
    | some y =>
      rw [h1, h2] at this
      exact ⟨rfl, agree_setSuccess32 this.1, parentsIn_result32 this.2.1 _, this.2.2⟩

/-! ## The comparators and the push loops on two states that agree -/


theorem agree_compG32 : ∀ g h : Game, Agree g h → ∀ x y, InBounds g x → InBounds g y →
    NodeHandleComparatorGCost h x y = NodeHandleComparatorGCost g x y := by
  intro g h a x y hx hy
  unfold NodeHandleComparatorGCost NodeHandle.getGCost
  rw [a.gCost x hx, a.gCost y hy]

theorem agree_compH32 : ∀ g h : Game, Agree g h → ∀ x y, InBounds g x → InBounds g y →
    NodeHandleComparatorHCost h x y = NodeHandleComparatorHCost g x y := by
  intro g h a x y _ _
  unfold NodeHandleComparatorHCost getHCost
  simp only [a.same.getChessBoardDistance32, a.same.end_]

theorem agree_compF32 : ∀ g h : Game, Agree g h → ∀ x y, InBounds g x → InBounds g y →
    NodeHandleComparatorFCost h x y = NodeHandleComparatorFCost g x y := by
  intro g h a x y hx hy
  unfold NodeHandleComparatorFCost getFCost getHCost NodeHandle.getGCost
  simp only [a.same.getChessBoardDistance32, a.same.end_, a.gCost x hx, a.gCost y hy]

theorem agree_pqPush32 (comp : Game → Position → Position → Bool)
    (hcomp : ∀ g h : Game, Agree g h → ∀ x y, InBounds g x → InBounds g y →
      comp h x y = comp g x y)
    {g h : Game} (a : Agree g h) (s : List Position × List Position) (n : Position)
    (hs : ∀ x ∈ s.1, InBounds g x) (hn : InBounds g n) :
    pqPush comp h s n = pqPush comp g s n ∧ (∀ x ∈ (pqPush comp g s n).1, InBounds g x) := by
  unfold pqPush NodeHandle.isWalkable NodeHandle.isExplored
  rw [a.same.walk, a.explored n hn]
  split
  · exact ⟨rfl, hs⟩
  · rw [heapPush_congr (comp h) (comp g) (InBounds g) (hcomp g h a) s.1 n hs hn]
    refine ⟨rfl, fun x hx => ?_⟩
    rcases mem_heapPush hx with e | e
    · rw [e]; exact hn
    · exact hs x e

theorem agree_foldl_pqPush32 (comp : Game → Position → Position → Bool)
    (hcomp : ∀ g h : Game, Agree g h → ∀ x y, InBounds g x → InBounds g y →
      comp h x y = comp g x y)
    {g h : Game} (a : Agree g h) (L : List Position) :
    ∀ s : List Position × List Position, (∀ x ∈ s.1, InBounds g x) →
      (∀ n ∈ L, InBounds g n) →
      L.foldl (pqPush comp h) s = L.foldl (pqPush comp g) s ∧
      (∀ x ∈ (L.foldl (pqPush comp g) s).1, InBounds g x) := by
  induction L with
  | nil => intro s hs _; exact ⟨rfl, hs⟩
  | cons n L ih =>
    intro s hs hL
    simp only [List.foldl_cons]
    obtain ⟨e1, e2⟩ := agree_pqPush32 comp hcomp a s n hs (hL n (List.mem_cons_self _ _))
    rw [e1]
    exact ih _ e2 (fun x hx => hL x (List.mem_cons_of_mem _ hx))

theorem agree_bfsPush32 {g h : Game} (a : Agree g h) (s : List Position × List Position)
    (n : Position) (hs : ∀ x ∈ s.1, InBounds g x) (hn : InBounds g n) :
    bfsPush h s n = bfsPush g s n ∧ (∀ x ∈ (bfsPush g s n).1, InBounds g x) := by
  unfold bfsPush NodeHandle.isWalkable NodeHandle.isExplored
  rw [a.same.walk, a.explored n hn]
  split
  · exact ⟨rfl, hs⟩
  · refine ⟨rfl, fun x hx => ?_⟩
    rcases List.mem_append.mp hx with e | e
    · exact hs x e
    · rw [List.mem_singleton.mp e]; exact hn

theorem agree_foldl_bfsPush32 {g h : Game} (a : Agree g h) (L : List Position) :
    ∀ s : List Position × List Position, (∀ x ∈ s.1, InBounds g x) →
      (∀ n ∈ L, InBounds g n) →
      L.foldl (bfsPush h) s = L.foldl (bfsPush g) s ∧
      (∀ x ∈ (L.foldl (bfsPush g) s).1, InBounds g x) := by
  induction L with
  | nil => intro s hs _; exact ⟨rfl, hs⟩
  | cons n L ih =>
    intro s hs hL
    simp only [List.foldl_cons]
    obtain ⟨e1, e2⟩ := agree_bfsPush32 a s n hs (hL n (List.mem_cons_self _ _))
    rw [e1]
    exact ih _ e2 (fun x hx => hL x (List.mem_cons_of_mem _ hx))

/-! ## The loops of the searches on two states that agree -/


theorem agree_pqLoop32 (comp : Game → Position → Position → Bool)
    (hcomp : ∀ g h : Game, Agree g h → ∀ x y, InBounds g x → InBounds g y →
      comp h x y = comp g x y) (pathFuel : Nat) :
    ∀ (fuel : Nat) (g h : Game) (Q open_ : List Position), Agree g h → ParentsIn g →
      (∀ x ∈ Q, InBounds g x) →
      AgreeRun g.size (pqLoop comp pathFuel fuel g Q open_)
        (pqLoop comp pathFuel fuel h Q open_) := by
  intro fuel
  induction fuel with
  | zero => intro g h Q open_ _ _ _; exact trivial
  | succ fuel ih =>
    intro g h Q open_ a hP hQ
    cases Q with
    | nil =>
      unfold pqLoop
      exact ⟨rfl, agree_setFailure32 a, parentsIn_result32 hP _, rfl⟩
    | cons curr rest =>
      unfold pqLoop
      simp only
      have hc : InBounds g curr := hQ curr (List.mem_cons_self _ _)
      rw [heapPop_congr (comp h) (comp g) (InBounds g) (hcomp g h a) _ hQ]
      have a1 := agree_incSearchCost32 (agree_markAsExplored32 a curr true)
      have hP1 : ParentsIn (incSearchCost (NodeHandle.markAsExplored g curr true)) :=
        parentsIn_result32 (parentsIn_markAsExplored32 hP curr true) _
      have hs1 : SameGrid g (incSearchCost (NodeHandle.markAsExplored g curr true)) :=
        (marked_mark_inc32 g curr).same
      generalize incSearchCost (NodeHandle.markAsExplored g curr true) = g1 at a1 hP1 hs1 ⊢
      generalize incSearchCost (NodeHandle.markAsExplored h curr true) = h1 at a1 ⊢
      have hc1 : InBounds g1 curr := (hs1.inBounds32 curr).mpr hc
      rw [a1.same.end_]
      by_cases hce : curr = g1.end_
      · rw [if_pos hce, if_pos hce, ← hs1.size]
        exact agree_success32 pathFuel a1 hP1 (hce ▸ hc1)
      · rw [if_neg hce, if_neg hce]
        have a2 := agree_updateNeighbourCost32 a1 hc1
        have hP2 := parentsIn_updateNeighbourCost32 hP1 hc1
        have hs2 : SameGrid g1 (updateNeighbourCost g1 curr) :=
          (foldl_updateNeighbour_costOnly32 curr _ g1).same
        generalize updateNeighbourCost g1 curr = g2 at a2 hP2 hs2 ⊢
        generalize updateNeighbourCost h1 curr = h2 at a2 ⊢
        have hs02 := hs1.trans_sg32 hs2
        rw [a2.same.getNeighbours32]
        obtain ⟨e1, e2⟩ := agree_foldl_pqPush32 comp hcomp a2 (getNeighbours g2 curr)
          (heapPop (comp g) (curr :: rest), setErase open_ curr)
          (fun x hx => (hs02.inBounds32 x).mpr (hQ x (List.mem_cons_of_mem _ (mem_heapPop hx))))
          (fun n hn => ((mem_getNeighbours_raw32 g2 curr n).mp hn).2.1)
        rw [e1, ← hs02.size]
        exact ih g2 h2 _ _ a2 hP2 e2

theorem agree_bfsLoop32 (pathFuel : Nat) :
    ∀ (fuel : Nat) (g h : Game) (Q open_ : List Position), Agree g h → ParentsIn g →
      (∀ x ∈ Q, InBounds g x) →
      AgreeRun g.size (bfsLoop pathFuel fuel g Q open_) (bfsLoop pathFuel fuel h Q open_) := by
  intro fuel
  induction fuel with
  | zero => intro g h Q open_ _ _ _; exact trivial
  | succ fuel ih =>
    intro g h Q open_ a hP hQ
    cases Q with
    | nil =>
      unfold bfsLoop
      exact ⟨rfl, agree_setFailure32 a, parentsIn_result32 hP _, rfl⟩
    | cons curr rest =>
      unfold bfsLoop
      simp only
      have hc : InBounds g curr := hQ curr (List.mem_cons_self _ _)
      have a1 := agree_incSearchCost32 a
      have hP1 : ParentsIn (incSearchCost g) := parentsIn_result32 hP _
      have hs1 : SameGrid g (incSearchCost g) := sameGrid_result32 g _
      generalize incSearchCost g = g1 at a1 hP1 hs1 ⊢
      generalize incSearchCost h = h1 at a1 ⊢
      have hc1 : InBounds g1 curr := (hs1.inBounds32 curr).mpr hc
      rw [a1.same.end_]
      by_cases hce : curr = g1.end_
      · rw [if_pos hce, if_pos hce, ← hs1.size]
        exact agree_success32 pathFuel a1 hP1 (hce ▸ hc1)
      · rw [if_neg hce, if_neg hce]
        have a2 := agree_updateNeighbourCost32 a1 hc1
        have hP2 := parentsIn_updateNeighbourCost32 hP1 hc1
        have hs2 : SameGrid g1 (updateNeighbourCost g1 curr) :=
          (foldl_updateNeighbour_costOnly32 curr _ g1).same
        generalize updateNeighbourCost g1 curr = g2 at a2 hP2 hs2 ⊢
        generalize updateNeighbourCost h1 curr = h2 at a2 ⊢
        have hs02 := hs1.trans_sg32 hs2
        rw [a2.same.getNeighbours32]
        obtain ⟨e1, e2⟩ := agree_foldl_bfsPush32 a2 (getNeighbours g2 curr)
          (curr :: rest, open_)
          (fun x hx => (hs02.inBounds32 x).mpr (hQ x hx))
          (fun n hn => ((mem_getNeighbours_raw32 g2 curr n).mp hn).2.1)
        rw [e1, ← hs02.size]
        exact ih _ _ _ _ (agree_markAsExplored32 a2 curr true)
          (parentsIn_markAsExplored32 hP2 curr true)
          (fun x hx => e2 x (List.mem_of_mem_tail hx))

/-! ## A* on two states that agree -/


theorem agree_aStarRelax32 {g h : Game} (a : Agree g h) (hP : ParentsIn g) {curr n : Position}
    (hc : InBounds g curr) (hn : InBounds g n) (Q O : List Position)
    (hQ : ∀ x ∈ Q, InBounds g x) :
    Agree (aStarRelax curr (g, Q, O) n).1 (aStarRelax curr (h, Q, O) n).1 ∧
    (aStarRelax curr (h, Q, O) n).2 = (aStarRelax curr (g, Q, O) n).2 ∧
    ParentsIn (aStarRelax curr (g, Q, O) n).1 ∧
    SameGrid g (aStarRelax curr (g, Q, O) n).1 ∧
    (∀ x ∈ (aStarRelax curr (g, Q, O) n).2.1, InBounds g x) := by
  unfold aStarRelax NodeHandle.isWalkable NodeHandle.isExplored NodeHandle.getGCost
  simp only
  rw [a.same.walk n, a.explored n hn, a.gCost curr hc, a.gCost n hn,
    a.same.getChessBoardDistance32]
  split
  · exact ⟨a, rfl, hP, SameGrid.refl_sg32 g, hQ⟩
  · split
    · rw [relaxedA_eq32, relaxedA_eq32]
      have a' : Agree
          (g.setNode n { g.board n with
            gCost := (g.board curr).gCost.add (getChessBoardDistance g curr n),
            parent := some curr })
          (h.setNode n { h.board n with
            gCost := (g.board curr).gCost.add (getChessBoardDistance g curr n),
            parent := some curr }) :=
        agree_setNode32 a n _ _ rfl rfl rfl rfl
          (fun hc => ⟨a.explored n hc, a.visited n hc, rfl, rfl⟩)
      have hs' : SameGrid g (g.setNode n { g.board n with
            gCost := (g.board curr).gCost.add (getChessBoardDistance g curr n),
            parent := some curr }) := sameGrid_setNode32 g n _ rfl rfl
      have hP' : ParentsIn (g.setNode n { g.board n with
            gCost := (g.board curr).gCost.add (getChessBoardDistance g curr n),
            parent := some curr }) := by
        intro c p hcin hpar
        rw [setNode_board32] at hpar
        split at hpar
        · simp only [Option.some.injEq] at hpar
          rw [← hpar]; exact hc
        · exact hP c p hcin hpar
      generalize g.setNode n { g.board n with
            gCost := (g.board curr).gCost.add (getChessBoardDistance g curr n),
            parent := some curr } = g' at a' hs' hP' ⊢
      generalize h.setNode n { h.board n with
            gCost := (g.board curr).gCost.add (getChessBoardDistance g curr n),
            parent := some curr } = h' at a' ⊢
      split
      · dsimp only
        rw [heapPush_congr (NodeHandleComparatorFCost h') (NodeHandleComparatorFCost g')
          (InBounds g') (agree_compF32 g' h' a') Q n
          (fun x hx => (hs'.inBounds32 x).mpr (hQ x hx)) ((hs'.inBounds32 n).mpr hn)]
        refine ⟨a', rfl, hP', hs', fun x hx => ?_⟩
        rcases mem_heapPush hx with e | e
        · rw [e]; exact hn
        · exact hQ x e
      · exact ⟨a', rfl, hP', hs', hQ⟩
    · exact ⟨a, rfl, hP, SameGrid.refl_sg32 g, hQ⟩

theorem agree_foldl_aStarRelax32 (curr : Position) (L : List Position) :
    ∀ (g h : Game) (Q O : List Position), Agree g h → ParentsIn g → InBounds g curr →
      (∀ n ∈ L, InBounds g n) → (∀ x ∈ Q, InBounds g x) →
      Agree (L.foldl (aStarRelax curr) (g, Q, O)).1 (L.foldl (aStarRelax curr) (h, Q, O)).1 ∧
      (L.foldl (aStarRelax curr) (h, Q, O)).2 = (L.foldl (aStarRelax curr) (g, Q, O)).2 ∧
      ParentsIn (L.foldl (aStarRelax curr) (g, Q, O)).1 ∧
      SameGrid g (L.foldl (aStarRelax curr) (g, Q, O)).1 ∧
      (∀ x ∈ (L.foldl (aStarRelax curr) (g, Q, O)).2.1, InBounds g x) := by
  induction L with
  | nil => intro g h Q O a hP _ _ hQ; exact ⟨a, rfl, hP, SameGrid.refl_sg32 g, hQ⟩
  | cons n L ih =>
    intro g h Q O a hP hc hL hQ
    simp only [List.foldl_cons]
    obtain ⟨r1, r2, r3, r4, r5⟩ :=
      agree_aStarRelax32 a hP hc (hL n (List.mem_cons_self _ _)) Q O hQ
    generalize aStarRelax curr (g, Q, O) n = s at r1 r2 r3 r4 r5 ⊢
    generalize aStarRelax curr (h, Q, O) n = s' at r1 r2 ⊢
    obtain ⟨g', Q', O'⟩ := s
    obtain ⟨h', Q'', O''⟩ := s'
    simp only [Prod.mk.injEq] at r2
    obtain ⟨rfl, rfl⟩ := r2
    obtain ⟨i1, i2, i3, i4, i5⟩ := ih g' h' Q'' O'' r1 r3 ((r4.inBounds32 curr).mpr hc)
      (fun x hx => (r4.inBounds32 x).mpr (hL x (List.mem_cons_of_mem _ hx)))
      (fun x hx => (r4.inBounds32 x).mpr (r5 x hx))
    exact ⟨i1, i2, i3, r4.trans_sg32 i4, fun x hx => (r4.inBounds32 x).mp (i5 x hx)⟩

/-- The success branch of A*. -/
theorem agree_successA32 (fuel : Nat) {g h : Game} (a : Agree g h) (hP : ParentsIn g)
    (he : InBounds g g.end_) :
    AgreeOpt g.size
      (match retracePath fuel g with
        | none => none
        | some g => some (setSuccess g))
      (match retracePath fuel h with
        | none => none
        | some g => some (setSuccess g)) := by
  have := agree_retracePath32 fuel a hP he
  cases h1 : retracePath fuel g with
  | none =>
    cases h2 : retracePath fuel h with
    | none => exact trivial
    | some y => rw [h1, h2] at this; exact this.elim
  | some x =>
    cases h2 : retracePath fuel h with
    | none => rw [h1, h2] at this; exact this.elim
    | some y =>
      rw [h1, h2] at this
      exact ⟨agree_setSuccess32 this.1, parentsIn_result32 this.2.1 _, this.2.2⟩

theorem agree_aStarLoop32 (pathFuel : Nat) :
    ∀ (fuel : Nat) (g h : Game) (Q open_ : List Position), Agree g h → ParentsIn g →
      (∀ x ∈ Q, InBounds g x) →
      AgreeOpt g.size (aStarLoop pathFuel fuel g Q open_)
        (aStarLoop pathFuel fuel h Q open_) := by
  intro fuel
  induction fuel with
  | zero => intro g h Q open_ _ _ _; exact trivial
  | succ fuel ih =>
    intro g h Q open_ a hP hQ
    cases Q with
    | nil =>
      unfold aStarLoop
      exact ⟨agree_setFailure32 a, parentsIn_result32 hP _, rfl⟩
    | cons curr rest =>
      unfold aStarLoop
      simp only
      have hc : InBounds g curr := hQ curr (List.mem_cons_self _ _)
      rw [heapPop_congr (NodeHandleComparatorFCost h) (NodeHandleComparatorFCost g)
        (InBounds g) (agree_compF32 g h a) _ hQ]
      have a1 := agree_incSearchCost32 (agree_markAsExplored32 a curr true)
      have hP1 : ParentsIn (incSearchCost (NodeHandle.markAsExplored g curr true)) :=
        parentsIn_result32 (parentsIn_markAsExplored32 hP curr true) _
      have hs1 : SameGrid g (incSearchCost (NodeHandle.markAsExplored g curr true)) :=
        (marked_mark_inc32 g curr).same
      generalize incSearchCost (NodeHandle.markAsExplored g curr true) = g1 at a1 hP1 hs1 ⊢
      generalize incSearchCost (NodeHandle.markAsExplored h curr true) = h1 at a1 ⊢
      have hc1 : InBounds g1 curr := (hs1.inBounds32 curr).mpr hc
      rw [a1.same.end_]
      by_cases hce : curr = g1.end_
      · rw [if_pos hce, if_pos hce, ← hs1.size]
        exact agree_successA32 pathFuel a1 hP1 (hce ▸ hc1)
      · rw [if_neg hce, if_neg hce, a1.same.getNeighbours32]
        obtain ⟨i1, i2, i3, i4, i5⟩ := agree_foldl_aStarRelax32 curr (getNeighbours g1 curr)
          g1 h1 (heapPop (NodeHandleComparatorFCost g) (curr :: rest)) (setErase open_ curr)
          a1 hP1 hc1 (fun n hn => ((mem_getNeighbours_raw32 g1 curr n).mp hn).2.1)
          (fun x hx => (hs1.inBounds32 x).mpr (hQ x (List.mem_cons_of_mem _ (mem_heapPop hx))))
        rw [i2, ← (hs1.trans_sg32 i4).size]
        exact ih _ _ _ _ i1 i3 (fun x hx => (i4.inBounds32 x).mpr (i5 x hx))

/-! ## Depth-first search on two states that agree -/


theorem agree_dfsNeighbours32 (call : Game → Position → Option (Bool × Game))
    (hcall : ∀ (g h : Game) (n : Position), Agree g h → ParentsIn g → InBounds g n →
      AgreeRun g.size (call g n) (call h n)) :
    ∀ (L : List Position) (g h : Game), Agree g h → ParentsIn g → (∀ n ∈ L, InBounds g n) →
      AgreeRun g.size (dfsNeighbours call L g) (dfsNeighbours call L h) := by
  intro L
  induction L with
  | nil =>
    intro g h a hP _
    exact ⟨rfl, agree_setFailure32 a, parentsIn_result32 hP _, rfl⟩
  | cons n L ih =>
    intro g h a hP hL
    have hn := hL n (List.mem_cons_self _ _)
    have hL' : ∀ m ∈ L, InBounds g m := fun m hm => hL m (List.mem_cons_of_mem _ hm)
    have e1 : NodeHandle.isWalkable h n = NodeHandle.isWalkable g n := a.same.walk n
    have e2 : NodeHandle.isExplored h n = NodeHandle.isExplored g n := a.explored n hn
    unfold dfsNeighbours
    rw [e1, e2]
    split
    · exact ih g h a hP hL'
    · have hr := hcall g h n a hP hn
      cases hg : call g n with
      | none =>
        cases hh : call h n with
        | none => exact trivial
        | some y => rw [hg, hh] at hr; exact hr.elim
      | some x =>
        cases hh : call h n with
        | none => rw [hg, hh] at hr; exact hr.elim
        | some y =>
          rw [hg, hh] at hr
          obtain ⟨b, g'⟩ := x
          obtain ⟨b', h'⟩ := y
          obtain ⟨hb, r1, r2, r3⟩ := hr
          simp only at hb r1 r2 r3
          subst hb
          cases b with
          | true => exact ⟨rfl, r1, r2, r3⟩
          | false =>
            simp only
            rw [← r3]
            exact ih g' h' r1 r2 (fun m hm => by
              have := hL' m hm
              unfold InBounds at this ⊢
              rw [r3]; exact this)

theorem agree_depthFirstSearch32 (pathFuel : Nat) :
    ∀ (fuel : Nat) (g h : Game) (curr : Position), Agree g h → ParentsIn g →
      InBounds g curr →
      AgreeRun g.size (depthFirstSearch pathFuel fuel g curr)
        (depthFirstSearch pathFuel fuel h curr) := by
  intro fuel
  induction fuel with
  | zero => intro g h curr _ _ _; exact trivial
  | succ fuel ih =>
    intro g h curr a hP hc
    unfold depthFirstSearch
    simp only
    have a1 := agree_incSearchCost32 (agree_markAsExplored32 a curr true)
    have hP1 : ParentsIn (incSearchCost (NodeHandle.markAsExplored g curr true)) :=
      parentsIn_result32 (parentsIn_markAsExplored32 hP curr true) _
    have hs1 : SameGrid g (incSearchCost (NodeHandle.markAsExplored g curr true)) :=
      (marked_mark_inc32 g curr).same
    generalize incSearchCost (NodeHandle.markAsExplored g curr true) = g1 at a1 hP1 hs1 ⊢
    generalize incSearchCost (NodeHandle.markAsExplored h curr true) = h1 at a1 ⊢
    have hc1 : InBounds g1 curr := (hs1.inBounds32 curr).mpr hc
    rw [a1.same.end_]
    by_cases hce : curr = g1.end_
    · rw [if_pos hce, if_pos hce, ← hs1.size]
      exact agree_success32 pathFuel a1 hP1 (hce ▸ hc1)
    · rw [if_neg hce, if_neg hce]
      have a2 := agree_updateNeighbourCost32 a1 hc1
      have hP2 := parentsIn_updateNeighbourCost32 hP1 hc1
      have hs2 : SameGrid g1 (updateNeighbourCost g1 curr) :=
        (foldl_updateNeighbour_costOnly32 curr _ g1).same
      generalize updateNeighbourCost g1 curr = g2 at a2 hP2 hs2 ⊢
      generalize updateNeighbourCost h1 curr = h2 at a2 ⊢
      rw [a2.same.getNeighbours32, ← (hs1.trans_sg32 hs2).size]
      exact agree_dfsNeighbours32 _ (fun g h n a hP hn => ih g h n a hP hn) _ g2 h2 a2 hP2
        (fun n hn => ((mem_getNeighbours_raw32 g2 curr n).mp hn).2.1)

/-! ## The menu of `findPath` -/


/-- The search `findPath` runs for each of the five keys, on the reset state. -/
theorem findPath_cases32 (fuel : Nat) (g : Game) :
    findPath fuel g '1' = (depthFirstSearch fuel fuel (resetFor g "Depth First Search")
      (resetFor g "Depth First Search").start).map Prod.snd ∧
    findPath fuel g '2'
      = (breadthFirstSearch fuel (resetFor g "Breadth First Search")).map Prod.snd ∧
    findPath fuel g '3'
      = (Game.bestFirstSearch fuel (resetFor g "Best First Search")).map Prod.snd ∧
    findPath fuel g '4'
      = (greedyBestFirstSearch fuel (resetFor g "Greedy Best First Search")).map Prod.snd ∧
    findPath fuel g '5' = aStarSearch fuel (resetFor g "A star") := by
  unfold findPath
  refine ⟨?_, ?_, ?_, ?_, ?_⟩
  · simp only [if_true]; rfl
  · simp only [if_neg (show ¬ '2' = '1' by decide), if_true]; rfl
  · simp only [if_neg (show ¬ '3' = '1' by decide), if_neg (show ¬ '3' = '2' by decide),
      if_true]; rfl
  · simp only [if_neg (show ¬ '4' = '1' by decide), if_neg (show ¬ '4' = '2' by decide),
      if_neg (show ¬ '4' = '3' by decide), if_true]; rfl
  · simp only [if_neg (show ¬ '5' = '1' by decide), if_neg (show ¬ '5' = '2' by decide),
      if_neg (show ¬ '5' = '3' by decide), if_neg (show ¬ '5' = '4' by decide), if_true]; rfl

/-! ## Running a search twice -/


theorem agree_resetFor32 {g h : Game} (hs : SameGrid g h) (algo : String) :
    Agree (resetFor g algo) (resetFor h algo) := by
  have hg := resetFor_sameGrid32 g algo
  have hh := resetFor_sameGrid32 h algo
  have hin : ∀ p, InBounds (resetFor g algo) p → InBounds g p ∧ InBounds h p :=
    fun p hp => ⟨(hg.inBounds32 p).mp hp, (hs.inBounds32 p).mpr ((hg.inBounds32 p).mp hp)⟩
  refine ⟨⟨?_, ?_, ?_, fun p => ?_, fun p => ?_⟩, rfl, fun p hp => ?_, fun p hp => ?_,
    fun p hp => ?_, fun p hp => ?_⟩
  · rw [hh.size, hg.size, hs.size]
  · rw [hh.start, hg.start, hs.start]
  · rw [hh.end_, hg.end_, hs.end_]
  · rw [hh.walk, hg.walk, hs.walk]
  · rw [hh.pos, hg.pos, hs.pos]
  · rw [resetFor_board32, resetFor_board32, ((clearBuffer_cell32 g p).2.2.2 (hin p hp).1).1,
      ((clearBuffer_cell32 h p).2.2.2 (hin p hp).2).1]
  · rw [resetFor_board32, resetFor_board32, ((clearBuffer_cell32 g p).2.2.2 (hin p hp).1).2.1,
      ((clearBuffer_cell32 h p).2.2.2 (hin p hp).2).2.1]
  · rw [resetFor_board32, resetFor_board32, ((clearBuffer_cell32 g p).2.2.2 (hin p hp).1).2.2.1,
      ((clearBuffer_cell32 h p).2.2.2 (hin p hp).2).2.2.1]
  · rw [resetFor_board32, resetFor_board32, ((clearBuffer_cell32 g p).2.2.2 (hin p hp).1).2.2.2,
      ((clearBuffer_cell32 h p).2.2.2 (hin p hp).2).2.2.2, hs.start]

theorem parentsIn_resetFor32 (g : Game) (algo : String) : ParentsIn (resetFor g algo) := by
  intro c p hc hpar
  rw [resetFor_board32,
    ((clearBuffer_cell32 g c).2.2.2 (((resetFor_sameGrid32 g algo).inBounds32 c).mp hc)).2.2.1] at hpar
  exact absurd hpar (by simp)

theorem agree_breadthFirstSearch32 (fuel : Nat) {g h : Game} (a : Agree g h) (hP : ParentsIn g)
    (hs : InBounds g g.start) :
    AgreeRun g.size (breadthFirstSearch fuel g) (breadthFirstSearch fuel h) := by
  unfold breadthFirstSearch
  simp only
  rw [a.same.start]
  exact agree_bfsLoop32 fuel fuel _ _ _ _ (agree_markAsExplored32 a g.start true)
    (parentsIn_markAsExplored32 hP _ _)
    (fun x hx => by rw [List.mem_singleton.mp hx]; exact hs)

theorem agree_bestFirstSearch32 (fuel : Nat) {g h : Game} (a : Agree g h) (hP : ParentsIn g)
    (hs : InBounds g g.start) :
    AgreeRun g.size (Game.bestFirstSearch fuel g) (Game.bestFirstSearch fuel h) := by
  unfold Game.bestFirstSearch
  simp only [bestLoop_eq32, heapPush_nil]
  rw [a.same.start]
  exact agree_pqLoop32 _ agree_compG32 fuel fuel _ _ _ _ (agree_markAsExplored32 a g.start true)
    (parentsIn_markAsExplored32 hP _ _)
    (fun x hx => by rw [List.mem_singleton.mp hx]; exact hs)

theorem agree_greedyBestFirstSearch32 (fuel : Nat) {g h : Game} (a : Agree g h)
    (hP : ParentsIn g) (hs : InBounds g g.start) :
    AgreeRun g.size (greedyBestFirstSearch fuel g) (greedyBestFirstSearch fuel h) := by
  unfold greedyBestFirstSearch
  simp only [greedyLoop_eq32, heapPush_nil]
  rw [a.same.start]
  exact agree_pqLoop32 _ agree_compH32 fuel fuel _ _ _ _ a hP
    (fun x hx => by rw [List.mem_singleton.mp hx]; exact hs)

theorem agree_aStarSearch32 (fuel : Nat) {g h : Game} (a : Agree g h) (hP : ParentsIn g)
    (hs : InBounds g g.start) :
    AgreeOpt g.size (aStarSearch fuel g) (aStarSearch fuel h) := by
  unfold aStarSearch
  simp only [heapPush_nil]
  rw [a.same.start]
  exact agree_aStarLoop32 fuel fuel _ _ _ _ a hP
    (fun x hx => by rw [List.mem_singleton.mp hx]; exact hs)

theorem agreeOpt_map32 {n : Int} {r r' : Option (Bool × Game)} (h : AgreeRun n r r') :
    AgreeOpt n (r.map Prod.snd) (r'.map Prod.snd) := by
  cases r with
  | none =>
    cases r' with
    | none => exact trivial
    | some y => exact h.elim
  | some x =>
    cases r' with
    | none => exact h.elim
    | some y => exact ⟨h.2.1, h.2.2.1, h.2.2.2⟩

/-- The outcome of `findPath` is the same on two states of one grid. -/
theorem agree_findPath32 (fuel : Nat) {g h : Game} (choice : Char) (hwf : WellFormed g)
    (hs : SameGrid g h) (hc : choice ∈ ['1', '2', '3', '4', '5']) :
    AgreeOpt g.size (findPath fuel g choice) (findPath fuel h choice) := by
  have hstart : ∀ algo, InBounds (resetFor g algo) (resetFor g algo).start := fun algo =>
    ((resetFor_sameGrid32 g algo).wellFormed32 hwf).start_in
  have hsize : ∀ algo, (resetFor g algo).size = g.size := fun algo =>
    (resetFor_sameGrid32 g algo).size
  obtain ⟨c1, c2, c3, c4, c5⟩ := findPath_cases32 fuel g
  obtain ⟨d1, d2, d3, d4, d5⟩ := findPath_cases32 fuel h
  simp only [List.mem_cons, List.mem_singleton, List.not_mem_nil, or_false] at hc
  rcases hc with rfl | rfl | rfl | rfl | rfl
  · rw [c1, d1, ← hsize "Depth First Search",
      ← (agree_resetFor32 hs "Depth First Search").same.start]
    rw [(agree_resetFor32 hs "Depth First Search").same.start]
    exact agreeOpt_map32 (agree_depthFirstSearch32 fuel fuel _ _ _
      (agree_resetFor32 hs _) (parentsIn_resetFor32 g _) (hstart _))
  · rw [c2, d2, ← hsize "Breadth First Search"]
    exact agreeOpt_map32 (agree_breadthFirstSearch32 fuel (agree_resetFor32 hs _)
      (parentsIn_resetFor32 g _) (hstart _))
  · rw [c3, d3, ← hsize "Best First Search"]
    exact agreeOpt_map32 (agree_bestFirstSearch32 fuel (agree_resetFor32 hs _)
      (parentsIn_resetFor32 g _) (hstart _))
  · rw [c4, d4, ← hsize "Greedy Best First Search"]
    exact agreeOpt_map32 (agree_greedyBestFirstSearch32 fuel (agree_resetFor32 hs _)
      (parentsIn_resetFor32 g _) (hstart _))
  · rw [c5, d5, ← hsize "A star"]
    exact agree_aStarSearch32 fuel (agree_resetFor32 hs _) (parentsIn_resetFor32 g _) (hstart _)

theorem agree_parentChain32 : ∀ (fuel : Nat) (g h : Game) (c : Position), Agree g h →
    ParentsIn g → InBounds g c → parentChain fuel h c = parentChain fuel g c := by
  intro fuel
  induction fuel with
  | zero => intro g h c _ _ _; rfl
  | succ fuel ih =>
    intro g h c a hP hc
    unfold parentChain
    rw [a.same.start, a.parent c hc]
    split
    · rfl
    · cases hpar : (g.board c).parent with
      | none => rfl
      | some p =>
        simp only
        rw [ih g h p a hP (hP c p hc hpar)]

/-- The outcome of `findPath` on a state `h` of the grid of `g`, compared with
the outcome `g1` on `g`. -/
theorem findPath_same_outcome32 (fuel : Nat) {g g1 h : Game} (choice : Char)
    (hwf : WellFormed g) (hf : g.size.toNat * g.size.toNat + 1 ≤ fuel)
    (hc : choice ∈ ['1', '2', '3', '4', '5'])
    (h1 : findPath fuel g choice = some g1) (hs : SameGrid g h) :
    ∃ h1, findPath fuel h choice = some h1 ∧ h1.result = g1.result ∧
      (∀ p, InBounds g p → (h1.board p).visited = (g1.board p).visited ∧
        (h1.board p).explored = (g1.board p).explored ∧
        (h1.board p).parent = (g1.board p).parent ∧
        (h1.board p).gCost = (g1.board p).gCost) ∧
      (InBounds g g.end_ → parentChain fuel h1 h1.end_ = parentChain fuel g1 g1.end_) := by
  have ha := agree_findPath32 fuel choice hwf hs hc
  rw [h1] at ha
  cases h2 : findPath fuel h choice with
  | none => rw [h2] at ha; exact ha.elim
  | some y =>
    rw [h2] at ha
    obtain ⟨a, hP, hsz⟩ := ha
    have hin : ∀ p, InBounds g p → InBounds g1 p := by
      intro p hp; unfold InBounds at hp ⊢; rw [hsz]; exact hp
    have hend : g1.end_ = g.end_ := by
      obtain ⟨b, g', h3, h4⟩ := findPath_spec32 g fuel choice hwf hf hc
      rw [h1] at h3
      simp only [Option.some.injEq] at h3
      rw [h3]
      exact h4.same.end_
    refine ⟨y, rfl, a.result, fun p hp => ⟨a.visited p (hin p hp), a.explored p (hin p hp),
      a.parent p (hin p hp), a.gCost p (hin p hp)⟩, fun he => ?_⟩
    rw [a.same.end_]
    exact agree_parentChain32 fuel g1 y g1.end_ a hP (hend ▸ hin _ he)

/-- C8: on every well-formed grid, run after the reset that `findPath`
performs, with binary32 costs and `int` statistics, each of the five searches
returns, and a second run on the state the first run left gives the same
statistics (status, expanded-node count, path length, algorithm name), the same
visited and explored flags, parents and g-costs on every cell of the board and
the same parent chain from the end cell; more generally the outcome is the
same on every state of the same grid, whatever flags, costs and parents an
earlier run left behind. -/
theorem rerun_same_outcome32 (g : Game) (fuel : Nat) (choice : Char) (hwf : WellFormed g)
    (hf : g.size.toNat * g.size.toNat + 1 ≤ fuel)
    (hc : choice ∈ ['1', '2', '3', '4', '5']) :
    ∃ g1 g2, findPath fuel g choice = some g1 ∧ findPath fuel g1 choice = some g2 ∧
      g2.result = g1.result ∧
      (∀ p, InBounds g p → (g2.board p).visited = (g1.board p).visited ∧
        (g2.board p).explored = (g1.board p).explored ∧
        (g2.board p).parent = (g1.board p).parent ∧
        (g2.board p).gCost = (g1.board p).gCost) ∧
      (InBounds g g.end_ → parentChain fuel g2 g2.end_ = parentChain fuel g1 g1.end_) ∧
      (∀ h, SameGrid g h → ∃ h1, findPath fuel h choice = some h1 ∧
        h1.result = g1.result ∧
        (∀ p, InBounds g p → (h1.board p).visited = (g1.board p).visited ∧
          (h1.board p).explored = (g1.board p).explored ∧
          (h1.board p).parent = (g1.board p).parent ∧
          (h1.board p).gCost = (g1.board p).gCost) ∧
        (InBounds g g.end_ →
          parentChain fuel h1 h1.end_ = parentChain fuel g1 g1.end_)) := by
  obtain ⟨b, g1, h1, hpost⟩ := findPath_spec32 g fuel choice hwf hf hc
  obtain ⟨g2, e1, e2, e3, e4⟩ := findPath_same_outcome32 fuel choice hwf hf hc h1 hpost.same
  exact ⟨g1, g2, h1, e1, e2, e3, e4,
    fun h hs => findPath_same_outcome32 fuel choice hwf hf hc h1 hs⟩

set_option maxRecDepth 100000 in
/-- Witness of C8: A* run twice on the example board with one wall. -/
theorem rerun_same_outcome_witness32 :
    (WellFormed exampleOpen ∧ exampleOpen.size.toNat * exampleOpen.size.toNat + 1 ≤ 17) ∧
    ∃ g1 g2, findPath 17 exampleOpen '5' = some g1 ∧ findPath 17 g1 '5' = some g2 ∧
      g2.result = g1.result ∧
      (∀ p, InBounds exampleOpen p → (g2.board p).visited = (g1.board p).visited ∧
        (g2.board p).explored = (g1.board p).explored ∧
        (g2.board p).parent = (g1.board p).parent ∧
        (g2.board p).gCost = (g1.board p).gCost) ∧
      (InBounds exampleOpen exampleOpen.end_ →
        parentChain 17 g2 g2.end_ = parentChain 17 g1 g1.end_) ∧
      (∀ h, SameGrid exampleOpen h → ∃ h1, findPath 17 h '5' = some h1 ∧
        h1.result = g1.result ∧
        (∀ p, InBounds exampleOpen p → (h1.board p).visited = (g1.board p).visited ∧
          (h1.board p).explored = (g1.board p).explored ∧
          (h1.board p).parent = (g1.board p).parent ∧
          (h1.board p).gCost = (g1.board p).gCost) ∧
        (InBounds exampleOpen exampleOpen.end_ →
          parentChain 17 h1 h1.end_ = parentChain 17 g1 g1.end_)) :=
  ⟨⟨by decide, by decide⟩,
    rerun_same_outcome32 exampleOpen 17 '5' (by decide) (by decide) (by decide)⟩

/-! ## The chessboard distance in binary32 and the true metric -/


/-- The rounding error on numbers below `2^34` units, that is below `2048`:
at most `2^9` units. -/
theorem round24_near34 {n : Nat} (h : n < 2 ^ 34) :
    n ≤ round24 n + 2 ^ 9 ∧ round24 n ≤ n + 2 ^ 9 := by
  by_cases hs : n < 2 ^ 24
  · rw [round24_of_lt hs]
    constructor <;> omega
  · obtain ⟨k, q, r, hk, h1, h2, h3, h4, h5, h6, h7⟩ :=
      round24_parts (by omega : 2 ^ 24 ≤ n) (lt_trans h (by norm_num))
    have hP10 : 2 ^ k ≤ 2 ^ 10 := by
      apply Nat.pow_le_pow_right (by norm_num)
      by_contra hc
      have : 2 ^ 11 ≤ 2 ^ k := Nat.pow_le_pow_right (by norm_num) (by omega)
      have : 2 ^ 11 * 2 ^ 23 ≤ 2 ^ k * 2 ^ 23 := Nat.mul_le_mul_right _ this
      norm_num at this h
      omega
    rw [h7]
    generalize 2 ^ k = P at h1 h2 h3 h4 h7 hP10
    generalize P * q = m at h3 h7
    norm_num at hP10 ⊢
    split <;> constructor <;> omega

/-- An `int` below `2^24` is converted to binary32 without rounding. -/
theorem Cost.ofNat_units {n : Nat} (h : n < 2 ^ 24) : (Cost.ofNat n).units = n * 2 ^ 23 := by
  unfold Cost.ofNat
  simp only
  by_cases hs : n * 2 ^ 23 < 2 ^ 24
  · exact round24_of_lt hs
  · have hn152 : n * 2 ^ 23 < 2 ^ 152 := by
      have : n * 2 ^ 23 < 2 ^ 24 * 2 ^ 23 := Nat.mul_lt_mul_of_pos_right h (by norm_num)
      exact lt_trans this (by norm_num)
    obtain ⟨k, q, r, _, h1, _, h3, h4, _, _, h7⟩ :=
      round24_parts (by omega : 2 ^ 24 ≤ n * 2 ^ 23) hn152
    have hk : k ≤ 23 := by
      by_contra hc
      have h24 : 2 ^ 24 ≤ 2 ^ k := Nat.pow_le_pow_right (by norm_num) (by omega)
      have : 2 ^ 24 * 2 ^ 23 ≤ 2 ^ k * 2 ^ 23 := Nat.mul_le_mul_right _ h24
      have : n * 2 ^ 23 < 2 ^ 24 * 2 ^ 23 := Nat.mul_lt_mul_of_pos_right h (by norm_num)
      omega
    have hdvd : 2 ^ k ∣ n * 2 ^ 23 := Dvd.dvd.mul_left (Nat.pow_dvd_pow 2 hk) n
    have hr : r = 0 := by
      have e1 : (2 ^ k * q + r) % 2 ^ k = r := by
        rw [Nat.mul_add_mod, Nat.mod_eq_of_lt h4]
      rw [h3, Nat.mod_eq_zero_of_dvd hdvd] at e1
      exact e1.symm
    subst hr
    rw [h7, if_neg (by omega)]
    simpa using h3

/-- The value of `sqrt(2.0f) * m + n` in binary32, for small `m` and `n`: the
two roundings, of the product and of the sum, change the exact value by at
most `2^10` units. -/
theorem dist_units_near {m n : Nat} (h : m + n < 1024) :
    ((Cost.sqrt2.mulInt m).add (Cost.ofNat n)).units ≤ 11863283 * m + 8388608 * n + 1024 ∧
    11863283 * m + 8388608 * n ≤ ((Cost.sqrt2.mulInt m).add (Cost.ofNat n)).units + 1024 := by
  unfold Cost.mulInt Cost.add
  simp only
  rw [Cost.ofNat_units (by omega : m < 2 ^ 24), Cost.ofNat_units (by omega : n < 2 ^ 24),
    Nat.mul_div_cancel _ (by norm_num : 0 < 2 ^ 23)]
  unfold Cost.sqrt2
  simp only
  have h1 := @round24_near34 (11863283 * m) (by norm_num; omega)
  have h2 := @round24_near34 (round24 (11863283 * m) + n * 2 ^ 23) (by norm_num at h1 ⊢; omega)
  norm_num at h1 h2 ⊢
  omega

/-- The binary32 number `sqrt(2.0f)` is the square root of two rounded
down. -/
theorem sqrt2_units : (11863283 : ℝ) ≤ Real.sqrt 2 * 2 ^ 23 ∧
    Real.sqrt 2 * 2 ^ 23 ≤ 11863283 + 1 / 4 := by
  constructor
  · have : (11863283 / 2 ^ 23 : ℝ) ≤ Real.sqrt 2 := by
      apply Real.le_sqrt_of_sq_le
      norm_num
    have h2 : (0 : ℝ) < 2 ^ 23 := by positivity
    calc (11863283 : ℝ) = 11863283 / 2 ^ 23 * 2 ^ 23 := by field_simp
      _ ≤ Real.sqrt 2 * 2 ^ 23 := mul_le_mul_of_nonneg_right this (le_of_lt h2)
  · have : Real.sqrt 2 ≤ ((11863283 + 1 / 4) / 2 ^ 23 : ℝ) := by
      rw [Real.sqrt_le_left (by positivity)]
      norm_num
    have h2 : (0 : ℝ) < 2 ^ 23 := by positivity
    calc Real.sqrt 2 * 2 ^ 23 ≤ (11863283 + 1 / 4) / 2 ^ 23 * 2 ^ 23 :=
          mul_le_mul_of_nonneg_right this (le_of_lt h2)
      _ = 11863283 + 1 / 4 := by field_simp; ring


/-- The chessboard distance of two cells of the board, from their
coordinates. -/
theorem dist_parts {g : Game} (hpos : PosOK g) {a b : Position} (ha : InBounds g a)
    (hb : InBounds g b) :
    getChessBoardDistance g a b
      = (Cost.sqrt2.mulInt (diagonalPart a b)).add (Cost.ofNat (straightPart a b)) := by
  unfold getChessBoardDistance NodeHandle.getPosition Position.sub diagonalPart straightPart
  rw [hpos.pos_eq32 ha, hpos.pos_eq32 hb]

theorem parts_lt {g : Game} (hsz : g.size ≤ 1024) {a b : Position} (ha : InBounds g a)
    (hb : InBounds g b) : diagonalPart a b + straightPart a b < 1024 := by
  unfold InBounds at ha hb
  unfold diagonalPart straightPart
  omega

/-- With `sqrt(2.0f)` for the square root of two, the exact chessboard
distance obeys the triangle inequality. -/
theorem parts_triangle (a b e : Position) :
    11863283 * diagonalPart a e + 8388608 * straightPart a e
      ≤ (11863283 * diagonalPart a b + 8388608 * straightPart a b)
        + (11863283 * diagonalPart b e + 8388608 * straightPart b e) := by
  have key : ∀ x y : Nat, 11863283 * min x y + 8388608 * ((x : Int) - (y : Int)).natAbs
      = 4913933 * max x y + 3474675 * (x + y) := by
    intro x y
    omega
  unfold diagonalPart straightPart
  rw [key, key, key]
  have h1 : (e.row - a.row).natAbs ≤ (b.row - a.row).natAbs + (e.row - b.row).natAbs := by
    omega
  have h2 : (e.col - a.col).natAbs ≤ (b.col - a.col).natAbs + (e.col - b.col).natAbs := by
    omega
  generalize (e.row - a.row).natAbs = x at h1 ⊢
  generalize (e.col - a.col).natAbs = y at h2 ⊢
  generalize (b.row - a.row).natAbs = x1 at h1 ⊢
  generalize (b.col - a.col).natAbs = y1 at h2 ⊢
  generalize (e.row - b.row).natAbs = x2 at h1 ⊢
  generalize (e.col - b.col).natAbs = y2 at h2 ⊢
  omega


/-- The binary32 chessboard distance of two cells of a board of side at most
`1024` differs from the exact one, `straightPart + diagonalPart * sqrt 2`, by
at most `2^-12`. -/
theorem dist_near_real {g : Game} (hpos : PosOK g) (hsz : g.size ≤ 1024) {a b : Position}
    (ha : InBounds g a) (hb : InBounds g b) :
    (getChessBoardDistance g a b).toReal
      ≤ (straightPart a b : ℝ) + (diagonalPart a b : ℝ) * Real.sqrt 2 + 1 / 2 ^ 12 ∧
    (straightPart a b : ℝ) + (diagonalPart a b : ℝ) * Real.sqrt 2
      ≤ (getChessBoardDistance g a b).toReal + 1 / 2 ^ 12 := by
  have hlt := parts_lt hsz ha hb
  obtain ⟨h1, h2⟩ := @dist_units_near (diagonalPart a b) (straightPart a b) hlt
  rw [dist_parts hpos ha hb]
  unfold Cost.toReal
  generalize ((Cost.sqrt2.mulInt (diagonalPart a b)).add (Cost.ofNat (straightPart a b))).units
    = u at h1 h2
  generalize diagonalPart a b = m at hlt h1 h2
  generalize straightPart a b = n at hlt h1 h2
  obtain ⟨s1, s2⟩ := sqrt2_units
  have hm0 : (0 : ℝ) ≤ (m : ℝ) := Nat.cast_nonneg m
  have hm1 : (m : ℝ) ≤ 1024 := by
    have : m ≤ 1024 := by omega
    exact_mod_cast this
  have e1 : (u : ℝ) ≤ 11863283 * (m : ℝ) + 8388608 * (n : ℝ) + 1024 := by exact_mod_cast h1
  have e2 : 11863283 * (m : ℝ) + 8388608 * (n : ℝ) ≤ (u : ℝ) + 1024 := by exact_mod_cast h2
  have p1 := mul_le_mul_of_nonneg_left s1 hm0
  have p2 := mul_le_mul_of_nonneg_left s2 hm0
  have h23 : (0 : ℝ) < 2 ^ 23 := by positivity
  constructor
  · rw [div_le_iff₀ h23]
    nlinarith
  · rw [← sub_le_iff_le_add, le_div_iff₀ h23]
    nlinarith

/-! ## The exact metric of the king -/


/-- The exact chessboard distance, written with the larger coordinate
distance and the sum of both. -/
theorem parts_real (x y : Nat) :
    ((((x : Int) - (y : Int)).natAbs : Nat) : ℝ) + ((min x y : Nat) : ℝ) * Real.sqrt 2
      = (2 - Real.sqrt 2) * ((max x y : Nat) : ℝ) + (Real.sqrt 2 - 1) * (((x + y : Nat)) : ℝ) := by
  rcases le_total x y with h | h
  · have e1 : ((x : Int) - (y : Int)).natAbs = y - x := by omega
    rw [e1, min_eq_left h, max_eq_right h, Nat.cast_sub h, Nat.cast_add]
    ring
  · have e1 : ((x : Int) - (y : Int)).natAbs = x - y := by omega
    rw [e1, min_eq_right h, max_eq_left h, Nat.cast_sub h, Nat.cast_add]
    ring

/-- The exact chessboard distance obeys the triangle inequality. -/
theorem parts_real_triangle (a b e : Position) :
    (straightPart a e : ℝ) + (diagonalPart a e : ℝ) * Real.sqrt 2
      ≤ ((straightPart a b : ℝ) + (diagonalPart a b : ℝ) * Real.sqrt 2)
        + ((straightPart b e : ℝ) + (diagonalPart b e : ℝ) * Real.sqrt 2) := by
  unfold diagonalPart straightPart
  rw [parts_real, parts_real, parts_real]
  have h1 : (e.row - a.row).natAbs ≤ (b.row - a.row).natAbs + (e.row - b.row).natAbs := by
    omega
  have h2 : (e.col - a.col).natAbs ≤ (b.col - a.col).natAbs + (e.col - b.col).natAbs := by
    omega
  generalize (e.row - a.row).natAbs = x at h1 ⊢
  generalize (e.col - a.col).natAbs = y at h2 ⊢
  generalize (b.row - a.row).natAbs = x1 at h1 ⊢
  generalize (b.col - a.col).natAbs = y1 at h2 ⊢
  generalize (e.row - b.row).natAbs = x2 at h1 ⊢
  generalize (e.col - b.col).natAbs = y2 at h2 ⊢
  have hmax : max x y ≤ max x1 y1 + max x2 y2 := by omega
  have hsum : x + y ≤ (x1 + y1) + (x2 + y2) := by omega
  have hmax' : ((max x y : Nat) : ℝ) ≤ ((max x1 y1 : Nat) : ℝ) + ((max x2 y2 : Nat) : ℝ) := by
    exact_mod_cast hmax
  have hsum' : ((x + y : Nat) : ℝ) ≤ ((x1 + y1 : Nat) : ℝ) + ((x2 + y2 : Nat) : ℝ) := by
    exact_mod_cast hsum
  have c1 : (0 : ℝ) ≤ 2 - Real.sqrt 2 := by linarith [Cost.sqrt_two_lt_two]
  have c2 : (0 : ℝ) ≤ Real.sqrt 2 - 1 := by linarith [Cost.one_lt_sqrt_two]
  nlinarith [mul_le_mul_of_nonneg_left hmax' c1, mul_le_mul_of_nonneg_left hsum' c2]

/-- One step between 8-adjacent cells is one straight move or one diagonal
move. -/
theorem parts_adjacent {a b : Position} (h : Adjacent a b) :
    straightPart a b = (if isDiagonal a b then 0 else 1) ∧
    diagonalPart a b = (if isDiagonal a b then 1 else 0) := by
  obtain ⟨hne, hr, hc⟩ := h
  have hne2 : ¬ (a.row = b.row ∧ a.col = b.col) := by
    rintro ⟨e1, e2⟩
    apply hne
    cases a; cases b
    simp only at e1 e2
    rw [e1, e2]
  unfold straightPart diagonalPart isDiagonal
  by_cases h1 : a.row = b.row <;> by_cases h2 : a.col = b.col <;>
    simp only [h1, h2, ne_eq, not_true_eq_false, not_false_eq_true, decide_True, decide_False,
      Bool.and_true, Bool.and_false, Bool.false_and, Bool.true_and, if_true, if_false,
      Bool.false_eq_true] <;> omega

/-- No sequence of pairwise 8-adjacent cells from `a` to `b`, with cost `1`
for a straight step and `sqrt 2` for a diagonal one, costs less than the exact
chessboard distance of `a` and `b`. -/
theorem parts_le_walk (b : Position) :
    ∀ (l : List Position) (a : Position), l.head? = some a → l.getLast? = some b →
      l.Chain' Adjacent →
      (straightPart a b : ℝ) + (diagonalPart a b : ℝ) * Real.sqrt 2
        ≤ (straightSteps l : ℝ) + (diagonalSteps l : ℝ) * Real.sqrt 2 := by
  intro l
  induction l with
  | nil => intro a h; simp at h
  | cons x l ih =>
    intro a ha hb hch
    simp only [List.head?_cons, Option.some.injEq] at ha
    subst ha
    cases l with
    | nil =>
      simp only [List.getLast?_singleton, Option.some.injEq] at hb
      subst hb
      have e1 : straightPart x x = 0 := by unfold straightPart; omega
      have e2 : diagonalPart x x = 0 := by unfold diagonalPart; omega
      rw [e1, e2]
      simp [straightSteps, diagonalSteps]
    | cons y l =>
      rw [List.getLast?_cons_cons] at hb
      rw [List.chain'_cons] at hch
      have hrec := ih y rfl hb hch.2
      have htri := parts_real_triangle x y b
      obtain ⟨p1, p2⟩ := parts_adjacent hch.1
      rw [p1, p2] at htri
      have hs : straightSteps (x :: y :: l)
          = (if isDiagonal x y then 0 else 1) + straightSteps (y :: l) := rfl
      have hd : diagonalSteps (x :: y :: l)
          = (if isDiagonal x y then 1 else 0) + diagonalSteps (y :: l) := rfl
      rw [hs, hd]
      by_cases hdg : isDiagonal x y = true
      · simp only [hdg, if_true] at htri ⊢
        push_cast at htri ⊢
        linarith
      · simp only [hdg, if_false] at htri ⊢
        push_cast at htri ⊢
        linarith

/-! ## A shortest route of the king -/


/-- One move toward `b`: the next cell is 8-adjacent and one move closer, it
is on the board when `a` and `b` are, and the move is one of the straight or
diagonal moves that the exact chessboard distance counts. -/
theorem toward_parts {a b : Position} (n : Nat) (hn : kingMoves a b = n + 1) :
    Adjacent a (a.toward b) ∧ kingMoves (a.toward b) b = n ∧
    straightPart a b
      = (if isDiagonal a (a.toward b) then 0 else 1) + straightPart (a.toward b) b ∧
    diagonalPart a b
      = (if isDiagonal a (a.toward b) then 1 else 0) + diagonalPart (a.toward b) b ∧
    (∀ g : Game, InBounds g a → InBounds g b → InBounds g (a.toward b)) := by
  unfold kingMoves at hn
  cases a with
  | mk r1 c1 =>
    cases b with
    | mk r2 c2 =>
      simp only at hn
      refine ⟨?_, ?_, ?_, ?_, ?_⟩
      · unfold Adjacent Position.toward stepToward
        simp only [ne_eq, Position.mk.injEq]
        refine ⟨?_, ?_, ?_⟩ <;> split_ifs <;> omega
      · unfold kingMoves Position.toward stepToward
        simp only
        split_ifs <;> omega
      · unfold straightPart isDiagonal Position.toward stepToward
        simp only [ne_eq, decide_not, Bool.and_eq_true, Bool.not_eq_true', decide_eq_false_iff_not]
        split_ifs <;> omega
      · unfold diagonalPart isDiagonal Position.toward stepToward
        simp only [ne_eq, decide_not, Bool.and_eq_true, Bool.not_eq_true', decide_eq_false_iff_not]
        split_ifs <;> omega
      · intro g ha hb
        unfold InBounds Position.toward stepToward at *
        simp only at ha hb ⊢
        refine ⟨?_, ?_, ?_, ?_⟩ <;> split_ifs <;> omega

/-- The route of the king from `a` to `b` moves between 8-adjacent cells,
ends at `b`, stays on the board, and makes the straight and the diagonal moves
that the exact chessboard distance counts. -/
theorem kingPath_parts (b : Position) :
    ∀ (n : Nat) (a : Position), kingMoves a b = n →
      (kingPath n a b).getLast? = some b ∧ (kingPath n a b).Chain' Adjacent ∧
      straightSteps (kingPath n a b) = straightPart a b ∧
      diagonalSteps (kingPath n a b) = diagonalPart a b ∧
      (∀ g : Game, InBounds g a → InBounds g b → ∀ p ∈ kingPath n a b, InBounds g p) := by
  intro n
  induction n with
  | zero =>
    intro a hn
    have hab : a = b := by
      unfold kingMoves at hn
      cases a with
      | mk r1 c1 =>
        cases b with
        | mk r2 c2 =>
          simp only at hn
          congr 1 <;> omega
    subst hab
    refine ⟨rfl, List.chain'_singleton _, ?_, ?_, ?_⟩
    · unfold straightPart; simp [kingPath, straightSteps]
    · unfold diagonalPart; simp [kingPath, diagonalSteps]
    · intro g ha _ p hp
      simp only [kingPath, List.mem_singleton] at hp
      rw [hp]; exact ha
  | succ n ih =>
    intro a hn
    obtain ⟨h1, h2, h3, h4, h5⟩ := toward_parts n hn
    obtain ⟨i1, i2, i3, i4, i5⟩ := ih (a.toward b) h2
    have hhead := kingPath_head n (a.toward b) b
    obtain ⟨rest, hrest⟩ : ∃ rest, kingPath n (a.toward b) b = a.toward b :: rest := by
      cases hk : kingPath n (a.toward b) b with
      | nil => rw [hk] at hhead; simp at hhead
      | cons x rest =>
        rw [hk] at hhead
        simp only [List.head?_cons, Option.some.injEq] at hhead
        exact ⟨rest, by rw [hhead]⟩
    show (a :: kingPath n (a.toward b) b).getLast? = some b ∧
      (a :: kingPath n (a.toward b) b).Chain' Adjacent ∧
      straightSteps (a :: kingPath n (a.toward b) b) = straightPart a b ∧
      diagonalSteps (a :: kingPath n (a.toward b) b) = diagonalPart a b ∧
      (∀ g : Game, InBounds g a → InBounds g b →
        ∀ p ∈ a :: kingPath n (a.toward b) b, InBounds g p)
    refine ⟨?_, ?_, ?_, ?_, ?_⟩
    · rw [hrest, List.getLast?_cons_cons, ← hrest]; exact i1
    · rw [hrest, List.chain'_cons, ← hrest]; exact ⟨h1, i2⟩
    · rw [h3, ← i3, hrest]; rfl
    · rw [h4, ← i4, hrest]; rfl
    · intro g ha hb p hp
      rcases List.mem_cons.mp hp with e | e
      · rw [e]; exact ha
      · exact i5 g (h5 g ha hb) hb p e

/-! ## The heuristic in binary32 -/


theorem dist_self32 (g : Game) (a : Position) : getChessBoardDistance g a a = Cost.zero := by
  unfold getChessBoardDistance NodeHandle.getPosition Position.sub
  simp only [sub_self, Int.natAbs_zero, min_self, Nat.cast_zero]
  decide

set_option maxRecDepth 100000 in
/-- C15, evaluated: on the board of side 30 without walls, the route of 16
diagonal and 10 straight steps from (0,0) to the end cell (26,16) is a path of
walkable cells; `getHCost` of (0,0), which is 273698624 / 2^23 = 32.6274185,
exceeds its cost `10 + 16 * sqrt 2 = 32.6274170`, and it exceeds the cost
`32.6274109` that a search accumulates along it in binary32. -/
theorem chessboard_exceeds_path :
    IsPath exampleWide (kingPath 26 { row := 0, col := 0 } { row := 26, col := 16 }) ∧
    (kingPath 26 { row := 0, col := 0 } { row := 26, col := 16 }).head?
      = some { row := 0, col := 0 } ∧
    (kingPath 26 { row := 0, col := 0 } { row := 26, col := 16 }).getLast?
      = some exampleWide.end_ ∧
    straightSteps (kingPath 26 { row := 0, col := 0 } { row := 26, col := 16 }) = 10 ∧
    diagonalSteps (kingPath 26 { row := 0, col := 0 } { row := 26, col := 16 }) = 16 ∧
    (10 : ℝ) + 16 * Real.sqrt 2 < (getHCost exampleWide { row := 0, col := 0 }).toReal ∧
    (accumulatedCost Cost.zero
        (kingPath 26 { row := 0, col := 0 } { row := 26, col := 16 })).units
      < (getHCost exampleWide { row := 0, col := 0 }).units := by
  have hk := kingPath_parts { row := 26, col := 16 } 26 { row := 0, col := 0 } (by decide)
  refine ⟨⟨by decide, hk.2.1⟩, kingPath_head _ _ _, hk.1, by decide, by decide, ?_, by decide⟩
  have hu : (getHCost exampleWide { row := 0, col := 0 }).units = 273698624 := by decide
  unfold Cost.toReal
  rw [hu]
  obtain ⟨_, s2⟩ := sqrt2_units
  have h23 : (0 : ℝ) < 2 ^ 23 := by positivity
  rw [lt_div_iff₀ h23]
  push_cast
  nlinarith

/-- C15, amended: on a board of side at most 1024 whose cells store their
coordinates, the binary32 value of `getChessBoardDistance` is, up to a
rounding error of `2^-12`, the least cost of a sequence of pairwise 8-adjacent
cells from `a` to `b`, a straight step costing `1` and a diagonal step
`sqrt 2`: it exceeds the cost of no such sequence by more than `2^-12`, and
some such sequence of cells of the board, a path when the board has no walls,
costs at most `2^-12` more; hence `getHCost` of a cell exceeds the cost of no
walkable path from that cell to the end cell by more than `2^-12`. -/
theorem chessboard_near_shortest (g : Game) (hpos : PosOK g) (hsz : g.size ≤ 1024)
    (a b : Position) (ha : InBounds g a) (hb : InBounds g b) :
    (∀ l : List Position, l.head? = some a → l.getLast? = some b → l.Chain' Adjacent →
      (getChessBoardDistance g a b).toReal
        ≤ (straightSteps l : ℝ) + (diagonalSteps l : ℝ) * Real.sqrt 2 + 1 / 2 ^ 12) ∧
    (∃ l : List Position, l.head? = some a ∧ l.getLast? = some b ∧ l.Chain' Adjacent ∧
      (∀ p ∈ l, InBounds g p) ∧
      ((∀ p, InBounds g p → (g.board p).is_walkable = true) → IsPath g l) ∧
      (straightSteps l : ℝ) + (diagonalSteps l : ℝ) * Real.sqrt 2
        ≤ (getChessBoardDistance g a b).toReal + 1 / 2 ^ 12) ∧
    (∀ l : List Position, IsPath g l → l.head? = some a → l.getLast? = some g.end_ →
      (getHCost g a).toReal
        ≤ (straightSteps l : ℝ) + (diagonalSteps l : ℝ) * Real.sqrt 2 + 1 / 2 ^ 12) := by
  refine ⟨?_, ?_, ?_⟩
  · intro l h1 h2 h3
    have := parts_le_walk b l a h1 h2 h3
    have := (dist_near_real hpos hsz ha hb).1
    linarith
  · obtain ⟨k1, k2, k3, k4, k5⟩ := kingPath_parts b (kingMoves a b) a rfl
    refine ⟨kingPath (kingMoves a b) a b, kingPath_head _ a b, k1, k2, k5 g ha hb, ?_, ?_⟩
    · intro hw
      exact ⟨fun p hp => ⟨k5 g ha hb p hp, hw p (k5 g ha hb p hp)⟩, k2⟩
    · rw [k3, k4]
      exact (dist_near_real hpos hsz ha hb).2
  · intro l hl h1 h2
    have he : InBounds g g.end_ := (hl.1 _ (List.mem_of_mem_getLast? h2)).1
    have := parts_le_walk g.end_ l a h1 h2 hl.2
    have := (dist_near_real hpos hsz ha he).1
    unfold getHCost
    linarith

set_option maxRecDepth 100000 in
/-- Witness of C15, amended: the cells (0,0) and (3,3) of the example
board. -/
theorem chessboard_near_shortest_witness :
    (PosOK exampleOpen ∧ exampleOpen.size ≤ 1024 ∧
      InBounds exampleOpen { row := 0, col := 0 } ∧
      InBounds exampleOpen { row := 3, col := 3 }) ∧
    (∀ l : List Position, l.head? = some { row := 0, col := 0 } →
      l.getLast? = some { row := 3, col := 3 } → l.Chain' Adjacent →
      (getChessBoardDistance exampleOpen { row := 0, col := 0 } { row := 3, col := 3 }).toReal
        ≤ (straightSteps l : ℝ) + (diagonalSteps l : ℝ) * Real.sqrt 2 + 1 / 2 ^ 12) :=
  ⟨⟨by decide, by decide, by decide, by decide⟩,
    (chessboard_near_shortest exampleOpen (by decide) (by decide) { row := 0, col := 0 }
      { row := 3, col := 3 } (by decide) (by decide)).1⟩

set_option maxRecDepth 100000 in
/-- C16, evaluated: on the board of side 30 with the end cell (29,3), for the
8-adjacent cells (0,0) and (1,1) the heuristic of (0,0), 30.2426414, exceeds
the step 1.41421354 plus the heuristic of (1,1), 28.8284264, whether the sum
is exact or rounded to binary32. -/
theorem chessboard_not_consistent :
    Adjacent { row := 0, col := 0 } { row := 1, col := 1 } ∧
    (getChessBoardDistance exampleFar { row := 0, col := 0 } { row := 1, col := 1 }).units
        + (getHCost exampleFar { row := 1, col := 1 }).units
      < (getHCost exampleFar { row := 0, col := 0 }).units ∧
    ((getChessBoardDistance exampleFar { row := 0, col := 0 } { row := 1, col := 1 }).add
        (getHCost exampleFar { row := 1, col := 1 })).units
      < (getHCost exampleFar { row := 0, col := 0 }).units ∧
    (getChessBoardDistance exampleFar { row := 0, col := 0 } { row := 1, col := 1 }).toReal
        + (getHCost exampleFar { row := 1, col := 1 }).toReal
      < (getHCost exampleFar { row := 0, col := 0 }).toReal := by
  have h1 : (getChessBoardDistance exampleFar { row := 0, col := 0 }
      { row := 1, col := 1 }).units = 11863283 := by decide
  have h2 : (getHCost exampleFar { row := 1, col := 1 }).units = 241830368 := by decide
  have h3 : (getHCost exampleFar { row := 0, col := 0 }).units = 253693664 := by decide
  refine ⟨by decide, by decide, by decide, ?_⟩
  unfold Cost.toReal
  rw [h1, h2, h3]
  norm_num

/-- C16, amended: on a board of side at most 1024 whose cells store their
coordinates, the binary32 value of `getChessBoardDistance` obeys the triangle
inequality `d(a,e) ≤ d(a,b) + d(b,e)` up to a rounding error of `2^-11`, for
all cells `a`, `b` and `e` of the board, in particular for 8-adjacent `a` and
`b`; and `getHCost` of the end cell is `0`. -/
theorem chessboard_near_consistent (g : Game) (hpos : PosOK g) (hsz : g.size ≤ 1024)
    (a b e : Position) (ha : InBounds g a) (hb : InBounds g b) (he : InBounds g e) :
    (getChessBoardDistance g a e).toReal
      ≤ (getChessBoardDistance g a b).toReal + (getChessBoardDistance g b e).toReal
        + 1 / 2 ^ 11 ∧
    getHCost g g.end_ = Cost.zero := by
  refine ⟨?_, dist_self32 g g.end_⟩
  have t := parts_triangle a b e
  obtain ⟨x1, _⟩ := @dist_units_near (diagonalPart a e) (straightPart a e) (parts_lt hsz ha he)
  obtain ⟨_, y2⟩ := @dist_units_near (diagonalPart a b) (straightPart a b) (parts_lt hsz ha hb)
  obtain ⟨_, z2⟩ := @dist_units_near (diagonalPart b e) (straightPart b e) (parts_lt hsz hb he)
  rw [← dist_parts hpos ha he] at x1
  rw [← dist_parts hpos ha hb] at y2
  rw [← dist_parts hpos hb he] at z2
  have hu : (getChessBoardDistance g a e).units
      ≤ (getChessBoardDistance g a b).units + (getChessBoardDistance g b e).units + 3072 := by
    omega
  unfold Cost.toReal
  have hu' : ((getChessBoardDistance g a e).units : ℝ)
      ≤ ((getChessBoardDistance g a b).units : ℝ) + ((getChessBoardDistance g b e).units : ℝ)
        + 3072 := by exact_mod_cast hu
  have h23 : (0 : ℝ) < 2 ^ 23 := by positivity
  rw [div_le_iff₀ h23]
  have e1 : (((getChessBoardDistance g a b).units : ℝ) / 2 ^ 23
      + ((getChessBoardDistance g b e).units : ℝ) / 2 ^ 23 + 1 / 2 ^ 11) * 2 ^ 23
      = ((getChessBoardDistance g a b).units : ℝ) + ((getChessBoardDistance g b e).units : ℝ)
        + 4096 := by
    field_simp
    ring
  rw [e1]
  linarith

set_option maxRecDepth 100000 in
/-- Witness of C16, amended: the cells (0,0), (1,0) and (3,3) of the example
board. -/
theorem chessboard_near_consistent_witness :
    (PosOK exampleOpen ∧ exampleOpen.size ≤ 1024 ∧
      InBounds exampleOpen { row := 0, col := 0 } ∧
      InBounds exampleOpen { row := 1, col := 0 } ∧
      InBounds exampleOpen { row := 3, col := 3 }) ∧
    (getChessBoardDistance exampleOpen { row := 0, col := 0 } { row := 3, col := 3 }).toReal
      ≤ (getChessBoardDistance exampleOpen { row := 0, col := 0 } { row := 1, col := 0 }).toReal
        + (getChessBoardDistance exampleOpen { row := 1, col := 0 } { row := 3, col := 3 }).toReal
        + 1 / 2 ^ 11 ∧
    getHCost exampleOpen exampleOpen.end_ = Cost.zero :=
  ⟨⟨by decide, by decide, by decide, by decide, by decide⟩,
    chessboard_near_consistent exampleOpen (by decide) (by decide) { row := 0, col := 0 }
      { row := 1, col := 0 } { row := 3, col := 3 } (by decide) (by decide) (by decide)⟩

/-! ## Costs never rise during a breadth-first search -/


/-- A relaxation raises no g-cost, and it leaves the neighbour with a g-cost
of at most the g-cost of the current cell plus the step, added in binary32. -/
theorem updateNeighbour_cost32 (curr : Position) (g : Game) (n : Position) :
    (∀ q, ((updateNeighbour curr g n).board q).gCost.units ≤ (g.board q).gCost.units) ∧
    (∀ q, q ≠ n → ((updateNeighbour curr g n).board q).gCost = (g.board q).gCost) ∧
    ((g.board n).is_walkable = true →
      ((updateNeighbour curr g n).board n).gCost.units
        ≤ ((g.board curr).gCost.add (getChessBoardDistance g curr n)).units) := by
  unfold updateNeighbour NodeHandle.isWalkable NodeHandle.getGCost
  split
  · rename_i hw
    refine ⟨fun q => le_refl _, fun q _ => rfl, fun h => ?_⟩
    rw [h] at hw
    simp at hw
  · dsimp only
    split
    · rename_i hlt
      rw [Cost.lt_iff_units] at hlt
      rw [(sameGrid_setGCost32 g n _).getChessBoardDistance32, relaxed_eq32]
      refine ⟨fun q => ?_, fun q hq => ?_, fun _ => ?_⟩
      · by_cases hq : q = n
        · subst hq
          rw [setNode_board_self32]
          exact le_of_lt hlt
        · rw [setNode_board_ne32 _ _ _ _ hq]
      · rw [setNode_board_ne32 _ _ _ _ hq]
      · rw [setNode_board_self32]
    · rename_i hnlt
      refine ⟨fun q => le_refl _, fun q _ => rfl, fun _ => ?_⟩
      rw [Cost.lt_iff_units] at hnlt
      exact Nat.le_of_not_lt hnlt

theorem foldl_updateNeighbour_cost_le32 (curr : Position) (L : List Position) :
    ∀ g q, ((L.foldl (updateNeighbour curr) g).board q).gCost.units
      ≤ (g.board q).gCost.units := by
  induction L with
  | nil => intro g q; exact le_refl _
  | cons n L ih =>
    intro g q
    rw [List.foldl_cons]
    exact le_trans (ih _ q) ((updateNeighbour_cost32 curr g n).1 q)

/-- After the loop of `updateNeighbourCost` every walkable cell of the list
has a g-cost of at most the g-cost of the current cell plus the step. -/
theorem foldl_updateNeighbour_relaxed32 (curr : Position) (L : List Position) :
    ∀ g n, curr ∉ L → n ∈ L → (g.board n).is_walkable = true →
      ((L.foldl (updateNeighbour curr) g).board n).gCost.units
        ≤ ((g.board curr).gCost.add (getChessBoardDistance g curr n)).units := by
  induction L with
  | nil => intro g n _ hn; simp at hn
  | cons m L ih =>
    intro g n hc hn hw
    rw [List.foldl_cons]
    have hcm : curr ≠ m := fun e => hc (by rw [e]; exact List.mem_cons_self _ _)
    have hcL : curr ∉ L := fun h => hc (List.mem_cons_of_mem _ h)
    rcases List.mem_cons.mp hn with e | e
    · subst e
      exact le_trans (foldl_updateNeighbour_cost_le32 curr L _ n)
        ((updateNeighbour_cost32 curr g n).2.2 hw)
    · have hco := updateNeighbour_costOnly32 curr g m
      have h1 := ih (updateNeighbour curr g m) n hcL e (by rw [hco.same.walk]; exact hw)
      rw [(updateNeighbour_cost32 curr g m).2.1 curr hcm, hco.same.getChessBoardDistance32] at h1
      exact h1

/-- Adding a step to a cost of at most the sentinel adds at most `stepMost`
and at least `stepLeast`. -/
theorem Cost.add_step_fine {a d : Cost} (ha : a.units ≤ Cost.sentinel.units)
    (hd1 : 2 ^ 23 ≤ d.units) (hd2 : d.units ≤ 11863283) :
    a.units + stepLeast ≤ (a.add d).units ∧ (a.add d).units ≤ a.units + stepMost := by
  rw [Cost.sentinel_units] at ha
  have := @round24_near (a.units + d.units) (by norm_num; omega)
  unfold Cost.add stepLeast stepMost
  norm_num at this hd1 ⊢
  omega

/-! ## Moves -/


theorem Moves.head_move {g : Game} {a x v : Position} {n : Nat} (hs : Step g a x)
    (h : Moves g x n v) : Moves g a (n + 1) v := by
  induction h with
  | refl => exact Moves.tail 0 a x Moves.refl hs
  | tail n u v _ hst ih => exact Moves.tail (n + 1) u v ih hst

/-- A path of `n + 1` cells makes `n` moves. -/
theorem moves_of_isPath {g : Game} (v : Position) :
    ∀ (m : List Position) (a : Position), IsPath g (a :: m) → (a :: m).getLast? = some v →
      Moves g a m.length v := by
  intro m
  induction m with
  | nil =>
    intro a _ hl
    simp only [List.getLast?_singleton, Option.some.injEq] at hl
    rw [hl]
    exact Moves.refl
  | cons x m ih =>
    intro a hp hl
    rw [List.getLast?_cons_cons] at hl
    have hp2 : IsPath g (x :: m) :=
      ⟨fun p hp' => hp.1 p (List.mem_cons_of_mem _ hp'), (List.chain'_cons.mp hp.2).2⟩
    have hs : Step g a x :=
      ⟨(List.chain'_cons.mp hp.2).1, hp.1 x (List.mem_cons_of_mem _ (List.mem_cons_self _ _))⟩
    exact (ih x hp2 hl).head_move hs

/-! ## The layers of a breadth-first search -/


/-- A cell not met so far is more moves away than the front of the queue. -/
theorem BfsLayers.unmet {g0 g : Game} {curr : Position} {rest open_ cl : List Position}
    {lay : Position → Nat} (hS : SearchInv g0 g (curr :: rest) open_ cl)
    (hB : BfsLayers g0 g (curr :: rest) cl lay) :
    ∀ (n : Nat) (w : Position), Moves g0 g0.start n w → w ∉ curr :: rest → w ∉ cl →
      lay curr + 1 ≤ n := by
  intro n w h
  induction h with
  | refl =>
    intro h1 h2
    rcases hS.start_seen with h | h
    · exact absurd h h2
    · exact absurd h h1
  | tail n u v hu hst ih =>
    intro h1 h2
    by_cases huQ : u ∈ curr :: rest
    · have hl := hB.least u (Or.inl huQ) n hu
      have hc : lay curr ≤ lay u := by
        rcases List.mem_cons.mp huQ with e | e
        · rw [e]
        · exact (List.pairwise_cons.mp hB.sorted).1 u e
      omega
    · by_cases hucl : u ∈ cl
      · rcases hS.closed u hucl v hst.1 hst.2 with h | h
        · exact absurd h h2
        · exact absurd h h1
      · have := ih huQ hucl
        omega

/-- One round of the loop of `breadthFirstSearch` keeps the invariant on
layers: the cells met for the first time are one layer above the expanded
cell. -/
theorem BfsLayers.round_layers {g0 g g3 : Game} {curr : Position} {rest open_ cl L : List Position}
    {lay : Position → Nat} (hS : SearchInv g0 g (curr :: rest) open_ cl)
    (hB : BfsLayers g0 g (curr :: rest) cl lay)
    (hL : ∀ p ∈ L, Adjacent curr p ∧ Walkable g0 p ∧ p ∉ curr :: rest ∧ p ∉ cl)
    (hle : ∀ q, (g3.board q).gCost.units ≤ (g.board q).gCost.units)
    (hnew : ∀ p ∈ L, (g3.board p).gCost.units ≤ (g.board curr).gCost.units + stepMost) :
    BfsLayers g0 g3 (rest ++ L) (curr :: cl)
      (fun v => if v ∈ L then lay curr + 1 else lay v) := by
  have hcurr : curr ∈ curr :: rest := List.mem_cons_self _ _
  have hrest : ∀ q ∈ rest, q ∉ L := fun q hq hqL => (hL q hqL).2.2.1 (List.mem_cons_of_mem _ hq)
  have hcl : ∀ q ∈ cl, q ∉ L := fun q hq hqL => (hL q hqL).2.2.2 hq
  have hcL : curr ∉ L := fun h => (hL curr h).2.2.1 hcurr
  have hmin : ∀ q ∈ rest, lay curr ≤ lay q := (List.pairwise_cons.mp hB.sorted).1
  have hmax : ∀ q ∈ rest, lay q ≤ lay curr + 1 :=
    fun q hq => hB.near curr hcurr q (List.mem_cons_of_mem _ hq)
  refine ⟨?_, ?_, ?_, ?_⟩
  · rw [List.pairwise_append]
    refine ⟨?_, ?_, ?_⟩
    · have := (List.pairwise_cons.mp hB.sorted).2
      refine this.imp_of_mem ?_
      intro a b ha hb hab
      simp only [if_neg (hrest a ha), if_neg (hrest b hb)]
      exact hab
    · rw [List.pairwise_iff_forall_sublist]
      intro a b hab
      have ha : a ∈ L := hab.subset (List.mem_cons_self _ _)
      have hb : b ∈ L := hab.subset (List.mem_cons_of_mem _ (List.mem_singleton_self _))
      simp only [if_pos ha, if_pos hb, le_refl]
    · intro a ha b hb
      simp only [if_neg (hrest a ha), if_pos hb]
      exact hmax a ha
  · intro q hq r hr
    have hq1 : lay curr ≤ (fun v => if v ∈ L then lay curr + 1 else lay v) q := by
      simp only
      split
      · omega
      · rcases List.mem_append.mp hq with h | h
        · exact hmin q h
        · rename_i hn; exact absurd h hn
    have hr1 : (fun v => if v ∈ L then lay curr + 1 else lay v) r ≤ lay curr + 1 := by
      simp only
      split
      · exact le_refl _
      · rcases List.mem_append.mp hr with h | h
        · exact hmax r h
        · rename_i hn; exact absurd h hn
    simp only at hq1 hr1 ⊢
    omega
  · intro v hv
    show (g3.board v).gCost.units ≤ (if v ∈ L then lay curr + 1 else lay v) * stepMost
    by_cases hvL : v ∈ L
    · rw [if_pos hvL]
      have h1 := hnew v hvL
      have h2 := hB.cost curr (Or.inl hcurr)
      rw [Nat.add_mul, Nat.one_mul]
      omega
    · rw [if_neg hvL]
      have hv' : v ∈ curr :: rest ∨ v ∈ cl := by
        rcases hv with h | h
        · rcases List.mem_append.mp h with h | h
          · exact Or.inl (List.mem_cons_of_mem _ h)
          · exact absurd h hvL
        · rcases List.mem_cons.mp h with e | e
          · exact Or.inl (by rw [e]; exact hcurr)
          · exact Or.inr e
      exact le_trans (hle v) (hB.cost v hv')
  · intro v hv n hn
    show (if v ∈ L then lay curr + 1 else lay v) ≤ n
    by_cases hvL : v ∈ L
    · rw [if_pos hvL]
      exact hB.unmet hS n v hn (hL v hvL).2.2.1 (hL v hvL).2.2.2
    · rw [if_neg hvL]
      have hv' : v ∈ curr :: rest ∨ v ∈ cl := by
        rcases hv with h | h
        · rcases List.mem_append.mp h with h | h
          · exact Or.inl (List.mem_cons_of_mem _ h)
          · exact absurd h hvL
        · rcases List.mem_cons.mp h with e | e
          · exact Or.inl (by rw [e]; exact hcurr)
          · exact Or.inr e
      exact hB.least v hv' n hn


/-- When the loop of `breadthFirstSearch` succeeds, the cost of the end cell
is at most the most one step adds times the number of moves of any route from
the start cell to the end cell. -/
theorem bfsLoop_layers {g0 : Game} (hwf : WellFormed g0) (pathFuel : Nat) :
    ∀ (fuel : Nat) (g : Game) (Q open_ cl : List Position) (lay : Position → Nat),
      LoopInv g0 g Q open_ cl → WeakParentInv g → (∀ p, p ∈ open_ ↔ p ∈ Q) →
      BfsLayers g0 g Q cl lay →
      ∀ g', bfsLoop pathFuel fuel g Q open_ = some (true, g') →
      ∀ n, Moves g0 g0.start n g0.end_ → (g'.board g0.end_).gCost.units ≤ n * stepMost := by
  intro fuel
  induction fuel with
  | zero =>
    intro g Q open_ cl lay _ _ _ _ g' h
    simp [bfsLoop] at h
  | succ fuel ih =>
    intro g Q open_ cl lay hI hW hopen hB g' h n hn
    cases Q with
    | nil => simp [bfsLoop] at h
    | cons curr rest =>
      unfold bfsLoop at h
      simp only at h
      have hcurr : curr ∈ curr :: rest := List.mem_cons_self _ _
      have hsg : SameGrid g (incSearchCost g) := sameGrid_result32 _ _
      have hs01 : SameGrid g0 (incSearchCost g) := hI.search.same.trans_sg32 hsg
      by_cases hce : curr = (incSearchCost g).end_
      · rw [if_pos hce] at h
        have hce0 : curr = g0.end_ := by rw [← hs01.end_]; exact hce
        cases hr : retracePath pathFuel (incSearchCost g) with
        | none => rw [hr] at h; simp at h
        | some g1 =>
          rw [hr] at h
          simp only [Option.some.injEq, Prod.mk.injEq, true_and] at h
          rw [← h]
          have hc := (retracePath_costs32 _ _ _ hr g0.end_).1
          show (g1.board g0.end_).gCost.units ≤ n * stepMost
          rw [hc]
          show (g.board g0.end_).gCost.units ≤ n * stepMost
          have h1 := hB.cost g0.end_ (Or.inl (by rw [← hce0]; exact hcurr))
          have h2 := hB.least g0.end_ (Or.inl (by rw [← hce0]; exact hcurr)) n hn
          exact le_trans h1 (Nat.mul_le_mul_right _ h2)
      · rw [if_neg hce] at h
        have hcend : curr ≠ g0.end_ := by rw [← hs01.end_]; exact hce
        obtain ⟨r1, r2, r3, L, r4, r5⟩ := bfs_round32 hwf hI hW hopen hcend
        rw [r4] at r1 r3 h
        have hcok := hI.search.q_ok curr hcurr
        have hpos1 : PosOK (incSearchCost g) := hs01.posOK32 hwf.posOK
        have hcin1 : InBounds (incSearchCost g) curr := (hs01.inBounds32 curr).mpr hcok.1.1
        have hle : ∀ q, ((NodeHandle.markAsExplored
            (updateNeighbourCost (incSearchCost g) curr) curr true).board q).gCost.units
            ≤ (g.board q).gCost.units := by
          intro q
          rw [(costs_markAsExplored32 _ curr true q).1]
          unfold updateNeighbourCost
          exact foldl_updateNeighbour_cost_le32 curr _ (incSearchCost g) q
        have hnew : ∀ p ∈ L, ((NodeHandle.markAsExplored
            (updateNeighbourCost (incSearchCost g) curr) curr true).board p).gCost.units
            ≤ (g.board curr).gCost.units + stepMost := by
          intro p hp
          obtain ⟨a1, a2, _, _⟩ := r5 p hp
          have hw1 : Walkable (incSearchCost g) p := (hs01.walkable32 p).mpr a2
          rw [(costs_markAsExplored32 _ curr true p).1]
          unfold updateNeighbourCost
          have h2 := foldl_updateNeighbour_relaxed32 curr
            (getNeighbours (incSearchCost g) curr) (incSearchCost g) p
            (fun hm => ((mem_getNeighbours32 hpos1 hcin1 _).mp hm).1.ne rfl)
            ((mem_getNeighbours32 hpos1 hcin1 _).mpr ⟨a1, hw1⟩) hw1.2
          have hd := dist_adjacent_step32 hpos1 hcin1 hw1.1 a1
          have hcs : ((incSearchCost g).board curr).gCost.units ≤ Cost.sentinel.units :=
            hW.le_sentinel curr ((hI.search.same.inBounds32 curr).mpr hcok.1.1)
          have h3 := (Cost.add_step_fine hcs hd.1 hd.2).2
          exact le_trans h2 h3
        exact ih _ _ _ (curr :: cl) _ r1 r2 r3 (hB.round_layers hI.search r5 hle hnew) g' h n hn

/-- Along a parent chain every step raises the cost by at least
`stepLeast`. -/
theorem chain_cost_least {g : Game} (hC : ChainInv g) (hpos : PosOK g) :
    ∀ (c : Position) (l : List Position), IsChain g c l → InBounds g c →
      (g.board c).gCost.units + 2 ^ 24 < 2 ^ 40 →
      (l.length - 1) * stepLeast ≤ (g.board c).gCost.units := by
  intro c l h
  induction h with
  | start => intro _ _; simp
  | link c p l _ hpar hl ih =>
    intro hc hb
    obtain ⟨h1, h2, h3⟩ := hC.parent_step c p hc hpar
    have h4 := hC.parent_le c p hc hpar
    have hrec := ih h1.1 (by omega)
    have hd := dist_adjacent_step32 hpos h1.1 hc h2
    have hnear := (@round24_near ((g.board p).gCost.units
      + (getChessBoardDistance g p c).units) (by norm_num at hb ⊢; omega)).1
    have hpos' := hl.length_pos_chain32
    unfold Cost.add at h3
    simp only at h3
    have e : (c :: l).length - 1 = (l.length - 1) + 1 := by
      simp only [List.length_cons]; omega
    rw [e, Nat.add_mul, Nat.one_mul]
    unfold stepLeast at *
    norm_num at hnear hd ⊢
    omega

/-! ## The breadth-first path -/


theorem Moves.sameGrid {g g' : Game} (hs : SameGrid g g') {a v : Position} {n : Nat}
    (h : Moves g a n v) : Moves g' a n v := by
  induction h with
  | refl => exact Moves.refl
  | tail n u v _ hst ih => exact Moves.tail n u v ih ⟨hst.1, (hs.walkable32 v).mpr hst.2⟩

/-- C5, amended: for every well-formed grid of side at most 200, after a
successful `breadthFirstSearch` run by `findPath` the parent chain from the end
cell leads to the start cell along walkable, pairwise 8-adjacent cells without
repetition, and the number `k` of its steps is at most `10/7` of the number
`n` of steps of every walkable path from the start cell to the end cell:
`7 * k ≤ 10 * n`, so the chain has the fewest steps when some path has at most
two. -/
theorem bfs_path_near_shortest (g : Game) (fuel : Nat) (hwf : WellFormed g)
    (hsz : g.size ≤ 200) (hf : g.size.toNat * g.size.toNat + 1 ≤ fuel) :
    ∃ g', findPath fuel g '2' = some g' ∧
      (Succeeded g' → ∃ l, parentChain fuel g' g'.end_ = some l ∧
        l.reverse.head? = some g.start ∧ l.reverse.getLast? = some g.end_ ∧
        IsPath g l.reverse ∧ l.reverse.Nodup ∧
        ∀ m : List Position, IsPath g m → m.head? = some g.start →
          m.getLast? = some g.end_ →
          7 * (l.length - 1) ≤ 10 * (m.length - 1)) := by
  have hs := resetFor_sameGrid32 g "Breadth First Search"
  have rs := resetFor_resetState32 g "Breadth First Search" hwf
  obtain ⟨b, g', h1, hpost0⟩ := breadthFirstSearch_spec32 rs fuel (by rw [hs.size]; exact hf)
  have hpost := hpost0.transfer_post32 hs
  refine ⟨g', ?_, fun hsuc => ?_⟩
  · rw [(findPath_cases32 fuel g).2.1, h1]; rfl
  have hb := succeeded_imp_true32 hpost hsuc
  subst hb
  obtain ⟨l, hl1, hl2, hl3, hl4, _, _⟩ := hpost.chain hsz rfl
  have hlen0 := length_le_of_nodup_inBounds32 g l hl4 (fun p hp => (hl2 p hp).1)
  have hlen : l.length ≤ fuel := by omega
  have hsq : g.size.toNat * g.size.toNat ≤ 200 * 200 :=
    Nat.mul_le_mul (by omega) (by omega)
  refine ⟨l, ?_, ?_, ?_, ⟨?_, ?_⟩, List.nodup_reverse.mpr hl4, ?_⟩
  · rw [hpost.same.end_]
    exact parentChain_of_isChain32 hl1 fuel hlen
  · rw [List.head?_reverse, hl1.getLast32, hpost.same.start]
  · rw [List.getLast?_reverse, hl1.head32]
  · intro p hp
    exact hl2 p (List.mem_reverse.mp hp)
  · rw [List.chain'_reverse]
    exact hl3
  · intro m hm hm1 hm2
    -- the moves of the path `m`
    obtain ⟨m', hm'⟩ : ∃ m', m = g.start :: m' := by
      cases m with
      | nil => simp at hm1
      | cons x m' =>
        simp only [List.head?_cons, Option.some.injEq] at hm1
        exact ⟨m', by rw [hm1]⟩
    subst hm'
    have hmv : Moves g g.start m'.length g.end_ := moves_of_isPath g.end_ m' g.start hm hm2
    have hmvR : Moves (resetFor g "Breadth First Search")
        (resetFor g "Breadth First Search").start m'.length
        (resetFor g "Breadth First Search").end_ := by
      rw [hs.start, hs.end_]
      exact hmv.sameGrid hs
    -- the cost of the end cell after the run
    have hcost : (g'.board g.end_).gCost.units ≤ m'.length * stepMost := by
      unfold breadthFirstSearch at h1
      have hI := rs.loopInv32
        (sameGrid_markAsExplored32 (resetFor g "Breadth First Search")
          (resetFor g "Breadth First Search").start true)
        (costs_markAsExplored32 (resetFor g "Breadth First Search")
          (resetFor g "Breadth First Search").start true) (explored_of_mark_start32 rs)
        (fun p => visited_markAsExplored32 (resetFor g "Breadth First Search")
          (resetFor g "Breadth First Search").start p true) rfl
        [(resetFor g "Breadth First Search").start] (Or.inl rfl)
      have hW := rs.weakInv.transfer_wpi32
        (sameGrid_markAsExplored32 (resetFor g "Breadth First Search")
          (resetFor g "Breadth First Search").start true)
        (costs_markAsExplored32 (resetFor g "Breadth First Search")
          (resetFor g "Breadth First Search").start true)
      have hB : BfsLayers (resetFor g "Breadth First Search")
          (NodeHandle.markAsExplored (resetFor g "Breadth First Search")
            (resetFor g "Breadth First Search").start true)
          [(resetFor g "Breadth First Search").start] [] (fun _ => 0) := by
        refine ⟨List.pairwise_singleton _ _, fun _ _ _ _ => Nat.zero_le _, ?_,
          fun _ _ _ _ => Nat.zero_le _⟩
        intro v hv
        rcases hv with h | h
        · rw [List.mem_singleton] at h
          rw [h, (costs_markAsExplored32 _ _ true _).1, rs.cost _ rs.wf.start_in, if_pos rfl]
          exact Nat.zero_le _
        · exact absurd h (List.not_mem_nil _)
      have := bfsLoop_layers rs.wf fuel fuel _ _ _ [] _ hI hW (fun p => by simp [setInsert]) hB
        g' h1 m'.length hmvR
      rw [hs.end_] at this
      exact this
    have hk : 7 * (l.length - 1) ≤ 10 * m'.length := by
      by_cases hbig : 28000 ≤ m'.length
      · omega
      · have hpos' : PosOK g' := hpost.same.posOK32 hwf.posOK
        have hein : InBounds g' g.end_ := by
          have := hl2 g.end_ (by
            have := hl1.head32
            cases l with
            | nil => simp at this
            | cons x xs =>
              simp only [List.head?_cons, Option.some.injEq] at this
              rw [this]; exact List.mem_cons_self _ _)
          exact (hpost.same.inBounds32 _).mpr this.1
        have hbound : (g'.board g.end_).gCost.units + 2 ^ 24 < 2 ^ 40 := by
          have : m'.length * stepMost ≤ 28000 * stepMost := Nat.mul_le_mul_right _ (by omega)
          unfold stepMost at *
          norm_num
          omega
        have hleast := chain_cost_least hpost.weak hpos' g.end_ l hl1 hein hbound
        unfold stepLeast at hleast
        unfold stepMost at hcost
        omega
    simp only [List.length_cons, Nat.add_sub_cancel]
    exact hk

set_option maxRecDepth 100000 in
/-- Witness of C5, amended: breadth-first search on the example board with a
detour.  The run succeeds and the walkable route through (3,1), (2,2), (1,3)
has 4 steps, so the chain is bounded to 5 steps, which it has. -/
theorem bfs_path_near_shortest_witness :
    (WellFormed exampleDetour ∧ exampleDetour.size ≤ 200 ∧
      exampleDetour.size.toNat * exampleDetour.size.toNat + 1 ≤ 26) ∧
    statusAfter 26 exampleDetour '2' = some statusSuccess ∧
    (IsPath exampleDetour [⟨4, 0⟩, ⟨3, 1⟩, ⟨2, 2⟩, ⟨1, 3⟩, ⟨0, 2⟩] ∧
      ([⟨4, 0⟩, ⟨3, 1⟩, ⟨2, 2⟩, ⟨1, 3⟩, ⟨0, 2⟩] : List Position).head?
        = some exampleDetour.start ∧
      ([⟨4, 0⟩, ⟨3, 1⟩, ⟨2, 2⟩, ⟨1, 3⟩, ⟨0, 2⟩] : List Position).getLast?
        = some exampleDetour.end_) ∧
    ∃ g', findPath 26 exampleDetour '2' = some g' ∧
      (Succeeded g' → ∃ l, parentChain 26 g' g'.end_ = some l ∧
        l.reverse.head? = some exampleDetour.start ∧
        l.reverse.getLast? = some exampleDetour.end_ ∧
        IsPath exampleDetour l.reverse ∧ l.reverse.Nodup ∧
        ∀ m : List Position, IsPath exampleDetour m →
          m.head? = some exampleDetour.start → m.getLast? = some exampleDetour.end_ →
          7 * (l.length - 1) ≤ 10 * (m.length - 1)) :=
  ⟨⟨by decide, by decide, by decide⟩, by decide,
    ⟨⟨by decide, by simp only [List.chain'_cons, List.chain'_singleton, and_true]; decide⟩,
      by decide, by decide⟩,
    bfs_path_near_shortest exampleDetour 26 (by decide) (by decide) (by decide)⟩

set_option maxRecDepth 100000 in
/-- C5, evaluated: on the example board with a detour `breadthFirstSearch`
succeeds and the parent chain from the end cell runs through (0,1), (1,0),
(2,0), (3,0), which are 5 steps, although the walkable route through (3,1),
(2,2), (1,3) has 4 steps. -/
theorem bfs_detour_not_shortest32 :
    statusAfter 26 exampleDetour '2' = some statusSuccess ∧
    chainAfter 26 exampleDetour '2' =
      some [⟨0, 2⟩, ⟨0, 1⟩, ⟨1, 0⟩, ⟨2, 0⟩, ⟨3, 0⟩, ⟨4, 0⟩] ∧
    IsPath exampleDetour [⟨4, 0⟩, ⟨3, 1⟩, ⟨2, 2⟩, ⟨1, 3⟩, ⟨0, 2⟩] ∧
    ([⟨4, 0⟩, ⟨3, 1⟩, ⟨2, 2⟩, ⟨1, 3⟩, ⟨0, 2⟩] : List Position).length
      < ([⟨0, 2⟩, ⟨0, 1⟩, ⟨1, 0⟩, ⟨2, 0⟩, ⟨3, 0⟩, ⟨4, 0⟩] : List Position).length := by
  refine ⟨by decide, by decide, ⟨by decide, ?_⟩, by decide⟩
  simp only [List.chain'_cons, List.chain'_singleton, and_true]
  decide

end Binary32

end MazePathFinder
